import Mathlib

/-!
# The inliner of the P4 midend

A shallow embedding of `midend/inlining.cpp`: the naming of inlined objects
(`ComputeNewNames`, `Substitutions`), the schedule of the work list
(`InlineWorkList`), and the rewriting of controls and parsers
(`GeneralInliner`).

IR nodes are values.  Where the C++ code looks a node up by its address, the
node carries a number: `decl` for a declaration, `node` for a path or a
method call statement.
-/

namespace P4

/-! ## Strings -/

/-- The string type `cstring` of the compiler library. -/
abbrev cstring := String

namespace cstring

/-- Modelled from the spec: `cstring::startsWith` is not in this file; the string
begins with `p`. -/
def startsWith (s p : cstring) : Bool := p.data.isPrefixOf s.data

/-- Modelled from the spec: `cstring::replace(char, char)` is not in this file; every
occurrence of `c` is replaced by `d`. -/
def replace (s : cstring) (c d : Char) : cstring :=
  String.mk (s.data.map fun x => if x = c then d else x)

/-- Modelled from the spec: `cstring::isNullOrEmpty` is not in this file. -/
def isNullOrEmpty (s : cstring) : Bool := s.data.isEmpty

end cstring

/-! ## The intermediate representation -/

namespace IR

/-- The direction of a parameter (`IR::Direction`). -/
inductive Direction where
  | None
  | In
  | Out
  | InOut
  deriving DecidableEq, Repr

/-- The types the inliner distinguishes (`IR::Type`). -/
inductive Type_ where
  | bits (width : Nat)
  | boolean
  | typeName (name : cstring)
  | header (name : cstring) (fields : List (cstring × Type_))
  | struct (name : cstring) (fields : List (cstring × Type_))
  | stack (elementType : Type_) (size : Nat)
  | method
  | specialized (baseType : Type_) (arguments : List Type_)
  deriving Repr

/-- An `IR::Path`: `node` stands for the address of the path object, the key
of the reference map. -/
structure Path where
  node : Nat
  name : cstring
  absolute : Bool
  deriving DecidableEq, Repr

/-- Expressions (`IR::Expression`). -/
inductive Expression where
  | pathExpression (path : Path)
  | constant (value : Int)
  | stringLiteral (value : cstring)
  | typeNameExpression (name : cstring)
  | member (expr : Expression) (member : cstring)
  | arrayIndex (left right : Expression)
  | slice (e0 e1 e2 : Expression)
  | binary (op : cstring) (left right : Expression)
  | unary (op : cstring) (expr : Expression)
  | mux (e0 e1 e2 : Expression)
  | listExpression (components : List Expression)
  | methodCallExpression (method : Expression) (arguments : List Expression)
  deriving Repr

mutual
/-- Structural equality of expressions. -/
def Expression.beq : Expression → Expression → Bool
  | .pathExpression p, .pathExpression q => p == q
  | .constant v, .constant w => v == w
  | .stringLiteral v, .stringLiteral w => v == w
  | .typeNameExpression v, .typeNameExpression w => v == w
  | .member e m, .member f n => e.beq f && m == n
  | .arrayIndex l r, .arrayIndex l2 r2 => l.beq l2 && r.beq r2
  | .slice a b c, .slice a2 b2 c2 => a.beq a2 && b.beq b2 && c.beq c2
  | .binary o l r, .binary o2 l2 r2 => o == o2 && l.beq l2 && r.beq r2
  | .unary o e, .unary o2 e2 => o == o2 && e.beq e2
  | .mux a b c, .mux a2 b2 c2 => a.beq a2 && b.beq b2 && c.beq c2
  | .listExpression cs, .listExpression ds => Expression.beqList cs ds
  | .methodCallExpression m as, .methodCallExpression n bs => m.beq n && Expression.beqList as bs
  | _, _ => false
/-- Structural equality of expression lists. -/
def Expression.beqList : List Expression → List Expression → Bool
  | [], [] => true
  | a :: as, b :: bs => a.beq b && Expression.beqList as bs
  | _, _ => false
end

/-- An annotation `@name(expr...)` (`IR::Annotation`); the bodies hold literals. -/
structure Annotation where
  name : cstring
  expr : List Expression
  deriving Repr

/-- The annotations of a node (`IR::Annotations`). -/
abbrev Annotations := List Annotation

/-- The constant `IR::Annotations::empty`. -/
def Annotations.empty : Annotations := []

/-- The constant `IR::Annotation::nameAnnotation`. -/
def Annotation.nameAnnotation : cstring := "name"

/-- Modelled from the spec: `Annotations::addOrReplace` is not in this file.
Any existing annotation with this name is replaced by the new one; all other
annotations are preserved verbatim. -/
def Annotations.addOrReplace (annos : Annotations) (name : cstring) (expr : Expression) :
    Annotations :=
  annos.filter (fun a => a.name != name) ++ [ Annotation.mk name [expr]]

/-- The value of the first annotation called `name`, if there is one. -/
def Annotations.getSingle (annos : Annotations) (name : cstring) : Option Annotation :=
  annos.find? (fun a => a.name == name)

/-- A parameter of a container or an action (`IR::Parameter`). -/
structure Parameter where
  decl : Nat
  name : cstring
  direction : Direction
  type : Type_
  annotations : Annotations
  deriving Repr

/-- A variable declaration (`IR::Declaration_Variable`). -/
structure Declaration_Variable where
  decl : Nat
  name : cstring
  annotations : Annotations
  type : Type_
  initializer : Option Expression
  deriving Repr

/-- A method call statement (`IR::MethodCallStatement`).  `node` stands for the
address of the statement, the key of `callToInstance`; a statement built during
the pass has none. -/
structure MethodCallStatement where
  node : Option Nat
  method : Expression
  arguments : List Expression
  deriving Repr

/-- Statements and the declarations that stand among them (`IR::StatOrDecl`). -/
inductive Statement where
  | assignmentStatement (left right : Expression)
  | methodCallStatement (call : MethodCallStatement)
  | blockStatement (annotations : Annotations) (components : List Statement)
  | ifStatement (condition : Expression) (ifTrue : Statement) (ifFalse : Option Statement)
  | declarationVariable (d : Declaration_Variable)
  | emptyStatement
  deriving Repr

/-- A table (`IR::P4Table`); the properties are kept as the expressions in them. -/
structure P4Table where
  decl : Nat
  name : cstring
  annotations : Annotations
  properties : List Expression
  deriving Repr

/-- An action (`IR::P4Action`). -/
structure P4Action where
  decl : Nat
  name : cstring
  annotations : Annotations
  parameters : List Parameter
  body : List Statement
  deriving Repr

/-- An instantiation (`IR::Declaration_Instance`). -/
structure Declaration_Instance where
  decl : Nat
  name : cstring
  annotations : Annotations
  type : Type_
  arguments : List Expression
  deriving Repr

/-- The declarations the inliner renames (`IR::Declaration`). -/
inductive Declaration where
  | p4Table (t : P4Table)
  | p4Action (a : P4Action)
  | declarationInstance (i : Declaration_Instance)
  | declarationVariable (v : Declaration_Variable)
  deriving Repr

namespace Declaration

/-- The identity of the declaration. -/
def decl : Declaration → Nat
  | .p4Table t => t.decl
  | .p4Action a => a.decl
  | .declarationInstance i => i.decl
  | .declarationVariable v => v.decl

/-- The method `getName`. -/
def name : Declaration → cstring
  | .p4Table t => t.name
  | .p4Action a => a.name
  | .declarationInstance i => i.name
  | .declarationVariable v => v.name

/-- The annotations of the declaration (all four kinds are `IAnnotated`). -/
def annotations : Declaration → Annotations
  | .p4Table t => t.annotations
  | .p4Action a => a.annotations
  | .declarationInstance i => i.annotations
  | .declarationVariable v => v.annotations

end Declaration

/-- Modelled from the spec: `IDeclaration::externalName` is not in this file.
The external name is the one preserved in the `@name` annotation; a
declaration without the annotation is known by its own name. -/
def externalName (name : cstring) (annos : Annotations) : cstring :=
  match annos.getSingle Annotation.nameAnnotation with
  | some ( Annotation.mk _ (Expression.stringLiteral s :: _)) => s
  | _ => name

/-- The external name of a declaration. -/
def Declaration.externalName (d : Declaration) : cstring :=
  IR.externalName d.name d.annotations

end IR

end P4

namespace P4

open IR

/-! ## The reference map and the rename map -/

/-- The part of the reference map that resolves paths: the declaration each
path node refers to, and the number the next new path node gets. -/
structure Resolution where
  pathToDeclaration : List (Nat × Nat)
  nextNode : Nat
  deriving Repr

/-- Modelled from the spec: `ReferenceMap` is consumed by this file.  It maps
path occurrences to declarations and generates fresh names; `gen` is the name
generator, `usedNames` the names handed out or seen so far (never retracted). -/
structure ReferenceMap where
  gen : List cstring → cstring → cstring
  usedNames : List cstring
  resolution : Resolution

namespace ReferenceMap

/-- Modelled from the spec: `newName(base)` returns a name and records it as used. -/
def newName (refMap : ReferenceMap) (base : cstring) : cstring × ReferenceMap :=
  let name := refMap.gen refMap.usedNames base
  (name, { refMap with usedNames := name :: refMap.usedNames })

/-- Modelled from the spec: `getDeclaration(path)`. -/
def getDeclaration (refMap : ReferenceMap) (path : IR.Path) : Option Nat :=
  refMap.resolution.pathToDeclaration.lookup path.node

/-- The generator always returns a previously unused name. -/
def Fresh (refMap : ReferenceMap) : Prop :=
  ∀ (used : List cstring) (base : cstring), refMap.gen used base ∉ used

end ReferenceMap

/-- Modelled from the spec: `SymRenameMap` is declared outside this file.  It
stores, for a declaration, the new internal name and the new external name. -/
structure SymRenameMap where
  names : List (Nat × cstring × cstring)
  deriving Repr

namespace SymRenameMap

/-- The map without entries. -/
def empty : SymRenameMap := SymRenameMap.mk []

/-- Modelled from the spec: `setNewName` stores `decl → (internalName, externalName)`. -/
def setNewName (m : SymRenameMap) (decl : Nat) (name extName : cstring) : SymRenameMap :=
  SymRenameMap.mk ((decl, name, extName) :: m.names)

/-- Modelled from the spec: `getName`, the internal name stored for `decl`. -/
def getName (m : SymRenameMap) (decl : Nat) : Option cstring :=
  (m.names.lookup decl).map Prod.fst

/-- Modelled from the spec: `getExtName`, the external name stored for `decl`. -/
def getExtName (m : SymRenameMap) (decl : Nat) : Option cstring :=
  (m.names.lookup decl).map Prod.snd

/-- Modelled from the spec: `isRenamed`, whether `decl` has an entry. -/
def isRenamed (m : SymRenameMap) (decl : Nat) : Bool :=
  (m.names.lookup decl).isSome

end SymRenameMap

/-! ## ComputeNewNames -/

/-- The visitor `ComputeNewNames`: its members (`pfx` is the member `prefix`). -/
structure ComputeNewNames where
  pfx : cstring
  refMap : ReferenceMap
  renameMap : SymRenameMap

namespace ComputeNewNames

/-- The constructor; `BUG_CHECK(!prefix.isNullOrEmpty())` fails with `none`. -/
def create (pfx : cstring) (refMap : ReferenceMap) (renameMap : SymRenameMap) :
    Option ComputeNewNames :=
  if cstring.isNullOrEmpty pfx then none else some (ComputeNewNames.mk pfx refMap renameMap)

/-- The method `ComputeNewNames::rename`. -/
def rename (self : ComputeNewNames) (decl : Declaration) : ComputeNewNames :=
  let name := decl.externalName
  let extName :=
    if cstring.startsWith name "." then
      -- Do not change the external name of objects starting with a leading dot
      name
    else
      self.pfx ++ "." ++ name
  let baseName := cstring.replace extName '.' '_'
  let fresh := self.refMap.newName baseName
  { self with
    refMap := fresh.2
    renameMap := self.renameMap.setNewName decl.decl fresh.1 extName }

end ComputeNewNames

/-! ## Substitutions: the renaming of declarations -/

/-- The function `setNameAnnotation`: add a `@name` annotation only. -/
def setNameAnnotation (name : cstring) (annos : Option Annotations) : Annotations :=
  let annos := match annos with
    | none => Annotations.empty
    | some a => a
  annos.addOrReplace Annotation.nameAnnotation (Expression.stringLiteral name)

/-- Modelled from the spec: `ParameterSubstitution` is declared outside this
file.  It maps a callee parameter to the expression substituted for it. -/
structure ParameterSubstitution where
  bindings : List (Parameter × Expression)
  deriving Repr

/-- Modelled from the spec: `TypeVariableSubstitution` is declared outside this
file.  It maps a type parameter of the callee to a concrete type. -/
structure TypeVariableSubstitution where
  bindings : List (cstring × Type_)
  deriving Repr

/-- The transform `Substitutions`: its members, without the reference map it updates. -/
structure Substitutions where
  subst : ParameterSubstitution
  tvs : TypeVariableSubstitution
  renameMap : SymRenameMap
  deriving Repr

namespace Substitutions

/-- The method `postorder(IR::P4Table*)`; a missing name is a compiler bug (`none`). -/
def postorder_P4Table (self : Substitutions) (table : P4Table) : Option P4Table := do
  let newName ← self.renameMap.getName table.decl
  let extName ← self.renameMap.getExtName table.decl
  let annos := setNameAnnotation extName (some table.annotations)
  pure (P4Table.mk table.decl newName annos table.properties)

/-- The method `postorder(IR::P4Action*)`. -/
def postorder_P4Action (self : Substitutions) (action : P4Action) : Option P4Action := do
  let newName ← self.renameMap.getName action.decl
  let extName ← self.renameMap.getExtName action.decl
  let annos := setNameAnnotation extName (some action.annotations)
  pure (P4Action.mk action.decl newName annos action.parameters action.body)

/-- The method `postorder(IR::Declaration_Instance*)`. -/
def postorder_Declaration_Instance (self : Substitutions) (inst : Declaration_Instance) :
    Option Declaration_Instance := do
  let newName ← self.renameMap.getName inst.decl
  let extName ← self.renameMap.getExtName inst.decl
  let annos := setNameAnnotation extName (some inst.annotations)
  pure { inst with name := newName, annotations := annos }

/-- The method `postorder(IR::Declaration_Variable*)`: the external name is
looked up, only the name is set. -/
def postorder_Declaration_Variable (self : Substitutions) (decl : Declaration_Variable) :
    Option Declaration_Variable := do
  let newName ← self.renameMap.getName decl.decl
  let _extName ← self.renameMap.getExtName decl.decl
  pure { decl with name := newName }

/-- The four `postorder` methods on a declaration of any of the four kinds. -/
def postorder_Declaration (self : Substitutions) : Declaration → Option Declaration
  | .p4Table t => (self.postorder_P4Table t).map Declaration.p4Table
  | .p4Action a => (self.postorder_P4Action a).map Declaration.p4Action
  | .declarationInstance i =>
      (self.postorder_Declaration_Instance i).map Declaration.declarationInstance
  | .declarationVariable v =>
      (self.postorder_Declaration_Variable v).map Declaration.declarationVariable

end Substitutions

/-- Whether the annotations carry `@name(value)`. -/
def hasNameAnnotation (annos : Annotations) (value : cstring) : Prop :=
  ∃ a ∈ annos, a.name = Annotation.nameAnnotation ∧ a.expr = [Expression.stringLiteral value]

/-! ## Samples -/

/-- A name generator for the examples: the base, extended with underscores
until it is longer than every name in use. -/
def sampleGen (used : List cstring) (base : cstring) : cstring :=
  base ++ String.mk (List.replicate (1 + (used.map String.length).foldr max 0) '_')

/-- A reference map for the examples. -/
def sampleRefMap : ReferenceMap :=
  { gen := sampleGen, usedNames := [], resolution := Resolution.mk [] 0 }

/-- A table of a callee, declared with a leading dot in its external name. -/
def sampleGlobalTable : Declaration :=
  Declaration.p4Table (P4Table.mk 7 "global_t"
    [ Annotation.mk "name" [Expression.stringLiteral ".global_t"]] [])

/-- A variable of a callee, without annotations. -/
def sampleVariable : Declaration_Variable :=
  Declaration_Variable.mk 3 "tmp" [] (Type_.bits 8) none

/-- A rename map with an entry for `sampleVariable`. -/
def sampleRenameMap : SymRenameMap :=
  SymRenameMap.empty.setNewName 3 "inst_tmp" "inst.tmp"

/-! ## The work list -/

/-- One entry of the work list (`caller`, `callee`, `instance`, `invocations`):
containers and instances are named by their identity, an invocation by the node
of its `MethodCallStatement`. -/
structure InlineWorkItem where
  caller : Nat
  callee : Nat
  instantiation : Nat
  invocations : List Nat
  deriving DecidableEq, Repr

/-- Modelled from the spec: `P4::CallGraph` is declared outside this file.  The call
graph is kept as its edges `caller → callee`, in the order they were added. -/
abbrev CallGraph := List (Nat × Nat)

/-- Modelled from the spec: `CallGraph::calls(caller, callee)` adds the edge. -/
def CallGraph.calls (cg : CallGraph) (caller callee : Nat) : CallGraph :=
  cg ++ [(caller, callee)]

/-- Modelled from the spec: `InlineSummary::add` is not in this file.  The batch is
kept as the work items added to it, in the order they were added. -/
structure InlineSummary where
  items : List InlineWorkItem
  deriving DecidableEq, Repr

/-- Modelled from the spec: `InlineSummary::add(item)`. -/
def InlineSummary.add (s : InlineSummary) (item : InlineWorkItem) : InlineSummary :=
  InlineSummary.mk (s.items ++ [item])

/-- An error reported by `analyze`: the first and the second invocation. -/
structure MultipleInvocations where
  first : Nat
  second : Nat
  deriving DecidableEq, Repr

/-- The members of `InlineWorkList`: `inlineMap` in the order the map is iterated,
and the vector `toInline`, whose back is the last element. -/
structure InlineWorkList where
  inlineMap : List InlineWorkItem
  toInline : List InlineWorkItem
  deriving DecidableEq, Repr

namespace InlineWorkList

/-- The body of the first loop of `analyze`, for one entry of `inlineMap`. -/
def analyzeEntry (allowMultipleCalls : Bool)
    (acc : CallGraph × List MultipleInvocations) (inl : InlineWorkItem) :
    CallGraph × List MultipleInvocations :=
  match inl.invocations with
  | [] => acc
  | [_] => (acc.1.calls inl.caller inl.callee, acc.2)
  | first :: second :: _ =>
    if !allowMultipleCalls then
      (acc.1, acc.2 ++ [MultipleInvocations.mk first second])
    else
      (acc.1.calls inl.caller inl.callee, acc.2)

/-- The call graph and the errors of the first loop of `analyze`. -/
def callGraph (self : InlineWorkList) (allowMultipleCalls : Bool) :
    CallGraph × List MultipleInvocations :=
  self.inlineMap.foldl (analyzeEntry allowMultipleCalls) ([], [])

/-- The method `InlineWorkList::analyze`; `sort` is `CallGraph::sort`, which is not
in this file.  Returns the work list and the errors reported. -/
def analyze (sort : CallGraph → List Nat) (self : InlineWorkList)
    (allowMultipleCalls : Bool) : InlineWorkList × List MultipleInvocations :=
  let cg := self.callGraph allowMultipleCalls
  -- must inline from leaves up
  let order := sort cg.1
  let toInline := self.toInline ++
    order.flatMap (fun c => self.inlineMap.filter (fun inl => inl.caller == c))
  ({ self with toInline := toInline.reverse }, cg.2)

/-- The loop of `next`: `stack` is `toInline` read from the back.  Returns the
batch and what is left of the stack. -/
def nextLoop : List InlineWorkItem → List Nat → InlineSummary →
    InlineSummary × List InlineWorkItem
  | [], _, result => (result, [])
  | toadd :: rest, processing, result =>
    if toadd.callee ∈ processing then
      (result, toadd :: rest)
    else
      nextLoop rest (toadd.caller :: processing) (result.add toadd)

/-- The method `InlineWorkList::next`. -/
def next (self : InlineWorkList) : Option InlineSummary × InlineWorkList :=
  if self.toInline.length = 0 then
    (none, self)
  else
    let r := nextLoop self.toInline.reverse [] (InlineSummary.mk [])
    (some r.1, { self with toInline := r.2.reverse })

/-- The batches that up to `fuel` successive calls of `next` return. -/
def batches : Nat → InlineWorkList → List InlineSummary
  | 0, _ => []
  | fuel + 1, self =>
    match self.next with
    | (none, _) => []
    | (some batch, rest) => batch :: batches fuel rest

/-- All batches of the schedule: one call of `next` for each scheduled item is enough. -/
def allBatches (self : InlineWorkList) : List InlineSummary :=
  self.batches self.toInline.length

end InlineWorkList

/-- The sort lists callees before callers: the graph has no edge from a container to
itself, and no container comes before one that it calls. -/
def CalleesFirst (cg : CallGraph) (order : List Nat) : Prop :=
  (∀ c, (c, c) ∉ cg) ∧ order.Pairwise (fun c1 c2 => (c1, c2) ∉ cg)

/-- One round of `sampleSort`: append the containers whose callees are all listed. -/
def sampleSortStep (cg : CallGraph) (nodes order : List Nat) : List Nat :=
  order ++ nodes.filter (fun n =>
    !order.contains n && cg.all (fun e => e.1 != n || order.contains e.2))

/-- A sort for the examples: leaves first, then the containers that call only
containers already listed. -/
def sampleSort (cg : CallGraph) : List Nat :=
  let nodes := (cg.map Prod.fst ++ cg.map Prod.snd).eraseDups
  (List.range nodes.length).foldl (fun order _ => sampleSortStep cg nodes order) []

/-- A work list where the control 1 holds two instances of the control 2. -/
def sampleTwoInstances : InlineWorkList :=
  InlineWorkList.mk [InlineWorkItem.mk 1 2 10 [100], InlineWorkItem.mk 1 2 11 [101]] []

/-- A work list where 1 calls 2 and 2 calls 3. -/
def sampleChain : InlineWorkList :=
  InlineWorkList.mk [InlineWorkItem.mk 1 2 10 [100], InlineWorkItem.mk 2 3 20 [200]] []

/-! ## Containers -/

namespace IR

/-- One case of a select expression (`IR::SelectCase`); `state` is the path of
the path expression that names the next state. -/
structure SelectCase where
  keyset : Expression
  state : Path
  deriving Repr

/-- The `selectExpression` of a parser state: a path expression that names the
next state, or an `IR::SelectExpression`. -/
inductive Transition where
  | pathExpression (path : IR.Path)
  | selectExpression (select : List Expression) (selectCases : List SelectCase)
  deriving Repr

/-- A parser state (`IR::ParserState`). -/
structure ParserState where
  decl : Nat
  name : cstring
  annotations : Annotations
  components : List Statement
  selectExpression : Option Transition
  deriving Repr

/-- The name `IR::ParserState::accept`. -/
def ParserState.accept : cstring := "accept"

/-- The name `IR::ParserState::reject`. -/
def ParserState.reject : cstring := "reject"

/-- The name `IR::ParserState::start`. -/
def ParserState.start : cstring := "start"

/-- The member `IR::Type_Stack::next`. -/
def Type_Stack.next : cstring := "next"

/-- The member `IR::Type_Stack::last`. -/
def Type_Stack.last : cstring := "last"

/-- The method name `IR::Type_Header::setInvalid`. -/
def Type_Header.setInvalid : cstring := "setInvalid"

/-- A control (`IR::P4Control`): `annotations` and `applyParams` are those of its
type, `body` the components of its body. -/
structure P4Control where
  decl : Nat
  name : cstring
  annotations : Annotations
  typeParameters : List cstring
  applyParams : List Parameter
  constructorParams : List Parameter
  controlLocals : List Declaration
  body : List Statement
  deriving Repr

/-- A parser (`IR::P4Parser`). -/
structure P4Parser where
  decl : Nat
  name : cstring
  annotations : Annotations
  typeParameters : List cstring
  applyParams : List Parameter
  constructorParams : List Parameter
  parserLocals : List Declaration
  states : List ParserState
  deriving Repr

/-- A container (`IR::IContainer`). -/
inductive IContainer where
  | p4Control (c : P4Control)
  | p4Parser (p : P4Parser)
  deriving Repr

end IR

/-! ## Parameter substitution -/

namespace ParameterSubstitution

/-- The substitution without bindings. -/
def empty : ParameterSubstitution := ParameterSubstitution.mk []

/-- Modelled from the spec: the method `add(parameter, value)`. -/
def add (s : ParameterSubstitution) (param : Parameter) (value : Expression) :
    ParameterSubstitution :=
  ParameterSubstitution.mk (s.bindings ++ [(param, value)])

/-- The binding of the parameter with the identity `decl`. -/
def lookupDecl (s : ParameterSubstitution) (decl : Nat) : Option Expression :=
  (s.bindings.find? (fun b => b.1.decl == decl)).map Prod.snd

/-- Modelled from the spec: the method `lookup(parameter)`. -/
def lookup (s : ParameterSubstitution) (param : Parameter) : Option Expression :=
  s.lookupDecl param.decl

/-- Modelled from the spec: the method `lookupByName(name)`. -/
def lookupByName (s : ParameterSubstitution) (name : cstring) : Option Expression :=
  (s.bindings.find? (fun b => b.1.name == name)).map Prod.snd

/-- Modelled from the spec: the method `contains(parameter)`. -/
def contains (s : ParameterSubstitution) (param : Parameter) : Bool :=
  (s.lookup param).isSome

/-- Modelled from the spec: the method `populate(parameters, arguments)`: binds them position by position. -/
def populate (s : ParameterSubstitution) (params : List Parameter) (args : List Expression) :
    ParameterSubstitution :=
  ParameterSubstitution.mk (s.bindings ++ params.zip args)

/-- Modelled from the spec: the method `getParameters()`. -/
def getParameters (s : ParameterSubstitution) : List Parameter :=
  s.bindings.map Prod.fst

end ParameterSubstitution

/-- Modelled from the spec: `TypeVariableSubstitution::setBindings(root, params, args)`
binds the type parameters to the type arguments, position by position. -/
def TypeVariableSubstitution.setBindings (s : TypeVariableSubstitution)
    (params : List cstring) (args : List Type_) : TypeVariableSubstitution :=
  TypeVariableSubstitution.mk (s.bindings ++ params.zip args)

/-- Modelled from the spec: `MethodCallDescription` is declared outside this file.
Its `substitution` binds the apply-parameters of the callee, in declaration
order, to the arguments of the call. -/
structure MethodCallDescription where
  substitution : ParameterSubstitution
  deriving Repr

/-- Modelled from the spec: the constructor `MethodCallDescription(call, refMap,
typeMap)`; `params` are the parameters of the method the call resolves to. -/
def MethodCallDescription.create (params : List Parameter) (call : MethodCallStatement) :
    MethodCallDescription :=
  MethodCallDescription.mk (ParameterSubstitution.empty.populate params call.arguments)

/-! ## Location sets -/

/-- One step from a storage to a part of it. -/
inductive Selector where
  | field (name : cstring)
  | index (i : Int)
  | allElements
  deriving DecidableEq, Repr

/-- Whether two steps can lead to the same part. -/
def Selector.meets : Selector → Selector → Bool
  | .field f, .field g => f == g
  | .index i, .index j => i == j
  | .allElements, .index _ => true
  | .index _, .allElements => true
  | .allElements, .allElements => true
  | _, _ => false

/-- An abstract storage location: a part of the storage of the declaration `root`,
with everything below it. -/
structure StorageLocation where
  root : Nat
  path : List Selector
  deriving DecidableEq, Repr

/-- Whether two paths below the same root share a concrete location. -/
def StorageLocation.pathsMeet : List Selector → List Selector → Bool
  | [], _ => true
  | _, [] => true
  | a :: as, b :: bs => a.meets b && StorageLocation.pathsMeet as bs

/-- Modelled from the spec: `LocationSet` is declared outside this file.  A set
algebra over abstract storage locations. -/
structure LocationSet where
  locations : List StorageLocation
  deriving DecidableEq, Repr

namespace LocationSet

/-- Modelled from the spec: `empty`, the empty set. -/
def empty : LocationSet := LocationSet.mk []

/-- The set of one whole storage. -/
def ofStorage (root : Nat) : LocationSet := LocationSet.mk [StorageLocation.mk root []]

/-- Modelled from the spec: `join(a,b)`, union. -/
def join (a b : LocationSet) : LocationSet := LocationSet.mk (a.locations ++ b.locations)

/-- Modelled from the spec: `getField(name)`, restriction to a named sub-storage. -/
def getField (a : LocationSet) (name : cstring) : LocationSet :=
  LocationSet.mk (a.locations.map fun l => { l with path := l.path ++ [Selector.field name] })

/-- Modelled from the spec: `getIndex(i)`, restriction to one indexed cell. -/
def getIndex (a : LocationSet) (i : Int) : LocationSet :=
  LocationSet.mk (a.locations.map fun l => { l with path := l.path ++ [Selector.index i] })

/-- Modelled from the spec: `allElements()`, union over every cell of a stack. -/
def allElements (a : LocationSet) : LocationSet :=
  LocationSet.mk (a.locations.map fun l => { l with path := l.path ++ [Selector.allElements] })

/-- Modelled from the spec: `overlaps(other)`, true iff the two sets share any concrete
location. -/
def overlaps (a b : LocationSet) : Bool :=
  a.locations.any fun l => b.locations.any fun m =>
    l.root == m.root && StorageLocation.pathsMeet l.path m.path

/-- Modelled from the spec: `canonicalize()`, normal form: every location once. -/
def canonicalize (a : LocationSet) : LocationSet := LocationSet.mk a.locations.eraseDups

end LocationSet

/-- Modelled from the spec: `TypeMap` is consumed by this file.  It maps
expressions and declarations to their resolved types. -/
structure TypeMap where
  exprType : Expression → Option Type_
  declType : Nat → Option Type_

/-- Modelled from the spec: `StorageMap` is declared outside this file.
`hasStorage` tells the declarations that have a storage of their own. -/
structure StorageMap where
  refMap : ReferenceMap
  typeMap : TypeMap
  hasStorage : Nat → Bool

/-- Modelled from the spec: `StorageMap::getStorage(decl)`, the declared storage, or
none (as for a constant). -/
def StorageMap.getStorage (m : StorageMap) (decl : Nat) : Option LocationSet :=
  if m.hasStorage decl then some (LocationSet.ofStorage decl) else none

/-! ## FindLocationSets -/

namespace FindLocationSets

/-- The visit of an expression.  The outer `none` is a failed `BUG_CHECK`; the
inner option is the entry of the map `loc` for the expression after the visit,
`none` when the visit did not call `set`. -/
def visit (storageMap : StorageMap) : Expression → Option (Option LocationSet)
  | .pathExpression path =>
    match storageMap.refMap.getDeclaration path with
    | none => none
    | some decl =>
      match storageMap.getStorage decl with
      | some storage => some (some storage)
      | none => some (some LocationSet.empty)
  | .member expr member =>
    match visit storageMap expr with
    | none => none
    | some base =>
      match storageMap.typeMap.exprType (.member expr member) with
      | none => none
      | some .method => some none
      | some _ =>
        match base with
        | none => none
        | some storage =>
          match storageMap.typeMap.exprType expr with
          | none => none
          | some (.stack _ _) =>
            if member == Type_Stack.next || member == Type_Stack.last then
              some (some storage)
            else
              some (some (storage.getField member))
          | some _ => some (some (storage.getField member))
  | .arrayIndex left right =>
    match visit storageMap left, visit storageMap right with
    | some l, some _ =>
      match l with
      | none => none
      | some storage =>
        match right with
        | .constant index => some (some (storage.getIndex index))
        | _ => some (some storage.allElements)
    | _, _ => none
  | .slice e0 _ _ =>
    match visit storageMap e0 with
    | some (some base) => some (some base)
    | _ => none
  | .binary _ left right =>
    match visit storageMap left, visit storageMap right with
    | some (some l), some (some r) => some (some (l.join r))
    | _, _ => none
  | .unary _ expr =>
    match visit storageMap expr with
    | some (some result) => some (some result)
    | _ => none
  | .mux e0 e1 e2 =>
    match visit storageMap e0, visit storageMap e1, visit storageMap e2 with
    | some (some a), some (some b), some (some c) => some (some ((a.join b).join c))
    | _, _, _ => none
  | .listExpression components =>
    match visitList storageMap components with
    | none => none
    | some sets => some (some (sets.foldl LocationSet.join LocationSet.empty))
  | .typeNameExpression _ => some (some LocationSet.empty)
  | .constant _ => some (some LocationSet.empty)
  | .stringLiteral _ => some (some LocationSet.empty)
  | .methodCallExpression _ _ => some (some LocationSet.empty)
where
  /-- The visit of the components of a list expression, and `get` on each. -/
  visitList (storageMap : StorageMap) : List Expression → Option (List LocationSet)
    | [] => some []
    | c :: cs =>
      match visit storageMap c, visitList storageMap cs with
      | some (some cl), some rest => some (cl :: rest)
      | _, _ => none

/-- The method `locations`: visit, then `get`, then `canonicalize`. -/
def locations (storageMap : StorageMap) (expression : Expression) : Option LocationSet :=
  match visit storageMap expression with
  | some (some ls) => some ls.canonicalize
  | _ => none

end FindLocationSets

/-! ## Resetting headers -/

/-- Modelled from the spec: `DoResetHeaders::generateResets` is declared outside
this file.  It emits the reset statements for `expr` appropriate to its type, by
recursive header invalidation: `expr.setInvalid()` for a header, the resets of
the fields of a struct and of the elements of a stack, nothing for other types. -/
def DoResetHeaders.generateResets : Type_ → Expression → List Statement
  | .header _ _, expr =>
    [Statement.methodCallStatement
      (MethodCallStatement.mk none (Expression.member expr Type_Header.setInvalid) [])]
  | .struct _ fields, expr => resetFields fields expr
  | .stack elementType size, expr =>
    (List.range size).flatMap fun i =>
      generateResets elementType (Expression.arrayIndex expr (Expression.constant i))
  | _, _ => []
where
  /-- The resets of the fields of a struct. -/
  resetFields : List (cstring × Type_) → Expression → List Statement
    | [], _ => []
    | (f, t) :: fs, expr =>
      generateResets t (Expression.member expr f) ++ resetFields fs expr

/-! ## Substitutions: the traversal -/

/-- Modelled from the spec: type-variable substitution is applied to type
references via `tvs` (by the base class `SubstituteParameters`). -/
def TypeVariableSubstitution.apply (tvs : TypeVariableSubstitution) : Type_ → Type_
  | .typeName name =>
    match tvs.bindings.lookup name with
    | some t => t
    | none => .typeName name
  | .stack elementType size => .stack (tvs.apply elementType) size
  | t => t

/-- Modelled from the spec: `ReferenceMap::setDeclaration(path, decl)`, on the
resolution. -/
def Resolution.setDeclaration (res : Resolution) (path : IR.Path) (decl : Nat) : Resolution :=
  { res with pathToDeclaration := (path.node, decl) :: res.pathToDeclaration }

/-- A new `IR::Path` object: it gets the next node number. -/
def Resolution.newPath (res : Resolution) (name : cstring) (absolute : Bool) :
    IR.Path × Resolution :=
  (IR.Path.mk res.nextNode name absolute, { res with nextNode := res.nextNode + 1 })

namespace Substitutions

/-- The method `postorder(IR::PathExpression*)`.  `none` is the failed
`getDeclaration(path, true)`. -/
def postorder_PathExpression (self : Substitutions) (path : IR.Path) (res : Resolution) :
    Option (Expression × Resolution) :=
  match res.pathToDeclaration.lookup path.node with
  | none => none
  | some decl =>
    match self.subst.lookupDecl decl with
    | some value =>
      -- This path is the same as in SubstituteParameters
      some (value, res)
    | none =>
      let newName :=
        match self.renameMap.getName decl with
        | some n => n
        | none => path.name
      let fresh := res.newPath newName path.absolute
      some (Expression.pathExpression fresh.1, fresh.2.setDeclaration fresh.1 decl)

/-- The transform on an expression: `postorder` on every path expression, the
children of a node from left to right. -/
def visitExpression (self : Substitutions) :
    Expression → Resolution → Option (Expression × Resolution)
  | .pathExpression path, res => self.postorder_PathExpression path res
  | .constant v, res => some (.constant v, res)
  | .stringLiteral v, res => some (.stringLiteral v, res)
  | .typeNameExpression n, res => some (.typeNameExpression n, res)
  | .member e m, res =>
    match visitExpression self e res with
    | none => none
    | some (e1, res1) => some (.member e1 m, res1)
  | .arrayIndex l r, res =>
    match visitExpression self l res with
    | none => none
    | some (l1, res1) =>
      match visitExpression self r res1 with
      | none => none
      | some (r1, res2) => some (.arrayIndex l1 r1, res2)
  | .slice a b c, res =>
    match visitExpression self a res with
    | none => none
    | some (a1, res1) =>
      match visitExpression self b res1 with
      | none => none
      | some (b1, res2) =>
        match visitExpression self c res2 with
        | none => none
        | some (c1, res3) => some (.slice a1 b1 c1, res3)
  | .binary op l r, res =>
    match visitExpression self l res with
    | none => none
    | some (l1, res1) =>
      match visitExpression self r res1 with
      | none => none
      | some (r1, res2) => some (.binary op l1 r1, res2)
  | .unary op e, res =>
    match visitExpression self e res with
    | none => none
    | some (e1, res1) => some (.unary op e1, res1)
  | .mux a b c, res =>
    match visitExpression self a res with
    | none => none
    | some (a1, res1) =>
      match visitExpression self b res1 with
      | none => none
      | some (b1, res2) =>
        match visitExpression self c res2 with
        | none => none
        | some (c1, res3) => some (.mux a1 b1 c1, res3)
  | .listExpression cs, res =>
    match visitExpressions self cs res with
    | none => none
    | some (cs1, res1) => some (.listExpression cs1, res1)
  | .methodCallExpression m as, res =>
    match visitExpression self m res with
    | none => none
    | some (m1, res1) =>
      match visitExpressions self as res1 with
      | none => none
      | some (as1, res2) => some (.methodCallExpression m1 as1, res2)
where
  /-- The transform on a vector of expressions. -/
  visitExpressions (self : Substitutions) :
      List Expression → Resolution → Option (List Expression × Resolution)
    | [], res => some ([], res)
    | e :: es, res =>
      match visitExpression self e res with
      | none => none
      | some (e1, res1) =>
        match visitExpressions self es res1 with
        | none => none
        | some (es1, res2) => some (e1 :: es1, res2)

/-- The transform on a variable declaration: the initializer, the type, then
`postorder(IR::Declaration_Variable*)`. -/
def visitDeclaration_Variable (self : Substitutions) (d : Declaration_Variable)
    (res : Resolution) : Option (Declaration_Variable × Resolution) :=
  match d.initializer with
  | none =>
    (self.postorder_Declaration_Variable { d with type := self.tvs.apply d.type }).map
      fun r => (r, res)
  | some e =>
    match self.visitExpression e res with
    | none => none
    | some (e1, res1) =>
      (self.postorder_Declaration_Variable
        { d with type := self.tvs.apply d.type, initializer := some e1 }).map
        fun r => (r, res1)

/-- The transform on a statement.  A method call statement with new children is
a new node. -/
def visitStatement (self : Substitutions) :
    Statement → Resolution → Option (Statement × Resolution)
  | .assignmentStatement l r, res =>
    match self.visitExpression l res with
    | none => none
    | some (l1, res1) =>
      match self.visitExpression r res1 with
      | none => none
      | some (r1, res2) => some (.assignmentStatement l1 r1, res2)
  | .methodCallStatement call, res =>
    match self.visitExpression call.method res with
    | none => none
    | some (m1, res1) =>
      match visitExpression.visitExpressions self call.arguments res1 with
      | none => none
      | some (as1, res2) =>
        some (.methodCallStatement (MethodCallStatement.mk none m1 as1), res2)
  | .blockStatement annos components, res =>
    match visitStatements self components res with
    | none => none
    | some (cs1, res1) => some (.blockStatement annos cs1, res1)
  | .ifStatement c t f, res =>
    match self.visitExpression c res with
    | none => none
    | some (c1, res1) =>
      match visitStatement self t res1 with
      | none => none
      | some (t1, res2) =>
        match f with
        | none => some (.ifStatement c1 t1 none, res2)
        | some s =>
          match visitStatement self s res2 with
          | none => none
          | some (s1, res3) => some (.ifStatement c1 t1 (some s1), res3)
  | .declarationVariable d, res =>
    (self.visitDeclaration_Variable d res).map fun r => (.declarationVariable r.1, r.2)
  | .emptyStatement, res => some (.emptyStatement, res)
where
  /-- The transform on a vector of statements. -/
  visitStatements (self : Substitutions) :
      List Statement → Resolution → Option (List Statement × Resolution)
    | [], res => some ([], res)
    | s :: ss, res =>
      match visitStatement self s res with
      | none => none
      | some (s1, res1) =>
        match visitStatements self ss res1 with
        | none => none
        | some (ss1, res2) => some (s1 :: ss1, res2)

/-- The transform on a local declaration: the children, then the `postorder` of its kind. -/
def visitDeclaration (self : Substitutions) :
    Declaration → Resolution → Option (Declaration × Resolution)
  | .p4Table t, res =>
    match visitExpression.visitExpressions self t.properties res with
    | none => none
    | some (ps, res1) =>
      (self.postorder_P4Table { t with properties := ps }).map
        fun r => (Declaration.p4Table r, res1)
  | .p4Action a, res =>
    match visitStatement.visitStatements self a.body res with
    | none => none
    | some (body, res1) =>
      (self.postorder_P4Action { a with body := body }).map
        fun r => (Declaration.p4Action r, res1)
  | .declarationInstance i, res =>
    match visitExpression.visitExpressions self i.arguments res with
    | none => none
    | some (as, res1) =>
      (self.postorder_Declaration_Instance
        { i with type := self.tvs.apply i.type, arguments := as }).map
        fun r => (Declaration.declarationInstance r, res1)
  | .declarationVariable v, res =>
    (self.visitDeclaration_Variable v res).map
      fun r => (Declaration.declarationVariable r.1, r.2)

/-- The transform on a vector of local declarations. -/
def visitDeclarations (self : Substitutions) :
    List Declaration → Resolution → Option (List Declaration × Resolution)
  | [], res => some ([], res)
  | d :: ds, res =>
    match self.visitDeclaration d res with
    | none => none
    | some (d1, res1) =>
      match visitDeclarations self ds res1 with
      | none => none
      | some (ds1, res2) => some (d1 :: ds1, res2)

/-- The transform on the cases of a select expression: the keyset, then the path
expression of the state, which has to stay a path expression. -/
def visitSelectCases (self : Substitutions) :
    List SelectCase → Resolution → Option (List SelectCase × Resolution)
  | [], res => some ([], res)
  | c :: cs, res =>
    match self.visitExpression c.keyset res with
    | none => none
    | some (k1, res1) =>
      match self.postorder_PathExpression c.state res1 with
      | some (Expression.pathExpression p, res2) =>
        match visitSelectCases self cs res2 with
        | none => none
        | some (cs1, res3) => some (SelectCase.mk k1 p :: cs1, res3)
      | _ => none

/-- The transform on the `selectExpression` of a state. -/
def visitTransition (self : Substitutions) :
    Transition → Resolution → Option (Transition × Resolution)
  | .pathExpression path, res =>
    match self.postorder_PathExpression path res with
    | some (Expression.pathExpression p, res1) => some (.pathExpression p, res1)
    | _ => none
  | .selectExpression select cases, res =>
    match visitExpression.visitExpressions self select res with
    | none => none
    | some (select1, res1) =>
      match self.visitSelectCases cases res1 with
      | none => none
      | some (cases1, res2) => some (.selectExpression select1 cases1, res2)

/-- The transform on a parser state: the components, then the `selectExpression`. -/
def visitParserState (self : Substitutions) (state : ParserState) (res : Resolution) :
    Option (ParserState × Resolution) :=
  match visitStatement.visitStatements self state.components res with
  | none => none
  | some (components, res1) =>
    match state.selectExpression with
    | none => some ({ state with components := components }, res1)
    | some t =>
      match self.visitTransition t res1 with
      | none => none
      | some (t1, res2) =>
        some ({ state with components := components, selectExpression := some t1 }, res2)

/-- The transform on the states of a parser. -/
def visitParserStates (self : Substitutions) :
    List ParserState → Resolution → Option (List ParserState × Resolution)
  | [], res => some ([], res)
  | s :: ss, res =>
    match self.visitParserState s res with
    | none => none
    | some (s1, res1) =>
      match visitParserStates self ss res1 with
      | none => none
      | some (ss1, res2) => some (s1 :: ss1, res2)

/-- The transform on a control: the locals, then the body. -/
def visitP4Control (self : Substitutions) (c : P4Control) (res : Resolution) :
    Option (P4Control × Resolution) :=
  match self.visitDeclarations c.controlLocals res with
  | none => none
  | some (locals, res1) =>
    match visitStatement.visitStatements self c.body res1 with
    | none => none
    | some (body, res2) => some ({ c with controlLocals := locals, body := body }, res2)

/-- The transform on a parser: the locals, then the states. -/
def visitP4Parser (self : Substitutions) (p : P4Parser) (res : Resolution) :
    Option (P4Parser × Resolution) :=
  match self.visitDeclarations p.parserLocals res with
  | none => none
  | some (locals, res1) =>
    match self.visitParserStates p.states res1 with
    | none => none
    | some (states, res2) => some ({ p with parserLocals := locals, states := states }, res2)

end Substitutions

/-- The substitutions of one instance (`PerInstanceSubstitutions`). -/
structure PerInstanceSubstitutions where
  paramSubst : ParameterSubstitution
  tvs : TypeVariableSubstitution
  renameMap : SymRenameMap
  deriving Repr

namespace PerInstanceSubstitutions

/-- The constructor without arguments. -/
def empty : PerInstanceSubstitutions :=
  PerInstanceSubstitutions.mk ParameterSubstitution.empty (TypeVariableSubstitution.mk [])
    SymRenameMap.empty

/-- The transform that `rename` builds from the three members. -/
def substitutions (self : PerInstanceSubstitutions) : Substitutions :=
  Substitutions.mk self.paramSubst self.tvs self.renameMap

/-- The method `rename<IR::P4Control>(refMap, node)`. -/
def rename_P4Control (self : PerInstanceSubstitutions) (refMap : ReferenceMap)
    (node : P4Control) : Option (P4Control × ReferenceMap) :=
  (self.substitutions.visitP4Control node refMap.resolution).map
    fun r => (r.1, { refMap with resolution := r.2 })

/-- The method `rename<IR::P4Parser>(refMap, node)`. -/
def rename_P4Parser (self : PerInstanceSubstitutions) (refMap : ReferenceMap)
    (node : P4Parser) : Option (P4Parser × ReferenceMap) :=
  (self.substitutions.visitP4Parser node refMap.resolution).map
    fun r => (r.1, { refMap with resolution := r.2 })

end PerInstanceSubstitutions

/-! ## GeneralInliner: controls -/

/-- Pointer comparison of two expressions that may be null: the expressions are
values here and are compared as such. -/
def samePointer : Option Expression → Option Expression → Bool
  | none, none => true
  | some a, some b => a.beq b
  | _, _ => false

/-- Modelled from the spec: `InlineSummary::PerCaller`, the work for one caller, is
declared outside this file.  `declToCallee[instance]` is the callee container,
`callToInstance[call site]` the instance, `substitutions[instance]` the
substitutions of the instance. -/
structure Work where
  declToCallee : List (Nat × IContainer)
  callToInstance : List (MethodCallStatement × Nat)
  substitutions : List (Nat × PerInstanceSubstitutions)
  deriving Repr

namespace Work

/-- The lookup `callToInstance.find(call)`, by the address of the statement. -/
def findCall (w : Work) (call : MethodCallStatement) : Option Nat :=
  match call.node with
  | none => none
  | some n => (w.callToInstance.find? (fun e => e.1.node == some n)).map Prod.snd

/-- Modelled from the spec: `uniqueCaller(instance)` returns the single call site
when exactly one exists, else none. -/
def uniqueCaller (w : Work) (inst : Nat) : Option MethodCallStatement :=
  match w.callToInstance.filter (fun e => e.2 == inst) with
  | [e] => some e.1
  | _ => none

end Work

/-- The number of a new IR node. -/
def ReferenceMap.newNode (refMap : ReferenceMap) : Nat × ReferenceMap :=
  (refMap.resolution.nextNode,
    { refMap with resolution :=
        { refMap.resolution with nextNode := refMap.resolution.nextNode + 1 } })

/-- The methods of `GeneralInliner` read these members. -/
structure GeneralInliner where
  typeMap : TypeMap
  hasStorage : Nat → Bool

namespace GeneralInliner

/-- The traversal `callee->apply(cnn)`: the variable declarations inside a statement,
in the order the inspector leaves them. -/
def statementDeclarations : Statement → List Declaration
  | .blockStatement _ components => componentsDeclarations components
  | .ifStatement _ t f =>
    statementDeclarations t ++
      (match f with
        | none => []
        | some s => statementDeclarations s)
  | .declarationVariable d => [Declaration.declarationVariable d]
  | _ => []
where
  /-- The variable declarations inside a vector of statements. -/
  componentsDeclarations : List Statement → List Declaration
    | [] => []
    | s :: ss => statementDeclarations s ++ componentsDeclarations ss

/-- The declarations that `ComputeNewNames` renames at and below a local declaration,
in postorder. -/
def localDeclarations : Declaration → List Declaration
  | .p4Action a => statementDeclarations.componentsDeclarations a.body ++ [Declaration.p4Action a]
  | d => [d]

/-- The traversal `callee->apply(cnn)` of a control. -/
def computeNewNames_P4Control (cnn : ComputeNewNames) (callee : P4Control) : ComputeNewNames :=
  (callee.controlLocals.flatMap localDeclarations ++
    statementDeclarations.componentsDeclarations callee.body).foldl ComputeNewNames.rename cnn

/-- The location sets of the arguments, one for each parameter of the call. -/
def locationSets (storageMap : StorageMap) (mcd : MethodCallDescription) :
    List Parameter → Option (List (Nat × LocationSet))
  | [] => some []
  | param :: rest =>
    match mcd.substitution.lookup param with
    | none => none
    | some arg =>
      match FindLocationSets.locations storageMap arg, locationSets storageMap mcd rest with
      | some ls, some sets => some ((param.decl, ls) :: sets)
      | _, _ => none

/-- The set `useTemporary` of `preorder(IR::P4Control*)` for a unique call: the
parameters whose argument aliases with the argument of another parameter. -/
def useTemporary (storageMap : StorageMap) (mcd : MethodCallDescription) :
    Option (List Nat) :=
  let params := mcd.substitution.getParameters
  match locationSets storageMap mcd params with
  | none => none
  | some sets =>
    some (params.flatMap fun param1 =>
      params.flatMap fun param2 =>
        if param1.decl == param2.decl then []
        else
          match sets.lookup param1.decl, sets.lookup param2.decl with
          | some ls1, some ls2 =>
            if ls1.overlaps ls2 then [param1.decl, param2.decl] else []
          | _, _ => [])

/-- The loop variables of the loop over the apply-parameters of the callee. -/
structure Binding where
  substs : PerInstanceSubstitutions
  refMap : ReferenceMap
  locals : List Declaration

/-- The body of the loop over the apply-parameters in `preorder(IR::P4Control*)`:
substitute the argument directly, or use a temporary variable. -/
def bindParameter (call : Option MethodCallStatement) (mcd : Option MethodCallDescription)
    (useTemporary : List Nat) (b : Binding) (param : Parameter) : Option Binding :=
  if param.direction == Direction.None then
    some b
  else if call.isSome && !useTemporary.contains param.decl then
    -- Substitute argument directly
    match mcd with
    | none => none
    | some mcd =>
      match mcd.substitution.lookup param with
      | none => none
      | some initializer =>
        some { b with substs := { b.substs with
          paramSubst := b.substs.paramSubst.add param initializer } }
  else
    -- use a temporary variable
    let fresh := b.refMap.newName param.name
    let pathNode := fresh.2.newNode
    let path := Expression.pathExpression (IR.Path.mk pathNode.1 fresh.1 false)
    let declNode := pathNode.2.newNode
    let vardecl := Declaration_Variable.mk declNode.1 fresh.1 param.annotations param.type none
    some { substs := { b.substs with paramSubst := b.substs.paramSubst.add param path }
           refMap := declNode.2
           locals := b.locals ++ [Declaration.declarationVariable vardecl] }

/-- The loop over the apply-parameters of the callee. -/
def bindParameters (call : Option MethodCallStatement) (mcd : Option MethodCallDescription)
    (useTemporary : List Nat) : List Parameter → Binding → Option Binding
  | [], b => some b
  | param :: rest, b =>
    match bindParameter call mcd useTemporary b param with
    | none => none
    | some b1 => bindParameters call mcd useTemporary rest b1

/-- The loop variables of the loop over the locals of the caller. -/
structure Preparation where
  work : Work
  refMap : ReferenceMap
  locals : List Declaration

/-- The else-branch of the loop over `controlLocals`: the instance `inst` of the
control `callee` is inlined. -/
def prepareControlInstance (self : GeneralInliner) (p : Preparation)
    (inst : Declaration_Instance) (callee : P4Control) : Option Preparation :=
  -- Substitute constructor parameters
  let paramSubst := ParameterSubstitution.empty.populate callee.constructorParams inst.arguments
  let tvs :=
    match inst.type with
    | .specialized _ arguments =>
      (TypeVariableSubstitution.mk []).setBindings callee.typeParameters arguments
    | _ => TypeVariableSubstitution.mk []
  -- Must rename callee local objects prefixing them with their instance name.
  match ComputeNewNames.create (IR.externalName inst.name inst.annotations) p.refMap
      SymRenameMap.empty with
  | none => none
  | some cnn =>
    let cnn := computeNewNames_P4Control cnn callee
    let substs := PerInstanceSubstitutions.mk paramSubst tvs cnn.renameMap
    let call := p.work.uniqueCaller inst.decl
    let mcd := call.map (MethodCallDescription.create callee.applyParams)
    let temporaries :=
      match mcd with
      | none => some []
      | some mcd => useTemporary (StorageMap.mk cnn.refMap self.typeMap self.hasStorage) mcd
    match temporaries with
    | none => none
    | some temporaries =>
      match bindParameters call mcd temporaries callee.applyParams
          (Binding.mk substs cnn.refMap p.locals) with
      | none => none
      | some b =>
        match b.substs.rename_P4Control b.refMap callee with
        | none => none
        | some (clone, refMap) =>
          some { work := { p.work with
                   substitutions := (inst.decl, b.substs) :: p.work.substitutions }
                 refMap := refMap
                 locals := b.locals ++ clone.controlLocals }

/-- The loop over `caller->controlLocals`. -/
def prepareControlLocals (self : GeneralInliner) :
    List Declaration → Preparation → Option Preparation
  | [], p => some p
  | s :: rest, p =>
    match s with
    | .declarationInstance inst =>
      match p.work.declToCallee.lookup inst.decl with
      | none =>
        -- not a call
        prepareControlLocals self rest { p with locals := p.locals ++ [s] }
      | some (.p4Control callee) =>
        match self.prepareControlInstance p inst callee with
        | none => none
        | some p1 => prepareControlLocals self rest p1
      | some (.p4Parser _) => none
    | _ => prepareControlLocals self rest { p with locals := p.locals ++ [s] }

/-- The body of the first loop of `preorder(IR::MethodCallStatement*)`, for one
parameter: copy-in or resets. -/
def copyInParameter (self : GeneralInliner) (substs : PerInstanceSubstitutions)
    (mcd : MethodCallDescription) (param : Parameter) : Option (List Statement) :=
  let initializer := substs.paramSubst.lookup param
  let arg := mcd.substitution.lookup param
  if (param.direction == Direction.In || param.direction == Direction.InOut) &&
      !samePointer initializer arg then
    match initializer, arg with
    | some i, some a => some [Statement.assignmentStatement i a]
    | _, _ => none
  else if param.direction == Direction.Out then
    match self.typeMap.declType param.decl, initializer with
    | some paramType, some i =>
      -- This is important, since this variable may be used many times.
      some (DoResetHeaders.generateResets paramType i)
    | _, _ => none
  else some []

/-- The first loop of `preorder(IR::MethodCallStatement*)`. -/
def copyIn (self : GeneralInliner) (substs : PerInstanceSubstitutions)
    (mcd : MethodCallDescription) : List Parameter → Option (List Statement)
  | [] => some []
  | param :: rest =>
    match self.copyInParameter substs mcd param, copyIn self substs mcd rest with
    | some s, some r => some (s ++ r)
    | _, _ => none

/-- The body of the second loop of `preorder(IR::MethodCallStatement*)`, for one
parameter: copy values of out and inout parameters. -/
def copyOutParameter (substs : PerInstanceSubstitutions) (mcd : MethodCallDescription)
    (param : Parameter) : Option (List Statement) :=
  if param.direction == Direction.InOut || param.direction == Direction.Out then
    let left := mcd.substitution.lookup param
    let initializer := substs.paramSubst.lookupByName param.name
    if !samePointer initializer left then
      match left, initializer with
      | some l, some i => some [Statement.assignmentStatement l i]
      | _, _ => none
    else some []
  else some []

/-- The second loop of `preorder(IR::MethodCallStatement*)`. -/
def copyOut (substs : PerInstanceSubstitutions) (mcd : MethodCallDescription) :
    List Parameter → Option (List Statement)
  | [] => some []
  | param :: rest =>
    match copyOutParameter substs mcd param, copyOut substs mcd rest with
    | some s, some r => some (s ++ r)
    | _, _ => none

/-- The method `preorder(IR::MethodCallStatement*)`. -/
def preorder_MethodCallStatement (self : GeneralInliner) (workToDo : Option Work)
    (statement : MethodCallStatement) (refMap : ReferenceMap) :
    Option (Statement × ReferenceMap) :=
  match workToDo with
  | none => some (Statement.methodCallStatement statement, refMap)
  | some work =>
    match work.findCall statement with
    | none => some (Statement.methodCallStatement statement, refMap)
    | some decl =>
      match work.declToCallee.lookup decl with
      | none => none
      | some (.p4Parser _) =>
        -- Parsers are inlined in the ParserState processor
        some (Statement.methodCallStatement statement, refMap)
      | some (.p4Control callee) =>
        -- clone the substitution: it may be reused for multiple invocations
        match work.substitutions.lookup decl with
        | none => none
        | some substs =>
          let mcd := MethodCallDescription.create callee.applyParams statement
          match self.copyIn substs mcd mcd.substitution.getParameters with
          | none => none
          | some copyin =>
            -- inline actual body
            match substs.rename_P4Control refMap callee with
            | none => none
            | some (callee1, refMap1) =>
              match copyOut substs mcd mcd.substitution.getParameters with
              | none => none
              | some copyout =>
                let annotations := callee1.annotations.filter
                  (fun a => a.name != Annotation.nameAnnotation)
                some (Statement.blockStatement annotations (copyin ++ callee1.body ++ copyout),
                  refMap1)

/-- The visit of a statement of the body of the caller: `preorder` on each method
call statement, at any depth. -/
def visitStatement (self : GeneralInliner) (workToDo : Option Work) :
    Statement → ReferenceMap → Option (Statement × ReferenceMap)
  | .methodCallStatement call, refMap =>
    self.preorder_MethodCallStatement workToDo call refMap
  | .blockStatement annos components, refMap =>
    match visitStatements self workToDo components refMap with
    | none => none
    | some (cs, refMap1) => some (.blockStatement annos cs, refMap1)
  | .ifStatement c t f, refMap =>
    match visitStatement self workToDo t refMap with
    | none => none
    | some (t1, refMap1) =>
      match f with
      | none => some (.ifStatement c t1 none, refMap1)
      | some s =>
        match visitStatement self workToDo s refMap1 with
        | none => none
        | some (s1, refMap2) => some (.ifStatement c t1 (some s1), refMap2)
  | s, refMap => some (s, refMap)
where
  /-- The visit of a vector of statements. -/
  visitStatements (self : GeneralInliner) (workToDo : Option Work) :
      List Statement → ReferenceMap → Option (List Statement × ReferenceMap)
    | [], refMap => some ([], refMap)
    | s :: ss, refMap =>
      match visitStatement self workToDo s refMap with
      | none => none
      | some (s1, refMap1) =>
        match visitStatements self workToDo ss refMap1 with
        | none => none
        | some (ss1, refMap2) => some (s1 :: ss1, refMap2)

/-- The method `preorder(IR::P4Control*)`; `callerToWork` is the map of the summary
that `prepare` installed.  Returns the caller, the reference map and the work of
the caller with its substitutions. -/
def preorder_P4Control (self : GeneralInliner) (callerToWork : List (Nat × Work))
    (refMap : ReferenceMap) (caller : P4Control) :
    Option (P4Control × ReferenceMap × Option Work) :=
  match callerToWork.lookup caller.decl with
  | none => some (caller, refMap, none)
  | some workToDo =>
    match self.prepareControlLocals caller.controlLocals
        (Preparation.mk workToDo refMap []) with
    | none => none
    | some p =>
      match visitStatement.visitStatements self (some p.work) caller.body p.refMap with
      | none => none
      | some (body, refMap1) =>
        some ({ caller with body := body, controlLocals := p.locals }, refMap1, some p.work)

end GeneralInliner

/-! ## GeneralInliner: parsers -/

/-- The map `std::map<cstring, cstring>` from state names to new state names. -/
abbrev StateRenameMap := List (cstring × cstring)

/-- The method `emplace`: an existing entry stays. -/
def StateRenameMap.emplace (m : StateRenameMap) (key value : cstring) : StateRenameMap :=
  match m.lookup key with
  | some _ => m
  | none => m ++ [(key, value)]

/-- The helper `::get(map, key)` of the compiler library: the value stored for the key,
or the default value, the null string, when there is none. -/
def StateRenameMap.get (m : StateRenameMap) (key : cstring) : cstring :=
  match m.lookup key with
  | some v => v
  | none => ""

/-- The inspector `ComputeNewStateNames`: its members. -/
structure ComputeNewStateNames where
  refMap : ReferenceMap
  pfx : cstring
  acceptName : cstring
  stateRenameMap : StateRenameMap

namespace ComputeNewStateNames

/-- The method `preorder(const IR::ParserState*)`. -/
def preorder (self : ComputeNewStateNames) (state : ParserState) : ComputeNewStateNames :=
  if state.name == ParserState.accept then
    { self with stateRenameMap := self.stateRenameMap.emplace state.name self.acceptName }
  else
    let base := self.pfx ++ "_" ++ state.name
    let fresh := self.refMap.newName base
    { self with
      refMap := fresh.2
      stateRenameMap := self.stateRenameMap.emplace state.name fresh.1 }

/-- The traversal `callee->apply(cnn)`: `preorder` on each state of the parser. -/
def apply (self : ComputeNewStateNames) (callee : P4Parser) : ComputeNewStateNames :=
  callee.states.foldl preorder self

end ComputeNewStateNames

/-- The transform `RenameStates`. -/
structure RenameStates where
  stateRenameMap : StateRenameMap
  deriving Repr

namespace RenameStates

/-- The method `preorder(IR::Path*)`: this is certainly a state name. -/
def preorder_Path (self : RenameStates) (path : IR.Path) : IR.Path :=
  { path with name := self.stateRenameMap.get path.name }

/-- The method `preorder(IR::SelectCase*)`: only the state is visited. -/
def preorder_SelectCase (self : RenameStates) (selCase : SelectCase) : SelectCase :=
  { selCase with state := self.preorder_Path selCase.state }

/-- The visit of the `selectExpression` of a state; for a select expression
`preorder(IR::SelectExpression*)` visits the cases only. -/
def visitTransition (self : RenameStates) : Transition → Transition
  | .pathExpression path => .pathExpression (self.preorder_Path path)
  | .selectExpression select cases =>
    .selectExpression select (cases.map self.preorder_SelectCase)

/-- The method `preorder(IR::ParserState*)`. -/
def preorder_ParserState (self : RenameStates) (state : ParserState) : ParserState :=
  if state.name == ParserState.accept || state.name == ParserState.reject then
    state
  else
    { state with
      name := self.stateRenameMap.get state.name
      selectExpression := state.selectExpression.map self.visitTransition }

/-- The method `preorder(IR::P4Parser*)`: the states are visited. -/
def preorder_P4Parser (self : RenameStates) (parser : P4Parser) : P4Parser :=
  { parser with states := parser.states.map self.preorder_ParserState }

end RenameStates

namespace GeneralInliner

/-- The loop variables of the scan of the components of a state. -/
structure Splice where
  states : List ParserState
  current : List Statement
  annotations : Annotations
  name : cstring
  refMap : ReferenceMap

/-- The first loop over the apply-parameters in `preorder(IR::ParserState*)`:
evaluate in and inout parameters in order.  Returns the statements appended to
`current` and the substitutions. -/
def parserCopyIn (self : GeneralInliner) :
    List Parameter → List Expression → PerInstanceSubstitutions →
    Option (List Statement × PerInstanceSubstitutions)
  | [], _, substs => some ([], substs)
  | _ :: _, [], _ => none
  | param :: params, initializer :: args, substs =>
    let step : Option (List Statement × PerInstanceSubstitutions) :=
      if param.direction == Direction.In || param.direction == Direction.InOut then
        match substs.paramSubst.lookupByName param.name with
        | some expr => some ([Statement.assignmentStatement expr initializer], substs)
        | none => none
      else if param.direction == Direction.Out then
        match substs.paramSubst.lookupByName param.name, self.typeMap.declType param.decl with
        | some expr, some paramType =>
          -- This is important, since this variable may be used many times.
          some (DoResetHeaders.generateResets paramType expr, substs)
        | _, _ => none
      else
        some ([], { substs with paramSubst := substs.paramSubst.add param initializer })
    match step with
    | none => none
    | some (stats, substs1) =>
      match parserCopyIn self params args substs1 with
      | none => none
      | some (rest, substs2) => some (stats ++ rest, substs2)

/-- The second loop over the apply-parameters in `preorder(IR::ParserState*)`:
copy back out and inout parameters. -/
def parserCopyOut (substs : PerInstanceSubstitutions) :
    List Parameter → List Expression → Option (List Statement)
  | [], _ => some []
  | _ :: _, [] => none
  | param :: params, left :: args =>
    let step : Option (List Statement) :=
      if param.direction == Direction.InOut || param.direction == Direction.Out then
        match substs.paramSubst.lookupByName param.name with
        | some expr => some [Statement.assignmentStatement left expr]
        | none => none
      else some []
    match step, parserCopyOut substs params args with
    | some stats, some rest => some (stats ++ rest)
    | _, _ => none

/-- The body of the scan for a call of an inlined instance: the state is cut at
the call, and the states of the callee are spliced in. -/
def spliceCall (self : GeneralInliner) (work : Work) (state : ParserState)
    (call : MethodCallStatement) (decl : Nat) (s : Splice) : Option Splice :=
  match work.declToCallee.lookup decl with
  | some (.p4Parser callee) =>
    -- clone the substitution: it may be reused for multiple invocations
    match work.substitutions.lookup decl with
    | none => none
    | some substs =>
      match self.parserCopyIn callee.applyParams call.arguments substs with
      | none => none
      | some (copyin, substs1) =>
        match substs1.rename_P4Parser s.refMap callee with
        | none => none
        | some (callee1, refMap1) =>
          let nextState := refMap1.newName state.name
          let cnn := (ComputeNewStateNames.mk nextState.2 callee1.name nextState.1 []).apply
            callee1
          let renamed := (RenameStates.mk cnn.stateRenameMap).preorder_P4Parser callee1
          let newStartName := cnn.stateRenameMap.get ParserState.start
          let pathNode := cnn.refMap.newNode
          let transition := Transition.pathExpression (IR.Path.mk pathNode.1 newStartName false)
          let stateNode := pathNode.2.newNode
          let newState := ParserState.mk stateNode.1 s.name s.annotations
            (s.current ++ copyin) (some transition)
          match parserCopyOut substs1 callee1.applyParams call.arguments with
          | none => none
          | some copyout =>
            some { states := s.states ++ [newState] ++
                     renamed.states.filter (fun q =>
                       !(q.name == ParserState.accept || q.name == ParserState.reject))
                   -- Prepare next state
                   current := copyout
                   annotations := Annotations.empty
                   name := nextState.1
                   refMap := stateNode.2 }
  | _ => none

/-- The scan of the components of a state in `preorder(IR::ParserState*)`. -/
def scanComponents (self : GeneralInliner) (work : Work) (state : ParserState) :
    List Statement → Splice → Option Splice
  | [], s => some s
  | e :: rest, s =>
    match e with
    | .methodCallStatement call =>
      match work.findCall call with
      | none => scanComponents self work state rest { s with current := s.current ++ [e] }
      | some decl =>
        match self.spliceCall work state call decl s with
        | none => none
        | some s1 => scanComponents self work state rest s1
    | _ => scanComponents self work state rest { s with current := s.current ++ [e] }

/-- The method `preorder(IR::ParserState*)`: the states that replace `state`. -/
def preorder_ParserState (self : GeneralInliner) (work : Work) (refMap : ReferenceMap)
    (state : ParserState) : Option (List ParserState × ReferenceMap) :=
  match self.scanComponents work state state.components
      (Splice.mk [] [] state.annotations state.name refMap) with
  | none => none
  | some s =>
    if !s.states.isEmpty then
      -- Create final state
      let stateNode := s.refMap.newNode
      let newState := ParserState.mk stateNode.1 s.name s.annotations s.current
        state.selectExpression
      some (s.states ++ [newState], stateNode.2)
    else
      some ([state], s.refMap)

/-- The traversal `callee->apply(cnn)` of a parser. -/
def computeNewNames_P4Parser (cnn : ComputeNewNames) (callee : P4Parser) : ComputeNewNames :=
  (callee.parserLocals.flatMap localDeclarations ++
    callee.states.flatMap (fun q =>
      statementDeclarations.componentsDeclarations q.components)).foldl
    ComputeNewNames.rename cnn

/-- The else-branch of the loop over `parserLocals`: the instance `inst` of the
parser `callee` is inlined. -/
def prepareParserInstance (p : Preparation) (inst : Declaration_Instance)
    (callee : P4Parser) : Option Preparation :=
  -- Substitute constructor parameters
  let paramSubst := ParameterSubstitution.empty.populate callee.constructorParams inst.arguments
  let tvs :=
    match inst.type with
    | .specialized _ arguments =>
      (TypeVariableSubstitution.mk []).setBindings callee.typeParameters arguments
    | _ => TypeVariableSubstitution.mk []
  -- Must rename callee local objects prefixing them with their instance name.
  match ComputeNewNames.create (IR.externalName inst.name inst.annotations) p.refMap
      SymRenameMap.empty with
  | none => none
  | some cnn =>
    let cnn := computeNewNames_P4Parser cnn callee
    let substs := PerInstanceSubstitutions.mk paramSubst tvs cnn.renameMap
    -- Substitute applyParameters which are not directionless with fresh variable names.
    match bindParameters none none [] callee.applyParams
        (Binding.mk substs cnn.refMap p.locals) with
    | none => none
    | some b =>
      match b.substs.rename_P4Parser b.refMap callee with
      | none => none
      | some (clone, refMap) =>
        some { work := { p.work with
                 substitutions := (inst.decl, b.substs) :: p.work.substitutions }
               refMap := refMap
               locals := b.locals ++ clone.parserLocals }

/-- The loop over `caller->parserLocals`. -/
def prepareParserLocals : List Declaration → Preparation → Option Preparation
  | [], p => some p
  | s :: rest, p =>
    match s with
    | .declarationInstance inst =>
      match p.work.declToCallee.lookup inst.decl with
      | none =>
        -- not a call
        prepareParserLocals rest { p with locals := p.locals ++ [s] }
      | some (.p4Parser callee) =>
        match prepareParserInstance p inst callee with
        | none => none
        | some p1 => prepareParserLocals rest p1
      | some (.p4Control _) => none
    | _ => prepareParserLocals rest { p with locals := p.locals ++ [s] }

/-- The visit `caller->states.visit_children(*this)`: each state is replaced by the
states that `preorder(IR::ParserState*)` returns for it. -/
def visitStates (self : GeneralInliner) (work : Work) :
    List ParserState → ReferenceMap → Option (List ParserState × ReferenceMap)
  | [], refMap => some ([], refMap)
  | state :: rest, refMap =>
    match self.preorder_ParserState work refMap state with
    | none => none
    | some (states, refMap1) =>
      match visitStates self work rest refMap1 with
      | none => none
      | some (others, refMap2) => some (states ++ others, refMap2)

/-- The method `preorder(IR::P4Parser*)`. -/
def preorder_P4Parser (self : GeneralInliner) (callerToWork : List (Nat × Work))
    (refMap : ReferenceMap) (caller : P4Parser) :
    Option (P4Parser × ReferenceMap × Option Work) :=
  match callerToWork.lookup caller.decl with
  | none => some (caller, refMap, none)
  | some workToDo =>
    match prepareParserLocals caller.parserLocals (Preparation.mk workToDo refMap []) with
    | none => none
    | some p =>
      match self.visitStates p.work caller.states p.refMap with
      | none => none
      | some (states, refMap1) =>
        some ({ caller with states := states, parserLocals := p.locals }, refMap1, some p.work)

end GeneralInliner

/-! ## Samples: a parser inlined into a parser -/

/-- The callee parser `A` with the states `start`, `s1`, `accept`. -/
def sampleParserA : P4Parser :=
  { decl := 50, name := "A", annotations := [], typeParameters := [], applyParams := [],
    constructorParams := [], parserLocals := [],
    states := [
      ParserState.mk 51 "start" [] [] (some (Transition.pathExpression (IR.Path.mk 1 "s1" false))),
      ParserState.mk 52 "s1" [] [] (some (Transition.pathExpression (IR.Path.mk 3 "accept" false))),
      ParserState.mk 53 "accept" [] [] none] }

/-- The callee parser `R` with the states `start`, `accept`, `reject`; `start` selects
between `accept` and `reject`. -/
def sampleParserR : P4Parser :=
  { decl := 50, name := "R", annotations := [], typeParameters := [], applyParams := [],
    constructorParams := [], parserLocals := [],
    states := [
      ParserState.mk 51 "start" [] []
        (some (Transition.selectExpression [Expression.constant 0]
          [SelectCase.mk (Expression.constant 0) (IR.Path.mk 3 "accept" false),
           SelectCase.mk (Expression.constant 1) (IR.Path.mk 2 "reject" false)])),
      ParserState.mk 53 "accept" [] [] none,
      ParserState.mk 54 "reject" [] [] none] }

/-- The call `inst.apply()`. -/
def sampleCall : MethodCallStatement :=
  MethodCallStatement.mk (some 500)
    (Expression.member (Expression.pathExpression (IR.Path.mk 5 "inst" false)) "apply") []

/-- The instance `inst` of the callee, a local of the caller. -/
def sampleInstance : Declaration_Instance :=
  Declaration_Instance.mk 61 "inst" [] (Type_.typeName "A") []

/-- The state `start` of the caller: `inst.apply(); transition accept`. -/
def sampleStateB : ParserState :=
  ParserState.mk 62 "start" [] [Statement.methodCallStatement sampleCall]
    (some (Transition.pathExpression (IR.Path.mk 4 "accept" false)))

/-- The caller parser `B` with the single state `start`. -/
def sampleParserB : P4Parser :=
  { decl := 60, name := "B", annotations := [], typeParameters := [], applyParams := [],
    constructorParams := [], parserLocals := [Declaration.declarationInstance sampleInstance],
    states := [sampleStateB] }

/-- The state `start` of a caller where the call stands inside a block statement. -/
def sampleStateNested : ParserState :=
  ParserState.mk 62 "start" []
    [Statement.blockStatement [] [Statement.methodCallStatement sampleCall]]
    (some (Transition.pathExpression (IR.Path.mk 4 "accept" false)))

/-- The caller parser `N`: as `B`, with the call inside a block statement. -/
def sampleParserN : P4Parser :=
  { sampleParserB with states := [sampleStateNested] }

/-- The work for the caller: `inst` is an instance of `callee`, called once. -/
def sampleWork (callee : IContainer) : Work :=
  { declToCallee := [(61, callee)], callToInstance := [(sampleCall, 61)], substitutions := [] }

/-- The reference map of the parser samples: every path is resolved. -/
def sampleParserRefMap : ReferenceMap :=
  { gen := sampleGen
    usedNames := ["A", "R", "B", "inst", "start", "s1", "accept", "reject"]
    resolution := Resolution.mk [(1, 52), (2, 54), (3, 53), (4, 63), (5, 61)] 100 }

/-- An inliner for the parser samples: no types and no storage are needed. -/
def sampleInliner : GeneralInliner :=
  { typeMap := TypeMap.mk (fun _ => none) (fun _ => none), hasStorage := fun _ => false }

/-- What the fold of `ComputeNewStateNames` keeps true: the generator, the two built-in
names in use, and no state other than `accept` is sent to a built-in name. -/
def ComputeNewStateNames.Inv (g : List cstring → cstring → cstring)
    (c : ComputeNewStateNames) : Prop :=
  c.refMap.gen = g ∧ ParserState.accept ∈ c.refMap.usedNames ∧
  ParserState.reject ∈ c.refMap.usedNames ∧
  ∀ k v, c.stateRenameMap.lookup k = some v → k ≠ ParserState.accept →
    v ≠ ParserState.accept ∧ v ≠ ParserState.reject

/-- A state that is not one of the built-in states `accept` and `reject`: the states
that the splice keeps. -/
def notBuiltin (name : cstring) : Bool :=
  !(name == ParserState.accept || name == ParserState.reject)

/-- No component of the list is the call site of an inlined instance. -/
def GeneralInliner.noInlinedCall (work : Work) (components : List Statement) : Prop :=
  ∀ call, Statement.methodCallStatement call ∈ components → work.findCall call = none

/-- The work of the parser samples after the preparation of the caller: the
instance has its substitutions. -/
def sampleWorkPrepared (callee : IContainer) : Work :=
  { sampleWork callee with substitutions := [(61, PerInstanceSubstitutions.empty)] }

/-! ## Samples: a control inlined into a control -/

/-- The header type `H` with one field `f`. -/
def sampleHeader : Type_ := Type_.header "H" [("f", Type_.bits 8)]

/-- The callee control `C` with the apply-parameters `a` and `b` of type `H` and the
body `a.f = b.f`. -/
def sampleControlC (dirA dirB : Direction) : P4Control :=
  { decl := 70, name := "C", annotations := [], typeParameters := [],
    applyParams := [Parameter.mk 71 "a" dirA sampleHeader [],
                    Parameter.mk 72 "b" dirB sampleHeader []],
    constructorParams := [], controlLocals := [],
    body := [Statement.assignmentStatement
      (Expression.member (Expression.pathExpression (IR.Path.mk 10 "a" false)) "f")
      (Expression.member (Expression.pathExpression (IR.Path.mk 11 "b" false)) "f")] }

/-- The instance `x` of `C`, a local of the caller. -/
def sampleInstanceX : Declaration_Instance :=
  Declaration_Instance.mk 81 "x" [] (Type_.typeName "C") []

/-- The call `x.apply(...)` with the given arguments. -/
def sampleCallX (arguments : List Expression) : MethodCallStatement :=
  MethodCallStatement.mk (some 600)
    (Expression.member (Expression.pathExpression (IR.Path.mk 16 "x" false)) "apply") arguments

/-- Two `.next` accesses of the header stack `s`. -/
def sampleStackArguments : List Expression :=
  [Expression.member (Expression.pathExpression (IR.Path.mk 12 "s" false)) "next",
   Expression.member (Expression.pathExpression (IR.Path.mk 13 "s" false)) "next"]

/-- The two headers `h1` and `h2`. -/
def sampleHeaderArguments : List Expression :=
  [Expression.pathExpression (IR.Path.mk 14 "h1" false),
   Expression.pathExpression (IR.Path.mk 15 "h2" false)]

/-- The caller control `D`: the locals `s`, `h1`, `h2` and `x`, and the body
`x.apply(...)`. -/
def sampleControlD (arguments : List Expression) : P4Control :=
  { decl := 80, name := "D", annotations := [], typeParameters := [], applyParams := [],
    constructorParams := [],
    controlLocals := [
      Declaration.declarationVariable
        (Declaration_Variable.mk 82 "s" [] (Type_.stack sampleHeader 4) none),
      Declaration.declarationVariable (Declaration_Variable.mk 83 "h1" [] sampleHeader none),
      Declaration.declarationVariable (Declaration_Variable.mk 84 "h2" [] sampleHeader none),
      Declaration.declarationInstance sampleInstanceX],
    body := [Statement.methodCallStatement (sampleCallX arguments)] }

/-- The work for the caller `D`: `x` is an instance of `callee`, called once. -/
def sampleControlWork (callee : P4Control) (arguments : List Expression) : Work :=
  { declToCallee := [(81, IContainer.p4Control callee)]
    callToInstance := [(sampleCallX arguments, 81)]
    substitutions := [] }

/-- The reference map of the control samples: every path is resolved. -/
def sampleControlRefMap : ReferenceMap :=
  { gen := sampleGen
    usedNames := ["C", "D", "a", "b", "s", "h1", "h2", "x", "f"]
    resolution := Resolution.mk
      [(10, 71), (11, 72), (12, 82), (13, 82), (14, 83), (15, 84), (16, 81)] 100 }

/-- The inliner of the control samples: `s` is a stack of `H`, every other
expression and every parameter has the type `H`; `s`, `h1` and `h2` have storage. -/
def sampleControlInliner : GeneralInliner :=
  { typeMap := TypeMap.mk
      (fun e =>
        match e with
        | Expression.pathExpression p =>
          if p.name == "s" then some (Type_.stack sampleHeader 4) else some sampleHeader
        | _ => some sampleHeader)
      (fun _ => some sampleHeader)
    hasStorage := fun d => d == 82 || d == 83 || d == 84 }

/-- The work of the control samples after the preparation of the caller `D` for the
call with two `.next` accesses of the stack: both parameters have a temporary. -/
def sampleControlWorkPrepared : Work :=
  { sampleControlWork (sampleControlC Direction.InOut Direction.InOut) sampleStackArguments with
    substitutions := [(81, PerInstanceSubstitutions.mk
      (ParameterSubstitution.mk
        [(Parameter.mk 71 "a" Direction.InOut sampleHeader [],
          Expression.pathExpression (IR.Path.mk 100 "a___" false)),
         (Parameter.mk 72 "b" Direction.InOut sampleHeader [],
          Expression.pathExpression (IR.Path.mk 102 "b_____" false))])
      (TypeVariableSubstitution.mk []) SymRenameMap.empty)] }

/-- The location sets of the arguments of the call are pairwise non-overlapping. -/
def GeneralInliner.noAliasing (storageMap : StorageMap) (mcd : MethodCallDescription) : Prop :=
  ∀ p1 ∈ mcd.substitution.getParameters, ∀ p2 ∈ mcd.substitution.getParameters,
    p1.decl ≠ p2.decl →
    ∀ a1 a2 ls1 ls2, mcd.substitution.lookup p1 = some a1 →
      mcd.substitution.lookup p2 = some a2 →
      FindLocationSets.locations storageMap a1 = some ls1 →
      FindLocationSets.locations storageMap a2 = some ls2 →
      ls1.overlaps ls2 = false

/-- The bindings of the parameters with a direction to the arguments of the call. -/
def GeneralInliner.directBindings (mcd : MethodCallDescription) (params : List Parameter) :
    List (Parameter × Expression) :=
  params.filterMap fun p =>
    if p.direction == Direction.None then none
    else (mcd.substitution.lookup p).map fun a => (p, a)

/-- The reset statements of an out parameter, generated on its argument. -/
def GeneralInliner.argumentResets (self : GeneralInliner) (mcd : MethodCallDescription)
    (p : Parameter) : List Statement :=
  if p.direction = Direction.Out then
    match self.typeMap.declType p.decl, mcd.substitution.lookup p with
    | some ty, some a => DoResetHeaders.generateResets ty a
    | _, _ => []
  else []

/-! ## The driver -/

/-- The loop of `InlineDriver::preorder`: `while (auto todo = toInline->next())`.
`apply todo prog` stands for `inliner->prepare(toInline, todo)` followed by
`prog->apply(*inliner)`, and tells whether `::errorCount() > 0` afterwards.  Returns
the program and the number of times the body of the loop ran, `none` when the fuel
is used up first. -/
def InlineDriver.loop {Prog : Type} (apply : InlineSummary → Prog → Prog × Bool) :
    Nat → InlineWorkList → Prog → Nat → Option (Prog × Nat)
  | 0, _, _, _ => none
  | fuel + 1, toInline, prog, iterations =>
    match toInline.next with
    | (none, _) => some (prog, iterations)
    | (some todo, rest) =>
      let r := apply todo prog
      if r.2 then
        some (r.1, iterations + 1)
      else
        InlineDriver.loop apply fuel rest r.1 (iterations + 1)

/-- The method `InlineDriver::preorder` after the inlining sites are found:
`toInline->analyze(true)` and the loop, with one unit of fuel for each scheduled
item and one for the last call of `next`. -/
def InlineDriver.preorder {Prog : Type} (sort : CallGraph → List Nat)
    (apply : InlineSummary → Prog → Prog × Bool) (toInline : InlineWorkList)
    (program : Prog) : Option (Prog × Nat) :=
  let analyzed := (toInline.analyze sort true).1
  InlineDriver.loop apply (analyzed.toInline.length + 1) analyzed program 0

/-- A table of a callee with a `@name` and a `@hidden` annotation. -/
def sampleAnnotatedTable : Declaration :=
  Declaration.p4Table (P4Table.mk 7 "t"
    [ Annotation.mk "name" [Expression.stringLiteral "t"], Annotation.mk "hidden" []] [])

/-- A rename map with an entry for `sampleAnnotatedTable`. -/
def sampleTableRenameMap : SymRenameMap :=
  SymRenameMap.empty.setNewName 7 "inst_t" "inst.t"

/-- The member `h.isValid`, a reference to a method of the header `h`. -/
def sampleMethodMember : Expression :=
  Expression.member (Expression.pathExpression (IR.Path.mk 1 "h" false)) "isValid"

/-- A storage map for `sampleMethodMember`: `h` is the declaration 10 and has
storage, the member has a method type, every other expression the type `bit<1>`. -/
def sampleMethodStorageMap : StorageMap :=
  { refMap := { sampleRefMap with resolution := Resolution.mk [(1, 10)] 2 }
    typeMap := TypeMap.mk
      (fun e =>
        match e with
        | Expression.member _ _ => some Type_.method
        | _ => some (Type_.bits 1))
      (fun _ => none)
    hasStorage := fun d => d == 10 }

/-- The callee parser `A` without its state `accept`: `start` and `s1`, and `s1` still
goes to `accept`. -/
def sampleParserNoAccept : P4Parser :=
  { sampleParserA with states := sampleParserA.states.take 2 }

/-- The names of the states that a transition refers to. -/
def IR.Transition.targets : Transition → List cstring
  | .pathExpression path => [path.name]
  | .selectExpression _ cases => cases.map (fun c => c.state.name)

/-- The names of the states that the transition of a state refers to. -/
def IR.ParserState.targets (state : ParserState) : List cstring :=
  match state.selectExpression with
  | none => []
  | some t => t.targets

/-- What the splice of a call of the instance `decl` into `state` does to the names of
the states: `s` is the scan before the call and `s1` the scan after it.  The callee is a
parser `callee`, spliced as its renamed clone `callee1`, which has the name and the state
names of `callee`; the reference map `refMap1` after the clone generates and has in use
what the map of `s` has.  The continuation is named `newName(state.name)`; the states are
those of `s`, the cut state, and the states of the clone renamed by the state rename
map, without `accept` and `reject`.  When the callee lists `accept`, the map sends it to
the continuation name, and a reference to `accept` in a spliced state becomes the
continuation name, any other reference what the map has for it.  A state other than
`accept`, the first of its name, is sent to `newName(callee.name + "_" + name)` on the
reference map that the states before it left. -/
def GeneralInliner.stateNaming (work : Work) (state : ParserState) (decl : Nat)
    (s s1 : GeneralInliner.Splice) : Prop :=
    ∃ (callee callee1 : P4Parser) (refMap1 : ReferenceMap) (cut : ParserState),
      work.declToCallee.lookup decl = some (IContainer.p4Parser callee) ∧
      callee1.name = callee.name ∧
      callee1.states.map (fun q => q.name) = callee.states.map (fun q => q.name) ∧
      refMap1.gen = s.refMap.gen ∧ refMap1.usedNames = s.refMap.usedNames ∧
      s1.name = (refMap1.newName state.name).1 ∧
      s1.states = s.states ++ [cut] ++
        (callee1.states.map (RenameStates.mk ((ComputeNewStateNames.mk
          (refMap1.newName state.name).2 callee1.name s1.name []).apply
            callee1).stateRenameMap).preorder_ParserState).filter
          (fun q => notBuiltin q.name) ∧
      ((∃ q ∈ callee.states, q.name = ParserState.accept) →
        ((ComputeNewStateNames.mk (refMap1.newName state.name).2 callee1.name s1.name []).apply
          callee1).stateRenameMap.get ParserState.accept = s1.name ∧
        ∀ q ∈ callee1.states, notBuiltin q.name = true →
          ((RenameStates.mk ((ComputeNewStateNames.mk (refMap1.newName state.name).2
              callee1.name s1.name []).apply callee1).stateRenameMap).preorder_ParserState
              q).targets
            = q.targets.map (fun n => if n = ParserState.accept then s1.name else
                ((ComputeNewStateNames.mk (refMap1.newName state.name).2 callee1.name
                  s1.name []).apply callee1).stateRenameMap.get n)) ∧
      (∀ pre q post, callee1.states = pre ++ q :: post → q.name ≠ ParserState.accept →
        (∀ p ∈ pre, p.name ≠ q.name) →
        ((ComputeNewStateNames.mk (refMap1.newName state.name).2 callee1.name s1.name []).apply
          callee1).stateRenameMap.get q.name
          = ((pre.foldl ComputeNewStateNames.preorder (ComputeNewStateNames.mk
              (refMap1.newName state.name).2 callee1.name s1.name [])).refMap.newName
              (callee1.name ++ "_" ++ q.name)).1)

/-! ## DiscoverInlining -/

/-- Modelled from the spec: `InlineWorkList::addInstantiation` is declared outside this
file.  It records the instantiation (caller, callee, instance) in the work list; the
entry is stored under the instance, so an earlier entry of the instance is replaced. -/
def InlineWorkList.addInstantiation (self : InlineWorkList) (caller callee instantiation : Nat) :
    InlineWorkList :=
  { self with
    inlineMap := self.inlineMap.filter (fun inl => inl.instantiation != instantiation) ++
      [InlineWorkItem.mk caller callee instantiation []] }

/-- Modelled from the spec: `InlineWorkList::addInvocation` is declared outside this
file.  It records the invocation (instance, call site) with the entry of the instance. -/
def InlineWorkList.addInvocation (self : InlineWorkList) (instantiation statement : Nat) :
    InlineWorkList :=
  { self with
    inlineMap := self.inlineMap.map (fun inl =>
      if inl.instantiation == instantiation then
        { inl with invocations := inl.invocations ++ [statement] }
      else inl) }

/-- The method call statements inside a statement, in the order of the traversal. -/
def statementCalls : Statement → List MethodCallStatement
  | .methodCallStatement call => [call]
  | .blockStatement _ components => componentsCalls components
  | .ifStatement _ t f =>
    statementCalls t ++
      (match f with
        | none => []
        | some s => statementCalls s)
  | _ => []
where
  /-- The method call statements inside a vector of statements. -/
  componentsCalls : List Statement → List MethodCallStatement
    | [] => []
    | s :: ss => statementCalls s ++ componentsCalls ss

/-- An instantiated block (`IR::Block`): a `ControlBlock` or a `ParserBlock` with its
`node`, the instance declaration, and its `container`, or a block of another kind, such
as a package.  `constantValue` lists the values that are blocks, in the order of the map. -/
inductive Block where
  | controlBlock (node : Nat) (container : P4Control) (constantValue : List Block)
  | parserBlock (node : Nat) (container : P4Parser) (constantValue : List Block)
  | other (constantValue : List Block)

/-- The node `getContext()->node` of the visit of a block: a `ControlBlock`, of which
the container is kept, a `ParserBlock`, or another node. -/
inductive VisitContext where
  | controlBlock (container : P4Control)
  | parserBlock (container : P4Parser)
  | other

/-- The errors that `DiscoverInlining` reports with `::error`; the argument is
`block->node`. -/
inductive DiscoverError where
  | controlFromParser (node : Nat)
  | parserFromControl (node : Nat)
  deriving DecidableEq, Repr

/-- The inspector `DiscoverInlining`: the work list `inlineList`, the flag
`allowControls`, and the errors reported so far.  `applied statement` stands for
`MethodInstance::resolve`, which is not in this file: the instance when the statement
is `apply` on an instance of a control or of a parser. -/
structure DiscoverInlining where
  inlineList : InlineWorkList
  allowControls : Bool
  applied : MethodCallStatement → Option Nat
  errors : List DiscoverError

namespace DiscoverInlining

/-- The method `postorder(const IR::MethodCallStatement*)`. -/
def postorder_MethodCallStatement (self : DiscoverInlining) (statement : MethodCallStatement) :
    DiscoverInlining :=
  match self.applied statement, statement.node with
  | some instantiation, some node =>
    { self with inlineList := self.inlineList.addInvocation instantiation node }
  | _, _ => self

/-- The first statement of `preorder(const IR::ControlBlock*)`, before the visit of
what is below the block. -/
def enter_ControlBlock (self : DiscoverInlining) (context : VisitContext) (node : Nat)
    (container : P4Control) : DiscoverInlining :=
  match context with
  | .parserBlock _ =>
    -- invocation of a control from a parser
    { self with errors := self.errors ++ [DiscoverError.controlFromParser node] }
  | .controlBlock parent =>
    if self.allowControls then
      { self with inlineList :=
          self.inlineList.addInstantiation parent.decl container.decl node }
    else self
  | .other => self

/-- The first statement of `preorder(const IR::ParserBlock*)`. -/
def enter_ParserBlock (self : DiscoverInlining) (context : VisitContext) (node : Nat)
    (container : P4Parser) : DiscoverInlining :=
  match context with
  | .controlBlock _ =>
    -- invocation of a parser from a control
    { self with errors := self.errors ++ [DiscoverError.parserFromControl node] }
  | .parserBlock parent =>
    { self with inlineList :=
        self.inlineList.addInstantiation parent.decl container.decl node }
  | .other => self

/-- The visit of a block: `preorder(const IR::ControlBlock*)` and
`preorder(const IR::ParserBlock*)`; a block of another kind has its blocks visited. -/
def visit (context : VisitContext) : Block → DiscoverInlining → DiscoverInlining
  | .controlBlock node container constantValue, self =>
    let self1 := self.enter_ControlBlock context node container
    let self2 := visit_all (VisitContext.controlBlock container) constantValue self1
    (statementCalls.componentsCalls container.body).foldl postorder_MethodCallStatement self2
  | .parserBlock node container constantValue, self =>
    let self1 := self.enter_ParserBlock context node container
    let self2 := visit_all (VisitContext.parserBlock container) constantValue self1
    (container.states.flatMap (fun state =>
      statementCalls.componentsCalls state.components)).foldl postorder_MethodCallStatement self2
  | .other constantValue, self => visit_all VisitContext.other constantValue self
where
  /-- The method `visit_all`: the blocks of `constantValue` are visited in order. -/
  visit_all (context : VisitContext) : List Block → DiscoverInlining → DiscoverInlining
    | [], self => self
    | b :: bs, self => visit_all context bs (visit context b self)

end DiscoverInlining

end P4

/-! # The BFRT schema generator of the DPDK back end -/

namespace Util

/-- Modelled from the spec: the JSON values of the compiler library (`Util::IJson`),
which is not in this file.  An object keeps its labels in insertion order. -/
inductive Json where
  | null
  | bool (b : Bool)
  | int (n : Int)
  | str (s : String)
  | array (items : List Json)
  | object (fields : List (String × Json))

/-- A `Util::JsonArray`, as its items. -/
abbrev JsonArray := List Json

/-- A `Util::JsonObject`, as its labelled values in insertion order. -/
abbrev JsonObject := List (String × Json)

/-- Modelled from the spec: `JsonObject::get`, the value of a label. -/
def JsonObject.get (o : JsonObject) (label : String) : Option Json :=
  o.lookup label

/-- Modelled from the spec: `JsonObject::emplace`, a new label at the end; `none` when
the object has the label already. -/
def JsonObject.emplace (o : JsonObject) (label : String) (value : Json) : Option JsonObject :=
  match o.lookup label with
  | some _ => none
  | none => some (o ++ [(label, value)])

/-- Modelled from the spec: `JsonObject::erase`, the object without the label. -/
def JsonObject.erase (o : JsonObject) (label : String) : JsonObject :=
  o.filter (fun f => f.1 != label)

/-- Whether the value is the number `n`. -/
def Json.isInt (j : Json) (n : Int) : Bool :=
  match j with
  | .int m => m == n
  | _ => false

/-- The value of a label of a JSON object, `none` for a value of another kind. -/
def Json.field (j : Json) (label : String) : Option Json :=
  match j with
  | .object fields => JsonObject.get fields label
  | _ => none

end Util

namespace DPDK

namespace BFRT

open Util

/-- The type `P4Id` of the identifiers. -/
abbrev P4Id := Nat

/-- The preamble of an object of the P4Info; `annotations` is what
`transformAnnotations(pre)`, which is not in this file, makes of its annotations. -/
structure Preamble where
  id : P4Id
  name : String
  annotations : JsonArray

/-- A `p4configv1::ActionProfile`. -/
structure ActionProfile where
  preamble : Preamble
  table_ids : List P4Id
  with_selector : Bool
  size : Int
  max_group_size : Int

/-- A `::dpdk::ActionSelector`, the message packed in an instance of the DPDK action
selector. -/
structure DpdkActionSelector where
  table_ids : List P4Id
  max_group_size : Int
  num_groups : Int

/-- A `p4configv1::ExternInstance`; `info` is what `info().UnpackTo(&actionSelector)`
unpacks, `none` when the message does not pack an action selector. -/
structure ExternInstance where
  preamble : Preamble
  info : Option DpdkActionSelector

/-- A `p4configv1::Extern`: a type id and the instances of the type. -/
structure ExternType where
  extern_type_id : Nat
  instances : List ExternInstance

/-- A `p4configv1::Table`, as far as this file reads it. -/
structure Table where
  preamble : Preamble
  implementation_id : P4Id

/-- A `p4configv1::P4Info`, as far as this file reads it. -/
structure P4Info where
  tables : List Table
  action_profiles : List ActionProfile
  externs : List ExternType

/-- The errors reported with `::error`. -/
inductive SchemaError where
  | doesNotPackActionSelector (name : String)
  | invalidImplementationId (implementationId : P4Id)
  deriving DecidableEq, Repr

/-- Modelled from the spec: `makeBfRtId` is declared outside this file.  The
identifier is derived from the preamble id by prefix-encoding: the prefix stands in the
upper eight bits of the 32, the lower 24 bits are those of the id. -/
def makeBfRtId (id : P4Id) (pfx : Nat) : P4Id :=
  pfx % 256 * 2 ^ 24 + id % 2 ^ 24

/-- Modelled from the spec: `isOfType` is declared outside this file.  The prefix of
the identifier is the given one. -/
def isOfType (id : P4Id) (pfx : Nat) : Bool :=
  id / 2 ^ 24 % 256 == pfx

/-- Modelled from the spec: `makeTypeInt(type, default_value)` is declared outside this
file: the type, with its default value when there is one. -/
def makeTypeInt (type : String) (defaultValue : Option Int) : Json :=
  match defaultValue with
  | none => Json.object [("type", Json.str type)]
  | some v => Json.object [("type", Json.str type), ("default_value", Json.int v)]

/-- Modelled from the spec: `makeTypeBool()` is declared outside this file. -/
def makeTypeBool : Json :=
  Json.object [("type", Json.str "bool")]

/-- Modelled from the spec: `initTableJson` is declared outside this file.  The table
object starts with `name`, `id`, `table_type`, `size` and `annotations`, and an empty
`depends_on`. -/
def initTableJson (name : String) (id : P4Id) (tableType : String) (size : Int)
    (annotations : JsonArray) : JsonObject :=
  [("name", Json.str name), ("id", Json.int id), ("table_type", Json.str tableType),
   ("size", Json.int size), ("annotations", Json.array annotations),
   ("depends_on", Json.array [])]

/-- Modelled from the spec: `addKeyField` is declared outside this file.  It appends
to the key list a field with its id, name, whether it is mandatory, its match type and
its type. -/
def addKeyField (keyJson : JsonArray) (id : P4Id) (name : String) (mandatory : Bool)
    (matchType : String) (type : Json) : JsonArray :=
  keyJson ++ [Json.object [("id", Json.int id), ("name", Json.str name),
    ("repeated", Json.bool false), ("annotations", Json.array []),
    ("mandatory", Json.bool mandatory), ("match_type", Json.str matchType), ("type", type)]]

/-- Modelled from the spec: `makeCommonDataField` is declared outside this file: a
data field with its id, name, type and whether it is repeated. -/
def makeCommonDataField (id : P4Id) (name : String) (type : Json) (repeated : Bool) : Json :=
  Json.object [("id", Json.int id), ("name", Json.str name), ("repeated", Json.bool repeated),
    ("annotations", Json.array []), ("type", type)]

/-- Modelled from the spec: `addSingleton` is declared outside this file.  It appends
the field to the data list as a singleton, mandatory or not, read-only or not. -/
def addSingleton (dataJson : JsonArray) (dataField : Json) (mandatory readOnly : Bool) :
    JsonArray :=
  dataJson ++ [Json.object [("mandatory", Json.bool mandatory),
    ("read_only", Json.bool readOnly), ("singleton", dataField)]]

/-- Modelled from the spec: `addToDependsOn` is declared outside this file.  It adds
the id to the `depends_on` list of the table, once. -/
def addToDependsOn (tableJson : JsonObject) (id : P4Id) : JsonObject :=
  tableJson.map (fun f =>
    if f.1 == "depends_on" then
      match f.2 with
      | Json.array items =>
        if items.any (fun d => d.isInt id) then f else (f.1, Json.array (items ++ [Json.int id]))
      | _ => f
    else f)

/-- Modelled from the spec: the struct `ActionProf` of the base class is declared
outside this file. -/
structure ActionProf where
  name : String
  id : P4Id
  size : Int
  tableIds : List P4Id
  annotations : JsonArray

/-- The class `BfRtSchemaGenerator`: the P4Info, and what the file takes from outside:
the prefixes `p4configv1::P4Ids::ACTION_PROFILE`, `::dpdk::P4Ids::ACTION_SELECTOR` and
`::dpdk::P4Ids::ACTION_SELECTOR_GET_MEMBER`, the ids `BF_RT_DATA_...` of the data
fields, and the functions `collectTableIds`, `ActionProf::from`,
`ActionProf::makeActProfId` and `makeActSelectorId`; `actionProfTable` is the table
that `addActionProfCommon` of the base class makes of a profile. -/
structure BfRtSchemaGenerator where
  p4info : P4Info
  ACTION_PROFILE : Nat
  ACTION_SELECTOR : Nat
  ACTION_SELECTOR_GET_MEMBER : Nat
  BF_RT_DATA_ACTION_MEMBER_ID : P4Id
  BF_RT_DATA_SELECTOR_GROUP_ID : P4Id
  BF_RT_DATA_ACTION_MEMBER_STATUS : P4Id
  BF_RT_DATA_MAX_GROUP_SIZE : P4Id
  BF_RT_DATA_HASH_VALUE : P4Id
  collectTableIds : P4Info → List P4Id → List P4Id
  actionProfFrom : P4Info → ActionProfile → Option ActionProf
  actionProfTable : ActionProf → JsonObject
  makeActProfId : P4Id → P4Id
  makeActSelectorId : P4Id → P4Id

/-- The struct `BfRtSchemaGenerator::ActionSelector`. -/
structure ActionSelector where
  name : String
  get_mem_name : String
  id : P4Id
  get_mem_id : P4Id
  max_group_size : Int
  num_groups : Int
  tableIds : List P4Id
  annotations : JsonArray

namespace BfRtSchemaGenerator

/-- The function `ActionSelector::from(p4info, actionProfile)`. -/
def ActionSelector.fromActionProfile (self : BfRtSchemaGenerator)
    (actionProfile : ActionProfile) : Option ActionSelector :=
  let pre := actionProfile.preamble
  if !actionProfile.with_selector then
    none
  else
    let selectorId := makeBfRtId pre.id self.ACTION_SELECTOR
    let selectorGetMemId := makeBfRtId pre.id self.ACTION_SELECTOR_GET_MEMBER
    let tableIds := self.collectTableIds self.p4info actionProfile.table_ids
    some (ActionSelector.mk pre.name (pre.name ++ "_get_member") selectorId selectorGetMemId
      actionProfile.max_group_size actionProfile.size tableIds pre.annotations)

/-- The function `ActionSelector::fromDPDK`; the second component is the errors
reported. -/
def ActionSelector.fromDPDK (self : BfRtSchemaGenerator) (instance_ : ExternInstance) :
    Option ActionSelector × List SchemaError :=
  let pre := instance_.preamble
  match instance_.info with
  | none => (none, [SchemaError.doesNotPackActionSelector pre.name])
  | some actionSelector =>
    let selectorId := makeBfRtId pre.id self.ACTION_SELECTOR
    let selectorGetMemId := makeBfRtId pre.id self.ACTION_SELECTOR_GET_MEMBER
    let tableIds := self.collectTableIds self.p4info actionSelector.table_ids
    (some (ActionSelector.mk pre.name (pre.name ++ "_get_member") selectorId selectorGetMemId
      actionSelector.max_group_size actionSelector.num_groups tableIds pre.annotations), [])

/-- The method `addActionSelectorGetMemberCommon`: the table list after the call,
`none` when an `emplace` fails. -/
def addActionSelectorGetMemberCommon (self : BfRtSchemaGenerator) (tablesJson : JsonArray)
    (actionSelector : ActionSelector) : Option JsonArray := do
  let tableJson := initTableJson actionSelector.get_mem_name actionSelector.get_mem_id
    "SelectorGetMember" 1 actionSelector.annotations
  let keyJson : JsonArray := []
  let keyJson := addKeyField keyJson self.BF_RT_DATA_SELECTOR_GROUP_ID "$SELECTOR_GROUP_ID"
    true "Exact" (makeTypeInt "uint64" none)
  let keyJson := addKeyField keyJson self.BF_RT_DATA_HASH_VALUE "hash_value"
    true "Exact" (makeTypeInt "uint64" none)
  let tableJson ← tableJson.emplace "key" (Json.array keyJson)
  let dataJson : JsonArray := []
  let f := makeCommonDataField self.BF_RT_DATA_ACTION_MEMBER_ID "$ACTION_MEMBER_ID"
    (makeTypeInt "uint64" none) false
  let dataJson := addSingleton dataJson f false false
  let tableJson ← tableJson.emplace "data" (Json.array dataJson)
  let tableJson ← tableJson.emplace "supported_operations" (Json.array [])
  let tableJson ← tableJson.emplace "attributes" (Json.array [])
  let tableJson := addToDependsOn tableJson actionSelector.id
  pure (tablesJson ++ [Json.object tableJson])

/-- The method `addActionSelectorCommon`. -/
def addActionSelectorCommon (self : BfRtSchemaGenerator) (tablesJson : JsonArray)
    (actionSelector : ActionSelector) : Option JsonArray := do
  -- the maximum number of groups is the table size for the selector table
  let tableJson := initTableJson actionSelector.name actionSelector.id "Selector"
    actionSelector.num_groups actionSelector.annotations
  let keyJson : JsonArray := []
  let keyJson := addKeyField keyJson self.BF_RT_DATA_SELECTOR_GROUP_ID "$SELECTOR_GROUP_ID"
    true "Exact" (makeTypeInt "uint32" none)
  let tableJson ← tableJson.emplace "key" (Json.array keyJson)
  let dataJson : JsonArray := []
  let f := makeCommonDataField self.BF_RT_DATA_ACTION_MEMBER_ID "$ACTION_MEMBER_ID"
    (makeTypeInt "uint32" none) true
  let dataJson := addSingleton dataJson f false false
  let f := makeCommonDataField self.BF_RT_DATA_ACTION_MEMBER_STATUS "$ACTION_MEMBER_STATUS"
    makeTypeBool true
  let dataJson := addSingleton dataJson f false false
  let f := makeCommonDataField self.BF_RT_DATA_MAX_GROUP_SIZE "$MAX_GROUP_SIZE"
    (makeTypeInt "uint32" (some actionSelector.max_group_size)) false
  let dataJson := addSingleton dataJson f false false
  let tableJson ← tableJson.emplace "data" (Json.array dataJson)
  let tableJson ← tableJson.emplace "supported_operations" (Json.array [])
  let tableJson ← tableJson.emplace "attributes" (Json.array [])
  pure (tablesJson ++ [Json.object tableJson])

/-- Modelled from the spec: `Standard::findActionProf` is declared outside this file:
the action profile of the P4Info with this id. -/
def findActionProf (p4info : P4Info) (actProfId : P4Id) : Option ActionProfile :=
  p4info.action_profiles.find? (fun p => p.preamble.id == actProfId)

/-- The method `actProfHasSelector`. -/
def actProfHasSelector (self : BfRtSchemaGenerator) (actProfId : P4Id) : Option Bool :=
  if isOfType actProfId self.ACTION_PROFILE then
    match findActionProf self.p4info actProfId with
    | none => none
    | some actionProf => some actionProf.with_selector
  else if isOfType actProfId self.ACTION_SELECTOR then
    some true
  else
    none

/-- The method `addActionProfIds`: what it returns, the table object after the call,
and the errors reported; `none` when the `emplace` fails. -/
def addActionProfIds (self : BfRtSchemaGenerator) (table : Table) (tableJson : JsonObject) :
    Option (Bool × JsonObject × List SchemaError) :=
  let implementationId := table.implementation_id
  let step : Option (Option (JsonObject × P4Id × P4Id)) :=
    if implementationId > 0 then
      match self.actProfHasSelector implementationId with
      | none => some none
      | some hasSelector =>
        let tableType := if hasSelector then "MatchAction_Indirect_Selector"
          else "MatchAction_Indirect"
        match (tableJson.erase "table_type").emplace "table_type" (Json.str tableType) with
        | none => none
        | some tableJson1 =>
          some (some (tableJson1, self.makeActProfId implementationId,
            if hasSelector then self.makeActSelectorId implementationId else 0))
    else some (some (tableJson, 0, 0))
  match step with
  | none => none
  | some none =>
    some (false, tableJson, [SchemaError.invalidImplementationId implementationId])
  | some (some (tableJson1, actProfId, actSelectorId)) =>
    let tableJson2 := if actProfId > 0 then addToDependsOn tableJson1 actProfId else tableJson1
    let tableJson3 :=
      if actSelectorId > 0 then addToDependsOn tableJson2 actSelectorId else tableJson2
    some (true, tableJson3, [])

/-- The body of the loop of `addActionProfs`, for one action profile. -/
def addActionProf (self : BfRtSchemaGenerator) (tablesJson : JsonArray)
    (actionProf : ActionProfile) : Option JsonArray :=
  match self.actionProfFrom self.p4info actionProf with
  | none => some tablesJson
  | some actionProfInstance =>
    -- addActionProfCommon
    let tablesJson1 := tablesJson ++ [Json.object (self.actionProfTable actionProfInstance)]
    match ActionSelector.fromActionProfile self actionProf with
    | none => some tablesJson1
    | some actionSelectorInstance => self.addActionSelectorCommon tablesJson1 actionSelectorInstance

/-- The method `addActionProfs`. -/
def addActionProfs (self : BfRtSchemaGenerator) (tablesJson : JsonArray) : Option JsonArray :=
  self.p4info.action_profiles.foldlM self.addActionProf tablesJson

/-- The body of the inner loop of `addDPDKExterns`, for one instance. -/
def addDPDKInstance (self : BfRtSchemaGenerator) (acc : JsonArray × List SchemaError)
    (instance_ : ExternInstance) : Option (JsonArray × List SchemaError) :=
  match ActionSelector.fromDPDK self instance_ with
  | (some actionSelector, errors) =>
    match self.addActionSelectorCommon acc.1 actionSelector with
    | none => none
    | some tablesJson1 =>
      match self.addActionSelectorGetMemberCommon tablesJson1 actionSelector with
      | none => none
      | some tablesJson2 => some (tablesJson2, acc.2 ++ errors)
  | (none, errors) => some (acc.1, acc.2 ++ errors)

/-- The method `addDPDKExterns`: the table list after the call and the errors reported. -/
def addDPDKExterns (self : BfRtSchemaGenerator) (tablesJson : JsonArray) :
    Option (JsonArray × List SchemaError) :=
  self.p4info.externs.foldlM
    (fun acc type_ =>
      if type_.extern_type_id = self.ACTION_SELECTOR then
        type_.instances.foldlM self.addDPDKInstance acc
      else some acc)
    (tablesJson, [])

end BfRtSchemaGenerator

/-- The instances of the DPDK action selector in the P4Info: the instances of the
types whose `extern_type_id` is `::dpdk::P4Ids::ACTION_SELECTOR`, in order. -/
def BfRtSchemaGenerator.actionSelectorInstances (self : BfRtSchemaGenerator) :
    List ExternInstance :=
  (self.p4info.externs.filter (fun t => t.extern_type_id == self.ACTION_SELECTOR)).flatMap
    (fun t => t.instances)

/-- A P4Info for the examples: the action profile `p` of size 128 with a selector and
`max_group_size` 64, the action profile `q` without a selector, and the tables `t`,
`u` and `v`: `t` is implemented by `p`, `u` by nothing, `v` by a profile that the
P4Info does not have. -/
def sampleP4Info : P4Info :=
  { tables := [Table.mk (Preamble.mk 0x02000001 "t" []) 0x11000001,
      Table.mk (Preamble.mk 0x02000002 "u" []) 0,
      Table.mk (Preamble.mk 0x02000003 "v" []) 0x11000009]
    action_profiles := [ActionProfile.mk (Preamble.mk 0x11000001 "p" []) [0x02000001] true 128 64,
      ActionProfile.mk (Preamble.mk 0x11000002 "q" []) [] false 16 0]
    externs := [] }

/-- A generator for the examples: the prefix 0x11 for action profiles, 0x81 and 0x82
for the DPDK action selector and its member table. -/
def sampleGenerator : BfRtSchemaGenerator :=
  { p4info := sampleP4Info
    ACTION_PROFILE := 0x11
    ACTION_SELECTOR := 0x81
    ACTION_SELECTOR_GET_MEMBER := 0x82
    BF_RT_DATA_ACTION_MEMBER_ID := 65537
    BF_RT_DATA_SELECTOR_GROUP_ID := 65538
    BF_RT_DATA_ACTION_MEMBER_STATUS := 65539
    BF_RT_DATA_MAX_GROUP_SIZE := 65540
    BF_RT_DATA_HASH_VALUE := 65541
    collectTableIds := fun _ ids => ids
    actionProfFrom := fun _ p =>
      some (ActionProf.mk p.preamble.name (makeBfRtId p.preamble.id 0x11) p.size p.table_ids
        p.preamble.annotations)
    actionProfTable := fun a => initTableJson a.name a.id "ActionProfile" a.size a.annotations
    makeActProfId := fun id => makeBfRtId id 0x11
    makeActSelectorId := fun id => makeBfRtId id 0x81 }

/-- The table object of a match table before `addActionProfIds`. -/
def sampleTableJson : JsonObject :=
  initTableJson "t" 0x02000001 "MatchAction_Direct" 1024 []

/-- Modelled from the spec: `addOneOf` is declared outside this file.  It appends to the
data list a oneof of the choices, mandatory or not, read-only or not. -/
def addOneOf (dataJson : JsonArray) (choicesJson : JsonArray) (mandatory readOnly : Bool) :
    JsonArray :=
  dataJson ++ [Json.object [("mandatory", Json.bool mandatory),
    ("read_only", Json.bool readOnly), ("oneof", Json.array choicesJson)]]

/-- What stops `addMatchActionData`: the internal bug on a table type it does not know,
or the label that `emplace` finds in the object already. -/
inductive SchemaBug where
  | invalidTableType (tableType : String)
  | labelExists (label : String)
  deriving DecidableEq, Repr

/-- The method `addMatchActionData`.  The function `makeActionSpecs` of the base class
is taken from outside.  The result is the bug that stopped the method, if any, and the
table object and the data list as the method leaves them; `none` is a table object
without a string `table_type`, which the method dereferences. -/
def BfRtSchemaGenerator.addMatchActionData (self : BfRtSchemaGenerator)
    (makeActionSpecs : Table → P4Id → Json) (table : Table) (tableJson : JsonObject)
    (dataJson : JsonArray) (maxActionParamId : P4Id) :
    Option (Option SchemaBug × JsonObject × JsonArray) :=
  match tableJson.get "table_type" with
  | some (Json.str tableType) =>
    if tableType == "MatchAction_Direct" then
      match tableJson.emplace "action_specs" (makeActionSpecs table maxActionParamId) with
      | some tableJson1 => some (none, tableJson1, dataJson)
      | none => some (some (SchemaBug.labelExists "action_specs"), tableJson, dataJson)
    else if tableType == "MatchAction_Indirect" then
      let f := makeCommonDataField self.BF_RT_DATA_ACTION_MEMBER_ID "$ACTION_MEMBER_ID"
        (makeTypeInt "uint32" none) false
      some (none, tableJson, addSingleton dataJson f true false)
    else if tableType == "MatchAction_Indirect_Selector" then
      -- action member id and selector group id are mutually-exclusive, so
      -- we use a "oneof" here.
      let choicesDataJson : JsonArray :=
        [makeCommonDataField self.BF_RT_DATA_ACTION_MEMBER_ID "$ACTION_MEMBER_ID"
          (makeTypeInt "uint32" none) false,
         makeCommonDataField self.BF_RT_DATA_SELECTOR_GROUP_ID "$SELECTOR_GROUP_ID"
          (makeTypeInt "uint32" none) false]
      some (none, tableJson, addOneOf dataJson choicesDataJson true false)
    else
      some (some (SchemaBug.invalidTableType tableType), tableJson, dataJson)
  | _ => none

end BFRT

end DPDK

namespace P4
open IR

/-- From the reference map `r0` to `r1`, the calls of `newName` have introduced the
names `new`, in this order: the generator is the same, the names in use are those of
`r0` and the new ones, the new names are pairwise distinct, and none was in use. -/
def ReferenceMap.Introduced (r0 r1 : ReferenceMap) (new : List cstring) : Prop :=
  r1.gen = r0.gen ∧ r1.usedNames = new.reverse ++ r0.usedNames ∧ new.Nodup ∧
    ∀ n ∈ new, n ∉ r0.usedNames

/-- The declarations of a control that `ComputeNewNames` renames: those at and below
its locals, and the variables declared in its body. -/
def GeneralInliner.renamedDeclarations (callee : P4Control) : List Declaration :=
  callee.controlLocals.flatMap GeneralInliner.localDeclarations ++
    GeneralInliner.statementDeclarations.componentsDeclarations callee.body

/-- The declarations of a container that `ComputeNewNames` renames: for a parser those
at and below its locals, and the variables declared in its states. -/
def GeneralInliner.containerDeclarations : IContainer → List Declaration
  | .p4Control callee => GeneralInliner.renamedDeclarations callee
  | .p4Parser callee =>
    callee.parserLocals.flatMap GeneralInliner.localDeclarations ++
      callee.states.flatMap (fun q =>
        GeneralInliner.statementDeclarations.componentsDeclarations q.components)

/-- The declarations that are renamed have identities of their own, in each container
that is the callee of an instance among the locals. -/
def GeneralInliner.distinctIdentities (declToCallee : List (Nat × IContainer))
    (locals : List Declaration) : Prop :=
  ∀ inst callee, Declaration.declarationInstance inst ∈ locals →
    declToCallee.lookup inst.decl = some callee →
    ((GeneralInliner.containerDeclarations callee).map (fun d => d.decl)).Nodup

/-- The callee control `E`: it has no parameters and no locals, and its body declares
the variable `t`. -/
def sampleControlE : P4Control :=
  { decl := 90, name := "E", annotations := [], typeParameters := [], applyParams := [],
    constructorParams := [], controlLocals := [],
    body := [Statement.declarationVariable
      (Declaration_Variable.mk 91 "t" [] (Type_.bits 8) none)] }

/-- The instance `y` of `E`, a local of the caller. -/
def sampleInstanceY : Declaration_Instance :=
  Declaration_Instance.mk 95 "y" [] (Type_.typeName "E") []

/-- A call `y.apply()`; `node` tells the call sites apart. -/
def sampleCallY (node : Nat) : MethodCallStatement :=
  MethodCallStatement.mk (some node)
    (Expression.member (Expression.pathExpression (IR.Path.mk 20 "y" false)) "apply") []

/-- The caller control `F`: the local `y`, and a body that calls `y.apply()` twice. -/
def sampleControlF : P4Control :=
  { decl := 96, name := "F", annotations := [], typeParameters := [], applyParams := [],
    constructorParams := [],
    controlLocals := [Declaration.declarationInstance sampleInstanceY],
    body := [Statement.methodCallStatement (sampleCallY 700),
      Statement.methodCallStatement (sampleCallY 701)] }

/-- The work for the caller `F`: `y` is an instance of `E`, called at two call sites. -/
def sampleWorkTwoCalls : Work :=
  { declToCallee := [(95, IContainer.p4Control sampleControlE)]
    callToInstance := [(sampleCallY 700, 95), (sampleCallY 701, 95)]
    substitutions := [] }

/-- The reference map for the caller `F`: the names of the program are in use. -/
def sampleRefMapF : ReferenceMap :=
  { gen := sampleGen, usedNames := ["E", "F", "y", "t"],
    resolution := Resolution.mk [(20, 95)] 100 }

/-- Whether the type is a header stack (`is<IR::Type_Stack>()`). -/
def IR.Type_.isStack : Type_ → Bool
  | .stack _ _ => true
  | _ => false

/-- Whether the member access is `.next` or `.last` of an expression with a
header-stack type: the test of `preorder(const IR::Member*)`. -/
def FindLocationSets.stackAccess (basetype : Type_) (member : cstring) : Bool :=
  basetype.isStack && (member == Type_Stack.next || member == Type_Stack.last)

/-- The location set of the argument that the call binds to the parameter:
`fls.locations(mcd->substitution.lookup(param))`. -/
def GeneralInliner.argumentLocations (storageMap : StorageMap) (mcd : MethodCallDescription)
    (param : Parameter) : Option LocationSet :=
  match mcd.substitution.lookup param with
  | none => none
  | some arg => FindLocationSets.locations storageMap arg

/-- The set `useTemporary` of `preorder(IR::P4Control*)` after the block
`if (call != nullptr)`: it stays empty when the instance has no unique call. -/
def GeneralInliner.useTemporarySet (storageMap : StorageMap)
    (mcd : Option MethodCallDescription) : Option (List Nat) :=
  match mcd with
  | none => some []
  | some mcd => GeneralInliner.useTemporary storageMap mcd

/-- Whether the loop over the apply-parameters takes the branch `use a temporary
variable` for the parameter: it has a direction, and the instance has no unique call or
the parameter is in the set `useTemporary`. -/
def GeneralInliner.needsTemporary (call : Option MethodCallStatement)
    (useTemporary : List Nat) (param : Parameter) : Bool :=
  param.direction != Direction.None && !(call.isSome && !useTemporary.contains param.decl)

/-- Whether the local is an instance that is inlined: the negation of the test
`inst == nullptr || declToCallee.find(inst) == declToCallee.end()`. -/
def GeneralInliner.isInlinedInstance (work : Work) : Declaration → Bool
  | .declarationInstance inst => (work.declToCallee.lookup inst.decl).isSome
  | _ => false

/-- The state rename map that the splice of a call into `state` computes for the renamed
clone `callee1` of the callee: `ComputeNewStateNames` with the name of the clone as the
prefix and `newName(state->name)` as the name for `accept`. -/
def GeneralInliner.stateNames (refMap1 : ReferenceMap) (state : ParserState)
    (callee1 : P4Parser) : StateRenameMap :=
  ((ComputeNewStateNames.mk (refMap1.newName state.name).2 callee1.name
    (refMap1.newName state.name).1 []).apply callee1).stateRenameMap

/-- The states of the callee that the splice pushes: the states of the clone renamed by
`RenameStates`, without `accept` and `reject`. -/
def GeneralInliner.splicedStates (refMap1 : ReferenceMap) (state : ParserState)
    (callee1 : P4Parser) : List ParserState :=
  (callee1.states.map (RenameStates.mk
    (GeneralInliner.stateNames refMap1 state callee1)).preorder_ParserState).filter
      (fun q => notBuiltin q.name)

/-- The specification of the states that replace the state `state` whose components,
from some point on, are `components`, when the fragment under construction has the name
`name` and the annotations `annotations`.  Without an inlined invocation there is one
last fragment, which carries the select expression of `state`.  Otherwise the components
are a segment without inlined invocation, an inlined invocation and the rest: the
fragment transitions without a condition to the state that the start state of the
renamed clone of the callee is renamed to, the states of the clone follow, and the rest
is fragmented under the name `newName(state.name)` with empty annotations. -/
inductive GeneralInliner.Fragmented (work : Work) (state : ParserState) :
    cstring → Annotations → List Statement → List ParserState → Prop
  | last (name : cstring) (annotations : Annotations) (segment : List Statement)
      (fragment : ParserState) :
      GeneralInliner.noInlinedCall work segment →
      fragment.name = name → fragment.annotations = annotations →
      fragment.selectExpression = state.selectExpression →
      Fragmented work state name annotations segment [fragment]
  | cut (name : cstring) (annotations : Annotations) (segment rest : List Statement)
      (call : MethodCallStatement) (decl : Nat) (callee callee1 : P4Parser)
      (substs1 : PerInstanceSubstitutions) (refMap0 refMap1 : ReferenceMap)
      (fragment : ParserState) (node : Nat) (tail : List ParserState) :
      GeneralInliner.noInlinedCall work segment →
      work.findCall call = some decl →
      work.declToCallee.lookup decl = some (IContainer.p4Parser callee) →
      substs1.rename_P4Parser refMap0 callee = some (callee1, refMap1) →
      fragment.name = name → fragment.annotations = annotations →
      fragment.selectExpression = some (Transition.pathExpression (IR.Path.mk node
        ((GeneralInliner.stateNames refMap1 state callee1).get ParserState.start) false)) →
      Fragmented work state (refMap1.newName state.name).1 Annotations.empty rest tail →
      Fragmented work state name annotations
        (segment ++ Statement.methodCallStatement call :: rest)
        (fragment :: (GeneralInliner.splicedStates refMap1 state callee1 ++ tail))

/-- The specification of the copy-in for one apply-parameter and its argument: the
assignment `local := arg` for an `in` or `inout` parameter, the reset statements of the
local for an `out` parameter, nothing for a parameter without direction.  The local is
the expression that the substitutions hold for the name of the parameter. -/
def GeneralInliner.copyInOf (self : GeneralInliner) (substs : PerInstanceSubstitutions)
    (binding : Parameter × Expression) (piece : List Statement) : Prop :=
  if binding.1.direction = Direction.In ∨ binding.1.direction = Direction.InOut then
    ∃ loc, substs.paramSubst.lookupByName binding.1.name = some loc ∧
      piece = [Statement.assignmentStatement loc binding.2]
  else if binding.1.direction = Direction.Out then
    ∃ loc paramType, substs.paramSubst.lookupByName binding.1.name = some loc ∧
      self.typeMap.declType binding.1.decl = some paramType ∧
      piece = DoResetHeaders.generateResets paramType loc
  else piece = []

/-- The specification of the copy-out for one apply-parameter and its argument: the
assignment `arg := local` for an `out` or `inout` parameter, nothing otherwise. -/
def GeneralInliner.copyOutOf (substs : PerInstanceSubstitutions)
    (binding : Parameter × Expression) (piece : List Statement) : Prop :=
  if binding.1.direction = Direction.InOut ∨ binding.1.direction = Direction.Out then
    ∃ loc, substs.paramSubst.lookupByName binding.1.name = some loc ∧
      piece = [Statement.assignmentStatement binding.2 loc]
  else piece = []

/-- The specification of the components of the fragments that replace a state whose
components, from some point on, are `components`, when the fragment under construction
begins with the statements `first`.  Without an inlined invocation the last fragment
holds `first` and then the components.  Otherwise the components are a segment without
inlined invocation, an inlined invocation and the rest: the fragment holds `first`, the
segment and then the copy-in for each apply-parameter of the callee with its argument,
in order; the states of the clone of the callee follow; and the fragments of the rest
begin with the copy-out for each apply-parameter with its argument, in order.  The
locals are those of the substitutions `substs1`, which hold what the substitutions of
the instance hold. -/
inductive GeneralInliner.Placed (self : GeneralInliner) (work : Work) (state : ParserState) :
    List Statement → List Statement → List ParserState → Prop
  | last (first segment : List Statement) (fragment : ParserState) :
      GeneralInliner.noInlinedCall work segment →
      fragment.components = first ++ segment →
      Placed self work state first segment [fragment]
  | cut (first segment rest : List Statement)
      (call : MethodCallStatement) (decl : Nat) (callee callee1 : P4Parser)
      (substs substs1 : PerInstanceSubstitutions) (refMap0 refMap1 : ReferenceMap)
      (copyin copyout : List (List Statement))
      (fragment : ParserState) (tail : List ParserState) :
      GeneralInliner.noInlinedCall work segment →
      work.findCall call = some decl →
      work.declToCallee.lookup decl = some (IContainer.p4Parser callee) →
      work.substitutions.lookup decl = some substs →
      (∀ n v, substs.paramSubst.lookupByName n = some v →
        substs1.paramSubst.lookupByName n = some v) →
      substs1.rename_P4Parser refMap0 callee = some (callee1, refMap1) →
      List.Forall₂ (GeneralInliner.copyInOf self substs1)
        (callee.applyParams.zip call.arguments) copyin →
      List.Forall₂ (GeneralInliner.copyOutOf substs1)
        (callee.applyParams.zip call.arguments) copyout →
      fragment.components = first ++ segment ++ copyin.flatten →
      Placed self work state copyout.flatten rest tail →
      Placed self work state first
        (segment ++ Statement.methodCallStatement call :: rest)
        (fragment :: (GeneralInliner.splicedStates refMap1 state callee1 ++ tail))

/-- The callee parser `P(in H a, out H b)` with the states `start` and `accept`. -/
def sampleParserP : P4Parser :=
  { decl := 50, name := "P", annotations := [], typeParameters := [],
    applyParams := [Parameter.mk 71 "a" Direction.In sampleHeader [],
                    Parameter.mk 72 "b" Direction.Out sampleHeader []],
    constructorParams := [], parserLocals := [],
    states := [
      ParserState.mk 51 "start" [] []
        (some (Transition.pathExpression (IR.Path.mk 3 "accept" false))),
      ParserState.mk 53 "accept" [] [] none] }

/-- The call `inst.apply(h1, h2)`. -/
def sampleCallP : MethodCallStatement :=
  MethodCallStatement.mk (some 500)
    (Expression.member (Expression.pathExpression (IR.Path.mk 5 "inst" false)) "apply")
    sampleHeaderArguments

/-- The state `start` of a caller: `h1.f = h2.f; inst.apply(h1, h2); h2.f = h1.f;
transition accept`. -/
def sampleStateP : ParserState :=
  ParserState.mk 62 "start" []
    [Statement.assignmentStatement
      (Expression.member (Expression.pathExpression (IR.Path.mk 14 "h1" false)) "f")
      (Expression.member (Expression.pathExpression (IR.Path.mk 15 "h2" false)) "f"),
     Statement.methodCallStatement sampleCallP,
     Statement.assignmentStatement
      (Expression.member (Expression.pathExpression (IR.Path.mk 15 "h2" false)) "f")
      (Expression.member (Expression.pathExpression (IR.Path.mk 14 "h1" false)) "f")]
    (some (Transition.pathExpression (IR.Path.mk 4 "accept" false)))

/-- The work for the state `sampleStateP` after the preparation of the caller: the
parameters `a` and `b` of the instance are bound to the locals `a_0` and `b_0`. -/
def sampleWorkP : Work :=
  { declToCallee := [(61, IContainer.p4Parser sampleParserP)]
    callToInstance := [(sampleCallP, 61)]
    substitutions := [(61, PerInstanceSubstitutions.mk
      (ParameterSubstitution.mk
        [(Parameter.mk 71 "a" Direction.In sampleHeader [],
          Expression.pathExpression (IR.Path.mk 90 "a_0" false)),
         (Parameter.mk 72 "b" Direction.Out sampleHeader [],
          Expression.pathExpression (IR.Path.mk 91 "b_0" false))])
      (TypeVariableSubstitution.mk []) SymRenameMap.empty)] }

/-- The paths of the path expressions of an expression, in the order in which a
transform visits them. -/
def IR.Expression.paths : Expression → List IR.Path
  | .pathExpression path => [path]
  | .constant _ => []
  | .stringLiteral _ => []
  | .typeNameExpression _ => []
  | .member e _ => e.paths
  | .arrayIndex l r => l.paths ++ r.paths
  | .slice a b c => a.paths ++ (b.paths ++ c.paths)
  | .binary _ l r => l.paths ++ r.paths
  | .unary _ e => e.paths
  | .mux a b c => a.paths ++ (b.paths ++ c.paths)
  | .listExpression cs => pathsList cs
  | .methodCallExpression m as => m.paths ++ pathsList as
where
  /-- The paths of the path expressions of a vector of expressions. -/
  pathsList : List Expression → List IR.Path
    | [] => []
    | e :: es => e.paths ++ pathsList es

/-- The paths of the path expressions of a statement, in the order in which a transform
visits them. -/
def IR.Statement.paths : Statement → List IR.Path
  | .assignmentStatement l r => l.paths ++ r.paths
  | .methodCallStatement call =>
    call.method.paths ++ Expression.paths.pathsList call.arguments
  | .blockStatement _ components => pathsList components
  | .ifStatement c t f =>
    c.paths ++ (t.paths ++
      (match f with
        | none => []
        | some s => s.paths))
  | .declarationVariable d =>
    match d.initializer with
    | none => []
    | some e => e.paths
  | .emptyStatement => []
where
  /-- The paths of the path expressions of a vector of statements. -/
  pathsList : List Statement → List IR.Path
    | [] => []
    | s :: ss => s.paths ++ pathsList ss

/-- The transform meets the paths one after the other: `postorder(IR::PathExpression*)`
turns each into an expression and hands the reference map on to the next. -/
def Substitutions.rewritesPaths (self : Substitutions) :
    List IR.Path → Resolution → List Expression → Resolution → Prop
  | [], res, values, res1 => values = [] ∧ res1 = res
  | path :: paths, res, values, res1 =>
    ∃ value rest res2, values = value :: rest ∧
      self.postorder_PathExpression path res = some (value, res2) ∧
      rewritesPaths self paths res2 rest res1

/-- The paths `paths1` are what the transform, started on the reference map `res`, leaves
of the paths `paths`: those of the expressions that `postorder(IR::PathExpression*)`
has returned for them, in order; `res1` is the reference map afterwards. -/
def Substitutions.tracesPaths (self : Substitutions) (paths : List IR.Path)
    (res : Resolution) (paths1 : List IR.Path) (res1 : Resolution) : Prop :=
  ∃ values, self.rewritesPaths paths res values res1 ∧
    paths1 = values.flatMap Expression.paths

/-- Whether the first loop of `analyze` adds the edge caller → callee for the entry: the
call `cg.calls(inl->caller, inl->callee)` is reached. -/
def InlineWorkList.addsEdge (allowMultipleCalls : Bool) (inl : InlineWorkItem) : Bool :=
  !(InlineWorkList.analyzeEntry allowMultipleCalls ([], []) inl).1.isEmpty

/-- A work list where the control 1 holds an instance of 2 that is called once, an
instance of 3 that is not called and an instance of 4 that is called twice. -/
def sampleUncalled : InlineWorkList :=
  InlineWorkList.mk [InlineWorkItem.mk 1 2 10 [100], InlineWorkItem.mk 1 3 11 [],
    InlineWorkItem.mk 1 4 12 [101, 102]] []

/-- The callee control `G` with the local variable `v` and the body `v = v`. -/
def sampleControlG : P4Control :=
  { decl := 92, name := "G", annotations := [], typeParameters := [], applyParams := [],
    constructorParams := [],
    controlLocals := [Declaration.declarationVariable
      (Declaration_Variable.mk 97 "v" [] (Type_.bits 8) none)],
    body := [Statement.assignmentStatement
      (Expression.pathExpression (IR.Path.mk 30 "v" false))
      (Expression.pathExpression (IR.Path.mk 31 "v" false))] }

/-- The instance `z` of `G`, a local of the caller. -/
def sampleInstanceZ : Declaration_Instance :=
  Declaration_Instance.mk 98 "z" [] (Type_.typeName "G") []

/-- The call `z.apply()`. -/
def sampleCallZ : MethodCallStatement :=
  MethodCallStatement.mk (some 800)
    (Expression.member (Expression.pathExpression (IR.Path.mk 32 "z" false)) "apply") []

/-- The work for a caller with the instance `z` of `G`, called once. -/
def sampleWorkG : Work :=
  { declToCallee := [(98, IContainer.p4Control sampleControlG)]
    callToInstance := [(sampleCallZ, 98)]
    substitutions := [] }

/-- The expressions that `FindLocationSets` receives, which are the arguments of a call
after type checking: every path that is visited resolves, and every member that is
visited has a type, which is not a method type, and a base with a type.  A member whose
type is a method type is the method of a method call expression, and the visit does not
go below a method call expression. -/
def FindLocationSets.receivable (storageMap : StorageMap) : Expression → Bool
  | .pathExpression path => (storageMap.refMap.getDeclaration path).isSome
  | .member expr member =>
    receivable storageMap expr &&
      (match storageMap.typeMap.exprType (.member expr member) with
        | none => false
        | some .method => false
        | some _ => (storageMap.typeMap.exprType expr).isSome)
  | .arrayIndex left right => receivable storageMap left && receivable storageMap right
  | .slice e0 _ _ => receivable storageMap e0
  | .binary _ left right => receivable storageMap left && receivable storageMap right
  | .unary _ expr => receivable storageMap expr
  | .mux e0 e1 e2 =>
    receivable storageMap e0 && (receivable storageMap e1 && receivable storageMap e2)
  | .listExpression components => receivableList storageMap components
  | .typeNameExpression _ => true
  | .constant _ => true
  | .stringLiteral _ => true
  | .methodCallExpression _ _ => true
where
  /-- The components of a list expression are all receivable. -/
  receivableList (storageMap : StorageMap) : List Expression → Bool
    | [] => true
    | c :: cs => receivable storageMap c && receivableList storageMap cs

/-- The names that successive calls of `newName` return for the bases, in order,
starting from the reference map `refMap`. -/
def ReferenceMap.newNames (refMap : ReferenceMap) : List cstring → List cstring
  | [] => []
  | base :: rest => (refMap.newName base).1 :: newNames (refMap.newName base).2 rest

/-- The inlining of the instance `inst` of the control `callee`, from the loop variables
`p` to `p1`, puts `piece` in the place of the instance.  `ComputeNewNames`, with the
external name of the instance as the prefix, computes the rename map on the reference
map of `p`.  The substitutions `substs` are stored for the instance in the work: they
hold that rename map, the type bindings of the instance, and the bindings of the
constructor parameters followed by one binding `extra` for each apply-parameter with a
direction.  The `temporaries` are one variable for each apply-parameter that needs a
temporary for the set `useTemporary` of the unique call, in the order of the
parameters: their names are those of successive calls of `newName`, their nodes are
numbered from the next node, each has the type and the annotations of its parameter,
and the parameter is bound to a path with the name of the variable.  The `clone` is
what `rename` with the stored substitutions makes of the callee; each local of the clone
has the identity of a local of the callee, in order, with the name that the rename map
of the stored substitutions holds for it.  The piece is the temporaries followed by the
locals of the clone, and it is appended to the locals. -/
def GeneralInliner.instanceReplacement (self : GeneralInliner)
    (p p1 : GeneralInliner.Preparation) (inst : Declaration_Instance) (callee : P4Control)
    (piece : List Declaration) : Prop :=
  ∃ (cnn0 : ComputeNewNames) (set : List Nat) (substs : PerInstanceSubstitutions)
    (extra : List (Parameter × Expression)) (temporaries : List Declaration)
    (clone : P4Control),
    ComputeNewNames.create (IR.externalName inst.name inst.annotations) p.refMap
      SymRenameMap.empty = some cnn0 ∧
    GeneralInliner.useTemporarySet
      (StorageMap.mk (GeneralInliner.computeNewNames_P4Control cnn0 callee).refMap
        self.typeMap self.hasStorage)
      ((p.work.uniqueCaller inst.decl).map
        (MethodCallDescription.create callee.applyParams)) = some set ∧
    p1.work = { p.work with
      substitutions := (inst.decl, substs) :: p.work.substitutions } ∧
    substs.renameMap = (GeneralInliner.computeNewNames_P4Control cnn0 callee).renameMap ∧
    substs.tvs =
      (match inst.type with
        | .specialized _ arguments =>
          (TypeVariableSubstitution.mk []).setBindings callee.typeParameters arguments
        | _ => TypeVariableSubstitution.mk []) ∧
    substs.paramSubst.bindings =
      (ParameterSubstitution.empty.populate callee.constructorParams
        inst.arguments).bindings ++ extra ∧
    extra.map Prod.fst = callee.applyParams.filter (fun q => q.direction != Direction.None) ∧
    (∀ q ∈ callee.applyParams, q.direction ≠ Direction.None →
      GeneralInliner.needsTemporary (p.work.uniqueCaller inst.decl) set q = false →
      ∃ call arg, p.work.uniqueCaller inst.decl = some call ∧
        (MethodCallDescription.create callee.applyParams call).substitution.lookup q
          = some arg ∧
        (q, arg) ∈ extra) ∧
    temporaries.map (fun d => d.name) =
      (GeneralInliner.computeNewNames_P4Control cnn0 callee).refMap.newNames
        ((callee.applyParams.filter
          (GeneralInliner.needsTemporary (p.work.uniqueCaller inst.decl) set)).map
            (fun q => q.name)) ∧
    temporaries.map (fun d => d.decl) =
      List.range'
        ((GeneralInliner.computeNewNames_P4Control cnn0 callee).refMap.resolution.nextNode + 1)
        (callee.applyParams.filter
          (GeneralInliner.needsTemporary (p.work.uniqueCaller inst.decl) set)).length 2 ∧
    List.Forall₂ (fun q d => ∃ node : Nat,
        d = Declaration.declarationVariable
          (Declaration_Variable.mk (node + 1) d.name q.annotations q.type none) ∧
        (q, Expression.pathExpression (IR.Path.mk node d.name false)) ∈ extra)
      (callee.applyParams.filter
        (GeneralInliner.needsTemporary (p.work.uniqueCaller inst.decl) set))
      temporaries ∧
    substs.rename_P4Control
      (ReferenceMap.mk (GeneralInliner.computeNewNames_P4Control cnn0 callee).refMap.gen
        ((temporaries.map (fun d => d.name)).reverse ++
          (GeneralInliner.computeNewNames_P4Control cnn0 callee).refMap.usedNames)
        (Resolution.mk
          (GeneralInliner.computeNewNames_P4Control cnn0
            callee).refMap.resolution.pathToDeclaration
          ((GeneralInliner.computeNewNames_P4Control cnn0
            callee).refMap.resolution.nextNode + 2 * temporaries.length)))
      callee = some (clone, p1.refMap) ∧
    List.Forall₂ (fun d d1 => d1.decl = d.decl ∧
        substs.renameMap.getName d.decl = some d1.name)
      callee.controlLocals clone.controlLocals ∧
    piece = temporaries ++ clone.controlLocals ∧
    p1.locals = p.locals ++ piece

/-- One step of the loop over the locals of the caller, from the loop variables `p` to
`p1`, puts `piece` in the place of the local `s`: the local itself, with nothing else
changed, when it is not an inlined instance, and otherwise what the inlining of the
instance puts there. -/
def GeneralInliner.replacesLocal (self : GeneralInliner) (p p1 : GeneralInliner.Preparation)
    (s : Declaration) (piece : List Declaration) : Prop :=
  match s with
  | .declarationInstance inst =>
    match p.work.declToCallee.lookup inst.decl with
    | none => piece = [s] ∧ p1 = { p with locals := p.locals ++ [s] }
    | some container =>
      ∃ callee : P4Control, container = IContainer.p4Control callee ∧
        GeneralInliner.instanceReplacement self p p1 inst callee piece
  | _ => piece = [s] ∧ p1 = { p with locals := p.locals ++ [s] }

/-- The loop over the locals of the caller, from the loop variables `p` to `p1`, puts
the pieces in the places of the locals, one after the other. -/
def GeneralInliner.replacesLocals (self : GeneralInliner) :
    List Declaration → GeneralInliner.Preparation → GeneralInliner.Preparation →
    List (List Declaration) → Prop
  | [], p, p1, pieces => p1 = p ∧ pieces = []
  | s :: rest, p, p1, pieces =>
    ∃ (p2 : GeneralInliner.Preparation) (piece : List Declaration)
      (others : List (List Declaration)),
      GeneralInliner.replacesLocal self p p2 s piece ∧
      GeneralInliner.replacesLocals self rest p2 p1 others ∧
      pieces = piece :: others

/-- The caller `H` with the local `w` and the instance `z` of `G`, called once. -/
def sampleControlH : P4Control :=
  { decl := 93, name := "H", annotations := [], typeParameters := [], applyParams := [],
    constructorParams := [],
    controlLocals := [
      Declaration.declarationVariable (Declaration_Variable.mk 96 "w" [] (Type_.bits 8) none),
      Declaration.declarationInstance sampleInstanceZ],
    body := [Statement.methodCallStatement sampleCallZ] }

/-- The reference map for the caller `H` and its callee `G`. -/
def sampleRefMapH : ReferenceMap :=
  { gen := sampleGen, usedNames := ["H", "G", "w", "z", "v"],
    resolution := Resolution.mk [(30, 97), (31, 97), (32, 98)] 100 }

/-! # Theorems -/

/-! ## Naming -/

theorem SymRenameMap.getExtName_setNewName (m : SymRenameMap) (d : Nat) (n e : cstring) :
    (m.setNewName d n e).getExtName d = some e := by
  simp [SymRenameMap.getExtName, SymRenameMap.setNewName, List.lookup]

theorem SymRenameMap.getName_setNewName (m : SymRenameMap) (d : Nat) (n e : cstring) :
    (m.setNewName d n e).getName d = some n := by
  simp [SymRenameMap.getName, SymRenameMap.setNewName, List.lookup]

/-- C1: for a non-empty prefix the visitor exists, and after `rename d` the rename map
holds for `d` the external name `d.externalName` itself when that starts with ".", and
`prefix + "." + d.externalName` otherwise. -/
theorem ComputeNewNames.rename_external_name (pfx : cstring) (refMap : ReferenceMap)
    (renameMap : SymRenameMap) (d : Declaration) (hp : cstring.isNullOrEmpty pfx = false) :
    ∃ cnn, ComputeNewNames.create pfx refMap renameMap = some cnn ∧
      (cstring.startsWith d.externalName "." = true →
        (cnn.rename d).renameMap.getExtName d.decl = some d.externalName) ∧
      (cstring.startsWith d.externalName "." = false →
        (cnn.rename d).renameMap.getExtName d.decl = some (pfx ++ "." ++ d.externalName)) := by
  refine ⟨ComputeNewNames.mk pfx refMap renameMap, ?_, ?_, ?_⟩
  · simp [ComputeNewNames.create, hp]
  · intro h
    simp [ComputeNewNames.rename, h, SymRenameMap.getExtName_setNewName]
  · intro h
    simp [ComputeNewNames.rename, h, SymRenameMap.getExtName_setNewName]

/-- C1, at the table `.global_t` inlined under the prefix `inst`. -/
theorem ComputeNewNames.rename_external_name_witness :
    ∃ cnn, ComputeNewNames.create "inst" sampleRefMap SymRenameMap.empty = some cnn ∧
      (cstring.startsWith sampleGlobalTable.externalName "." = true →
        (cnn.rename sampleGlobalTable).renameMap.getExtName sampleGlobalTable.decl
          = some sampleGlobalTable.externalName) ∧
      (cstring.startsWith sampleGlobalTable.externalName "." = false →
        (cnn.rename sampleGlobalTable).renameMap.getExtName sampleGlobalTable.decl
          = some ("inst" ++ "." ++ sampleGlobalTable.externalName)) :=
  ComputeNewNames.rename_external_name "inst" sampleRefMap SymRenameMap.empty
    sampleGlobalTable (by decide)

/-- C2: after `rename d` the internal name stored for `d` is `newName(base)`, where
`base` is the stored external name with every "." replaced by "_"; the table with the
external name `.global_t` gets `newName("_global_t")` and keeps `.global_t`. -/
theorem ComputeNewNames.rename_internal_name (cnn : ComputeNewNames) (d : Declaration) :
    (∃ ext, (cnn.rename d).renameMap.getExtName d.decl = some ext ∧
      (cnn.rename d).renameMap.getName d.decl
        = some (cnn.refMap.newName (cstring.replace ext '.' '_')).1) ∧
    (cnn.rename sampleGlobalTable).renameMap.getName sampleGlobalTable.decl
      = some (cnn.refMap.newName "_global_t").1 ∧
    (cnn.rename sampleGlobalTable).renameMap.getExtName sampleGlobalTable.decl
      = some ".global_t" := by
  refine ⟨⟨_, SymRenameMap.getExtName_setNewName _ _ _ _, ?_⟩, ?_, ?_⟩
  · simp [ComputeNewNames.rename, SymRenameMap.getName_setNewName]
  · have h1 : sampleGlobalTable.externalName = ".global_t" := by decide
    have h2 : cstring.startsWith ".global_t" "." = true := by decide
    have h3 : cstring.replace ".global_t" '.' '_' = "_global_t" := by decide
    simp [ComputeNewNames.rename, SymRenameMap.getName_setNewName, h1, h2, h3]
  · have h1 : sampleGlobalTable.externalName = ".global_t" := by decide
    have h2 : cstring.startsWith ".global_t" "." = true := by decide
    simp [ComputeNewNames.rename, SymRenameMap.getExtName_setNewName, h1, h2]

theorem SymRenameMap.isRenamed_names (m : SymRenameMap) (d : Nat)
    (h : m.isRenamed d = true) :
    ∃ n e, m.getName d = some n ∧ m.getExtName d = some e := by
  unfold SymRenameMap.isRenamed at h
  unfold SymRenameMap.getName SymRenameMap.getExtName
  cases hl : m.names.lookup d with
  | none => simp [hl] at h
  | some v => exact ⟨v.1, v.2, rfl, rfl⟩

theorem hasNameAnnotation_setNameAnnotation (e : cstring) (annos : Option Annotations) :
    hasNameAnnotation ( setNameAnnotation e annos) e := by
  refine ⟨ Annotation.mk Annotation.nameAnnotation [Expression.stringLiteral e], ?_, rfl, rfl⟩
  simp [ setNameAnnotation, Annotations.addOrReplace]

/-- C3, as stated, fails for variables: the variable `tmp`, renamed to `inst_tmp` with
the external name `inst.tmp`, gets the new name but no `@name` annotation. -/
theorem Substitutions.variable_without_name_annotation :
    sampleRenameMap.isRenamed sampleVariable.decl = true ∧
    sampleRenameMap.getName sampleVariable.decl = some "inst_tmp" ∧
    sampleRenameMap.getExtName sampleVariable.decl = some "inst.tmp" ∧
    ∃ v, (Substitutions.mk (ParameterSubstitution.mk []) (TypeVariableSubstitution.mk [])
        sampleRenameMap).postorder_Declaration_Variable sampleVariable = some v ∧
      v.name = "inst_tmp" ∧ v.annotations = [] ∧
      ¬ hasNameAnnotation v.annotations "inst.tmp" := by
  refine ⟨by decide, by decide, by decide, ?_⟩
  refine ⟨{ sampleVariable with name := "inst_tmp" }, rfl, rfl, rfl, ?_⟩
  rintro ⟨a, ha, _⟩
  simp [sampleVariable] at ha

/-- C3, amended: for a table, action, instance or variable declaration whose identity
is in the rename map, the rewritten declaration has the internal name of the map; a
table, action or instance carries a `@name` annotation whose value is the external
name of the map, a variable keeps its annotations as they were. -/
theorem Substitutions.postorder_renames (self : Substitutions) (d : Declaration)
    (h : self.renameMap.isRenamed d.decl = true) :
    ∃ n e r, self.renameMap.getName d.decl = some n ∧
      self.renameMap.getExtName d.decl = some e ∧
      self.postorder_Declaration d = some r ∧ r.name = n ∧ r.decl = d.decl ∧
      ((∀ v, d ≠ Declaration.declarationVariable v) → hasNameAnnotation r.annotations e) ∧
      (∀ v, d = Declaration.declarationVariable v → r.annotations = v.annotations) := by
  obtain ⟨n, e, hn, he⟩ := SymRenameMap.isRenamed_names _ _ h
  cases d with
  | p4Table t =>
    simp only [Declaration.decl] at hn he
    refine ⟨n, e, Declaration.p4Table
      (P4Table.mk t.decl n ( setNameAnnotation e (some t.annotations)) t.properties),
      hn, he, ?_, rfl, rfl,
      fun _ => hasNameAnnotation_setNameAnnotation e (some t.annotations), ?_⟩
    · simp [Substitutions.postorder_Declaration, Substitutions.postorder_P4Table, hn, he]
    · intro v hv; cases hv
  | p4Action a =>
    simp only [Declaration.decl] at hn he
    refine ⟨n, e, Declaration.p4Action
      (P4Action.mk a.decl n ( setNameAnnotation e (some a.annotations)) a.parameters a.body),
      hn, he, ?_, rfl, rfl,
      fun _ => hasNameAnnotation_setNameAnnotation e (some a.annotations), ?_⟩
    · simp [Substitutions.postorder_Declaration, Substitutions.postorder_P4Action, hn, he]
    · intro v hv; cases hv
  | declarationInstance i =>
    simp only [Declaration.decl] at hn he
    refine ⟨n, e, Declaration.declarationInstance
      { i with name := n, annotations := setNameAnnotation e (some i.annotations) },
      hn, he, ?_, rfl, rfl,
      fun _ => hasNameAnnotation_setNameAnnotation e (some i.annotations), ?_⟩
    · simp [Substitutions.postorder_Declaration,
        Substitutions.postorder_Declaration_Instance, hn, he]
    · intro v hv; cases hv
  | declarationVariable v =>
    simp only [Declaration.decl] at hn he
    refine ⟨n, e, Declaration.declarationVariable { v with name := n },
      hn, he, ?_, rfl, rfl, fun hv => absurd rfl (hv v), ?_⟩
    · simp [Substitutions.postorder_Declaration,
        Substitutions.postorder_Declaration_Variable, hn, he]
    · intro w hw; cases hw; rfl

/-- C3, amended, at the variable `tmp` of the sample rename map. -/
theorem Substitutions.postorder_renames_witness :
    ∃ n e r, sampleRenameMap.getName 3 = some n ∧
      sampleRenameMap.getExtName 3 = some e ∧
      (Substitutions.mk (ParameterSubstitution.mk []) (TypeVariableSubstitution.mk [])
        sampleRenameMap).postorder_Declaration (Declaration.declarationVariable sampleVariable)
        = some r ∧ r.name = n ∧ r.decl = 3 ∧
      ((∀ v, Declaration.declarationVariable sampleVariable ≠ Declaration.declarationVariable v) →
        hasNameAnnotation r.annotations e) ∧
      (∀ v, Declaration.declarationVariable sampleVariable = Declaration.declarationVariable v →
        r.annotations = v.annotations) :=
  Substitutions.postorder_renames
    (Substitutions.mk (ParameterSubstitution.mk []) (TypeVariableSubstitution.mk [])
      sampleRenameMap)
    (Declaration.declarationVariable sampleVariable) (by decide)

/-! ## The work list -/

/-- No item of the batch has as callee the caller of an item added before it. -/
theorem InlineWorkList.nextLoop_spec (stack : List InlineWorkItem) :
    ∀ (processing : List Nat) (result : InlineSummary),
    ∃ taken, (InlineWorkList.nextLoop stack processing result).1.items = result.items ++ taken ∧
      stack = taken ++ (InlineWorkList.nextLoop stack processing result).2 ∧
      taken.Pairwise (fun u v => v.callee ≠ u.caller) ∧
      (∀ v ∈ taken, v.callee ∉ processing) ∧
      (∀ t, (InlineWorkList.nextLoop stack processing result).2.head? = some t →
        t.callee ∈ processing ∨ ∃ u ∈ taken, t.callee = u.caller) ∧
      (processing = [] → stack ≠ [] → taken ≠ []) := by
  induction stack with
  | nil =>
    intro processing result
    exact ⟨[], by simp [InlineWorkList.nextLoop]⟩
  | cons toadd rest ih =>
    intro processing result
    by_cases h : toadd.callee ∈ processing
    · refine ⟨[], ?_⟩
      simp only [InlineWorkList.nextLoop, h, if_true]
      refine ⟨by simp, by simp, List.Pairwise.nil, by simp, ?_, ?_⟩
      · intro t ht
        simp at ht
        subst ht
        exact Or.inl h
      · intro hp
        subst hp
        simp at h
    · obtain ⟨taken, h1, h2, h3, h4, h5, _⟩ := ih (toadd.caller :: processing) (result.add toadd)
      refine ⟨toadd :: taken, ?_⟩
      simp only [InlineWorkList.nextLoop, h, if_false]
      refine ⟨?_, ?_, ?_, ?_, ?_, by simp⟩
      · rw [h1]; simp [InlineSummary.add]
      · rw [List.cons_append, ← h2]
      · refine List.pairwise_cons.mpr ⟨?_, h3⟩
        intro v hv hc
        exact h4 v hv (by simp [hc])
      · intro v hv
        rcases List.mem_cons.mp hv with rfl | hv
        · exact h
        · intro hc
          exact h4 v hv (List.mem_cons_of_mem _ hc)
      · intro t ht
        rcases h5 t ht with hc | ⟨u, hu, hc⟩
        · rcases List.mem_cons.mp hc with hc | hc
          · exact Or.inr ⟨toadd, by simp, hc⟩
          · exact Or.inl hc
        · exact Or.inr ⟨u, List.mem_cons_of_mem _ hu, hc⟩

/-- What one call of `next` on a non-empty schedule returns. -/
theorem InlineWorkList.next_spec (self : InlineWorkList) (h : self.toInline ≠ []) :
    ∃ batch rest, self.next = (some batch, rest) ∧ rest.inlineMap = self.inlineMap ∧
      batch.items ≠ [] ∧
      batch.items ++ rest.toInline.reverse = self.toInline.reverse ∧
      batch.items.Pairwise (fun u v => v.callee ≠ u.caller) ∧
      (∀ t, rest.toInline.getLast? = some t → ∃ u ∈ batch.items, t.callee = u.caller) := by
  have hlen : ¬ self.toInline.length = 0 := by
    simpa [List.length_eq_zero] using h
  obtain ⟨taken, h1, h2, h3, _, h5, h6⟩ :=
    InlineWorkList.nextLoop_spec self.toInline.reverse [] (InlineSummary.mk [])
  refine ⟨(InlineWorkList.nextLoop self.toInline.reverse [] (InlineSummary.mk [])).1,
    { self with toInline :=
        (InlineWorkList.nextLoop self.toInline.reverse [] (InlineSummary.mk [])).2.reverse },
    by simp only [InlineWorkList.next, hlen, if_false], rfl, ?_, ?_, ?_, ?_⟩
  · rw [h1]
    simpa using h6 rfl (by simpa using h)
  · rw [h1]
    simpa using h2.symm
  · rw [h1]
    simpa using h3
  · intro t ht
    rw [h1]
    simp only [List.getLast?_reverse] at ht
    rcases h5 t ht with hc | hc
    · simp at hc
    · simpa using hc

/-- The method `next` returns none exactly on the empty schedule. -/
theorem InlineWorkList.next_none (self : InlineWorkList) (h : self.toInline = []) :
    self.next = (none, self) := by
  simp [InlineWorkList.next, h]

/-- The batches are consecutive pieces of the schedule, each without a conflict; with
one call of `next` for each scheduled item nothing is left. -/
theorem InlineWorkList.batches_spec (fuel : Nat) :
    ∀ (self : InlineWorkList),
    ∃ rest, (self.batches fuel).flatMap (fun b => b.items) ++ rest = self.toInline.reverse ∧
      (self.toInline.length ≤ fuel → rest = []) ∧
      (∀ b ∈ self.batches fuel, b.items ≠ [] ∧
        b.items.Pairwise (fun u v => v.callee ≠ u.caller)) := by
  induction fuel with
  | zero =>
    intro self
    refine ⟨self.toInline.reverse, by simp [InlineWorkList.batches], ?_, ?_⟩
    · intro h
      have : self.toInline = [] := List.length_eq_zero.mp (Nat.le_zero.mp h)
      simp [this]
    · simp [InlineWorkList.batches]
  | succ fuel ih =>
    intro self
    by_cases h : self.toInline = []
    · refine ⟨[], ?_, fun _ => rfl, ?_⟩
      · simp [InlineWorkList.batches, InlineWorkList.next_none self h, h]
      · simp [InlineWorkList.batches, InlineWorkList.next_none self h]
    · obtain ⟨batch, rest, hn, _, hne, happ, hpw, _⟩ := InlineWorkList.next_spec self h
      obtain ⟨r, h1, h2, h3⟩ := ih rest
      have hb : self.batches (fuel + 1) = batch :: rest.batches fuel := by
        simp [InlineWorkList.batches, hn]
      refine ⟨r, ?_, ?_, ?_⟩
      · rw [hb, List.flatMap_cons, List.append_assoc, h1, happ]
      · intro hlen
        apply h2
        have hl := congrArg List.length happ
        simp only [List.length_append, List.length_reverse] at hl
        have : 0 < batch.items.length := List.length_pos.mpr hne
        omega
      · intro b hbm
        rw [hb] at hbm
        rcases List.mem_cons.mp hbm with rfl | hbm
        · exact ⟨hne, hpw⟩
        · exact h3 b hbm

/-- The schedule that `analyze` builds on a fresh work list, in the order `next` pops it. -/
theorem InlineWorkList.analyze_schedule (sort : CallGraph → List Nat)
    (inlineMap : List InlineWorkItem) (allow : Bool) :
    ((InlineWorkList.mk inlineMap []).analyze sort allow).1.toInline.reverse
      = (sort ((InlineWorkList.mk inlineMap []).callGraph allow).1).flatMap
          (fun c => inlineMap.filter (fun inl => inl.caller == c)) := by
  simp [InlineWorkList.analyze]

/-- C4: when the sort of the call graph lists callees before callers, and A (caller X,
callee Y) and B (caller Y) are scheduled and the graph has the edge X → Y, then the
successive calls of `next` return both, and B in a strictly earlier batch than A. -/
theorem InlineWorkList.callee_batch_before_caller_batch (sort : CallGraph → List Nat)
    (inlineMap : List InlineWorkItem) (allow : Bool) (A B : InlineWorkItem)
    (hsort : CalleesFirst ((InlineWorkList.mk inlineMap []).callGraph allow).1
      (sort ((InlineWorkList.mk inlineMap []).callGraph allow).1))
    (hA : A ∈ ((InlineWorkList.mk inlineMap []).analyze sort allow).1.toInline)
    (hB : B ∈ ((InlineWorkList.mk inlineMap []).analyze sort allow).1.toInline)
    (hcall : B.caller = A.callee)
    (hedge : (A.caller, A.callee) ∈ ((InlineWorkList.mk inlineMap []).callGraph allow).1) :
    (∃ (i j : Nat) (bi bj : InlineSummary),
      ((InlineWorkList.mk inlineMap []).analyze sort allow).1.allBatches[i]? = some bi ∧
      ((InlineWorkList.mk inlineMap []).analyze sort allow).1.allBatches[j]? = some bj ∧
      A ∈ bi.items ∧ B ∈ bj.items) ∧
    (∀ (i j : Nat) (bi bj : InlineSummary),
      ((InlineWorkList.mk inlineMap []).analyze sort allow).1.allBatches[i]? = some bi →
      ((InlineWorkList.mk inlineMap []).analyze sort allow).1.allBatches[j]? = some bj →
      A ∈ bi.items → B ∈ bj.items → j < i) := by
  have hsched := InlineWorkList.analyze_schedule sort inlineMap allow
  generalize ((InlineWorkList.mk inlineMap []).analyze sort allow).1 = wl at *
  generalize ((InlineWorkList.mk inlineMap []).callGraph allow).1 = cg at *
  obtain ⟨rest, h1, h2, h3⟩ := InlineWorkList.batches_spec wl.toInline.length wl
  have hrest : rest = [] := h2 (Nat.le_refl _)
  subst hrest
  rw [List.append_nil] at h1
  have hbs : wl.allBatches = wl.batches wl.toInline.length := rfl
  rw [← hbs] at h1 h3
  have hxy : A.caller ≠ A.callee := fun h => hsort.1 A.callee (h ▸ hedge)
  have hAB : A ≠ B := fun h => hxy (by rw [← hcall, h])
  -- in the schedule, A never comes before B
  have hR : (wl.allBatches.flatMap (fun b => b.items)).Pairwise
      (fun u v => ¬ (u = A ∧ v = B)) := by
    rw [h1, hsched, List.pairwise_flatMap]
    constructor
    · intro c _
      apply List.pairwise_of_forall_mem_list
      rintro u hu v hv ⟨rfl, rfl⟩
      simp only [List.mem_filter, beq_iff_eq] at hu hv
      exact hxy (by rw [hu.2, ← hcall, hv.2])
    · refine hsort.2.imp ?_
      rintro c1 c2 hc u hu v hv ⟨rfl, rfl⟩
      simp only [List.mem_filter, beq_iff_eq] at hu hv
      rw [← hu.2, ← hv.2, hcall] at hc
      exact hc hedge
  rw [List.pairwise_flatMap] at hR
  constructor
  · have hA2 : A ∈ wl.allBatches.flatMap (fun b => b.items) := by
      rw [h1]; exact List.mem_reverse.mpr hA
    have hB2 : B ∈ wl.allBatches.flatMap (fun b => b.items) := by
      rw [h1]; exact List.mem_reverse.mpr hB
    obtain ⟨bi, hbi, hAi⟩ := List.mem_flatMap.mp hA2
    obtain ⟨bj, hbj, hBj⟩ := List.mem_flatMap.mp hB2
    obtain ⟨i, hi⟩ := List.getElem?_of_mem hbi
    obtain ⟨j, hj⟩ := List.getElem?_of_mem hbj
    exact ⟨i, j, bi, bj, hi, hj, hAi, hBj⟩
  · intro i j bi bj hi hj hAi hBj
    by_contra hlt
    rcases Nat.lt_or_eq_of_le (Nat.le_of_not_lt hlt) with hij | hij
    · obtain ⟨hil, hie⟩ := List.getElem?_eq_some.mp hi
      obtain ⟨hjl, hje⟩ := List.getElem?_eq_some.mp hj
      have := (List.pairwise_iff_getElem.mp hR.2) i j hil hjl hij
      rw [hie, hje] at this
      exact this A hAi B hBj ⟨rfl, rfl⟩
    · subst hij
      have hbb : bi = bj := Option.some.inj (hi.symm.trans hj)
      subst hbb
      have hmem : bi ∈ wl.allBatches := List.getElem?_mem hi
      have hpw := (hR.1 bi hmem).and (h3 bi hmem).2
      have hsym : bi.items.Pairwise (fun u v =>
          (¬ (u = A ∧ v = B) ∧ v.callee ≠ u.caller) ∨
          (¬ (v = A ∧ u = B) ∧ u.callee ≠ v.caller)) := hpw.imp (fun h => Or.inl h)
      have := List.Pairwise.forall (fun u v h => h.symm) hsym hAi hBj hAB
      rcases this with h | h
      · exact h.1 ⟨rfl, rfl⟩
      · exact h.2 hcall.symm

/-- C4, at the chain where 1 calls 2 and 2 calls 3: the item of caller 2 is returned in
the batch 0, the item of caller 1 in the batch 1. -/
theorem InlineWorkList.callee_batch_before_caller_batch_witness :
    (∃ (i j : Nat) (bi bj : InlineSummary),
      ((InlineWorkList.mk sampleChain.inlineMap []).analyze sampleSort true).1.allBatches[i]?
        = some bi ∧
      ((InlineWorkList.mk sampleChain.inlineMap []).analyze sampleSort true).1.allBatches[j]?
        = some bj ∧
      InlineWorkItem.mk 1 2 10 [100] ∈ bi.items ∧ InlineWorkItem.mk 2 3 20 [200] ∈ bj.items) ∧
    (∀ (i j : Nat) (bi bj : InlineSummary),
      ((InlineWorkList.mk sampleChain.inlineMap []).analyze sampleSort true).1.allBatches[i]?
        = some bi →
      ((InlineWorkList.mk sampleChain.inlineMap []).analyze sampleSort true).1.allBatches[j]?
        = some bj →
      InlineWorkItem.mk 1 2 10 [100] ∈ bi.items → InlineWorkItem.mk 2 3 20 [200] ∈ bj.items →
      j < i) :=
  InlineWorkList.callee_batch_before_caller_batch sampleSort sampleChain.inlineMap true
    (InlineWorkItem.mk 1 2 10 [100]) (InlineWorkItem.mk 2 3 20 [200])
    ⟨by
      have h : ((InlineWorkList.mk sampleChain.inlineMap []).callGraph true).1
          = [(1, 2), (2, 3)] := by decide
      rw [h]
      intro c hc
      simp at hc
      omega, by decide⟩
    (by decide) (by decide) rfl (by decide)

/-- C5, as stated, fails: a caller that holds two instances of the same callee gets
both work items in one batch. -/
theorem InlineWorkList.next_batch_same_callee_twice :
    ((sampleTwoInstances.analyze sampleSort true).1.next).1
      = some (InlineSummary.mk [InlineWorkItem.mk 1 2 10 [100], InlineWorkItem.mk 1 2 11 [101]]) ∧
    (InlineWorkItem.mk 1 2 10 [100]).callee = (InlineWorkItem.mk 1 2 11 [101]).callee ∧
    InlineWorkItem.mk 1 2 10 [100] ≠ InlineWorkItem.mk 1 2 11 [101] := by
  decide

/-- C5, amended: in every batch that `next` returns, no work item has as callee the
caller of an item added to the batch before it; the batch is the longest such piece
taken from the back of the schedule: the item left at the back, if there is one, has as
callee the caller of an item of the batch. -/
theorem InlineWorkList.next_batch_conflict_free (self rest : InlineWorkList)
    (batch : InlineSummary) (h : self.next = (some batch, rest)) :
    batch.items.Pairwise (fun u v => v.callee ≠ u.caller) ∧
    batch.items ++ rest.toInline.reverse = self.toInline.reverse ∧
    (∀ t, rest.toInline.getLast? = some t → ∃ u ∈ batch.items, t.callee = u.caller) := by
  by_cases he : self.toInline = []
  · rw [InlineWorkList.next_none self he] at h
    simp at h
  · obtain ⟨b, r, hn, _, _, happ, hpw, hlast⟩ := InlineWorkList.next_spec self he
    rw [hn] at h
    obtain ⟨hb, hr⟩ := Prod.mk.inj h
    cases hb
    cases hr
    exact ⟨hpw, happ, hlast⟩

/-- C5, amended, at the chain where 1 calls 2 and 2 calls 3: the first batch holds the
item of caller 2 only, the item of caller 1 is left. -/
theorem InlineWorkList.next_batch_conflict_free_witness :
    (InlineSummary.mk [InlineWorkItem.mk 2 3 20 [200]]).items.Pairwise
      (fun u v => v.callee ≠ u.caller) ∧
    (InlineSummary.mk [InlineWorkItem.mk 2 3 20 [200]]).items
        ++ (InlineWorkList.mk sampleChain.inlineMap [InlineWorkItem.mk 1 2 10 [100]]).toInline.reverse
      = (sampleChain.analyze sampleSort true).1.toInline.reverse ∧
    (∀ t, (InlineWorkList.mk sampleChain.inlineMap
        [InlineWorkItem.mk 1 2 10 [100]]).toInline.getLast? = some t →
      ∃ u ∈ (InlineSummary.mk [InlineWorkItem.mk 2 3 20 [200]]).items, t.callee = u.caller) :=
  InlineWorkList.next_batch_conflict_free (sampleChain.analyze sampleSort true).1
    (InlineWorkList.mk sampleChain.inlineMap [InlineWorkItem.mk 1 2 10 [100]])
    (InlineSummary.mk [InlineWorkItem.mk 2 3 20 [200]]) (by decide)

/-! ## Inlined parsers -/

/-- C6, the failing input: the caller holds the instance `inst` of the parser `A` and
calls it inside a block statement of its state `start`.  After
`preorder(IR::P4Parser*)` the declaration of `inst` is gone from the locals, the state
is unchanged, and the call site of `inst` is still in it. -/
theorem GeneralInliner.nested_parser_call_remains :
    ∃ r, sampleInliner.preorder_P4Parser
        [(60, sampleWork (IContainer.p4Parser sampleParserA))] sampleParserRefMap sampleParserN
        = some r ∧
      sampleParserN.parserLocals = [Declaration.declarationInstance sampleInstance] ∧
      r.1.parserLocals = [] ∧
      r.1.states = [sampleStateNested] ∧
      sampleStateNested.components
        = [Statement.blockStatement [] [Statement.methodCallStatement sampleCall]] ∧
      (sampleWork (IContainer.p4Parser sampleParserA)).findCall sampleCall
        = some sampleInstance.decl :=
  ⟨_, rfl, rfl, rfl, rfl, rfl, rfl⟩

/-- C10, the failing input: the callee `R` has the states `start`, `accept`, `reject`, and
`start` selects between `accept` and `reject`.  In the states appended to the caller the
case that targeted `reject` targets the new name made from `R_reject`, which names no
state. -/
theorem GeneralInliner.reject_is_renamed :
    ∃ r, sampleInliner.preorder_P4Parser
        [(60, sampleWork (IContainer.p4Parser sampleParserR))] sampleParserRefMap sampleParserB
        = some r ∧
      r.1.states.map (fun q => q.name) = ["start", "R_start_____________", "start_______"] ∧
      (r.1.states.map (fun q => q.selectExpression))[1]? = some (some
        (Transition.selectExpression [Expression.constant 0]
          [SelectCase.mk (Expression.constant 0) (IR.Path.mk 102 "start_______" false),
           SelectCase.mk (Expression.constant 1)
             (IR.Path.mk 103 "R_reject_____________________" false)])) :=
  ⟨_, rfl, rfl, rfl⟩

/-! ## The number of states after a splice -/

theorem StateRenameMap.lookup_emplace (m : StateRenameMap) (key value k : cstring) :
    (m.emplace key value).lookup k
      = match m.lookup k with
        | some v => some v
        | none => if k = key then some value else none := by
  unfold StateRenameMap.emplace
  cases hkey : List.lookup key m with
  | some w =>
    simp only []
    cases hk : List.lookup k m with
    | some v => rfl
    | none =>
      simp only []
      by_cases h : k = key
      · subst h; rw [hk] at hkey; cases hkey
      · simp [h]
  | none =>
    simp only []
    clear hkey
    induction m with
    | nil =>
      by_cases h : k = key
      · subst h; simp [List.lookup]
      · have : (k == key) = false := by simpa using h
        simp [List.lookup, h, this]
    | cons a m ih =>
      obtain ⟨a1, a2⟩ := a
      by_cases h : k = a1
      · subst h; simp [List.lookup]
      · have : (k == a1) = false := by simpa using h
        simp only [List.cons_append, List.lookup, this]
        exact ih

theorem ComputeNewStateNames.preorder_inv (g : List cstring → cstring → cstring)
    (hfresh : ∀ used base, g used base ∉ used) (c : ComputeNewStateNames) (q : ParserState)
    (h : ComputeNewStateNames.Inv g c) :
    ComputeNewStateNames.Inv g (c.preorder q) ∧
    (∃ v, (c.preorder q).stateRenameMap.lookup q.name = some v) ∧
    (∀ k v, c.stateRenameMap.lookup k = some v →
      (c.preorder q).stateRenameMap.lookup k = some v) := by
  obtain ⟨hg, ha, hr, hv⟩ := h
  unfold ComputeNewStateNames.preorder
  by_cases hq : q.name = ParserState.accept
  · simp only [hq, beq_self_eq_true, if_true]
    refine ⟨⟨hg, ha, hr, ?_⟩, ?_, ?_⟩
    · intro k v hk hne
      rw [StateRenameMap.lookup_emplace] at hk
      cases hl : List.lookup k c.stateRenameMap with
      | some w => rw [hl] at hk; cases hk; exact hv k _ hl hne
      | none => rw [hl] at hk; simp [hne] at hk
    · rw [StateRenameMap.lookup_emplace]
      cases hl : List.lookup ParserState.accept c.stateRenameMap with
      | some w => exact ⟨w, rfl⟩
      | none => simp
    · intro k v hk
      rw [StateRenameMap.lookup_emplace, hk]
  · have hb : (q.name == ParserState.accept) = false := by simpa using hq
    simp only [hb, Bool.false_eq_true, if_false]
    refine ⟨⟨hg, ?_, ?_, ?_⟩, ?_, ?_⟩
    · simp [ReferenceMap.newName, ha]
    · simp [ReferenceMap.newName, hr]
    · intro k v hk hne
      rw [StateRenameMap.lookup_emplace] at hk
      cases hl : List.lookup k c.stateRenameMap with
      | some w => rw [hl] at hk; cases hk; exact hv k _ hl hne
      | none =>
        rw [hl] at hk
        by_cases hkq : k = q.name
        · simp only [hkq, if_true] at hk
          cases hk
          simp only [ReferenceMap.newName, hg]
          constructor
          · intro he
            exact hfresh c.refMap.usedNames _ (he ▸ ha)
          · intro he
            exact hfresh c.refMap.usedNames _ (he ▸ hr)
        · simp [hkq] at hk
    · rw [StateRenameMap.lookup_emplace]
      cases hl : List.lookup q.name c.stateRenameMap with
      | some w => exact ⟨w, rfl⟩
      | none => simp
    · intro k v hk
      rw [StateRenameMap.lookup_emplace, hk]

theorem ComputeNewStateNames.fold_inv (g : List cstring → cstring → cstring)
    (hfresh : ∀ used base, g used base ∉ used) (states : List ParserState) :
    ∀ (c : ComputeNewStateNames), ComputeNewStateNames.Inv g c →
    ComputeNewStateNames.Inv g (states.foldl ComputeNewStateNames.preorder c) ∧
    (∀ q ∈ states, ∃ v,
      (states.foldl ComputeNewStateNames.preorder c).stateRenameMap.lookup q.name = some v) ∧
    (∀ k v, c.stateRenameMap.lookup k = some v →
      (states.foldl ComputeNewStateNames.preorder c).stateRenameMap.lookup k = some v) := by
  induction states with
  | nil => intro c h; exact ⟨h, by simp, fun _ _ h => h⟩
  | cons q rest ih =>
    intro c h
    obtain ⟨h1, ⟨v, h2⟩, h3⟩ := ComputeNewStateNames.preorder_inv g hfresh c q h
    obtain ⟨i1, i2, i3⟩ := ih (c.preorder q) h1
    refine ⟨i1, ?_, fun k v hk => i3 k v (h3 k v hk)⟩
    intro p hp
    rcases List.mem_cons.mp hp with rfl | hp
    · exact ⟨v, i3 _ _ h2⟩
    · exact i2 p hp

theorem Substitutions.visitParserState_name (self : Substitutions) (state : ParserState)
    (res : Resolution) (r : ParserState × Resolution)
    (h : self.visitParserState state res = some r) : r.1.name = state.name := by
  unfold Substitutions.visitParserState at h
  split at h
  · cases h
  · split at h
    · cases h; rfl
    · split at h
      · cases h
      · cases h; rfl

theorem Substitutions.visitParserStates_names (self : Substitutions) :
    ∀ (ss : List ParserState) (res : Resolution) (r : List ParserState × Resolution),
    self.visitParserStates ss res = some r →
    r.1.map (fun q => q.name) = ss.map (fun q => q.name) := by
  intro ss
  induction ss with
  | nil =>
    intro res r h
    simp only [Substitutions.visitParserStates] at h
    cases h
    rfl
  | cons s ss ih =>
    intro res r h
    simp only [Substitutions.visitParserStates] at h
    split at h
    · cases h
    · rename_i s1 res1 hs
      split at h
      · cases h
      · rename_i ss1 res2 hss
        cases h
        simp only [List.map_cons]
        rw [ih res1 _ hss, Substitutions.visitParserState_name self s res _ hs]

theorem PerInstanceSubstitutions.rename_P4Parser_spec (self : PerInstanceSubstitutions)
    (refMap : ReferenceMap) (node : P4Parser) (r : P4Parser × ReferenceMap)
    (h : self.rename_P4Parser refMap node = some r) :
    r.1.states.map (fun q => q.name) = node.states.map (fun q => q.name) ∧
    r.1.name = node.name ∧ r.1.applyParams = node.applyParams ∧
    r.2.gen = refMap.gen ∧ r.2.usedNames = refMap.usedNames := by
  unfold PerInstanceSubstitutions.rename_P4Parser at h
  cases hv : self.substitutions.visitP4Parser node refMap.resolution with
  | none => rw [hv] at h; cases h
  | some v =>
    rw [hv] at h
    cases h
    unfold Substitutions.visitP4Parser at hv
    split at hv
    · cases hv
    · split at hv
      · cases hv
      · rename_i hst
        cases hv
        exact ⟨Substitutions.visitParserStates_names _ _ _ _ hst, rfl, rfl, rfl, rfl⟩

theorem filter_notBuiltin_length (l1 l2 : List ParserState)
    (h : l1.map (fun q => q.name) = l2.map (fun q => q.name)) :
    (l1.filter (fun q => notBuiltin q.name)).length
      = (l2.filter (fun q => notBuiltin q.name)).length := by
  have e : ∀ l : List ParserState, (l.filter (fun q => notBuiltin q.name)).length
      = ((l.map (fun q => q.name)).filter notBuiltin).length := by
    intro l
    rw [List.filter_map, List.length_map]
    rfl
  rw [e l1, e l2, h]

theorem RenameStates.filter_length (m : StateRenameMap) (callee : P4Parser)
    (hm : ∀ q ∈ callee.states, notBuiltin q.name = true → notBuiltin (m.get q.name) = true) :
    (((RenameStates.mk m).preorder_P4Parser callee).states.filter
      (fun q => notBuiltin q.name)).length
      = (callee.states.filter (fun q => notBuiltin q.name)).length := by
  simp only [RenameStates.preorder_P4Parser]
  rw [List.filter_map, List.length_map]
  congr 1
  apply List.filter_congr
  intro q hq
  simp only [Function.comp, RenameStates.preorder_ParserState]
  by_cases hb : (q.name == ParserState.accept || q.name == ParserState.reject) = true
  · simp [hb]
  · have hn : notBuiltin q.name = true := by simpa [notBuiltin] using hb
    simp only [hb, Bool.false_eq_true, if_false]
    rw [hm q hq hn, hn]

theorem GeneralInliner.scanComponents_append (self : GeneralInliner) (work : Work)
    (state : ParserState) (rest : List Statement) :
    ∀ (c1 : List Statement) (s : GeneralInliner.Splice),
    GeneralInliner.noInlinedCall work c1 →
    self.scanComponents work state (c1 ++ rest) s
      = self.scanComponents work state rest { s with current := s.current ++ c1 } := by
  intro c1
  induction c1 with
  | nil => intro s _; simp
  | cons e c1 ih =>
    intro s h
    have h1 : GeneralInliner.noInlinedCall work c1 :=
      fun call hc => h call (List.mem_cons_of_mem _ hc)
    have step : self.scanComponents work state (e :: (c1 ++ rest)) s
        = self.scanComponents work state (c1 ++ rest) { s with current := s.current ++ [e] } := by
      cases e with
      | methodCallStatement call =>
        have := h call (List.mem_cons_self _ _)
        simp only [GeneralInliner.scanComponents, this]
      | _ => simp only [GeneralInliner.scanComponents]
    rw [List.cons_append, step, ih _ h1]
    simp [List.append_assoc]

theorem GeneralInliner.spliceCall_states (self : GeneralInliner) (work : Work)
    (state : ParserState) (call : MethodCallStatement) (decl : Nat)
    (s s1 : GeneralInliner.Splice) (callee : P4Parser)
    (hfresh : s.refMap.Fresh)
    (haccept : ParserState.accept ∈ s.refMap.usedNames)
    (hreject : ParserState.reject ∈ s.refMap.usedNames)
    (hcallee : work.declToCallee.lookup decl = some (IContainer.p4Parser callee))
    (h : self.spliceCall work state call decl s = some s1) :
    s1.states.length
      = s.states.length + 1 + (callee.states.filter (fun q => notBuiltin q.name)).length := by
  unfold GeneralInliner.spliceCall at h
  rw [hcallee] at h
  simp only at h
  split at h
  · cases h
  · split at h
    · cases h
    · split at h
      · cases h
      · rename_i substs _ copyin substs1 _ callee1 refMap1 hren
        obtain ⟨hnames, _, _, hgen, hused⟩ :=
          PerInstanceSubstitutions.rename_P4Parser_spec _ _ _ _ hren
        simp only at hgen hused hnames
        split at h
        · cases h
        · cases h
          simp only [List.length_append, List.length_cons, List.length_nil]
          have hinv : ComputeNewStateNames.Inv s.refMap.gen
              (ComputeNewStateNames.mk (refMap1.newName state.name).2 callee1.name
                (refMap1.newName state.name).1 []) := by
            refine ⟨?_, ?_, ?_, ?_⟩
            · simp [ReferenceMap.newName, hgen]
            · simp [ReferenceMap.newName, hused, haccept]
            · simp [ReferenceMap.newName, hused, hreject]
            · intro k v hk
              simp [List.lookup] at hk
          obtain ⟨⟨_, _, _, i1⟩, i2, _⟩ :=
            ComputeNewStateNames.fold_inv s.refMap.gen hfresh callee1.states _ hinv
          have hlen := RenameStates.filter_length
            ((ComputeNewStateNames.mk (refMap1.newName state.name).2 callee1.name
              (refMap1.newName state.name).1 []).apply callee1).stateRenameMap callee1
            (by
              intro q hq hn
              obtain ⟨v, hv⟩ := i2 q hq
              have hne : q.name ≠ ParserState.accept := by
                intro he
                simp [notBuiltin, he] at hn
              have := i1 q.name v hv hne
              simp only [ComputeNewStateNames.apply, StateRenameMap.get, hv]
              simp [notBuiltin, this.1, this.2])
          have hlen2 := filter_notBuiltin_length callee1.states callee.states hnames
          simp only [notBuiltin] at hlen hlen2 ⊢
          omega

theorem GeneralInliner.preorder_ParserState_plain (self : GeneralInliner) (work : Work)
    (refMap : ReferenceMap) (state : ParserState)
    (h : GeneralInliner.noInlinedCall work state.components) :
    self.preorder_ParserState work refMap state = some ([state], refMap) := by
  have := GeneralInliner.scanComponents_append self work state [] state.components
    (GeneralInliner.Splice.mk [] [] state.annotations state.name refMap) h
  rw [List.append_nil] at this
  simp [GeneralInliner.preorder_ParserState, this, GeneralInliner.scanComponents]

theorem GeneralInliner.preorder_ParserState_one_call (self : GeneralInliner) (work : Work)
    (refMap refMap1 : ReferenceMap) (state : ParserState) (c1 c2 : List Statement)
    (call : MethodCallStatement) (decl : Nat) (callee : P4Parser) (states : List ParserState)
    (hfresh : refMap.Fresh)
    (haccept : ParserState.accept ∈ refMap.usedNames)
    (hreject : ParserState.reject ∈ refMap.usedNames)
    (hs : state.components = c1 ++ Statement.methodCallStatement call :: c2)
    (hc1 : GeneralInliner.noInlinedCall work c1) (hc2 : GeneralInliner.noInlinedCall work c2)
    (hcall : work.findCall call = some decl)
    (hcallee : work.declToCallee.lookup decl = some (IContainer.p4Parser callee))
    (h : self.preorder_ParserState work refMap state = some (states, refMap1)) :
    states.length = 2 + (callee.states.filter (fun q => notBuiltin q.name)).length := by
  unfold GeneralInliner.preorder_ParserState at h
  rw [hs, GeneralInliner.scanComponents_append self work state _ c1 _ hc1] at h
  simp only [GeneralInliner.scanComponents, hcall] at h
  cases hsp : self.spliceCall work state call decl
      { states := [], current := [] ++ c1, annotations := state.annotations,
        name := state.name, refMap := refMap } with
  | none => rw [hsp] at h; cases h
  | some s1 =>
    rw [hsp] at h
    simp only at h
    have hlen := GeneralInliner.spliceCall_states self work state call decl _ s1 callee
      hfresh haccept hreject hcallee hsp
    have hscan := GeneralInliner.scanComponents_append self work state [] c2 s1 hc2
    rw [List.append_nil] at hscan
    rw [hscan] at h
    simp only [GeneralInliner.scanComponents] at h
    have hne : s1.states.isEmpty = false := by
      cases hst : s1.states with
      | nil =>
        rw [hst] at hlen
        simp only [List.length_nil] at hlen
        omega
      | cons a b => rfl
    simp only [hne, Bool.not_false, if_true] at h
    cases h
    simp only [List.length_append, List.length_cons, List.length_nil] at hlen ⊢
    omega

theorem GeneralInliner.visitStates_cons (self : GeneralInliner) (work : Work)
    (q : ParserState) (rest : List ParserState) (refMap : ReferenceMap) :
    self.visitStates work (q :: rest) refMap
      = match self.preorder_ParserState work refMap q with
        | none => none
        | some (states, refMap1) =>
          match self.visitStates work rest refMap1 with
          | none => none
          | some (others, refMap2) => some (states ++ others, refMap2) := rfl

theorem GeneralInliner.visitStates_plain (self : GeneralInliner) (work : Work) :
    ∀ (states : List ParserState) (refMap : ReferenceMap),
    (∀ q ∈ states, GeneralInliner.noInlinedCall work q.components) →
    self.visitStates work states refMap = some (states, refMap) := by
  intro states
  induction states with
  | nil => intro refMap _; rfl
  | cons q rest ih =>
    intro refMap h
    simp only [GeneralInliner.visitStates,
      GeneralInliner.preorder_ParserState_plain self work refMap q (h q (List.mem_cons_self _ _)),
      ih refMap (fun p hp => h p (List.mem_cons_of_mem _ hp))]
    rfl

theorem GeneralInliner.visitStates_append (self : GeneralInliner) (work : Work)
    (rest : List ParserState) :
    ∀ (pre : List ParserState) (refMap : ReferenceMap),
    (∀ q ∈ pre, GeneralInliner.noInlinedCall work q.components) →
    self.visitStates work (pre ++ rest) refMap
      = (self.visitStates work rest refMap).map (fun r => (pre ++ r.1, r.2)) := by
  intro pre
  induction pre with
  | nil =>
    intro refMap _
    simp only [List.nil_append]
    cases self.visitStates work rest refMap <;> simp
  | cons q pre ih =>
    intro refMap h
    have hq := GeneralInliner.preorder_ParserState_plain self work refMap q
      (h q (List.mem_cons_self _ _))
    have ih1 := ih refMap (fun p hp => h p (List.mem_cons_of_mem _ hp))
    rw [List.cons_append, GeneralInliner.visitStates_cons, hq]
    simp only []
    rw [ih1]
    cases self.visitStates work rest refMap <;> simp

/-- When exactly one state `s` of the caller holds, among its components, exactly one
call of an inlined parser instance with callee `Q`, the states that replace the states of
the caller number `|P.states| + 1 +` the states of `Q` named neither `accept` nor
`reject`. -/
theorem GeneralInliner.visitStates_one_call (self : GeneralInliner) (work : Work)
    (refMap refMap1 : ReferenceMap) (pre post : List ParserState) (s : ParserState)
    (c1 c2 : List Statement) (call : MethodCallStatement) (decl : Nat) (Q : P4Parser)
    (states : List ParserState)
    (hfresh : refMap.Fresh)
    (haccept : ParserState.accept ∈ refMap.usedNames)
    (hreject : ParserState.reject ∈ refMap.usedNames)
    (hpre : ∀ q ∈ pre, GeneralInliner.noInlinedCall work q.components)
    (hpost : ∀ q ∈ post, GeneralInliner.noInlinedCall work q.components)
    (hs : s.components = c1 ++ Statement.methodCallStatement call :: c2)
    (hc1 : GeneralInliner.noInlinedCall work c1) (hc2 : GeneralInliner.noInlinedCall work c2)
    (hcall : work.findCall call = some decl)
    (hQ : work.declToCallee.lookup decl = some (IContainer.p4Parser Q))
    (hrun : self.visitStates work (pre ++ s :: post) refMap = some (states, refMap1)) :
    states.length = (pre ++ s :: post).length + 1
      + (Q.states.filter (fun q => notBuiltin q.name)).length := by
  rw [GeneralInliner.visitStates_append self work _ pre refMap hpre,
    GeneralInliner.visitStates_cons] at hrun
  cases hst : self.preorder_ParserState work refMap s with
  | none => rw [hst] at hrun; cases hrun
  | some r =>
    obtain ⟨ss, refMap2⟩ := r
    rw [hst] at hrun
    simp only [GeneralInliner.visitStates_plain self work post refMap2 hpost,
      Option.map_some', Option.some.injEq, Prod.mk.injEq] at hrun
    obtain ⟨hstates, _⟩ := hrun
    have hlen := GeneralInliner.preorder_ParserState_one_call self work refMap refMap2 s c1 c2
      call decl Q ss hfresh haccept hreject hs hc1 hc2 hcall hQ hst
    rw [← hstates]
    simp only [List.length_append, List.length_cons, hlen]
    omega

/-- The states of a parser that lists one state `accept` and one state `reject` are
these two and the states named otherwise. -/
theorem builtin_states_count (states : List ParserState)
    (haccept : (states.filter (fun q => q.name == ParserState.accept)).length = 1)
    (hreject : (states.filter (fun q => q.name == ParserState.reject)).length = 1) :
    states.length = (states.filter (fun q => notBuiltin q.name)).length + 2 := by
  have hsum : ∀ l : List ParserState, l.length
      = (l.filter (fun q => notBuiltin q.name)).length
        + (l.filter (fun q => q.name == ParserState.accept)).length
        + (l.filter (fun q => q.name == ParserState.reject)).length := by
    intro l
    induction l with
    | nil => rfl
    | cons q l ih =>
      by_cases ha : q.name = ParserState.accept
      · have hr : (ParserState.accept == ParserState.reject) = false := by decide
        have hn : notBuiltin ParserState.accept = false := by decide
        simp only [List.filter_cons, ha, hn, beq_self_eq_true, hr, if_true,
          Bool.false_eq_true, if_false, List.length_cons]
        omega
      · have hab : (q.name == ParserState.accept) = false := by simpa using ha
        by_cases hr : q.name = ParserState.reject
        · have hra : (ParserState.reject == ParserState.accept) = false := by decide
          have hn : notBuiltin ParserState.reject = false := by decide
          simp only [List.filter_cons, hr, hn, hra, beq_self_eq_true, if_true,
            Bool.false_eq_true, if_false, List.length_cons]
          omega
        · have hrb : (q.name == ParserState.reject) = false := by simpa using hr
          have hn : notBuiltin q.name = true := by simp [notBuiltin, hab, hrb]
          simp only [List.filter_cons, hn, hab, hrb, if_true, Bool.false_eq_true, if_false,
            List.length_cons]
          omega
  have := hsum states
  omega

/-- C9: when exactly one state `s` of the caller parser `P` holds, among its components,
exactly one call of an inlined parser instance with callee `Q`, the states of `P` after
`preorder(IR::ParserState*)` has replaced `s` number `|P.states| + |Q.states| - 1`.  The
callee lists, as every parser does, one state `accept` and one state `reject`, which the
splice leaves out; the name generator returns unused names, `accept` and `reject` being
in use. -/
theorem GeneralInliner.parser_state_count (self : GeneralInliner) (work : Work)
    (refMap refMap1 : ReferenceMap) (pre post : List ParserState) (s : ParserState)
    (c1 c2 : List Statement) (call : MethodCallStatement) (decl : Nat) (Q : P4Parser)
    (states : List ParserState)
    (hfresh : refMap.Fresh)
    (haccept : ParserState.accept ∈ refMap.usedNames)
    (hreject : ParserState.reject ∈ refMap.usedNames)
    (hpre : ∀ q ∈ pre, GeneralInliner.noInlinedCall work q.components)
    (hpost : ∀ q ∈ post, GeneralInliner.noInlinedCall work q.components)
    (hs : s.components = c1 ++ Statement.methodCallStatement call :: c2)
    (hc1 : GeneralInliner.noInlinedCall work c1) (hc2 : GeneralInliner.noInlinedCall work c2)
    (hcall : work.findCall call = some decl)
    (hQ : work.declToCallee.lookup decl = some (IContainer.p4Parser Q))
    (hQaccept : (Q.states.filter (fun q => q.name == ParserState.accept)).length = 1)
    (hQreject : (Q.states.filter (fun q => q.name == ParserState.reject)).length = 1)
    (hrun : self.visitStates work (pre ++ s :: post) refMap = some (states, refMap1)) :
    states.length = (pre ++ s :: post).length + Q.states.length - 1 ∧
    states.length + 1 = (pre ++ s :: post).length + Q.states.length := by
  have hcount := GeneralInliner.visitStates_one_call self work refMap refMap1 pre post s c1 c2
    call decl Q states hfresh haccept hreject hpre hpost hs hc1 hc2 hcall hQ hrun
  have hQ2 := builtin_states_count Q.states hQaccept hQreject
  omega

theorem sampleGen_fresh (used : List cstring) (base : cstring) :
    sampleGen used base ∉ used := by
  have hmax : ∀ (l : List cstring), ∀ u ∈ l, u.length ≤ (l.map String.length).foldr max 0 := by
    intro l
    induction l with
    | nil => intro u hu; cases hu
    | cons a l ih =>
      intro u hu
      simp only [List.map_cons, List.foldr_cons]
      rcases List.mem_cons.mp hu with rfl | hu
      · exact Nat.le_max_left _ _
      · exact Nat.le_trans (ih u hu) (Nat.le_max_right _ _)
  intro hmem
  have h1 := hmax used _ hmem
  have h2 : (sampleGen used base).length
      = base.length + (1 + (used.map String.length).foldr max 0) := by
    unfold sampleGen
    rw [String.length_append]
    show base.length + (List.replicate _ '_').length = _
    rw [List.length_replicate]
  omega

/-- C9 at the caller `B` and the callee `R` with the states `start`, `accept`, `reject`:
one state before, 1 + 3 - 1 states after. -/
theorem GeneralInliner.parser_state_count_witness :
    ∃ states refMap1,
      sampleInliner.visitStates (sampleWorkPrepared (IContainer.p4Parser sampleParserR))
        ([] ++ sampleStateB :: []) sampleParserRefMap = some (states, refMap1) ∧
      states.map (fun q => q.name) = ["start", "R_start_____________", "start_______"] ∧
      (states.length = ([] ++ sampleStateB :: []).length + sampleParserR.states.length - 1 ∧
        states.length + 1 = ([] ++ sampleStateB :: []).length + sampleParserR.states.length) :=
  ⟨_, _, rfl, rfl,
    GeneralInliner.parser_state_count sampleInliner
      (sampleWorkPrepared (IContainer.p4Parser sampleParserR)) sampleParserRefMap _ [] []
      sampleStateB [] [] sampleCall 61 sampleParserR _ sampleGen_fresh (by decide) (by decide)
      (fun _ h => by cases h) (fun _ h => by cases h) rfl (fun _ h => by cases h)
      (fun _ h => by cases h) rfl rfl rfl rfl rfl⟩

/-! ## Control invocations -/

mutual
theorem IR.Expression.beq_iff : ∀ (a b : Expression), a.beq b = true ↔ a = b
  | .pathExpression p, b => by cases b <;> simp [Expression.beq]
  | .constant v, b => by cases b <;> simp [Expression.beq]
  | .stringLiteral v, b => by cases b <;> simp [Expression.beq]
  | .typeNameExpression v, b => by cases b <;> simp [Expression.beq]
  | .member e m, b => by
    cases b <;> simp [Expression.beq]
    intro _
    exact IR.Expression.beq_iff e _
  | .arrayIndex l r, b => by
    cases b <;> simp [Expression.beq]
    rw [IR.Expression.beq_iff l _, IR.Expression.beq_iff r _]
  | .slice x y z, b => by
    cases b <;> simp [Expression.beq]
    rw [IR.Expression.beq_iff x _, IR.Expression.beq_iff y _, IR.Expression.beq_iff z _]
    exact and_assoc
  | .binary o l r, b => by
    cases b <;> simp [Expression.beq]
    rw [IR.Expression.beq_iff l _, IR.Expression.beq_iff r _]
    exact and_assoc
  | .unary o e, b => by
    cases b <;> simp [Expression.beq]
    intro _
    exact IR.Expression.beq_iff e _
  | .mux x y z, b => by
    cases b <;> simp [Expression.beq]
    rw [IR.Expression.beq_iff x _, IR.Expression.beq_iff y _, IR.Expression.beq_iff z _]
    exact and_assoc
  | .listExpression cs, b => by
    cases b <;> simp [Expression.beq]
    exact IR.Expression.beqList_iff cs _
  | .methodCallExpression m as, b => by
    cases b <;> simp [Expression.beq]
    rw [IR.Expression.beq_iff m _, IR.Expression.beqList_iff as _]
theorem IR.Expression.beqList_iff :
    ∀ (a b : List Expression), Expression.beqList a b = true ↔ a = b
  | [], b => by cases b <;> simp [Expression.beqList]
  | x :: xs, b => by
    cases b with
    | nil => simp [Expression.beqList]
    | cons y ys =>
      simp [Expression.beqList]
      rw [IR.Expression.beq_iff x y, IR.Expression.beqList_iff xs ys]
end

theorem samePointer_some (t a : Expression) :
    samePointer (some t) (some a) = true ↔ t = a :=
  IR.Expression.beq_iff t a

theorem samePointer_ne (t a : Expression) (h : t ≠ a) :
    samePointer (some t) (some a) = false := by
  cases hb : samePointer (some t) (some a) with
  | false => rfl
  | true => exact absurd ((samePointer_some t a).mp hb) h

theorem GeneralInliner.copyIn_flatMap (self : GeneralInliner) (substs : PerInstanceSubstitutions)
    (mcd : MethodCallDescription) :
    ∀ (params : List Parameter) (l : List Statement),
    self.copyIn substs mcd params = some l →
    l = params.flatMap (fun p => (self.copyInParameter substs mcd p).getD []) ∧
    ∀ p ∈ params, (self.copyInParameter substs mcd p).isSome = true := by
  intro params
  induction params with
  | nil => intro l h; simp only [GeneralInliner.copyIn] at h; cases h; simp
  | cons p rest ih =>
    intro l h
    simp only [GeneralInliner.copyIn] at h
    cases hp : self.copyInParameter substs mcd p with
    | none => rw [hp] at h; cases h
    | some s =>
      cases hr : self.copyIn substs mcd rest with
      | none => rw [hp, hr] at h; cases h
      | some r =>
        rw [hp, hr] at h
        cases h
        obtain ⟨h1, h2⟩ := ih r hr
        refine ⟨by simp [List.flatMap_cons, hp, ← h1], ?_⟩
        intro q hq
        rcases List.mem_cons.mp hq with rfl | hq
        · simp [hp]
        · exact h2 q hq

theorem GeneralInliner.copyOut_flatMap (substs : PerInstanceSubstitutions)
    (mcd : MethodCallDescription) :
    ∀ (params : List Parameter) (l : List Statement),
    GeneralInliner.copyOut substs mcd params = some l →
    l = params.flatMap (fun p => (GeneralInliner.copyOutParameter substs mcd p).getD []) ∧
    ∀ p ∈ params, (GeneralInliner.copyOutParameter substs mcd p).isSome = true := by
  intro params
  induction params with
  | nil => intro l h; simp only [GeneralInliner.copyOut] at h; cases h; simp
  | cons p rest ih =>
    intro l h
    simp only [GeneralInliner.copyOut] at h
    cases hp : GeneralInliner.copyOutParameter substs mcd p with
    | none => rw [hp] at h; cases h
    | some s =>
      cases hr : GeneralInliner.copyOut substs mcd rest with
      | none => rw [hp, hr] at h; cases h
      | some r =>
        rw [hp, hr] at h
        cases h
        obtain ⟨h1, h2⟩ := ih r hr
        refine ⟨by simp [List.flatMap_cons, hp, ← h1], ?_⟩
        intro q hq
        rcases List.mem_cons.mp hq with rfl | hq
        · simp [hp]
        · exact h2 q hq

/-- C7: the block that replaces a call of an inlined control instance is, in this order,
the statements emitted before the body for each parameter of the call in declaration
order, the body of the renamed callee, and the statements emitted after the body for
each parameter in declaration order.  For a parameter `p` whose substitution is a
temporary `t` and not the argument `a`: before the body stands the copy-in `t := a` when
`p` is in or inout and the resets of `t` when `p` is out; after the body stands the
copy-out `a := t` when `p` is out or inout.  In particular the call with two `.next`
accesses of one header stack for two inout parameters gives two temporaries, two
copy-ins, no reset and two copy-outs. -/
theorem GeneralInliner.control_call_block (self : GeneralInliner) (work : Work)
    (statement : MethodCallStatement) (refMap refMap1 : ReferenceMap) (decl : Nat)
    (callee : P4Control) (substs : PerInstanceSubstitutions) (result : Statement)
    (hfind : work.findCall statement = some decl)
    (hcallee : work.declToCallee.lookup decl = some (IContainer.p4Control callee))
    (hsubsts : work.substitutions.lookup decl = some substs)
    (hrun : self.preorder_MethodCallStatement (some work) statement refMap
      = some (result, refMap1)) :
    (∃ (callee1 : P4Control) (inPart outPart : Parameter → List Statement),
      (substs.rename_P4Control refMap callee).map Prod.fst = some callee1 ∧
      result = Statement.blockStatement
        (callee1.annotations.filter (fun a => a.name != Annotation.nameAnnotation))
        ((MethodCallDescription.create callee.applyParams
            statement).substitution.getParameters.flatMap inPart
          ++ callee1.body ++
          (MethodCallDescription.create callee.applyParams
            statement).substitution.getParameters.flatMap outPart) ∧
      ∀ p ∈ (MethodCallDescription.create callee.applyParams
          statement).substitution.getParameters,
        ∀ t a, substs.paramSubst.lookup p = some t →
          substs.paramSubst.lookupByName p.name = some t →
          (MethodCallDescription.create callee.applyParams statement).substitution.lookup p
            = some a →
          t ≠ a →
          ((p.direction = Direction.In ∨ p.direction = Direction.InOut) →
            inPart p = [Statement.assignmentStatement t a]) ∧
          (p.direction = Direction.Out →
            ∃ ty, self.typeMap.declType p.decl = some ty ∧
              inPart p = DoResetHeaders.generateResets ty t) ∧
          ((p.direction = Direction.Out ∨ p.direction = Direction.InOut) →
            outPart p = [Statement.assignmentStatement a t])) ∧
    (∃ r, sampleControlInliner.preorder_P4Control
        [(80, sampleControlWork (sampleControlC Direction.InOut Direction.InOut)
          sampleStackArguments)]
        sampleControlRefMap (sampleControlD sampleStackArguments) = some r ∧
      r.1.controlLocals = [
        Declaration.declarationVariable
          (Declaration_Variable.mk 82 "s" [] (Type_.stack sampleHeader 4) none),
        Declaration.declarationVariable (Declaration_Variable.mk 83 "h1" [] sampleHeader none),
        Declaration.declarationVariable (Declaration_Variable.mk 84 "h2" [] sampleHeader none),
        Declaration.declarationVariable (Declaration_Variable.mk 101 "a___" [] sampleHeader none),
        Declaration.declarationVariable
          (Declaration_Variable.mk 103 "b_____" [] sampleHeader none)] ∧
      r.1.body = [Statement.blockStatement [] [
        Statement.assignmentStatement
          (Expression.pathExpression (IR.Path.mk 100 "a___" false))
          (Expression.member (Expression.pathExpression (IR.Path.mk 12 "s" false)) "next"),
        Statement.assignmentStatement
          (Expression.pathExpression (IR.Path.mk 102 "b_____" false))
          (Expression.member (Expression.pathExpression (IR.Path.mk 13 "s" false)) "next"),
        Statement.assignmentStatement
          (Expression.member (Expression.pathExpression (IR.Path.mk 100 "a___" false)) "f")
          (Expression.member (Expression.pathExpression (IR.Path.mk 102 "b_____" false)) "f"),
        Statement.assignmentStatement
          (Expression.member (Expression.pathExpression (IR.Path.mk 12 "s" false)) "next")
          (Expression.pathExpression (IR.Path.mk 100 "a___" false)),
        Statement.assignmentStatement
          (Expression.member (Expression.pathExpression (IR.Path.mk 13 "s" false)) "next")
          (Expression.pathExpression (IR.Path.mk 102 "b_____" false))]]) := by
  refine ⟨?_, ⟨_, rfl, rfl, rfl⟩⟩
  unfold GeneralInliner.preorder_MethodCallStatement at hrun
  simp only [hfind, hcallee, hsubsts] at hrun
  cases hin : self.copyIn substs (MethodCallDescription.create callee.applyParams statement)
      (MethodCallDescription.create callee.applyParams statement).substitution.getParameters with
  | none => rw [hin] at hrun; cases hrun
  | some copyin =>
    rw [hin] at hrun
    simp only at hrun
    cases hren : substs.rename_P4Control refMap callee with
    | none => rw [hren] at hrun; cases hrun
    | some rc =>
      obtain ⟨callee1, refMap2⟩ := rc
      rw [hren] at hrun
      simp only at hrun
      cases hout : GeneralInliner.copyOut substs
          (MethodCallDescription.create callee.applyParams statement)
          (MethodCallDescription.create callee.applyParams
            statement).substitution.getParameters with
      | none => rw [hout] at hrun; cases hrun
      | some copyout =>
        rw [hout] at hrun
        simp only [Option.some.injEq, Prod.mk.injEq] at hrun
        obtain ⟨hres, _⟩ := hrun
        obtain ⟨hin1, hin2⟩ := GeneralInliner.copyIn_flatMap self substs _ _ _ hin
        obtain ⟨hout1, _⟩ := GeneralInliner.copyOut_flatMap substs _ _ _ hout
        refine ⟨callee1,
          (fun p => (self.copyInParameter substs
            (MethodCallDescription.create callee.applyParams statement) p).getD []),
          (fun p => (GeneralInliner.copyOutParameter substs
            (MethodCallDescription.create callee.applyParams statement) p).getD []),
          rfl, ?_, ?_⟩
        · rw [← hres, hin1, hout1]
        · intro p hp t a ht htn ha hne
          have hsp := samePointer_ne t a hne
          refine ⟨?_, ?_, ?_⟩
          · intro hdir
            have hd : (p.direction == Direction.In || p.direction == Direction.InOut) = true := by
              rcases hdir with h | h <;> simp [h]
            simp [GeneralInliner.copyInParameter, ht, ha, hsp, hd]
          · intro hdir
            have hsome := hin2 p hp
            cases hty : self.typeMap.declType p.decl with
            | none =>
              simp [GeneralInliner.copyInParameter, ht, ha, hdir, hty] at hsome
            | some ty =>
              exact ⟨ty, rfl, by simp [GeneralInliner.copyInParameter, ht, ha, hdir, hty]⟩
          · intro hdir
            have hd : (p.direction == Direction.InOut || p.direction == Direction.Out) = true := by
              rcases hdir with h | h <;> simp [h]
            simp [GeneralInliner.copyOutParameter, htn, ha, hsp, hd]

/-- C7, at the call `x.apply(s.next, s.next)` of the caller `D`, after the preparation
that gave both inout parameters a temporary. -/
theorem GeneralInliner.control_call_block_witness :
    ∃ result refMap1,
      sampleControlInliner.preorder_MethodCallStatement (some sampleControlWorkPrepared)
        (sampleCallX sampleStackArguments) sampleControlRefMap = some (result, refMap1) ∧
      ∃ (callee1 : P4Control) (inPart outPart : Parameter → List Statement),
        ((PerInstanceSubstitutions.mk
          (ParameterSubstitution.mk
            [(Parameter.mk 71 "a" Direction.InOut sampleHeader [],
              Expression.pathExpression (IR.Path.mk 100 "a___" false)),
             (Parameter.mk 72 "b" Direction.InOut sampleHeader [],
              Expression.pathExpression (IR.Path.mk 102 "b_____" false))])
          (TypeVariableSubstitution.mk []) SymRenameMap.empty).rename_P4Control
            sampleControlRefMap
            (sampleControlC Direction.InOut Direction.InOut)).map Prod.fst = some callee1 ∧
        result = Statement.blockStatement
          (callee1.annotations.filter (fun a => a.name != Annotation.nameAnnotation))
          ((MethodCallDescription.create
              (sampleControlC Direction.InOut Direction.InOut).applyParams
              (sampleCallX sampleStackArguments)).substitution.getParameters.flatMap inPart
            ++ callee1.body ++
            (MethodCallDescription.create
              (sampleControlC Direction.InOut Direction.InOut).applyParams
              (sampleCallX sampleStackArguments)).substitution.getParameters.flatMap outPart) ∧
        inPart (Parameter.mk 71 "a" Direction.InOut sampleHeader [])
          = [Statement.assignmentStatement
              (Expression.pathExpression (IR.Path.mk 100 "a___" false))
              (Expression.member (Expression.pathExpression (IR.Path.mk 12 "s" false)) "next")] ∧
        outPart (Parameter.mk 71 "a" Direction.InOut sampleHeader [])
          = [Statement.assignmentStatement
              (Expression.member (Expression.pathExpression (IR.Path.mk 12 "s" false)) "next")
              (Expression.pathExpression (IR.Path.mk 100 "a___" false))] := by
  refine ⟨_, _, rfl, ?_⟩
  obtain ⟨⟨callee1, inPart, outPart, h1, h2, h3⟩, _⟩ :=
    GeneralInliner.control_call_block sampleControlInliner sampleControlWorkPrepared
      (sampleCallX sampleStackArguments) sampleControlRefMap _ 81
      (sampleControlC Direction.InOut Direction.InOut) _ _ rfl rfl rfl rfl
  have h := h3 (Parameter.mk 71 "a" Direction.InOut sampleHeader [])
    (by simp [MethodCallDescription.create, ParameterSubstitution.getParameters,
      ParameterSubstitution.populate, ParameterSubstitution.empty, sampleControlC, sampleCallX,
      sampleStackArguments])
    (Expression.pathExpression (IR.Path.mk 100 "a___" false))
    (Expression.member (Expression.pathExpression (IR.Path.mk 12 "s" false)) "next")
    rfl rfl rfl (by intro h; cases h)
  exact ⟨callee1, inPart, outPart, h1, h2, h.1 (Or.inr rfl), h.2.2 (Or.inr rfl)⟩

/-! ## A single call without aliasing -/

theorem ComputeNewNames.fold_rename_resolution (ds : List Declaration) :
    ∀ (cnn : ComputeNewNames),
    (ds.foldl ComputeNewNames.rename cnn).refMap.resolution = cnn.refMap.resolution := by
  induction ds with
  | nil => intro cnn; rfl
  | cons d ds ih =>
    intro cnn
    rw [List.foldl_cons, ih]
    rfl

mutual
theorem FindLocationSets.visit_congr (refMap1 refMap2 : ReferenceMap) (typeMap : TypeMap)
    (hasStorage : Nat → Bool) (h : refMap1.resolution = refMap2.resolution) :
    ∀ (e : Expression),
    FindLocationSets.visit (StorageMap.mk refMap1 typeMap hasStorage) e
      = FindLocationSets.visit (StorageMap.mk refMap2 typeMap hasStorage) e
  | .pathExpression p => by
    simp only [FindLocationSets.visit, ReferenceMap.getDeclaration, h, StorageMap.getStorage]
  | .constant _ => rfl
  | .stringLiteral _ => rfl
  | .typeNameExpression _ => rfl
  | .methodCallExpression _ _ => rfl
  | .member e m => by
    simp only [FindLocationSets.visit,
      FindLocationSets.visit_congr refMap1 refMap2 typeMap hasStorage h e]
  | .arrayIndex l r => by
    simp only [FindLocationSets.visit,
      FindLocationSets.visit_congr refMap1 refMap2 typeMap hasStorage h l,
      FindLocationSets.visit_congr refMap1 refMap2 typeMap hasStorage h r]
  | .slice a _ _ => by
    simp only [FindLocationSets.visit,
      FindLocationSets.visit_congr refMap1 refMap2 typeMap hasStorage h a]
  | .binary _ l r => by
    simp only [FindLocationSets.visit,
      FindLocationSets.visit_congr refMap1 refMap2 typeMap hasStorage h l,
      FindLocationSets.visit_congr refMap1 refMap2 typeMap hasStorage h r]
  | .unary _ e => by
    simp only [FindLocationSets.visit,
      FindLocationSets.visit_congr refMap1 refMap2 typeMap hasStorage h e]
  | .mux a b c => by
    simp only [FindLocationSets.visit,
      FindLocationSets.visit_congr refMap1 refMap2 typeMap hasStorage h a,
      FindLocationSets.visit_congr refMap1 refMap2 typeMap hasStorage h b,
      FindLocationSets.visit_congr refMap1 refMap2 typeMap hasStorage h c]
  | .listExpression cs => by
    simp only [FindLocationSets.visit,
      FindLocationSets.visitList_congr refMap1 refMap2 typeMap hasStorage h cs]
theorem FindLocationSets.visitList_congr (refMap1 refMap2 : ReferenceMap) (typeMap : TypeMap)
    (hasStorage : Nat → Bool) (h : refMap1.resolution = refMap2.resolution) :
    ∀ (cs : List Expression),
    FindLocationSets.visit.visitList (StorageMap.mk refMap1 typeMap hasStorage) cs
      = FindLocationSets.visit.visitList (StorageMap.mk refMap2 typeMap hasStorage) cs
  | [] => rfl
  | c :: cs => by
    simp only [FindLocationSets.visit.visitList,
      FindLocationSets.visit_congr refMap1 refMap2 typeMap hasStorage h c,
      FindLocationSets.visitList_congr refMap1 refMap2 typeMap hasStorage h cs]
end

theorem GeneralInliner.locationSets_congr (refMap1 refMap2 : ReferenceMap) (typeMap : TypeMap)
    (hasStorage : Nat → Bool) (h : refMap1.resolution = refMap2.resolution)
    (mcd : MethodCallDescription) (params : List Parameter) :
    GeneralInliner.locationSets (StorageMap.mk refMap1 typeMap hasStorage) mcd params
      = GeneralInliner.locationSets (StorageMap.mk refMap2 typeMap hasStorage) mcd params := by
  induction params with
  | nil => rfl
  | cons p rest ih =>
    simp only [GeneralInliner.locationSets, FindLocationSets.locations,
      FindLocationSets.visit_congr refMap1 refMap2 typeMap hasStorage h, ih]

theorem GeneralInliner.useTemporary_congr (refMap1 refMap2 : ReferenceMap) (typeMap : TypeMap)
    (hasStorage : Nat → Bool) (h : refMap1.resolution = refMap2.resolution)
    (mcd : MethodCallDescription) :
    GeneralInliner.useTemporary (StorageMap.mk refMap1 typeMap hasStorage) mcd
      = GeneralInliner.useTemporary (StorageMap.mk refMap2 typeMap hasStorage) mcd := by
  simp only [GeneralInliner.useTemporary,
    GeneralInliner.locationSets_congr refMap1 refMap2 typeMap hasStorage h]

theorem GeneralInliner.locationSets_lookup (storageMap : StorageMap)
    (mcd : MethodCallDescription) :
    ∀ (params : List Parameter) (sets : List (Nat × LocationSet)),
    GeneralInliner.locationSets storageMap mcd params = some sets →
    ∀ d ls, sets.lookup d = some ls →
      ∃ p ∈ params, p.decl = d ∧ ∃ a, mcd.substitution.lookup p = some a ∧
        FindLocationSets.locations storageMap a = some ls := by
  intro params
  induction params with
  | nil =>
    intro sets h d ls hl
    simp only [GeneralInliner.locationSets] at h
    cases h
    simp [List.lookup] at hl
  | cons p rest ih =>
    intro sets h d ls hl
    simp only [GeneralInliner.locationSets] at h
    cases ha : mcd.substitution.lookup p with
    | none => rw [ha] at h; cases h
    | some a =>
      rw [ha] at h
      simp only at h
      cases hloc : FindLocationSets.locations storageMap a with
      | none => rw [hloc] at h; cases h
      | some l =>
        cases hrest : GeneralInliner.locationSets storageMap mcd rest with
        | none => rw [hloc, hrest] at h; cases h
        | some r =>
          rw [hloc, hrest] at h
          cases h
          by_cases hd : d = p.decl
          · subst hd
            simp only [List.lookup, beq_self_eq_true] at hl
            cases hl
            exact ⟨p, List.mem_cons_self _ _, rfl, a, ha, hloc⟩
          · have hb : (d == p.decl) = false := by simpa using hd
            simp only [List.lookup, hb] at hl
            obtain ⟨q, hq, hqd, hqa⟩ := ih r hrest d ls hl
            exact ⟨q, List.mem_cons_of_mem _ hq, hqd, hqa⟩

theorem GeneralInliner.useTemporary_noAliasing (storageMap : StorageMap)
    (mcd : MethodCallDescription) (temporaries : List Nat)
    (hno : GeneralInliner.noAliasing storageMap mcd)
    (h : GeneralInliner.useTemporary storageMap mcd = some temporaries) :
    temporaries = [] := by
  unfold GeneralInliner.useTemporary at h
  simp only at h
  cases hs : GeneralInliner.locationSets storageMap mcd mcd.substitution.getParameters with
  | none => rw [hs] at h; cases h
  | some sets =>
    rw [hs] at h
    simp only [Option.some.injEq] at h
    rw [← h, List.flatMap_eq_nil_iff]
    intro p1 hp1
    rw [List.flatMap_eq_nil_iff]
    intro p2 hp2
    by_cases hd : p1.decl = p2.decl
    · simp [hd]
    · have hb : (p1.decl == p2.decl) = false := by simpa using hd
      simp only [hb, Bool.false_eq_true, if_false]
      cases h1 : List.lookup p1.decl sets with
      | none => rfl
      | some ls1 =>
        cases h2 : List.lookup p2.decl sets with
        | none => rfl
        | some ls2 =>
          obtain ⟨q1, hq1, hd1, a1, ha1, hl1⟩ :=
            GeneralInliner.locationSets_lookup storageMap mcd _ sets hs _ _ h1
          obtain ⟨q2, hq2, hd2, a2, ha2, hl2⟩ :=
            GeneralInliner.locationSets_lookup storageMap mcd _ sets hs _ _ h2
          have := hno q1 hq1 q2 hq2 (by rw [hd1, hd2]; exact hd) a1 a2 ls1 ls2 ha1 ha2 hl1 hl2
          simp [this]

theorem GeneralInliner.bindParameters_direct (call : MethodCallStatement)
    (mcd : MethodCallDescription) :
    ∀ (params : List Parameter) (b b1 : GeneralInliner.Binding),
    GeneralInliner.bindParameters (some call) (some mcd) [] params b = some b1 →
    b1.locals = b.locals ∧ b1.refMap = b.refMap ∧
    b1.substs.paramSubst.bindings
      = b.substs.paramSubst.bindings ++ GeneralInliner.directBindings mcd params ∧
    b1.substs.tvs = b.substs.tvs ∧ b1.substs.renameMap = b.substs.renameMap := by
  intro params
  induction params with
  | nil =>
    intro b b1 h
    simp only [GeneralInliner.bindParameters] at h
    cases h
    simp [GeneralInliner.directBindings]
  | cons p rest ih =>
    intro b b1 h
    simp only [GeneralInliner.bindParameters] at h
    cases hp : GeneralInliner.bindParameter (some call) (some mcd) [] b p with
    | none => rw [hp] at h; cases h
    | some b2 =>
      rw [hp] at h
      simp only at h
      obtain ⟨i1, i2, i3, i4, i5⟩ := ih b2 b1 h
      unfold GeneralInliner.bindParameter at hp
      by_cases hd : p.direction = Direction.None
      · simp only [hd, beq_self_eq_true, if_true, Option.some.injEq] at hp
        subst hp
        refine ⟨i1, i2, ?_, i4, i5⟩
        rw [i3]
        simp [GeneralInliner.directBindings, hd]
      · have hb : (p.direction == Direction.None) = false := by simpa using hd
        simp only [hb, Bool.false_eq_true, if_false, Option.isSome_some, List.contains_nil,
          Bool.not_false, Bool.and_self, if_true] at hp
        cases ha : mcd.substitution.lookup p with
        | none => rw [ha] at hp; cases hp
        | some a =>
          rw [ha] at hp
          simp only [Option.some.injEq] at hp
          subst hp
          refine ⟨i1, i2, ?_, i4, i5⟩
          rw [i3]
          simp [GeneralInliner.directBindings, hd, ha, ParameterSubstitution.add,
            List.filterMap_cons]

theorem find_binding {κ : Type} [DecidableEq κ] (key : Parameter → κ) :
    ∀ (l : List (Parameter × Expression)), (l.map (fun b => key b.1)).Nodup →
    ∀ p a, (p, a) ∈ l → l.find? (fun b => key b.1 == key p) = some (p, a) := by
  intro l
  induction l with
  | nil => intro _ p a h; cases h
  | cons q l ih =>
    intro hn p a h
    rw [List.map_cons, List.nodup_cons] at hn
    rcases List.mem_cons.mp h with heq | hmem
    · subst heq
      simp [List.find?_cons]
    · have hne : key q.1 ≠ key p := by
        intro he
        apply hn.1
        rw [he]
        exact List.mem_map.mpr ⟨(p, a), hmem, rfl⟩
      have hb : (key q.1 == key p) = false := by simpa using hne
      rw [List.find?_cons, hb]
      exact ih hn.2 p a hmem

theorem GeneralInliner.mem_directBindings (mcd : MethodCallDescription)
    (params : List Parameter) (b : Parameter × Expression) :
    b ∈ GeneralInliner.directBindings mcd params ↔
      b.1 ∈ params ∧ b.1.direction ≠ Direction.None ∧
      mcd.substitution.lookup b.1 = some b.2 := by
  unfold GeneralInliner.directBindings
  rw [List.mem_filterMap]
  constructor
  · rintro ⟨p, hp, h⟩
    by_cases hd : p.direction = Direction.None
    · simp [hd] at h
    · have hb : (p.direction == Direction.None) = false := by simpa using hd
      simp only [hb, Bool.false_eq_true, if_false] at h
      cases ha : mcd.substitution.lookup p with
      | none => rw [ha] at h; cases h
      | some a =>
        rw [ha] at h
        simp only [Option.map_some', Option.some.injEq] at h
        subst h
        exact ⟨hp, hd, ha⟩
  · rintro ⟨hp, hd, ha⟩
    refine ⟨b.1, hp, ?_⟩
    have hb : (b.1.direction == Direction.None) = false := by simpa using hd
    simp [hb, ha]

theorem GeneralInliner.directBindings_nodup {κ : Type} [DecidableEq κ] (key : Parameter → κ)
    (mcd : MethodCallDescription) :
    ∀ (params : List Parameter), (params.map key).Nodup →
    ((GeneralInliner.directBindings mcd params).map (fun b => key b.1)).Nodup := by
  intro params
  induction params with
  | nil => intro _; simp [GeneralInliner.directBindings]
  | cons q rest ih =>
    intro hn
    rw [List.map_cons, List.nodup_cons] at hn
    have hrest := ih hn.2
    have hnot : key q ∉ (GeneralInliner.directBindings mcd rest).map (fun b => key b.1) := by
      intro hm
      obtain ⟨b, hb, hk⟩ := List.mem_map.mp hm
      have := ((GeneralInliner.mem_directBindings mcd rest b).mp hb).1
      exact hn.1 (hk ▸ List.mem_map.mpr ⟨b.1, this, rfl⟩)
    by_cases hd : q.direction = Direction.None
    · have hcons : GeneralInliner.directBindings mcd (q :: rest)
          = GeneralInliner.directBindings mcd rest := by
        simp [GeneralInliner.directBindings, List.filterMap_cons, hd]
      rw [hcons]
      exact hrest
    · cases ha : mcd.substitution.lookup q with
      | none =>
        have hcons : GeneralInliner.directBindings mcd (q :: rest)
            = GeneralInliner.directBindings mcd rest := by
          simp [GeneralInliner.directBindings, List.filterMap_cons, hd, ha]
        rw [hcons]
        exact hrest
      | some a =>
        have hcons : GeneralInliner.directBindings mcd (q :: rest)
            = (q, a) :: GeneralInliner.directBindings mcd rest := by
          simp [GeneralInliner.directBindings, List.filterMap_cons, hd, ha]
        rw [hcons, List.map_cons, List.nodup_cons]
        exact ⟨hnot, hrest⟩

theorem GeneralInliner.find_directBinding {κ : Type} [DecidableEq κ] (key : Parameter → κ)
    (ctor : List (Parameter × Expression)) (mcd : MethodCallDescription)
    (params : List Parameter) (hn : (params.map key).Nodup)
    (hc : ∀ b ∈ ctor, key b.1 ∉ params.map key)
    (p : Parameter) (hp : p ∈ params) (hd : p.direction ≠ Direction.None)
    (a : Expression) (ha : mcd.substitution.lookup p = some a) :
    (ctor ++ GeneralInliner.directBindings mcd params).find? (fun b => key b.1 == key p)
      = some (p, a) := by
  have hnone : ctor.find? (fun b => key b.1 == key p) = none := by
    rw [List.find?_eq_none]
    intro b hb hk
    apply hc b hb
    have : key b.1 = key p := by simpa using hk
    rw [this]
    exact List.mem_map.mpr ⟨p, hp, rfl⟩
  rw [List.find?_append, hnone, Option.none_or]
  exact find_binding key _ (GeneralInliner.directBindings_nodup key mcd params hn) p a
    ((GeneralInliner.mem_directBindings mcd params (p, a)).mpr ⟨hp, hd, ha⟩)

theorem samePointer_self (x : Option Expression) : samePointer x x = true := by
  cases x with
  | none => rfl
  | some e => exact (samePointer_some e e).mpr rfl

/-- The block for a call whose parameters with a direction are all bound to their
arguments: the resets of the out parameters, then the body of the renamed callee. -/
theorem GeneralInliner.control_call_block_direct (self : GeneralInliner) (work : Work)
    (statement : MethodCallStatement) (refMap refMap1 : ReferenceMap) (decl : Nat)
    (callee : P4Control) (substs : PerInstanceSubstitutions) (result : Statement)
    (hfind : work.findCall statement = some decl)
    (hcallee : work.declToCallee.lookup decl = some (IContainer.p4Control callee))
    (hsubsts : work.substitutions.lookup decl = some substs)
    (hdirect : ∀ p ∈ (MethodCallDescription.create callee.applyParams
        statement).substitution.getParameters, p.direction ≠ Direction.None →
      substs.paramSubst.lookup p
        = (MethodCallDescription.create callee.applyParams statement).substitution.lookup p ∧
      substs.paramSubst.lookupByName p.name
        = (MethodCallDescription.create callee.applyParams statement).substitution.lookup p)
    (hrun : self.preorder_MethodCallStatement (some work) statement refMap
      = some (result, refMap1)) :
    ∃ callee1, (substs.rename_P4Control refMap callee).map Prod.fst = some callee1 ∧
      result = Statement.blockStatement
        (callee1.annotations.filter (fun a => a.name != Annotation.nameAnnotation))
        ((MethodCallDescription.create callee.applyParams
            statement).substitution.getParameters.flatMap
            (self.argumentResets (MethodCallDescription.create callee.applyParams statement))
          ++ callee1.body) := by
  unfold GeneralInliner.preorder_MethodCallStatement at hrun
  simp only [hfind, hcallee, hsubsts] at hrun
  cases hin : self.copyIn substs (MethodCallDescription.create callee.applyParams statement)
      (MethodCallDescription.create callee.applyParams statement).substitution.getParameters with
  | none => rw [hin] at hrun; cases hrun
  | some copyin =>
    rw [hin] at hrun
    simp only at hrun
    cases hren : substs.rename_P4Control refMap callee with
    | none => rw [hren] at hrun; cases hrun
    | some rc =>
      obtain ⟨callee1, refMap2⟩ := rc
      rw [hren] at hrun
      simp only at hrun
      cases hout : GeneralInliner.copyOut substs
          (MethodCallDescription.create callee.applyParams statement)
          (MethodCallDescription.create callee.applyParams
            statement).substitution.getParameters with
      | none => rw [hout] at hrun; cases hrun
      | some copyout =>
        rw [hout] at hrun
        simp only [Option.some.injEq, Prod.mk.injEq] at hrun
        obtain ⟨hres, _⟩ := hrun
        obtain ⟨hin1, hin2⟩ := GeneralInliner.copyIn_flatMap self substs _ _ _ hin
        obtain ⟨hout1, _⟩ := GeneralInliner.copyOut_flatMap substs _ _ _ hout
        refine ⟨callee1, rfl, ?_⟩
        have hcopyout : copyout = [] := by
          rw [hout1, List.flatMap_eq_nil_iff]
          intro p hp
          unfold GeneralInliner.copyOutParameter
          by_cases hd : (p.direction == Direction.InOut || p.direction == Direction.Out) = true
          · have hne : p.direction ≠ Direction.None := by
              intro h
              rw [h] at hd
              simp at hd
            simp only [hd, if_true, (hdirect p hp hne).2, samePointer_self]
            rfl
          · simp only [hd, if_false]
            rfl
        have hcopyin : copyin
            = (MethodCallDescription.create callee.applyParams
                statement).substitution.getParameters.flatMap
                (self.argumentResets
                  (MethodCallDescription.create callee.applyParams statement)) := by
          rw [hin1]
          apply List.flatMap_congr
          intro p hp
          have hsome := hin2 p hp
          unfold GeneralInliner.copyInParameter at hsome ⊢
          unfold GeneralInliner.argumentResets
          by_cases hnone : p.direction = Direction.None
          · simp [hnone]
          · have hl := (hdirect p hp hnone).1
            rw [hl] at hsome ⊢
            simp only [samePointer_self, Bool.not_true, Bool.and_false, Bool.false_eq_true,
              if_false] at hsome ⊢
            by_cases hout : p.direction = Direction.Out
            · simp only [hout, beq_self_eq_true, if_true] at hsome ⊢
              cases self.typeMap.declType p.decl <;>
                cases (MethodCallDescription.create callee.applyParams
                  statement).substitution.lookup p <;> simp_all
            · have hb : (p.direction == Direction.Out) = false := by simpa using hout
              simp [hb, hout]
        rw [← hres, hcopyin, hcopyout, List.append_nil]

theorem MethodCallDescription.getParameters_create (params : List Parameter)
    (call : MethodCallStatement) (hlen : params.length ≤ call.arguments.length) :
    (MethodCallDescription.create params call).substitution.getParameters = params := by
  simp only [MethodCallDescription.create, ParameterSubstitution.getParameters,
    ParameterSubstitution.populate, ParameterSubstitution.empty, List.nil_append]
  exact List.map_fst_zip _ _ hlen

theorem MethodCallDescription.lookup_create (params : List Parameter)
    (call : MethodCallStatement) (hlen : params.length ≤ call.arguments.length)
    (hn : (params.map (fun q => q.decl)).Nodup) (p : Parameter) (hp : p ∈ params) :
    ∃ a, (MethodCallDescription.create params call).substitution.lookup p = some a := by
  have hz : (params.zip call.arguments).map Prod.fst = params := List.map_fst_zip _ _ hlen
  have hmem : p ∈ (params.zip call.arguments).map Prod.fst := by rw [hz]; exact hp
  obtain ⟨b, hb, hb1⟩ := List.mem_map.mp hmem
  have hnz : ((params.zip call.arguments).map (fun b => b.1.decl)).Nodup := by
    have : (params.zip call.arguments).map (fun b => b.1.decl)
        = ((params.zip call.arguments).map Prod.fst).map (fun q => q.decl) := by
      rw [List.map_map]; rfl
    rw [this, hz]
    exact hn
  have hfind := find_binding (fun q => q.decl) _ hnz p b.2 (by rw [← hb1]; exact hb)
  refine ⟨b.2, ?_⟩
  simp only [MethodCallDescription.create, ParameterSubstitution.lookup,
    ParameterSubstitution.lookupDecl, ParameterSubstitution.populate,
    ParameterSubstitution.empty, List.nil_append]
  rw [hfind]
  rfl

/-- C8, as stated, fails for an out parameter of header type: at the single call
`x.apply(h1, h2)` of `C(out H a, in H b)` the location sets of `h1` and `h2` do not
overlap and no temporary is added, but the block starts with the reset `h1.setInvalid()`,
which is not a statement of the callee body. -/
theorem GeneralInliner.single_call_block_has_reset :
    (sampleControlWork (sampleControlC Direction.Out Direction.In)
      sampleHeaderArguments).uniqueCaller 81 = some (sampleCallX sampleHeaderArguments) ∧
    (∃ ls1 ls2,
      FindLocationSets.locations
        (StorageMap.mk sampleControlRefMap sampleControlInliner.typeMap
          sampleControlInliner.hasStorage)
        (Expression.pathExpression (IR.Path.mk 14 "h1" false)) = some ls1 ∧
      FindLocationSets.locations
        (StorageMap.mk sampleControlRefMap sampleControlInliner.typeMap
          sampleControlInliner.hasStorage)
        (Expression.pathExpression (IR.Path.mk 15 "h2" false)) = some ls2 ∧
      ls1.overlaps ls2 = false ∧ ls2.overlaps ls1 = false) ∧
    ∃ r, sampleControlInliner.preorder_P4Control
        [(80, sampleControlWork (sampleControlC Direction.Out Direction.In)
          sampleHeaderArguments)]
        sampleControlRefMap (sampleControlD sampleHeaderArguments) = some r ∧
      r.1.controlLocals = [
        Declaration.declarationVariable
          (Declaration_Variable.mk 82 "s" [] (Type_.stack sampleHeader 4) none),
        Declaration.declarationVariable (Declaration_Variable.mk 83 "h1" [] sampleHeader none),
        Declaration.declarationVariable (Declaration_Variable.mk 84 "h2" [] sampleHeader none)] ∧
      r.1.body = [Statement.blockStatement [] [
        Statement.methodCallStatement (MethodCallStatement.mk none
          (Expression.member (Expression.pathExpression (IR.Path.mk 14 "h1" false))
            "setInvalid") []),
        Statement.assignmentStatement
          (Expression.member (Expression.pathExpression (IR.Path.mk 14 "h1" false)) "f")
          (Expression.member (Expression.pathExpression (IR.Path.mk 15 "h2" false)) "f")]] :=
  ⟨rfl, ⟨_, _, rfl, rfl, rfl, rfl⟩, _, rfl, rfl, rfl⟩

/-- C8, amended: for a control instance invoked at exactly one call site whose argument
location sets are pairwise non-overlapping, the preparation adds no temporary to the
locals of the caller (it appends the locals of the renamed callee only), and the
statements of the block that replaces the call are the resets of the out parameters,
generated on their arguments in parameter order, followed by the statements of the
renamed callee body, with no copy-in and no copy-out; without an out parameter they are
exactly the statements of the renamed callee body. -/
theorem GeneralInliner.single_call_no_aliasing (self : GeneralInliner)
    (p p1 : GeneralInliner.Preparation) (inst : Declaration_Instance) (callee : P4Control)
    (call : MethodCallStatement)
    (hunique : p.work.uniqueCaller inst.decl = some call)
    (hfind : p.work.findCall call = some inst.decl)
    (hcallee : p.work.declToCallee.lookup inst.decl = some (IContainer.p4Control callee))
    (hlen : callee.applyParams.length ≤ call.arguments.length)
    (hdecl : ((callee.constructorParams ++ callee.applyParams).map (fun q => q.decl)).Nodup)
    (hname : ((callee.constructorParams ++ callee.applyParams).map (fun q => q.name)).Nodup)
    (hno : GeneralInliner.noAliasing (StorageMap.mk p.refMap self.typeMap self.hasStorage)
      (MethodCallDescription.create callee.applyParams call))
    (hprep : self.prepareControlInstance p inst callee = some p1) :
    (∃ substs refMapA clone refMapB,
      p1.work.substitutions.lookup inst.decl = some substs ∧
      substs.rename_P4Control refMapA callee = some (clone, refMapB) ∧
      p1.locals = p.locals ++ clone.controlLocals) ∧
    (∀ refMap refMap1 result,
      self.preorder_MethodCallStatement (some p1.work) call refMap = some (result, refMap1) →
      ∃ substs callee1,
        p1.work.substitutions.lookup inst.decl = some substs ∧
        (substs.rename_P4Control refMap callee).map Prod.fst = some callee1 ∧
        result = Statement.blockStatement
          (callee1.annotations.filter (fun a => a.name != Annotation.nameAnnotation))
          (callee.applyParams.flatMap
              (self.argumentResets (MethodCallDescription.create callee.applyParams call))
            ++ callee1.body) ∧
        ((∀ q ∈ callee.applyParams, q.direction ≠ Direction.Out) →
          result = Statement.blockStatement
            (callee1.annotations.filter (fun a => a.name != Annotation.nameAnnotation))
            callee1.body)) := by
  have hparams := MethodCallDescription.getParameters_create callee.applyParams call hlen
  have hnd := List.nodup_append.mp (by rw [← List.map_append]; exact hdecl)
  have hnn := List.nodup_append.mp (by rw [← List.map_append]; exact hname)
  unfold GeneralInliner.prepareControlInstance at hprep
  simp only at hprep
  cases hcnn : ComputeNewNames.create (IR.externalName inst.name inst.annotations) p.refMap
      SymRenameMap.empty with
  | none => rw [hcnn] at hprep; cases hprep
  | some cnn0 =>
    rw [hcnn] at hprep
    simp only [hunique, Option.map_some'] at hprep
    have hcnn0 : cnn0.refMap = p.refMap := by
      unfold ComputeNewNames.create at hcnn
      split at hcnn
      · cases hcnn
      · cases hcnn; rfl
    have hres : (GeneralInliner.computeNewNames_P4Control cnn0 callee).refMap.resolution
        = p.refMap.resolution := by
      unfold GeneralInliner.computeNewNames_P4Control
      rw [ComputeNewNames.fold_rename_resolution, hcnn0]
    rw [GeneralInliner.useTemporary_congr _ p.refMap self.typeMap self.hasStorage hres] at hprep
    cases htemp : GeneralInliner.useTemporary
        (StorageMap.mk p.refMap self.typeMap self.hasStorage)
        (MethodCallDescription.create callee.applyParams call) with
    | none => rw [htemp] at hprep; cases hprep
    | some temporaries =>
      have hnil := GeneralInliner.useTemporary_noAliasing _ _ _ hno htemp
      subst hnil
      rw [htemp] at hprep
      simp only at hprep
      split at hprep
      · cases hprep
      · rename_i b hb
        obtain ⟨hl, _, hbind, _, _⟩ := GeneralInliner.bindParameters_direct call _ _ _ _ hb
        simp only at hl hbind
        split at hprep
        · cases hprep
        · rename_i clone refMapB hren
          cases hprep
          refine ⟨⟨b.substs, b.refMap, clone, refMapB, ?_, hren, ?_⟩, ?_⟩
          · simp [List.lookup]
          · simp only [hl]
          · intro refMap refMap1 result hrun
            have hdirect : ∀ q ∈ (MethodCallDescription.create callee.applyParams
                call).substitution.getParameters, q.direction ≠ Direction.None →
                b.substs.paramSubst.lookup q
                  = (MethodCallDescription.create callee.applyParams
                      call).substitution.lookup q ∧
                b.substs.paramSubst.lookupByName q.name
                  = (MethodCallDescription.create callee.applyParams
                      call).substitution.lookup q := by
              intro q hq hdir
              rw [hparams] at hq
              obtain ⟨a, ha⟩ := MethodCallDescription.lookup_create callee.applyParams call
                hlen hnd.2.1 q hq
              have hctor : ∀ (κ : Type) (key : Parameter → κ),
                  List.Disjoint (callee.constructorParams.map key) (callee.applyParams.map key) →
                  ∀ c ∈ (ParameterSubstitution.empty.populate callee.constructorParams
                    inst.arguments).bindings, key c.1 ∉ callee.applyParams.map key := by
                intro κ key hdis c hc
                simp only [ParameterSubstitution.populate, ParameterSubstitution.empty,
                  List.nil_append] at hc
                obtain ⟨c1, c2⟩ := c
                have := (List.of_mem_zip hc).1
                exact fun hm => hdis (List.mem_map.mpr ⟨c1, this, rfl⟩) hm
              have h1 : b.substs.paramSubst.lookup q = some a := by
                simp only [ParameterSubstitution.lookup, ParameterSubstitution.lookupDecl,
                  hbind]
                rw [GeneralInliner.find_directBinding (fun q => q.decl) _ _ _ hnd.2.1
                  (hctor _ _ hnd.2.2) q hq hdir a ha]
                rfl
              have h2 : b.substs.paramSubst.lookupByName q.name = some a := by
                simp only [ParameterSubstitution.lookupByName, hbind]
                rw [GeneralInliner.find_directBinding (fun q => q.name) _ _ _ hnn.2.1
                  (hctor _ _ hnn.2.2) q hq hdir a ha]
                rfl
              rw [h1, h2, ha]
              exact ⟨rfl, rfl⟩
            obtain ⟨callee1, h1, h2⟩ := GeneralInliner.control_call_block_direct self
              { p.work with substitutions := (inst.decl, b.substs) :: p.work.substitutions }
              call refMap refMap1 inst.decl callee b.substs result hfind hcallee
              (by simp [List.lookup]) hdirect hrun
            rw [hparams] at h2
            refine ⟨b.substs, callee1, by simp [List.lookup], h1, h2, ?_⟩
            intro hnoout
            rw [h2]
            have : callee.applyParams.flatMap
                (self.argumentResets (MethodCallDescription.create callee.applyParams call))
                = [] := by
              rw [List.flatMap_eq_nil_iff]
              intro q hq
              simp [GeneralInliner.argumentResets, hnoout q hq]
            rw [this, List.nil_append]

theorem sampleHeaderArguments_noAliasing :
    GeneralInliner.noAliasing
      (StorageMap.mk sampleControlRefMap sampleControlInliner.typeMap
        sampleControlInliner.hasStorage)
      (MethodCallDescription.create (sampleControlC Direction.Out Direction.In).applyParams
        (sampleCallX sampleHeaderArguments)) := by
  have hparams : (MethodCallDescription.create
      (sampleControlC Direction.Out Direction.In).applyParams
      (sampleCallX sampleHeaderArguments)).substitution.getParameters
      = [Parameter.mk 71 "a" Direction.Out sampleHeader [],
         Parameter.mk 72 "b" Direction.In sampleHeader []] := rfl
  intro p1 hp1 p2 hp2 hne a1 a2 ls1 ls2 h1 h2 h3 h4
  rw [hparams] at hp1 hp2
  simp only [List.mem_cons, List.mem_singleton, List.not_mem_nil, or_false] at hp1 hp2
  rcases hp1 with rfl | rfl <;> rcases hp2 with rfl | rfl
  · exact absurd rfl hne
  · have e1 : (MethodCallDescription.create
        (sampleControlC Direction.Out Direction.In).applyParams
        (sampleCallX sampleHeaderArguments)).substitution.lookup
        (Parameter.mk 71 "a" Direction.Out sampleHeader [])
        = some (Expression.pathExpression (IR.Path.mk 14 "h1" false)) := rfl
    have e2 : (MethodCallDescription.create
        (sampleControlC Direction.Out Direction.In).applyParams
        (sampleCallX sampleHeaderArguments)).substitution.lookup
        (Parameter.mk 72 "b" Direction.In sampleHeader [])
        = some (Expression.pathExpression (IR.Path.mk 15 "h2" false)) := rfl
    rw [e1] at h1
    rw [e2] at h2
    cases h1
    cases h2
    have l1 : FindLocationSets.locations
        (StorageMap.mk sampleControlRefMap sampleControlInliner.typeMap
          sampleControlInliner.hasStorage)
        (Expression.pathExpression (IR.Path.mk 14 "h1" false))
        = some (LocationSet.mk [StorageLocation.mk 83 []]) := rfl
    have l2 : FindLocationSets.locations
        (StorageMap.mk sampleControlRefMap sampleControlInliner.typeMap
          sampleControlInliner.hasStorage)
        (Expression.pathExpression (IR.Path.mk 15 "h2" false))
        = some (LocationSet.mk [StorageLocation.mk 84 []]) := rfl
    rw [l1] at h3
    rw [l2] at h4
    cases h3
    cases h4
    rfl
  · have e1 : (MethodCallDescription.create
        (sampleControlC Direction.Out Direction.In).applyParams
        (sampleCallX sampleHeaderArguments)).substitution.lookup
        (Parameter.mk 71 "a" Direction.Out sampleHeader [])
        = some (Expression.pathExpression (IR.Path.mk 14 "h1" false)) := rfl
    have e2 : (MethodCallDescription.create
        (sampleControlC Direction.Out Direction.In).applyParams
        (sampleCallX sampleHeaderArguments)).substitution.lookup
        (Parameter.mk 72 "b" Direction.In sampleHeader [])
        = some (Expression.pathExpression (IR.Path.mk 15 "h2" false)) := rfl
    rw [e2] at h1
    rw [e1] at h2
    cases h1
    cases h2
    have l1 : FindLocationSets.locations
        (StorageMap.mk sampleControlRefMap sampleControlInliner.typeMap
          sampleControlInliner.hasStorage)
        (Expression.pathExpression (IR.Path.mk 14 "h1" false))
        = some (LocationSet.mk [StorageLocation.mk 83 []]) := rfl
    have l2 : FindLocationSets.locations
        (StorageMap.mk sampleControlRefMap sampleControlInliner.typeMap
          sampleControlInliner.hasStorage)
        (Expression.pathExpression (IR.Path.mk 15 "h2" false))
        = some (LocationSet.mk [StorageLocation.mk 84 []]) := rfl
    rw [l2] at h3
    rw [l1] at h4
    cases h3
    cases h4
    rfl
  · exact absurd rfl hne

/-- C8, amended, at the single call `x.apply(h1, h2)` of `C(out H a, in H b)`: the
preparation adds the locals of the renamed callee only. -/
theorem GeneralInliner.single_call_no_aliasing_witness :
    ∃ p1, sampleControlInliner.prepareControlInstance
        (GeneralInliner.Preparation.mk
          (sampleControlWork (sampleControlC Direction.Out Direction.In) sampleHeaderArguments)
          sampleControlRefMap [])
        sampleInstanceX (sampleControlC Direction.Out Direction.In) = some p1 ∧
      ∃ substs refMapA clone refMapB,
        p1.work.substitutions.lookup sampleInstanceX.decl = some substs ∧
        substs.rename_P4Control refMapA (sampleControlC Direction.Out Direction.In)
          = some (clone, refMapB) ∧
        p1.locals = [] ++ clone.controlLocals :=
  ⟨_, rfl,
    (GeneralInliner.single_call_no_aliasing sampleControlInliner
      (GeneralInliner.Preparation.mk
        (sampleControlWork (sampleControlC Direction.Out Direction.In) sampleHeaderArguments)
        sampleControlRefMap [])
      _ sampleInstanceX (sampleControlC Direction.Out Direction.In)
      (sampleCallX sampleHeaderArguments) rfl rfl rfl (by decide) (by decide) (by decide)
      sampleHeaderArguments_noAliasing rfl).1⟩

/-- The first loop of `analyze` adds to the call graph the edge of each entry with
one invocation, or with several when multiple calls are allowed, and to the errors
one error for each entry with several invocations when they are not allowed. -/
theorem InlineWorkList.foldl_analyzeEntry (allow : Bool) (l : List InlineWorkItem) :
    ∀ acc : CallGraph × List MultipleInvocations,
    l.foldl (InlineWorkList.analyzeEntry allow) acc =
      (acc.1 ++ (l.filter (fun inl => decide (inl.invocations.length = 1) ||
          (allow && decide (1 < inl.invocations.length)))).map
            (fun inl => (inl.caller, inl.callee)),
       acc.2 ++ (l.filter (fun inl => !allow && decide (1 < inl.invocations.length))).map
          (fun inl => MultipleInvocations.mk (inl.invocations.getD 0 0)
            (inl.invocations.getD 1 0))) := by
  induction l with
  | nil => intro acc; simp
  | cons inl l ih =>
    intro acc
    rw [List.foldl_cons, ih]
    rcases hinv : inl.invocations with _ | ⟨a, _ | ⟨b, t⟩⟩ <;>
      cases allow <;>
      simp [InlineWorkList.analyzeEntry, hinv, CallGraph.calls, List.filter_cons]

/-- C14: in the first loop of `analyze`, an entry adds its edge caller → callee to the
call graph exactly when it has one invocation, or more than one and multiple calls are
allowed; it reports an error exactly when it has more than one invocation and multiple
calls are not allowed.  So an entry with no invocation adds no edge and reports no
error, and the edges and the errors of `analyze` are those of its entries. -/
theorem InlineWorkList.analyze_multiple_invocations (sort : CallGraph → List Nat)
    (self : InlineWorkList) (allow : Bool)
    (acc : CallGraph × List MultipleInvocations) (inl : InlineWorkItem) :
    InlineWorkList.analyzeEntry allow acc inl =
      ((if inl.invocations.length = 1 ∨ (allow = true ∧ 1 < inl.invocations.length)
          then acc.1.calls inl.caller inl.callee else acc.1),
       (if allow = false ∧ 1 < inl.invocations.length
          then acc.2 ++ [MultipleInvocations.mk (inl.invocations.getD 0 0)
            (inl.invocations.getD 1 0)] else acc.2)) ∧
    (self.callGraph allow).1 =
      (self.inlineMap.filter (fun inl => decide (inl.invocations.length = 1) ||
          (allow && decide (1 < inl.invocations.length)))).map
            (fun inl => (inl.caller, inl.callee)) ∧
    (self.analyze sort allow).2 =
      (self.inlineMap.filter (fun inl => !allow && decide (1 < inl.invocations.length))).map
        (fun inl => MultipleInvocations.mk (inl.invocations.getD 0 0)
          (inl.invocations.getD 1 0)) := by
  refine ⟨?_, ?_, ?_⟩
  · rcases hinv : inl.invocations with _ | ⟨a, _ | ⟨b, t⟩⟩ <;>
      cases allow <;>
      simp [InlineWorkList.analyzeEntry, hinv]
  · simp [InlineWorkList.callGraph, InlineWorkList.foldl_analyzeEntry]
  · simp [InlineWorkList.analyze, InlineWorkList.callGraph,
      InlineWorkList.foldl_analyzeEntry]

/-- The loop of the driver, started with more fuel than there are scheduled items,
returns, and its body has run at most once for each scheduled item. -/
theorem InlineDriver.loop_terminates {Prog : Type} (apply : InlineSummary → Prog → Prog × Bool)
    (fuel : Nat) :
    ∀ (toInline : InlineWorkList) (prog : Prog) (n : Nat),
    toInline.toInline.length < fuel →
    ∃ r, InlineDriver.loop apply fuel toInline prog n = some r ∧
      r.2 ≤ n + toInline.toInline.length := by
  induction fuel with
  | zero => intro toInline prog n h; omega
  | succ fuel ih =>
    intro toInline prog n h
    by_cases hnil : toInline.toInline = []
    · refine ⟨(prog, n), ?_, by simp⟩
      simp [InlineDriver.loop, InlineWorkList.next_none toInline hnil]
    · obtain ⟨batch, rest, hnext, _, hne, happ, _, _⟩ := InlineWorkList.next_spec toInline hnil
      have hlen : batch.items.length + rest.toInline.length = toInline.toInline.length := by
        have := congrArg List.length happ
        simpa using this
      have hpos : 0 < batch.items.length := List.length_pos.mpr hne
      by_cases herr : (apply batch prog).2 = true
      · refine ⟨((apply batch prog).1, n + 1), ?_, ?_⟩
        · simp [InlineDriver.loop, hnext, herr]
        · show n + 1 ≤ n + toInline.toInline.length
          omega
      · obtain ⟨r, hr, hle⟩ := ih rest (apply batch prog).1 (n + 1) (by omega)
        refine ⟨r, ?_, by omega⟩
        simp [InlineDriver.loop, hnext, herr, hr]

/-- When the entries of `inlineMap` are distinct and the sort lists no container
twice, the schedule lists no entry twice. -/
theorem InlineWorkList.schedule_nodup (order : List Nat) (inlineMap : List InlineWorkItem)
    (hmap : inlineMap.Nodup) (horder : order.Nodup) :
    (order.flatMap (fun c => inlineMap.filter (fun inl => inl.caller == c))).Nodup := by
  rw [List.nodup_flatMap]
  refine ⟨fun c _ => hmap.filter _, ?_⟩
  refine horder.imp ?_
  intro c d hcd x hx1 hx2
  simp only [List.mem_filter, beq_iff_eq] at hx1 hx2
  exact hcd (hx1.2.symm.trans hx2.2)

/-- C15: after one `analyze` of a work list with distinct entries, with a sort that
lists no container twice, no entry is scheduled twice.  A call of `next` on a
non-empty schedule returns a batch with at least one item and removes exactly the
items of the batch; `next` returns nothing exactly when the schedule is empty.  So
the loop of the driver ends after at most one iteration for each scheduled item, and
the batches are disjoint pieces of the schedule: each entry is in at most one. -/
theorem InlineWorkList.schedule_consumed_once (Prog : Type) (sort : CallGraph → List Nat)
    (inlineMap : List InlineWorkItem) (allow : Bool)
    (hmap : inlineMap.Nodup)
    (hsort : (sort ((InlineWorkList.mk inlineMap []).callGraph allow).1).Nodup) :
    ((InlineWorkList.mk inlineMap []).analyze sort allow).1.toInline.Nodup ∧
    (∀ self : InlineWorkList, self.toInline ≠ [] →
      ∃ batch rest, self.next = (some batch, rest) ∧ batch.items ≠ [] ∧
        batch.items ++ rest.toInline.reverse = self.toInline.reverse ∧
        rest.inlineMap = self.inlineMap) ∧
    (∀ self : InlineWorkList, self.next.1 = none ↔ self.toInline = []) ∧
    (∀ (apply : InlineSummary → Prog → Prog × Bool) (self : InlineWorkList) (prog : Prog),
      ∃ r, InlineDriver.loop apply (self.toInline.length + 1) self prog 0 = some r ∧
        r.2 ≤ self.toInline.length) ∧
    (∀ (apply : InlineSummary → Prog → Prog × Bool) (prog : Prog),
      ∃ r, InlineDriver.preorder sort apply (InlineWorkList.mk inlineMap []) prog = some r ∧
        r.2 ≤ ((InlineWorkList.mk inlineMap []).analyze sort true).1.toInline.length) ∧
    (((InlineWorkList.mk inlineMap []).analyze sort allow).1.allBatches.flatMap
        (fun b => b.items)).Nodup ∧
    ((InlineWorkList.mk inlineMap []).analyze sort allow).1.allBatches.flatMap
        (fun b => b.items) =
      ((InlineWorkList.mk inlineMap []).analyze sort allow).1.toInline.reverse ∧
    ((InlineWorkList.mk inlineMap []).analyze sort allow).1.allBatches.length ≤
      ((InlineWorkList.mk inlineMap []).analyze sort allow).1.toInline.length := by
  have hsched := InlineWorkList.analyze_schedule sort inlineMap allow
  have hnd : ((InlineWorkList.mk inlineMap []).analyze sort allow).1.toInline.reverse.Nodup := by
    rw [hsched]
    exact InlineWorkList.schedule_nodup _ _ hmap hsort
  obtain ⟨rest, hrest, hdone, hbatch⟩ := InlineWorkList.batches_spec
    ((InlineWorkList.mk inlineMap []).analyze sort allow).1.toInline.length
    ((InlineWorkList.mk inlineMap []).analyze sort allow).1
  have hnil : rest = [] := hdone (Nat.le_refl _)
  subst hnil
  rw [List.append_nil] at hrest
  refine ⟨List.nodup_reverse.mp hnd, ?_, ?_, ?_, ?_, ?_, ?_, ?_⟩
  · intro self h
    obtain ⟨batch, rest, h1, h2, h3, h4, _, _⟩ := InlineWorkList.next_spec self h
    exact ⟨batch, rest, h1, h3, h4, h2⟩
  · intro self
    constructor
    · intro h
      by_contra hne
      obtain ⟨batch, rest, h1, _⟩ := InlineWorkList.next_spec self hne
      rw [h1] at h
      cases h
    · intro h
      rw [InlineWorkList.next_none self h]
  · intro apply self prog
    obtain ⟨r, hr, hle⟩ := InlineDriver.loop_terminates apply (self.toInline.length + 1)
      self prog 0 (Nat.lt_succ_self _)
    exact ⟨r, hr, by omega⟩
  · intro apply prog
    obtain ⟨r, hr, hle⟩ := InlineDriver.loop_terminates apply
      (((InlineWorkList.mk inlineMap []).analyze sort true).1.toInline.length + 1)
      ((InlineWorkList.mk inlineMap []).analyze sort true).1 prog 0 (Nat.lt_succ_self _)
    exact ⟨r, hr, by omega⟩
  · show (InlineWorkList.allBatches _ |>.flatMap fun b => b.items).Nodup
    unfold InlineWorkList.allBatches
    rw [hrest]
    exact hnd
  · unfold InlineWorkList.allBatches
    exact hrest
  · unfold InlineWorkList.allBatches
    have hl := congrArg List.length hrest
    rw [List.length_reverse, List.length_flatMap] at hl
    have : ∀ (bs : List InlineSummary), (∀ b ∈ bs, b.items ≠ []) →
        bs.length ≤ (bs.map (fun b => b.items.length)).sum := by
      intro bs
      induction bs with
      | nil => intro _; simp
      | cons b bs ih =>
        intro hb
        have h1 : 0 < b.items.length := List.length_pos.mpr (hb b (List.mem_cons_self _ _))
        have h2 := ih (fun c hc => hb c (List.mem_cons_of_mem _ hc))
        simp only [List.length_cons, List.map_cons, List.sum_cons]
        omega
    exact (this _ (fun b hb => (hbatch b hb).1)).trans (le_of_eq hl)

/-- C15 at the chain 1 → 2 → 3. -/
theorem InlineWorkList.schedule_consumed_once_witness :
    sampleChain.inlineMap.Nodup ∧
    (sampleSort (sampleChain.callGraph true).1).Nodup ∧
    (sampleChain.analyze sampleSort true).1.toInline.Nodup ∧
    (sampleChain.analyze sampleSort true).1.allBatches.length ≤
      (sampleChain.analyze sampleSort true).1.toInline.length :=
  have h := InlineWorkList.schedule_consumed_once Unit sampleSort sampleChain.inlineMap true
    (by decide) (by decide)
  ⟨by decide, by decide, h.1, h.2.2.2.2.2.2.2⟩

/-- After `setNameAnnotation` exactly one annotation is called `name`, with the given
value, and the annotations with another name are those of the argument, in order. -/
theorem setNameAnnotation_spec (e : cstring) (annos : Annotations) :
    ( setNameAnnotation e (some annos)).filter (fun a => a.name == Annotation.nameAnnotation)
      = [ Annotation.mk Annotation.nameAnnotation [Expression.stringLiteral e]] ∧
    ( setNameAnnotation e (some annos)).filter (fun a => a.name != Annotation.nameAnnotation)
      = annos.filter (fun a => a.name != Annotation.nameAnnotation) := by
  constructor
  · simp only [ setNameAnnotation, Annotations.addOrReplace, List.filter_append,
      List.filter_filter]
    have h : ∀ l : List Annotation, l.filter (fun a =>
        (a.name == Annotation.nameAnnotation) && (a.name != Annotation.nameAnnotation)) = [] := by
      intro l
      rw [List.filter_eq_nil_iff]
      intro a _
      cases h : a.name == Annotation.nameAnnotation <;> simp [bne, h]
    rw [h]
    simp
  · simp only [ setNameAnnotation, Annotations.addOrReplace, List.filter_append,
      List.filter_filter]
    simp

/-- C16: for a table, action or instance declaration whose identity is in the rename
map, the annotations of the rewritten declaration hold exactly one `@name` annotation,
whose value is the external name of the map, and the annotations with another name are
those of the original declaration, unchanged and in the same order. -/
theorem Substitutions.postorder_annotations (self : Substitutions) (d : Declaration)
    (h : self.renameMap.isRenamed d.decl = true)
    (hd : ∀ v, d ≠ Declaration.declarationVariable v) :
    ∃ e r, self.renameMap.getExtName d.decl = some e ∧
      self.postorder_Declaration d = some r ∧
      r.annotations.filter (fun a => a.name == Annotation.nameAnnotation)
        = [ Annotation.mk Annotation.nameAnnotation [Expression.stringLiteral e]] ∧
      r.annotations.filter (fun a => a.name != Annotation.nameAnnotation)
        = d.annotations.filter (fun a => a.name != Annotation.nameAnnotation) := by
  obtain ⟨n, e, hn, he⟩ := SymRenameMap.isRenamed_names _ _ h
  cases d with
  | p4Table t =>
    simp only [Declaration.decl] at hn he
    refine ⟨e, Declaration.p4Table
      (P4Table.mk t.decl n ( setNameAnnotation e (some t.annotations)) t.properties),
      he, ?_, (setNameAnnotation_spec e t.annotations).1,
      (setNameAnnotation_spec e t.annotations).2⟩
    simp [Substitutions.postorder_Declaration, Substitutions.postorder_P4Table, hn, he]
  | p4Action a =>
    simp only [Declaration.decl] at hn he
    refine ⟨e, Declaration.p4Action
      (P4Action.mk a.decl n ( setNameAnnotation e (some a.annotations)) a.parameters a.body),
      he, ?_, (setNameAnnotation_spec e a.annotations).1,
      (setNameAnnotation_spec e a.annotations).2⟩
    simp [Substitutions.postorder_Declaration, Substitutions.postorder_P4Action, hn, he]
  | declarationInstance i =>
    simp only [Declaration.decl] at hn he
    refine ⟨e, Declaration.declarationInstance
      { i with name := n, annotations := setNameAnnotation e (some i.annotations) },
      he, ?_, (setNameAnnotation_spec e i.annotations).1,
      (setNameAnnotation_spec e i.annotations).2⟩
    simp [Substitutions.postorder_Declaration,
      Substitutions.postorder_Declaration_Instance, hn, he]
  | declarationVariable v => exact absurd rfl (hd v)

/-- C16 at a table with a `@name` and a `@hidden` annotation. -/
theorem Substitutions.postorder_annotations_witness :
    ∃ e r, sampleTableRenameMap.getExtName sampleAnnotatedTable.decl = some e ∧
      (Substitutions.mk (ParameterSubstitution.mk []) (TypeVariableSubstitution.mk [])
        sampleTableRenameMap).postorder_Declaration sampleAnnotatedTable = some r ∧
      r.annotations.filter (fun a => a.name == Annotation.nameAnnotation)
        = [ Annotation.mk Annotation.nameAnnotation [Expression.stringLiteral e]] ∧
      r.annotations.filter (fun a => a.name != Annotation.nameAnnotation)
        = sampleAnnotatedTable.annotations.filter
            (fun a => a.name != Annotation.nameAnnotation) :=
  Substitutions.postorder_annotations
    (Substitutions.mk (ParameterSubstitution.mk []) (TypeVariableSubstitution.mk [])
      sampleTableRenameMap)
    sampleAnnotatedTable (by decide) (by intro v hv; cases hv)

/-! ## Location sets -/

/-- Run on the member `h.isValid` itself, whose type is a method type, `preorder(Member)`
returns without `set`, so the map `loc` has no entry for the member.  The visitor does
not receive such a member: it is the method of a method call expression, below which the
visit does not go. -/
theorem FindLocationSets.method_member_has_no_location_set :
    FindLocationSets.visit sampleMethodStorageMap sampleMethodMember = some none ∧
    FindLocationSets.locations sampleMethodStorageMap sampleMethodMember = none ∧
    FindLocationSets.locations sampleMethodStorageMap
      (Expression.unary "!" sampleMethodMember) = none ∧
    FindLocationSets.locations sampleMethodStorageMap
      (Expression.binary "==" sampleMethodMember (Expression.constant 0)) = none ∧
    FindLocationSets.locations sampleMethodStorageMap
      (Expression.typeNameExpression "T") = some LocationSet.empty :=
  ⟨rfl, rfl, rfl, rfl, rfl⟩

/-! ## The names of the spliced states -/

/-- C11, as stated, fails at the call of `A` in the state `start` of `B`: the
continuation state is named by `newName("start")`, here `start_______`, not by
`newName("post_start")`, here `post_start_______`; the reference to `accept` in the
spliced state of `s1` is rewritten to that name.  For a callee whose state list has no
state `accept` the rename map has no entry for `accept`, and the reference to `accept`
is rewritten to the null name, not to the continuation name. -/
theorem GeneralInliner.continuation_name_without_post :
    (∃ r, sampleInliner.preorder_P4Parser
        [(60, sampleWork (IContainer.p4Parser sampleParserA))] sampleParserRefMap sampleParserB
        = some r ∧
      r.1.states.map (fun q => q.name)
        = ["start", "A_start_____________", "A_s1_____________________", "start_______"] ∧
      (r.1.states.map (fun q => q.selectExpression))[2]? = some (some
        (Transition.pathExpression (IR.Path.mk 103 "start_______" false))) ∧
      (sampleParserRefMap.newName sampleStateB.name).1 = "start_______" ∧
      (sampleParserRefMap.newName ("post_" ++ sampleStateB.name)).1 = "post_start_______") ∧
    (∃ r, sampleInliner.preorder_P4Parser
        [(60, sampleWork (IContainer.p4Parser sampleParserNoAccept))] sampleParserRefMap
        sampleParserB = some r ∧
      r.1.states.map (fun q => q.name)
        = ["start", "A_start_____________", "A_s1_____________________", "start_______"] ∧
      (r.1.states.map (fun q => q.selectExpression))[2]? = some (some
        (Transition.pathExpression (IR.Path.mk 103 "" false)))) :=
  ⟨⟨_, rfl, rfl, rfl, rfl, rfl⟩, ⟨_, rfl, rfl, rfl⟩⟩

/-- The entry of a name in the map after `preorder` on a state: an entry stays, and
the name of the state gets one, the continuation name for `accept` and a new name made
from the prefix and the name for any other state. -/
theorem ComputeNewStateNames.lookup_preorder (c : ComputeNewStateNames) (q : ParserState)
    (k : cstring) :
    (c.preorder q).stateRenameMap.lookup k =
      match c.stateRenameMap.lookup k with
      | some v => some v
      | none =>
        if k = q.name then
          some (if q.name = ParserState.accept then c.acceptName
            else (c.refMap.newName (c.pfx ++ "_" ++ q.name)).1)
        else none := by
  unfold ComputeNewStateNames.preorder
  by_cases h : q.name = ParserState.accept
  · simp only [h, beq_self_eq_true, if_true]
    exact StateRenameMap.lookup_emplace _ _ _ _
  · have hb : (q.name == ParserState.accept) = false := by simpa using h
    simp only [hb, h, if_false]
    exact StateRenameMap.lookup_emplace _ _ _ _

theorem ComputeNewStateNames.preorder_fields (c : ComputeNewStateNames) (q : ParserState) :
    (c.preorder q).acceptName = c.acceptName ∧ (c.preorder q).pfx = c.pfx := by
  unfold ComputeNewStateNames.preorder
  split <;> exact ⟨rfl, rfl⟩

/-- Over the states of a callee: the continuation name and the prefix stay, an entry of
the map stays, an entry comes from the start or from a state of that name, each state
has an entry, and `accept` is sent to the continuation name only. -/
theorem ComputeNewStateNames.fold_lookup (l : List ParserState) :
    ∀ c : ComputeNewStateNames,
    (l.foldl ComputeNewStateNames.preorder c).acceptName = c.acceptName ∧
    (l.foldl ComputeNewStateNames.preorder c).pfx = c.pfx ∧
    (∀ k v, c.stateRenameMap.lookup k = some v →
      (l.foldl ComputeNewStateNames.preorder c).stateRenameMap.lookup k = some v) ∧
    (∀ k v, (l.foldl ComputeNewStateNames.preorder c).stateRenameMap.lookup k = some v →
      c.stateRenameMap.lookup k = some v ∨ ∃ p ∈ l, p.name = k) ∧
    (∀ q ∈ l, ∃ v, (l.foldl ComputeNewStateNames.preorder c).stateRenameMap.lookup q.name
      = some v) ∧
    ((∀ v, c.stateRenameMap.lookup ParserState.accept = some v → v = c.acceptName) →
      ∀ v, (l.foldl ComputeNewStateNames.preorder c).stateRenameMap.lookup ParserState.accept
        = some v → v = c.acceptName) := by
  induction l with
  | nil =>
    intro c
    exact ⟨rfl, rfl, fun _ _ h => h, fun _ _ h => Or.inl h, by simp, fun h => h⟩
  | cons q l ih =>
    intro c
    obtain ⟨h1, h2, h3, h4, h5, h6⟩ := ih (c.preorder q)
    obtain ⟨f1, f2⟩ := ComputeNewStateNames.preorder_fields c q
    have hstay : ∀ k v, c.stateRenameMap.lookup k = some v →
        (c.preorder q).stateRenameMap.lookup k = some v := by
      intro k v hk
      rw [ComputeNewStateNames.lookup_preorder, hk]
    refine ⟨h1.trans f1, h2.trans f2, fun k v hk => h3 k v (hstay k v hk), ?_, ?_, ?_⟩
    · intro k v hk
      rcases h4 k v hk with h | ⟨p, hp, hpk⟩
      · rw [ComputeNewStateNames.lookup_preorder] at h
        cases hc : c.stateRenameMap.lookup k with
        | some w => rw [hc] at h; exact Or.inl h
        | none =>
          rw [hc] at h
          by_cases hkq : k = q.name
          · exact Or.inr ⟨q, List.mem_cons_self _ _, hkq.symm⟩
          · simp [hkq] at h
      · exact Or.inr ⟨p, List.mem_cons_of_mem _ hp, hpk⟩
    · intro p hp
      rcases List.mem_cons.mp hp with rfl | hp
      · have : ∃ v, (c.preorder p).stateRenameMap.lookup p.name = some v := by
          rw [ComputeNewStateNames.lookup_preorder]
          cases c.stateRenameMap.lookup p.name with
          | some w => exact ⟨w, rfl⟩
          | none => simp
        obtain ⟨v, hv⟩ := this
        exact ⟨v, h3 _ _ hv⟩
      · exact h5 p hp
    · intro hacc v hv
      rw [← f1]
      refine h6 ?_ v hv
      intro w hw
      rw [ComputeNewStateNames.lookup_preorder] at hw
      rw [f1]
      cases hc : c.stateRenameMap.lookup ParserState.accept with
      | some u => rw [hc] at hw; cases hw; exact hacc _ hc
      | none =>
        rw [hc] at hw
        by_cases hkq : ParserState.accept = q.name
        · simp [hkq.symm] at hw
          exact hw.symm
        · simp [hkq] at hw

/-- The references of a renamed state are those of the state, each sent through the
rename map. -/
theorem RenameStates.targets_preorder (self : RenameStates) (q : ParserState)
    (hq : notBuiltin q.name = true) :
    (self.preorder_ParserState q).targets = q.targets.map self.stateRenameMap.get := by
  have hb : (q.name == ParserState.accept || q.name == ParserState.reject) = false := by
    simpa [notBuiltin] using hq
  unfold RenameStates.preorder_ParserState
  rw [hb]
  simp only [Bool.false_eq_true, if_false, ParserState.targets]
  cases q.selectExpression with
  | none => rfl
  | some t =>
    cases t with
    | pathExpression path => rfl
    | selectExpression select cases =>
      simp [RenameStates.visitTransition, Transition.targets, RenameStates.preorder_SelectCase,
        RenameStates.preorder_Path]

/-- C11, amended: when the call of an instance of the callee Q is spliced into the
state s, the continuation state is named nextState = newName(s.name), with no
prefix `post_`.  The states spliced in are the states of the renamed clone of Q,
renamed by the state rename map, without `accept` and `reject`.  When Q lists a state
`accept`, the map sends `accept` to nextState, and every reference to `accept` in a
spliced state is rewritten to nextState; a state of Q other than `accept`, the first
of its name, is sent to newName(Q.name + "_" + state.name), called on the reference
map as the states before it left it. -/
theorem GeneralInliner.spliceCall_state_names (self : GeneralInliner) (work : Work)
    (state : ParserState) (call : MethodCallStatement) (decl : Nat)
    (s s1 : GeneralInliner.Splice)
    (h : self.spliceCall work state call decl s = some s1) :
    GeneralInliner.stateNaming work state decl s s1 := by
  unfold GeneralInliner.stateNaming
  unfold GeneralInliner.spliceCall at h
  split at h
  · rename_i callee hcallee
    split at h
    · cases h
    · split at h
      · cases h
      · split at h
        · cases h
        · rename_i substs _ copyin substs1 _ callee1 refMap1 hren
          obtain ⟨hnames, hname, _, hgen, hused⟩ :=
            PerInstanceSubstitutions.rename_P4Parser_spec _ _ _ _ hren
          simp only at hgen hused hnames hname
          split at h
          · cases h
          · cases h
            refine ⟨callee, callee1, refMap1, ?cut, hcallee, hname, hnames, hgen, hused, rfl,
              ?st, ?_, ?_⟩
            case st => exact rfl
            · rintro ⟨q, hq, hqa⟩
              obtain ⟨f1, _, _, _, f5, f6⟩ := ComputeNewStateNames.fold_lookup callee1.states
                (ComputeNewStateNames.mk (refMap1.newName state.name).2 callee1.name
                  (refMap1.newName state.name).1 [])
              have hmem : ParserState.accept ∈ callee1.states.map (fun q => q.name) := by
                rw [hnames]
                exact List.mem_map.mpr ⟨q, hq, hqa⟩
              obtain ⟨q1, hq1, hq1a⟩ := List.mem_map.mp hmem
              obtain ⟨v, hv⟩ := f5 q1 hq1
              rw [hq1a] at hv
              have hv2 : v = (refMap1.newName state.name).1 :=
                f6 (by intro w hw; simp [List.lookup] at hw) v hv
              subst hv2
              have hget : ((ComputeNewStateNames.mk (refMap1.newName state.name).2 callee1.name
                  (refMap1.newName state.name).1 []).apply callee1).stateRenameMap.get
                    ParserState.accept = (refMap1.newName state.name).1 := by
                simp only [ComputeNewStateNames.apply, StateRenameMap.get, hv]
              refine ⟨hget, ?_⟩
              intro p hp hpn
              rw [RenameStates.targets_preorder _ _ hpn]
              apply List.map_congr_left
              intro n _
              by_cases hn : n = ParserState.accept
              · simp only [hn, if_true]
                exact hget
              · simp only [hn, if_false]
            · intro pre q post hst hqa hpre
              obtain ⟨_, g2, _, g4, _, _⟩ := ComputeNewStateNames.fold_lookup pre
                (ComputeNewStateNames.mk (refMap1.newName state.name).2 callee1.name
                  (refMap1.newName state.name).1 [])
              obtain ⟨_, _, k3, _, _, _⟩ := ComputeNewStateNames.fold_lookup post
                ((pre.foldl ComputeNewStateNames.preorder (ComputeNewStateNames.mk
                  (refMap1.newName state.name).2 callee1.name
                  (refMap1.newName state.name).1 [])).preorder q)
              have hnone : (pre.foldl ComputeNewStateNames.preorder (ComputeNewStateNames.mk
                  (refMap1.newName state.name).2 callee1.name
                  (refMap1.newName state.name).1 [])).stateRenameMap.lookup q.name = none := by
                cases hl : (pre.foldl ComputeNewStateNames.preorder (ComputeNewStateNames.mk
                  (refMap1.newName state.name).2 callee1.name
                  (refMap1.newName state.name).1 [])).stateRenameMap.lookup q.name with
                | none => rfl
                | some v =>
                  rcases g4 _ _ hl with h0 | ⟨p, hp, hpq⟩
                  · simp [List.lookup] at h0
                  · exact absurd hpq (hpre p hp)
              have hstep := ComputeNewStateNames.lookup_preorder
                (pre.foldl ComputeNewStateNames.preorder (ComputeNewStateNames.mk
                  (refMap1.newName state.name).2 callee1.name
                  (refMap1.newName state.name).1 [])) q q.name
              rw [hnone] at hstep
              simp only [if_true, hqa, if_false, g2] at hstep
              have hfin := k3 _ _ hstep
              simp only [ComputeNewStateNames.apply, StateRenameMap.get, hst, List.foldl_append,
                List.foldl_cons, hfin]
  · cases h

/-- C11, amended, at the call of `A` in the state `start` of `B`: the continuation is
named `start_______`. -/
theorem GeneralInliner.spliceCall_state_names_witness :
    ∃ s1, sampleInliner.spliceCall (sampleWorkPrepared (IContainer.p4Parser sampleParserA))
        sampleStateB sampleCall 61
        (GeneralInliner.Splice.mk [] [] sampleStateB.annotations sampleStateB.name
          sampleParserRefMap) = some s1 ∧
      s1.name = "start_______" ∧
      GeneralInliner.stateNaming (sampleWorkPrepared (IContainer.p4Parser sampleParserA))
        sampleStateB 61
        (GeneralInliner.Splice.mk [] [] sampleStateB.annotations sampleStateB.name
          sampleParserRefMap) s1 :=
  ⟨_, rfl, rfl,
    GeneralInliner.spliceCall_state_names sampleInliner
      (sampleWorkPrepared (IContainer.p4Parser sampleParserA)) sampleStateB sampleCall 61
      _ _ rfl⟩

/-! ## DiscoverInlining -/

/-- C13: on a `ControlBlock` whose context is a `ParserBlock`, and on a `ParserBlock`
whose context is a `ControlBlock`, the visit reports exactly one error and leaves the
work list as it is, before it goes on below the block; on a `ControlBlock` whose context
is a `ControlBlock` it records the instantiation (parent container, callee container,
instance) when `allowControls` is set and changes nothing when it is not; on a
`ParserBlock` whose context is a `ParserBlock` it always records the instantiation.  No
error is reported in the last two cases, and the instantiation recorded is an entry of
the work list. -/
theorem DiscoverInlining.instantiation_rules (self : DiscoverInlining) (node : Nat)
    (control parentControl : P4Control) (parser parentParser : P4Parser)
    (constantValue : List Block) (context : VisitContext) :
    -- a control in a parser
    self.enter_ControlBlock (VisitContext.parserBlock parentParser) node control
      = { self with errors := self.errors ++ [DiscoverError.controlFromParser node] } ∧
    -- a parser in a control
    self.enter_ParserBlock (VisitContext.controlBlock parentControl) node parser
      = { self with errors := self.errors ++ [DiscoverError.parserFromControl node] } ∧
    -- a control in a control
    self.enter_ControlBlock (VisitContext.controlBlock parentControl) node control
      = (if self.allowControls = true then
          { self with inlineList :=
              self.inlineList.addInstantiation parentControl.decl control.decl node }
        else self) ∧
    -- a parser in a parser
    self.enter_ParserBlock (VisitContext.parserBlock parentParser) node parser
      = { self with inlineList :=
            self.inlineList.addInstantiation parentParser.decl parser.decl node } ∧
    InlineWorkItem.mk parentControl.decl control.decl node [] ∈
      (self.inlineList.addInstantiation parentControl.decl control.decl node).inlineMap ∧
    InlineWorkItem.mk parentParser.decl parser.decl node [] ∈
      (self.inlineList.addInstantiation parentParser.decl parser.decl node).inlineMap ∧
    -- the visit of a block is this first statement, then the visit of what is below
    DiscoverInlining.visit context (Block.controlBlock node control constantValue) self
      = (statementCalls.componentsCalls control.body).foldl
          DiscoverInlining.postorder_MethodCallStatement
          (DiscoverInlining.visit.visit_all (VisitContext.controlBlock control) constantValue
            (self.enter_ControlBlock context node control)) ∧
    DiscoverInlining.visit context (Block.parserBlock node parser constantValue) self
      = (parser.states.flatMap (fun state =>
          statementCalls.componentsCalls state.components)).foldl
          DiscoverInlining.postorder_MethodCallStatement
          (DiscoverInlining.visit.visit_all (VisitContext.parserBlock parser) constantValue
            (self.enter_ParserBlock context node parser)) := by
  refine ⟨rfl, rfl, ?_, rfl, ?_, ?_, ?_, ?_⟩
  · cases h : self.allowControls <;> simp [DiscoverInlining.enter_ControlBlock, h]
  · simp [InlineWorkList.addInstantiation]
  · simp [InlineWorkList.addInstantiation]
  · simp only [DiscoverInlining.visit]
  · simp only [DiscoverInlining.visit]

end P4

namespace DPDK

namespace BFRT

open Util

/-! ## The tables of an action selector -/

/-- C18: for every action selector record, `addActionSelectorCommon` appends exactly
one table object to the table list: its `table_type` is `Selector`, its name and id are
those of the selector, its size is `num_groups`, its annotations are those of the
record; the key list holds the single mandatory `Exact` field `$SELECTOR_GROUP_ID` of
type `uint32`; the data list holds, in this order, the repeated `uint32` field
`$ACTION_MEMBER_ID`, the repeated `bool` field `$ACTION_MEMBER_STATUS` and the
non-repeated `uint32` field `$MAX_GROUP_SIZE` with the default value `max_group_size`,
each a singleton that is neither mandatory nor read-only. -/
theorem BfRtSchemaGenerator.addActionSelectorCommon_table (self : BfRtSchemaGenerator)
    (tablesJson : JsonArray) (actionSelector : ActionSelector) :
    self.addActionSelectorCommon tablesJson actionSelector = some (tablesJson ++ [Json.object [
      ("name", Json.str actionSelector.name),
      ("id", Json.int actionSelector.id),
      ("table_type", Json.str "Selector"),
      ("size", Json.int actionSelector.num_groups),
      ("annotations", Json.array actionSelector.annotations),
      ("depends_on", Json.array []),
      ("key", Json.array [
        Json.object [("id", Json.int self.BF_RT_DATA_SELECTOR_GROUP_ID),
          ("name", Json.str "$SELECTOR_GROUP_ID"), ("repeated", Json.bool false),
          ("annotations", Json.array []), ("mandatory", Json.bool true),
          ("match_type", Json.str "Exact"),
          ("type", Json.object [("type", Json.str "uint32")])]]),
      ("data", Json.array [
        Json.object [("mandatory", Json.bool false), ("read_only", Json.bool false),
          ("singleton", Json.object [("id", Json.int self.BF_RT_DATA_ACTION_MEMBER_ID),
            ("name", Json.str "$ACTION_MEMBER_ID"), ("repeated", Json.bool true),
            ("annotations", Json.array []),
            ("type", Json.object [("type", Json.str "uint32")])])],
        Json.object [("mandatory", Json.bool false), ("read_only", Json.bool false),
          ("singleton", Json.object [("id", Json.int self.BF_RT_DATA_ACTION_MEMBER_STATUS),
            ("name", Json.str "$ACTION_MEMBER_STATUS"), ("repeated", Json.bool true),
            ("annotations", Json.array []),
            ("type", Json.object [("type", Json.str "bool")])])],
        Json.object [("mandatory", Json.bool false), ("read_only", Json.bool false),
          ("singleton", Json.object [("id", Json.int self.BF_RT_DATA_MAX_GROUP_SIZE),
            ("name", Json.str "$MAX_GROUP_SIZE"), ("repeated", Json.bool false),
            ("annotations", Json.array []),
            ("type", Json.object [("type", Json.str "uint32"),
              ("default_value", Json.int actionSelector.max_group_size)])])]]),
      ("supported_operations", Json.array []),
      ("attributes", Json.array [])]]) := by
  rfl

/-- The table that `addActionSelectorCommon` appends: one table, whatever the list. -/
theorem BfRtSchemaGenerator.addActionSelectorCommon_fields (self : BfRtSchemaGenerator)
    (actionSelector : ActionSelector) :
    ∃ t : Json, (∀ tablesJson, self.addActionSelectorCommon tablesJson actionSelector
        = some (tablesJson ++ [t])) ∧
      t.field "table_type" = some (Json.str "Selector") ∧
      t.field "name" = some (Json.str actionSelector.name) ∧
      t.field "id" = some (Json.int actionSelector.id) ∧
      t.field "size" = some (Json.int actionSelector.num_groups) :=
  ⟨_, fun _ => rfl, rfl, rfl, rfl, rfl⟩

/-- The table that `addActionSelectorGetMemberCommon` appends. -/
theorem BfRtSchemaGenerator.addActionSelectorGetMemberCommon_fields
    (self : BfRtSchemaGenerator) (actionSelector : ActionSelector) :
    ∃ t : Json, (∀ tablesJson, self.addActionSelectorGetMemberCommon tablesJson actionSelector
        = some (tablesJson ++ [t])) ∧
      t.field "table_type" = some (Json.str "SelectorGetMember") ∧
      t.field "name" = some (Json.str actionSelector.get_mem_name) ∧
      t.field "id" = some (Json.int actionSelector.get_mem_id) ∧
      t.field "depends_on" = some (Json.array [Json.int actionSelector.id]) :=
  ⟨_, fun _ => rfl, rfl, rfl, rfl, rfl⟩

/-- A loop whose body appends to the list appends what its bodies append, in order. -/
theorem foldlM_append {α β : Type} (f : List β → α → Option (List β)) (g : α → List β)
    (h : ∀ acc x, f acc x = some (acc ++ g x)) (l : List α) :
    ∀ acc, l.foldlM f acc = some (acc ++ l.flatMap g) := by
  induction l with
  | nil => intro acc; simp
  | cons x l ih =>
    intro acc
    simp [List.foldlM, h, ih, List.append_assoc]

/-- The same for a loop that appends to two lists. -/
theorem foldlM_append_pair {α β γ : Type} (f : List β × List γ → α → Option (List β × List γ))
    (g : α → List β) (e : α → List γ)
    (h : ∀ acc x, f acc x = some (acc.1 ++ g x, acc.2 ++ e x)) (l : List α) :
    ∀ acc, l.foldlM f acc = some (acc.1 ++ l.flatMap g, acc.2 ++ l.flatMap e) := by
  induction l with
  | nil => intro acc; simp
  | cons x l ih =>
    intro acc
    simp [List.foldlM, h, ih, List.append_assoc]

/-- C19: `addActionProfs` appends to the table list, for each action profile in order,
nothing when `ActionProf::from` refuses it, else the table of the profile, followed,
exactly when `with_selector` is set, by one `Selector` table with the name and the size
of the profile, and no other table, so never a `SelectorGetMember` table.
`addDPDKExterns` appends, for each instance of the DPDK action selector in order, when
the instance unpacks, one `Selector` table and right after it one `SelectorGetMember`
table with the name of the instance followed by `_get_member`, whose `depends_on` holds
the id of the selector table; for an instance that does not unpack it appends nothing and
reports one error. -/
theorem BfRtSchemaGenerator.selector_get_member_for_dpdk_only (self : BfRtSchemaGenerator)
    (tablesJson : JsonArray) :
    (∃ added : ActionProfile → List Json,
      self.addActionProfs tablesJson
        = some (tablesJson ++ self.p4info.action_profiles.flatMap added) ∧
      ∀ p : ActionProfile,
        match self.actionProfFrom self.p4info p with
        | none => added p = []
        | some actionProf =>
          if p.with_selector = true then
            ∃ selector : Json,
              added p = [Json.object (self.actionProfTable actionProf), selector] ∧
              selector.field "table_type" = some (Json.str "Selector") ∧
              selector.field "name" = some (Json.str p.preamble.name) ∧
              selector.field "size" = some (Json.int p.size)
          else added p = [Json.object (self.actionProfTable actionProf)]) ∧
    (∃ added : ExternInstance → List Json,
      self.addDPDKExterns tablesJson
        = some (tablesJson ++ self.actionSelectorInstances.flatMap added,
            self.actionSelectorInstances.flatMap (fun i =>
              match i.info with
              | none => [SchemaError.doesNotPackActionSelector i.preamble.name]
              | some _ => [])) ∧
      ∀ i : ExternInstance,
        match i.info with
        | none => added i = []
        | some actionSelector =>
          ∃ selector getMember : Json, added i = [selector, getMember] ∧
            selector.field "table_type" = some (Json.str "Selector") ∧
            selector.field "name" = some (Json.str i.preamble.name) ∧
            selector.field "id"
              = some (Json.int (makeBfRtId i.preamble.id self.ACTION_SELECTOR)) ∧
            selector.field "size" = some (Json.int actionSelector.num_groups) ∧
            getMember.field "table_type" = some (Json.str "SelectorGetMember") ∧
            getMember.field "name" = some (Json.str (i.preamble.name ++ "_get_member")) ∧
            getMember.field "depends_on"
              = some (Json.array [Json.int (makeBfRtId i.preamble.id self.ACTION_SELECTOR)])) := by
  constructor
  · refine ⟨fun p =>
      match self.actionProfFrom self.p4info p with
      | none => []
      | some actionProf =>
        Json.object (self.actionProfTable actionProf) ::
          (match BfRtSchemaGenerator.ActionSelector.fromActionProfile self p with
            | none => []
            | some s => [Classical.choose
                (BfRtSchemaGenerator.addActionSelectorCommon_fields self s)]), ?_, ?_⟩
    · unfold BfRtSchemaGenerator.addActionProfs
      apply foldlM_append
      intro acc p
      unfold BfRtSchemaGenerator.addActionProf
      cases self.actionProfFrom self.p4info p with
      | none => simp
      | some actionProf =>
        simp only
        cases hs : BfRtSchemaGenerator.ActionSelector.fromActionProfile self p with
        | none => simp
        | some s =>
          simp only
          rw [(Classical.choose_spec
            (BfRtSchemaGenerator.addActionSelectorCommon_fields self s)).1]
          simp
    · intro p
      dsimp only
      cases hf : self.actionProfFrom self.p4info p with
      | none => rfl
      | some actionProf =>
        dsimp only
        cases hw : p.with_selector with
        | false =>
          simp [BfRtSchemaGenerator.ActionSelector.fromActionProfile, hw]
        | true =>
          simp only [if_true]
          have hs : BfRtSchemaGenerator.ActionSelector.fromActionProfile self p
              = some (ActionSelector.mk p.preamble.name (p.preamble.name ++ "_get_member")
                  (makeBfRtId p.preamble.id self.ACTION_SELECTOR)
                  (makeBfRtId p.preamble.id self.ACTION_SELECTOR_GET_MEMBER)
                  p.max_group_size p.size
                  (self.collectTableIds self.p4info p.table_ids) p.preamble.annotations) := by
            simp [BfRtSchemaGenerator.ActionSelector.fromActionProfile, hw]
          rw [hs]
          obtain ⟨_, h1, h2, _, h4⟩ := Classical.choose_spec
            (BfRtSchemaGenerator.addActionSelectorCommon_fields self
              (ActionSelector.mk p.preamble.name (p.preamble.name ++ "_get_member")
                  (makeBfRtId p.preamble.id self.ACTION_SELECTOR)
                  (makeBfRtId p.preamble.id self.ACTION_SELECTOR_GET_MEMBER)
                  p.max_group_size p.size
                  (self.collectTableIds self.p4info p.table_ids) p.preamble.annotations))
          exact ⟨_, rfl, h1, h2, h4⟩
  · have hsel := fun s => BfRtSchemaGenerator.addActionSelectorCommon_fields self s
    have hgm := fun s => BfRtSchemaGenerator.addActionSelectorGetMemberCommon_fields self s
    choose sel hsel1 hsel2 hsel3 hsel4 hsel5 using hsel
    choose gm hgm1 hgm2 hgm3 _ hgm5 using hgm
    refine ⟨fun i =>
      match (BfRtSchemaGenerator.ActionSelector.fromDPDK self i).1 with
      | none => []
      | some s => [sel s, gm s], ?_, ?_⟩
    · have hstep : ∀ (l : List ExternInstance) (acc : List Json × List SchemaError),
          l.foldlM self.addDPDKInstance acc
            = some (acc.1 ++ l.flatMap (fun i =>
                match (BfRtSchemaGenerator.ActionSelector.fromDPDK self i).1 with
                | none => []
                | some s => [sel s, gm s]),
              acc.2 ++ l.flatMap (fun i =>
                match i.info with
                | none => [SchemaError.doesNotPackActionSelector i.preamble.name]
                | some _ => [])) := by
        intro l
        apply foldlM_append_pair
        intro acc i
        unfold BfRtSchemaGenerator.addDPDKInstance
          BfRtSchemaGenerator.ActionSelector.fromDPDK
        cases hi : i.info with
        | none => simp
        | some a => simp [hsel1, hgm1]
      have key : ∀ {β : Type} (g : ExternInstance → List β) (l : List ExternType),
          l.flatMap (fun t => if t.extern_type_id = self.ACTION_SELECTOR then
            t.instances.flatMap g else [])
          = ((l.filter (fun t => t.extern_type_id == self.ACTION_SELECTOR)).flatMap
              (fun t => t.instances)).flatMap g := by
        intro β g l
        induction l with
        | nil => rfl
        | cons t l ih =>
          by_cases ht : t.extern_type_id = self.ACTION_SELECTOR
          · simp [List.filter_cons, ht, ih]
          · simp [List.filter_cons, ht, ih]
      unfold BfRtSchemaGenerator.addDPDKExterns BfRtSchemaGenerator.actionSelectorInstances
      rw [← key, ← key]
      have houter := foldlM_append_pair
        (fun (acc : List Json × List SchemaError) (type_ : ExternType) =>
          if type_.extern_type_id = self.ACTION_SELECTOR then
            type_.instances.foldlM self.addDPDKInstance acc
          else some acc)
        (fun t : ExternType => if t.extern_type_id = self.ACTION_SELECTOR then
          t.instances.flatMap (fun i =>
                match (BfRtSchemaGenerator.ActionSelector.fromDPDK self i).1 with
                | none => []
                | some s => [sel s, gm s]) else [])
        (fun t : ExternType => if t.extern_type_id = self.ACTION_SELECTOR then
          t.instances.flatMap (fun i =>
                match i.info with
                | none => [SchemaError.doesNotPackActionSelector i.preamble.name]
                | some _ => []) else [])
        (by
          intro acc t
          by_cases ht : t.extern_type_id = self.ACTION_SELECTOR
          · simp only [ht, if_true]
            exact hstep t.instances acc
          · simp [ht])
        self.p4info.externs (tablesJson, [])
      simpa using houter
    · intro i
      dsimp only
      unfold BfRtSchemaGenerator.ActionSelector.fromDPDK
      cases hi : i.info with
      | none => rfl
      | some a =>
        dsimp only
        exact ⟨_, _, rfl, hsel2 _, hsel3 _, hsel4 _, hsel5 _, hgm2 _, hgm3 _, hgm5 _⟩

/-! ## The table type of a table with an implementation -/

/-- After `erase`, `emplace` of the label adds it at the end. -/
theorem JsonObject_emplace_erase (o : JsonObject) (label : String) (value : Json) :
    (o.erase label).emplace label value = some (o.erase label ++ [(label, value)]) := by
  have h : List.lookup label (o.erase label) = none := by
    unfold JsonObject.erase
    induction o with
    | nil => rfl
    | cons f o ih =>
      obtain ⟨l, v⟩ := f
      by_cases hl : l = label
      · simpa [List.filter_cons, hl] using ih
      · have hb : (label == l) = false := by
          simpa using fun h => hl h.symm
        simp only [List.filter_cons, bne_iff_ne, ne_eq, hl, not_false_eq_true, decide_True,
          if_true, List.lookup, hb]
        exact ih
  unfold JsonObject.emplace
  rw [h]

/-- The value of a label after `erase` of another label and an addition at the end. -/
theorem JsonObject_get_erase_append (o : JsonObject) (label other : String) (value : Json)
    (h : other ≠ label) :
    JsonObject.get (o.erase label ++ [(label, value)]) other = JsonObject.get o other := by
  unfold JsonObject.get JsonObject.erase
  have hb : (other == label) = false := by simpa using h
  induction o with
  | nil => simp [List.lookup, hb]
  | cons f o ih =>
    obtain ⟨l, v⟩ := f
    by_cases hl : l = label
    · subst hl
      simpa [List.filter_cons, List.lookup, hb] using ih
    · by_cases ho : other = l
      · subst ho
        simp [List.filter_cons, hl, List.lookup]
      · have hb2 : (other == l) = false := by simpa using ho
        simpa [List.filter_cons, hl, List.lookup, hb2] using ih

/-- The value of the label after `erase` and an addition at the end. -/
theorem JsonObject_get_erase_append_self (o : JsonObject) (label : String) (value : Json) :
    JsonObject.get (o.erase label ++ [(label, value)]) label = some value := by
  unfold JsonObject.get JsonObject.erase
  induction o with
  | nil => simp [List.lookup]
  | cons f o ih =>
    obtain ⟨l, v⟩ := f
    by_cases hl : l = label
    · simpa [List.filter_cons, hl] using ih
    · have hb : (label == l) = false := by
        simpa using fun h => hl h.symm
      simpa [List.filter_cons, hl, List.lookup, hb] using ih

/-- A map over the fields that keeps the labels, and the fields of every label but one,
keeps the value of every other label. -/
theorem lookup_map_keep (g : String × Json → String × Json) (key label : String)
    (h : label ≠ key) (hfst : ∀ x, (g x).1 = x.1) (hsnd : ∀ x, x.1 ≠ key → g x = x)
    (o : List (String × Json)) :
    List.lookup label (o.map g) = List.lookup label o := by
  induction o with
  | nil => rfl
  | cons x o ih =>
    obtain ⟨l, v⟩ := x
    by_cases hx : label = l
    · subst hx
      rw [List.map_cons, hsnd (label, v) h]
      simp [List.lookup]
    · have hb : (label == l) = false := by simpa using hx
      have e : g (l, v) = (l, (g (l, v)).2) := Prod.ext (hfst _) rfl
      rw [List.map_cons, e]
      simp only [List.lookup, hb]
      exact ih

/-- The method `addToDependsOn` changes the value of `depends_on` only. -/
theorem get_addToDependsOn (o : JsonObject) (id : P4Id) (label : String)
    (h : label ≠ "depends_on") :
    JsonObject.get (addToDependsOn o id) label = JsonObject.get o label := by
  unfold JsonObject.get addToDependsOn
  apply lookup_map_keep _ "depends_on" label h
  · intro x
    obtain ⟨l, v⟩ := x
    dsimp only
    split
    · split
      · split <;> rfl
      · rfl
    · rfl
  · intro x hx
    have hb : (x.1 == "depends_on") = false := by simpa using hx
    simp only [hb, Bool.false_eq_true, if_false]

/-- C20: `addActionProfIds` returns true and leaves the table object as it is when the
`implementation_id` of the table is 0.  When the id is positive and `actProfHasSelector`
yields nothing, which is so exactly for an id with the prefix of an action profile that
no profile of the P4Info has and for an id with neither prefix, it reports an error,
returns false and leaves the table object as it is.  Otherwise it returns true without
an error, `table_type` becomes `MatchAction_Indirect_Selector` when the implementation
has a selector and `MatchAction_Indirect` when it has none, and every label other than
`table_type` and `depends_on` keeps its value; the implementation has a selector when
the id has the prefix of the DPDK action selector, the two prefixes being different,
and as the profile says when the id is that of an action profile. -/
theorem BfRtSchemaGenerator.addActionProfIds_table_type (self : BfRtSchemaGenerator)
    (table : Table) (tableJson : JsonObject) :
    (table.implementation_id = 0 →
      self.addActionProfIds table tableJson = some (true, tableJson, [])) ∧
    (0 < table.implementation_id →
      self.actProfHasSelector table.implementation_id = none →
      self.addActionProfIds table tableJson = some (false, tableJson,
        [SchemaError.invalidImplementationId table.implementation_id])) ∧
    (∀ hasSelector : Bool, 0 < table.implementation_id →
      self.actProfHasSelector table.implementation_id = some hasSelector →
      ∃ tableJson1, self.addActionProfIds table tableJson = some (true, tableJson1, []) ∧
        JsonObject.get tableJson1 "table_type" = some (Json.str
          (if hasSelector = true then "MatchAction_Indirect_Selector"
            else "MatchAction_Indirect")) ∧
        ∀ label, label ≠ "table_type" → label ≠ "depends_on" →
          JsonObject.get tableJson1 label = JsonObject.get tableJson label) ∧
    (∀ id, self.actProfHasSelector id = none ↔
      (isOfType id self.ACTION_PROFILE = true ∧
        BfRtSchemaGenerator.findActionProf self.p4info id = none) ∨
      (isOfType id self.ACTION_PROFILE = false ∧ isOfType id self.ACTION_SELECTOR = false)) ∧
    (∀ id, self.ACTION_PROFILE ≠ self.ACTION_SELECTOR →
      isOfType id self.ACTION_SELECTOR = true → self.actProfHasSelector id = some true) ∧
    (∀ id actionProf, isOfType id self.ACTION_PROFILE = true →
      BfRtSchemaGenerator.findActionProf self.p4info id = some actionProf →
      self.actProfHasSelector id = some actionProf.with_selector) := by
  refine ⟨?_, ?_, ?_, ?_, ?_, ?_⟩
  · intro h
    simp [BfRtSchemaGenerator.addActionProfIds, h]
  · intro hpos hnone
    simp [BfRtSchemaGenerator.addActionProfIds, hpos, hnone]
  · intro hasSelector hpos hsome
    unfold BfRtSchemaGenerator.addActionProfIds
    simp only [hpos, if_true, hsome]
    rw [JsonObject_emplace_erase]
    refine ⟨_, rfl, ?_, ?_⟩
    · have h1 : ∀ (o : JsonObject) (id : P4Id) (c : Prop) [Decidable c],
          JsonObject.get (if c then addToDependsOn o id else o) "table_type"
            = JsonObject.get o "table_type" := by
        intro o id c _
        split
        · exact get_addToDependsOn o id "table_type" (by decide)
        · rfl
      rw [h1, h1, JsonObject_get_erase_append_self]
    · intro label hl1 hl2
      have h1 : ∀ (o : JsonObject) (id : P4Id) (c : Prop) [Decidable c],
          JsonObject.get (if c then addToDependsOn o id else o) label
            = JsonObject.get o label := by
        intro o id c _
        split
        · exact get_addToDependsOn o id label hl2
        · rfl
      rw [h1, h1, JsonObject_get_erase_append _ _ _ _ hl1]
  · intro id
    unfold BfRtSchemaGenerator.actProfHasSelector
    cases h1 : isOfType id self.ACTION_PROFILE
    · cases h2 : isOfType id self.ACTION_SELECTOR <;> simp
    · cases h3 : BfRtSchemaGenerator.findActionProf self.p4info id <;> simp
  · intro id hne hsel
    have h1 : isOfType id self.ACTION_PROFILE = false := by
      unfold isOfType at hsel ⊢
      have := beq_iff_eq.mp hsel
      rw [this]
      simpa using fun h => hne h.symm
    simp [BfRtSchemaGenerator.actProfHasSelector, h1, hsel]
  · intro id actionProf h1 h2
    simp [BfRtSchemaGenerator.actProfHasSelector, h1, h2]

/-- C20 at the table `t` of the sample P4Info, implemented by the action profile `p`
with a selector. -/
theorem BfRtSchemaGenerator.addActionProfIds_table_type_witness :
    0 < (Table.mk (Preamble.mk 0x02000001 "t" []) 0x11000001).implementation_id ∧
    sampleGenerator.actProfHasSelector 0x11000001 = some true ∧
    ∃ tableJson1,
      sampleGenerator.addActionProfIds (Table.mk (Preamble.mk 0x02000001 "t" []) 0x11000001)
        sampleTableJson = some (true, tableJson1, []) ∧
      JsonObject.get tableJson1 "table_type" = some (Json.str
        (if true = true then "MatchAction_Indirect_Selector" else "MatchAction_Indirect")) ∧
      ∀ label, label ≠ "table_type" → label ≠ "depends_on" →
        JsonObject.get tableJson1 label = JsonObject.get sampleTableJson label :=
  ⟨by decide, rfl,
    (BfRtSchemaGenerator.addActionProfIds_table_type sampleGenerator
      (Table.mk (Preamble.mk 0x02000001 "t" []) 0x11000001) sampleTableJson).2.2.1
      true (by decide) rfl⟩

/-! ## The data of a match table -/

/-- C30: `addMatchActionData` on a table object whose `table_type` is the string
`tableType`.  For `MatchAction_Direct` the object gets the entry `action_specs` at its
end, when it has none yet, and the data list is left as it is.  For
`MatchAction_Indirect` the object is left as it is and the data list gets one more
item, a mandatory singleton that is not read-only, the `uint32` field
`$ACTION_MEMBER_ID`.  For `MatchAction_Indirect_Selector` the data list gets one more
item, a mandatory oneof that is not read-only, whose choices are the `uint32` fields
`$ACTION_MEMBER_ID` and `$SELECTOR_GROUP_ID`, in this order.  For every other table type
the method stops with the internal bug and the object and the list are as they were. -/
theorem BfRtSchemaGenerator.addMatchActionData_cases (self : BfRtSchemaGenerator)
    (makeActionSpecs : Table → P4Id → Json) (table : Table) (tableJson : JsonObject)
    (dataJson : JsonArray) (maxActionParamId : P4Id) (tableType : String)
    (htype : tableJson.get "table_type" = some (Json.str tableType)) :
    (tableType = "MatchAction_Direct" → tableJson.get "action_specs" = none →
      self.addMatchActionData makeActionSpecs table tableJson dataJson maxActionParamId
        = some (none,
            tableJson ++ [("action_specs", makeActionSpecs table maxActionParamId)],
            dataJson)) ∧
    (tableType = "MatchAction_Indirect" →
      self.addMatchActionData makeActionSpecs table tableJson dataJson maxActionParamId
        = some (none, tableJson,
            dataJson ++ [Json.object [("mandatory", Json.bool true),
              ("read_only", Json.bool false),
              ("singleton", makeCommonDataField self.BF_RT_DATA_ACTION_MEMBER_ID
                "$ACTION_MEMBER_ID" (makeTypeInt "uint32" none) false)]])) ∧
    (tableType = "MatchAction_Indirect_Selector" →
      self.addMatchActionData makeActionSpecs table tableJson dataJson maxActionParamId
        = some (none, tableJson,
            dataJson ++ [Json.object [("mandatory", Json.bool true),
              ("read_only", Json.bool false),
              ("oneof", Json.array
                [makeCommonDataField self.BF_RT_DATA_ACTION_MEMBER_ID "$ACTION_MEMBER_ID"
                  (makeTypeInt "uint32" none) false,
                 makeCommonDataField self.BF_RT_DATA_SELECTOR_GROUP_ID "$SELECTOR_GROUP_ID"
                  (makeTypeInt "uint32" none) false])]])) ∧
    (tableType ≠ "MatchAction_Direct" → tableType ≠ "MatchAction_Indirect" →
      tableType ≠ "MatchAction_Indirect_Selector" →
      self.addMatchActionData makeActionSpecs table tableJson dataJson maxActionParamId
        = some (some (SchemaBug.invalidTableType tableType), tableJson, dataJson)) := by
  refine ⟨?_, ?_, ?_, ?_⟩
  · intro ht hnone
    subst ht
    have he : JsonObject.emplace tableJson "action_specs"
        (makeActionSpecs table maxActionParamId)
          = some (tableJson ++ [("action_specs", makeActionSpecs table maxActionParamId)]) := by
      unfold JsonObject.get at hnone
      simp only [JsonObject.emplace, hnone]
    simp only [BfRtSchemaGenerator.addMatchActionData, htype, beq_self_eq_true, if_true, he]
  · intro ht
    subst ht
    simp only [BfRtSchemaGenerator.addMatchActionData, htype, addSingleton]
    rfl
  · intro ht
    subst ht
    simp only [BfRtSchemaGenerator.addMatchActionData, htype, addOneOf]
    rfl
  · intro h1 h2 h3
    have b1 : (tableType == "MatchAction_Direct") = false := by simpa using h1
    have b2 : (tableType == "MatchAction_Indirect") = false := by simpa using h2
    have b3 : (tableType == "MatchAction_Indirect_Selector") = false := by simpa using h3
    simp only [BfRtSchemaGenerator.addMatchActionData, htype, b1, b2, b3, Bool.false_eq_true,
      if_false]

/-- The table object of the examples, of the type `MatchAction_Direct`: it gets the
entry `action_specs`. -/
theorem BfRtSchemaGenerator.addMatchActionData_cases_witness :
    JsonObject.get sampleTableJson "table_type" = some (Json.str "MatchAction_Direct") ∧
    sampleGenerator.addMatchActionData (fun _ _ => Json.array [])
        (Table.mk (Preamble.mk 0x02000001 "t" []) 0) sampleTableJson [] 0
      = some (none, sampleTableJson ++ [("action_specs", Json.array [])], []) :=
  ⟨rfl, (BfRtSchemaGenerator.addMatchActionData_cases sampleGenerator
    (fun _ _ => Json.array []) (Table.mk (Preamble.mk 0x02000001 "t" []) 0) sampleTableJson
    [] 0 "MatchAction_Direct" rfl).1 rfl rfl⟩

end BFRT

end DPDK

namespace P4
open IR

/-! ## The names that the preparation of a caller introduces -/

theorem ReferenceMap.Introduced.same (r0 r1 : ReferenceMap) (hg : r1.gen = r0.gen)
    (hu : r1.usedNames = r0.usedNames) : ReferenceMap.Introduced r0 r1 [] :=
  ⟨hg, by simpa using hu, List.nodup_nil, fun _ h => by cases h⟩

/-- A call of `newName` with a fresh generator introduces the name it returns. -/
theorem ReferenceMap.Introduced.newName (r : ReferenceMap) (base : cstring) (h : r.Fresh) :
    ReferenceMap.Introduced r (r.newName base).2 [(r.newName base).1] := by
  refine ⟨rfl, by simp [ReferenceMap.newName], List.nodup_singleton _, ?_⟩
  intro n hn
  rw [List.mem_singleton] at hn
  subst hn
  exact h r.usedNames base

/-- The names introduced in two steps are those of the first and those of the second. -/
theorem ReferenceMap.Introduced.trans {r0 r1 r2 : ReferenceMap} {a b : List cstring}
    (h1 : ReferenceMap.Introduced r0 r1 a) (h2 : ReferenceMap.Introduced r1 r2 b) :
    ReferenceMap.Introduced r0 r2 (a ++ b) := by
  obtain ⟨g1, u1, n1, f1⟩ := h1
  obtain ⟨g2, u2, n2, f2⟩ := h2
  refine ⟨g2.trans g1, ?_, ?_, ?_⟩
  · rw [u2, u1]
    simp
  · rw [List.nodup_append]
    refine ⟨n1, n2, ?_⟩
    intro x hx1 hx2
    apply f2 x hx2
    rw [u1]
    simp [hx1]
  · intro n hn
    rcases List.mem_append.mp hn with h | h
    · exact f1 n h
    · intro hu
      apply f2 n h
      rw [u1]
      simp [hu]

theorem ReferenceMap.Introduced.fresh {r0 r1 : ReferenceMap} {a : List cstring}
    (h : ReferenceMap.Introduced r0 r1 a) (hf : r0.Fresh) : r1.Fresh := by
  intro used base
  rw [h.1]
  exact hf used base

/-- A name in use stays in use. -/
theorem ReferenceMap.Introduced.used {r0 r1 : ReferenceMap} {a : List cstring}
    (h : ReferenceMap.Introduced r0 r1 a) (n : cstring) (hn : n ∈ r0.usedNames) :
    n ∈ r1.usedNames := by
  rw [h.2.1]
  simp [hn]

theorem ReferenceMap.Introduced.mem {r0 r1 : ReferenceMap} {a : List cstring}
    (h : ReferenceMap.Introduced r0 r1 a) (n : cstring) (hn : n ∈ a) :
    n ∈ r1.usedNames := by
  rw [h.2.1]
  simp [hn]

theorem SymRenameMap.getName_setNewName_ne (m : SymRenameMap) (d k : Nat) (n e : cstring)
    (h : k ≠ d) : (m.setNewName d n e).getName k = m.getName k := by
  have hb : (k == d) = false := by simpa using h
  simp [SymRenameMap.getName, SymRenameMap.setNewName, List.lookup, hb]

/-- One `rename` introduces one name, the internal name of the declaration. -/
theorem ComputeNewNames.rename_introduced (c : ComputeNewNames) (d : Declaration)
    (hf : c.refMap.Fresh) :
    ∃ n e, ReferenceMap.Introduced c.refMap (c.rename d).refMap [n] ∧
      (c.rename d).renameMap = c.renameMap.setNewName d.decl n e :=
  ⟨_, _, ReferenceMap.Introduced.newName _ _ hf, rfl⟩

/-- The renaming of a list of declarations with distinct identities introduces one name
for each, which the rename map holds for it as internal name; the entries of other
declarations stay. -/
theorem ComputeNewNames.fold_introduced (ds : List Declaration) :
    ∀ (c : ComputeNewNames), c.refMap.Fresh → (ds.map (fun d => d.decl)).Nodup →
    ∃ names : List cstring,
      ReferenceMap.Introduced c.refMap (ds.foldl ComputeNewNames.rename c).refMap names ∧
      ds.map (fun d => (ds.foldl ComputeNewNames.rename c).renameMap.getName d.decl)
        = names.map some ∧
      ∀ k, k ∉ ds.map (fun d => d.decl) →
        (ds.foldl ComputeNewNames.rename c).renameMap.getName k = c.renameMap.getName k := by
  induction ds with
  | nil =>
    intro c _ _
    exact ⟨[], ReferenceMap.Introduced.same _ _ rfl rfl, rfl, fun _ _ => rfl⟩
  | cons d ds ih =>
    intro c hf hnd
    rw [List.map_cons, List.nodup_cons] at hnd
    obtain ⟨n, e, hint, hmap⟩ := ComputeNewNames.rename_introduced c d hf
    obtain ⟨names, h1, h2, h3⟩ := ih (c.rename d) (hint.fresh hf) hnd.2
    refine ⟨n :: names, by simpa using hint.trans h1, ?_, ?_⟩
    · simp only [List.foldl_cons, List.map_cons]
      rw [h2, h3 d.decl hnd.1, hmap, SymRenameMap.getName_setNewName]
    · intro k hk
      rw [List.map_cons, List.mem_cons, not_or] at hk
      simp only [List.foldl_cons]
      rw [h3 k hk.2, hmap, SymRenameMap.getName_setNewName_ne _ _ _ _ _ hk.1]

/-- Each local declaration is among the declarations renamed at and below the locals,
in the same order. -/
theorem GeneralInliner.sublist_localDeclarations (l : List Declaration) :
    List.Sublist l (l.flatMap GeneralInliner.localDeclarations) := by
  induction l with
  | nil => exact List.Sublist.slnil
  | cons d l ih =>
    rw [List.flatMap_cons]
    have h : List.Sublist [d] (GeneralInliner.localDeclarations d) := by
      cases d with
      | p4Action a =>
        simp only [GeneralInliner.localDeclarations]
        exact List.sublist_append_right _ _
      | p4Table t => exact List.Sublist.refl _
      | declarationInstance i => exact List.Sublist.refl _
      | declarationVariable v => exact List.Sublist.refl _
    exact List.Sublist.append h ih

/-- The loop over the apply-parameters introduces the names of the temporaries it
declares, and leaves the rename map as it is. -/
theorem GeneralInliner.bindParameters_introduced (call : Option MethodCallStatement)
    (mcd : Option MethodCallDescription) (useTemporary : List Nat) (params : List Parameter) :
    ∀ (b b1 : GeneralInliner.Binding), b.refMap.Fresh →
    GeneralInliner.bindParameters call mcd useTemporary params b = some b1 →
    ∃ decls : List Declaration,
      ReferenceMap.Introduced b.refMap b1.refMap (decls.map (fun d => d.name)) ∧
      b1.locals = b.locals ++ decls ∧ b1.substs.renameMap = b.substs.renameMap := by
  induction params with
  | nil =>
    intro b b1 _ h
    simp only [GeneralInliner.bindParameters, Option.some.injEq] at h
    subst h
    exact ⟨[], ReferenceMap.Introduced.same _ _ rfl rfl, by simp, rfl⟩
  | cons param rest ih =>
    intro b b1 hf h
    simp only [GeneralInliner.bindParameters] at h
    cases hstep : GeneralInliner.bindParameter call mcd useTemporary b param with
    | none => rw [hstep] at h; cases h
    | some b2 =>
      rw [hstep] at h
      simp only at h
      have hone : ∃ decls : List Declaration,
          ReferenceMap.Introduced b.refMap b2.refMap (decls.map (fun d => d.name)) ∧
          b2.locals = b.locals ++ decls ∧ b2.substs.renameMap = b.substs.renameMap := by
        unfold GeneralInliner.bindParameter at hstep
        split at hstep
        · cases hstep
          exact ⟨[], ReferenceMap.Introduced.same _ _ rfl rfl, by simp, rfl⟩
        · split at hstep
          · split at hstep
            · cases hstep
            · split at hstep
              · cases hstep
              · cases hstep
                exact ⟨[], ReferenceMap.Introduced.same _ _ rfl rfl, by simp, rfl⟩
          · cases hstep
            refine ⟨[Declaration.declarationVariable _], ?_, rfl, rfl⟩
            have hn := ReferenceMap.Introduced.newName b.refMap param.name hf
            exact ⟨hn.1, hn.2.1, hn.2.2.1, hn.2.2.2⟩
      obtain ⟨decls1, i1, l1, r1⟩ := hone
      obtain ⟨decls2, i2, l2, r2⟩ := ih b2 b1 (i1.fresh hf) h
      refine ⟨decls1 ++ decls2, ?_, ?_, r2.trans r1⟩
      · rw [List.map_append]
        exact i1.trans i2
      · rw [l2, l1, List.append_assoc]

/-- The rewritten declaration has the internal name that the rename map holds for it. -/
theorem Substitutions.visitDeclaration_name (self : Substitutions) (d d1 : Declaration)
    (res res1 : Resolution) (h : self.visitDeclaration d res = some (d1, res1)) :
    self.renameMap.getName d.decl = some d1.name := by
  cases d with
  | p4Table t =>
    simp only [Substitutions.visitDeclaration] at h
    split at h
    · cases h
    · simp only [Substitutions.postorder_P4Table, Option.map_eq_some'] at h
      obtain ⟨r, hr, hd⟩ := h
      cases hn : self.renameMap.getName t.decl with
      | none => simp [hn] at hr
      | some n =>
        cases he : self.renameMap.getExtName t.decl with
        | none => simp [hn, he] at hr
        | some e =>
          simp [hn, he] at hr
          cases hd
          subst hr
          simpa [Declaration.decl, Declaration.name] using hn
  | p4Action a =>
    simp only [Substitutions.visitDeclaration] at h
    split at h
    · cases h
    · simp only [Substitutions.postorder_P4Action, Option.map_eq_some'] at h
      obtain ⟨r, hr, hd⟩ := h
      cases hn : self.renameMap.getName a.decl with
      | none => simp [hn] at hr
      | some n =>
        cases he : self.renameMap.getExtName a.decl with
        | none => simp [hn, he] at hr
        | some e =>
          simp [hn, he] at hr
          cases hd
          subst hr
          simpa [Declaration.decl, Declaration.name] using hn
  | declarationInstance i =>
    simp only [Substitutions.visitDeclaration] at h
    split at h
    · cases h
    · simp only [Substitutions.postorder_Declaration_Instance, Option.map_eq_some'] at h
      obtain ⟨r, hr, hd⟩ := h
      cases hn : self.renameMap.getName i.decl with
      | none => simp [hn] at hr
      | some n =>
        cases he : self.renameMap.getExtName i.decl with
        | none => simp [hn, he] at hr
        | some e =>
          simp [hn, he] at hr
          cases hd
          subst hr
          simpa [Declaration.decl, Declaration.name] using hn
  | declarationVariable v =>
    simp only [Substitutions.visitDeclaration, Option.map_eq_some'] at h
    obtain ⟨r, hr, hd⟩ := h
    cases hd
    unfold Substitutions.visitDeclaration_Variable at hr
    cases hn : self.renameMap.getName v.decl with
    | none =>
      split at hr
      · simp [Substitutions.postorder_Declaration_Variable, hn] at hr
      · split at hr
        · cases hr
        · simp [Substitutions.postorder_Declaration_Variable, hn] at hr
    | some n =>
      cases he : self.renameMap.getExtName v.decl with
      | none =>
        split at hr
        · simp [Substitutions.postorder_Declaration_Variable, hn, he] at hr
        · split at hr
          · cases hr
          · simp [Substitutions.postorder_Declaration_Variable, hn, he] at hr
      | some e =>
        split at hr
        · simp [Substitutions.postorder_Declaration_Variable, hn, he] at hr
          rw [← hr]
          simpa [Declaration.decl, Declaration.name] using hn
        · split at hr
          · cases hr
          · simp [Substitutions.postorder_Declaration_Variable, hn, he] at hr
            rw [← hr]
            simpa [Declaration.decl, Declaration.name] using hn

theorem Substitutions.visitDeclarations_names (self : Substitutions) :
    ∀ (ds ds1 : List Declaration) (res res1 : Resolution),
    self.visitDeclarations ds res = some (ds1, res1) →
    ds.map (fun d => self.renameMap.getName d.decl) = ds1.map (fun d => some d.name) := by
  intro ds
  induction ds with
  | nil =>
    intro ds1 res res1 h
    simp only [Substitutions.visitDeclarations, Option.some.injEq, Prod.mk.injEq] at h
    rw [← h.1]
    rfl
  | cons d ds ih =>
    intro ds1 res res1 h
    simp only [Substitutions.visitDeclarations] at h
    split at h
    · cases h
    · rename_i d1 res2 hd
      split at h
      · cases h
      · rename_i ds2 res3 hds
        cases h
        simp only [List.map_cons]
        rw [ih ds2 res2 _ hds, Substitutions.visitDeclaration_name self d d1 res res2 hd]

theorem PerInstanceSubstitutions.rename_P4Control_locals (self : PerInstanceSubstitutions)
    (refMap : ReferenceMap) (node : P4Control) (r : P4Control × ReferenceMap)
    (h : self.rename_P4Control refMap node = some r) :
    node.controlLocals.map (fun d => self.renameMap.getName d.decl)
      = r.1.controlLocals.map (fun d => some d.name) ∧
    r.2.gen = refMap.gen ∧ r.2.usedNames = refMap.usedNames := by
  unfold PerInstanceSubstitutions.rename_P4Control at h
  cases hv : self.substitutions.visitP4Control node refMap.resolution with
  | none => rw [hv] at h; cases h
  | some v =>
    rw [hv] at h
    cases h
    unfold Substitutions.visitP4Control at hv
    split at hv
    · cases hv
    · rename_i locals res1 hl
      split at hv
      · cases hv
      · cases hv
        exact ⟨Substitutions.visitDeclarations_names _ _ _ _ _ hl, rfl, rfl⟩

theorem PerInstanceSubstitutions.rename_P4Parser_locals (self : PerInstanceSubstitutions)
    (refMap : ReferenceMap) (node : P4Parser) (r : P4Parser × ReferenceMap)
    (h : self.rename_P4Parser refMap node = some r) :
    node.parserLocals.map (fun d => self.renameMap.getName d.decl)
      = r.1.parserLocals.map (fun d => some d.name) := by
  unfold PerInstanceSubstitutions.rename_P4Parser at h
  cases hv : self.substitutions.visitP4Parser node refMap.resolution with
  | none => rw [hv] at h; cases h
  | some v =>
    rw [hv] at h
    cases h
    unfold Substitutions.visitP4Parser at hv
    split at hv
    · cases hv
    · rename_i locals res1 hl
      split at hv
      · cases hv
      · cases hv
        exact Substitutions.visitDeclarations_names _ _ _ _ _ hl

/-- The names of the locals of a clone are among the names that the renaming
introduced, in the same order: the locals are among the declarations renamed. -/
theorem sublist_of_renamed (g : Declaration → Option cstring) (locals ds clone : List Declaration)
    (names : List cstring) (hsub : List.Sublist locals ds)
    (hnames : ds.map g = names.map some)
    (hclone : locals.map g = clone.map (fun d => some d.name)) :
    List.Sublist (clone.map (fun d => d.name)) names := by
  have h1 : List.Sublist (clone.map (fun d => some d.name)) (names.map some) := by
    rw [← hclone, ← hnames]
    exact hsub.map g
  have h2 := h1.filterMap id
  have e1 : ∀ l : List Declaration,
      (l.map (fun d => some d.name)).filterMap id = l.map (fun d => d.name) := by
    intro l
    induction l with
    | nil => rfl
    | cons d l ih =>
      rw [List.map_cons, List.filterMap_cons]
      simp only [id, List.map_cons]
      rw [ih]
  have e2 : ∀ l : List cstring, (l.map some).filterMap id = l := by
    intro l
    induction l with
    | nil => rfl
    | cons d l ih =>
      rw [List.map_cons, List.filterMap_cons]
      simp only [id]
      rw [ih]
  rw [e1, e2] at h2
  exact h2

/-- The preparation of one instance of a control introduces the internal names of
the declarations of the callee and the names of the temporaries, and adds to the locals
the temporaries and the locals of the clone, whose names are names introduced, no two
the same. -/
theorem GeneralInliner.prepareControlInstance_introduced (self : GeneralInliner)
    (p p1 : GeneralInliner.Preparation) (inst : Declaration_Instance) (callee : P4Control)
    (hf : p.refMap.Fresh)
    (hids : ((callee.controlLocals.flatMap GeneralInliner.localDeclarations ++
      GeneralInliner.statementDeclarations.componentsDeclarations callee.body).map
        (fun d => d.decl)).Nodup)
    (h : self.prepareControlInstance p inst callee = some p1) :
    ∃ (names temporaries : List cstring) (added : List Declaration)
      (substs : PerInstanceSubstitutions),
      ReferenceMap.Introduced p.refMap p1.refMap (names ++ temporaries) ∧
      p1.work = { p.work with substitutions := (inst.decl, substs) :: p.work.substitutions } ∧
      (callee.controlLocals.flatMap GeneralInliner.localDeclarations ++
        GeneralInliner.statementDeclarations.componentsDeclarations callee.body).map
          (fun d => substs.renameMap.getName d.decl) = names.map some ∧
      p1.locals = p.locals ++ added ∧
      (added.map (fun d => d.name)).Nodup ∧
      ∀ n ∈ added.map (fun d => d.name), n ∈ names ++ temporaries := by
  unfold GeneralInliner.prepareControlInstance at h
  simp only at h
  split at h
  · cases h
  · rename_i cnn0 hcreate
    have hcnn0 : cnn0.refMap = p.refMap := by
      unfold ComputeNewNames.create at hcreate
      split at hcreate
      · cases hcreate
      · cases hcreate
        rfl
    split at h
    · cases h
    · rename_i temps _
      split at h
      · cases h
      · rename_i b hb
        split at h
        · cases h
        · rename_i clone refMap hren
          cases h
          obtain ⟨names, i1, m1, _⟩ := ComputeNewNames.fold_introduced _ cnn0
            (by rw [hcnn0]; exact hf) hids
          rw [hcnn0] at i1
          obtain ⟨decls, i2, l2, r2⟩ := GeneralInliner.bindParameters_introduced _ _ _ _ _ _
            (i1.fresh hf) hb
          obtain ⟨c1, c2, c3⟩ := PerInstanceSubstitutions.rename_P4Control_locals _ _ _ _ hren
          simp only at i2 l2 r2 c1 c2 c3
          have i3 : ReferenceMap.Introduced b.refMap refMap [] :=
            ReferenceMap.Introduced.same _ _ c2 c3
          have hall := (i1.trans i2).trans i3
          rw [List.append_nil] at hall
          have hsub : List.Sublist (clone.controlLocals.map (fun d => d.name)) names := by
            apply sublist_of_renamed (fun d => b.substs.renameMap.getName d.decl)
              callee.controlLocals _ clone.controlLocals names
              ((GeneralInliner.sublist_localDeclarations callee.controlLocals).trans
                (List.sublist_append_left _ _))
            · rw [r2]
              exact m1
            · exact c1
          refine ⟨names, decls.map (fun d => d.name), decls ++ clone.controlLocals, b.substs,
            hall, rfl, ?_, ?_, ?_, ?_⟩
          · rw [r2]
            exact m1
          · simp only
            rw [l2, List.append_assoc]
          · rw [List.map_append, List.nodup_append]
            refine ⟨i2.2.2.1, hsub.nodup i1.2.2.1, ?_⟩
            intro x hx1 hx2
            have := hall.2.2.1
            rw [List.nodup_append] at this
            exact this.2.2 (hsub.subset hx2) hx1
          · intro n hn
            rw [List.map_append, List.mem_append] at hn
            rcases hn with hn | hn
            · exact List.mem_append_right _ hn
            · exact List.mem_append_left _ (hsub.subset hn)

/-- The loop over the locals of a caller control keeps the names of the new locals
pairwise distinct: a local is a local of the caller that stays, or has a name that the
loop introduced. -/
theorem GeneralInliner.prepareControlLocals_introduced (self : GeneralInliner)
    (r0 : ReferenceMap) (declToCallee : List (Nat × IContainer)) (hf : r0.Fresh)
    (locals : List Declaration) :
    ∀ (p p1 : GeneralInliner.Preparation) (new0 : List cstring),
    ReferenceMap.Introduced r0 p.refMap new0 →
    p.work.declToCallee = declToCallee →
    (p.locals.map (fun d => d.name)).Nodup →
    (∀ n ∈ p.locals.map (fun d => d.name), n ∈ r0.usedNames ∨ n ∈ new0) →
    (locals.map (fun d => d.name)).Nodup →
    (∀ n ∈ locals.map (fun d => d.name),
      n ∈ r0.usedNames ∧ n ∉ p.locals.map (fun d => d.name)) →
    GeneralInliner.distinctIdentities declToCallee locals →
    self.prepareControlLocals locals p = some p1 →
    ∃ new1 : List cstring, ReferenceMap.Introduced r0 p1.refMap (new0 ++ new1) ∧
      (p1.locals.map (fun d => d.name)).Nodup ∧
      (∀ n ∈ p1.locals.map (fun d => d.name), n ∈ r0.usedNames ∨ n ∈ new0 ++ new1) ∧
      p1.work.declToCallee = declToCallee := by
  induction locals with
  | nil =>
    intro p p1 new0 hint hw hnd hmem _ _ _ h
    simp only [GeneralInliner.prepareControlLocals, Option.some.injEq] at h
    subst h
    exact ⟨[], by simpa using hint, hnd, by simpa using hmem, hw⟩
  | cons s rest ih =>
    intro p p1 new0 hint hw hnd hmem hrnd hrest hids h
    rw [List.map_cons, List.nodup_cons] at hrnd
    have hs := hrest s.name (by simp)
    have hkeep : ∀ p1, self.prepareControlLocals rest { p with locals := p.locals ++ [s] }
        = some p1 →
        ∃ new1 : List cstring, ReferenceMap.Introduced r0 p1.refMap (new0 ++ new1) ∧
          (p1.locals.map (fun d => d.name)).Nodup ∧
          (∀ n ∈ p1.locals.map (fun d => d.name), n ∈ r0.usedNames ∨ n ∈ new0 ++ new1) ∧
          p1.work.declToCallee = declToCallee := by
      intro p1 h1
      apply ih { p with locals := p.locals ++ [s] } p1 new0 hint hw ?_ ?_ hrnd.2 ?_ ?_ h1
      · simp only [List.map_append, List.map_cons, List.map_nil]
        rw [List.nodup_append]
        refine ⟨hnd, List.nodup_singleton _, ?_⟩
        intro x hx1 hx2
        rw [List.mem_singleton] at hx2
        subst hx2
        exact hs.2 hx1
      · intro n hn
        simp only [List.map_append, List.map_cons, List.map_nil, List.mem_append,
          List.mem_singleton] at hn
        rcases hn with hn | hn
        · exact hmem n hn
        · subst hn
          exact Or.inl hs.1
      · intro n hn
        have := hrest n (by simp [List.mem_map] at hn ⊢; exact Or.inr hn)
        refine ⟨this.1, ?_⟩
        simp only [List.map_append, List.map_cons, List.map_nil, List.mem_append,
          List.mem_singleton, not_or]
        refine ⟨this.2, ?_⟩
        intro he
        subst he
        exact hrnd.1 hn
      · intro inst callee hi hc
        exact hids inst callee (List.mem_cons_of_mem _ hi) hc
    cases s with
    | declarationInstance inst =>
      simp only [GeneralInliner.prepareControlLocals] at h
      split at h
      · exact hkeep p1 h
      · rename_i callee hcallee
        split at h
        · cases h
        · rename_i p2 hp2
          rw [hw] at hcallee
          obtain ⟨names, temps, added, substs, i1, w1, _, l1, n1, m1⟩ :=
            GeneralInliner.prepareControlInstance_introduced self p p2 inst callee
              (hint.fresh hf) (hids inst _ (List.mem_cons_self _ _) hcallee) hp2
          have hall := hint.trans i1
          have hfreshNames : ∀ n ∈ added.map (fun d => d.name), n ∉ p.refMap.usedNames :=
            fun n hn => i1.2.2.2 n (m1 n hn)
          have g1 : (p2.locals.map (fun d => d.name)).Nodup := by
            rw [l1, List.map_append, List.nodup_append]
            refine ⟨hnd, n1, ?_⟩
            intro x hx1 hx2
            apply hfreshNames x hx2
            rcases hmem x hx1 with hx | hx
            · exact hint.used x hx
            · exact hint.mem x hx
          have g2 : ∀ n ∈ p2.locals.map (fun d => d.name),
              n ∈ r0.usedNames ∨ n ∈ new0 ++ (names ++ temps) := by
            intro n hn
            rw [l1, List.map_append, List.mem_append] at hn
            rcases hn with hn | hn
            · rcases hmem n hn with hx | hx
              · exact Or.inl hx
              · exact Or.inr (List.mem_append_left _ hx)
            · exact Or.inr (List.mem_append_right _ (m1 n hn))
          have g3 : ∀ n ∈ rest.map (fun d => d.name),
              n ∈ r0.usedNames ∧ n ∉ p2.locals.map (fun d => d.name) := by
            intro n hn
            have := hrest n (by simp [List.mem_map] at hn ⊢; exact Or.inr hn)
            refine ⟨this.1, ?_⟩
            rw [l1, List.map_append, List.mem_append, not_or]
            refine ⟨this.2, ?_⟩
            intro hx
            exact hfreshNames n hx (hint.used n this.1)
          have g4 : GeneralInliner.distinctIdentities declToCallee rest := by
            intro inst2 callee2 hi hc
            exact hids inst2 callee2 (List.mem_cons_of_mem _ hi) hc
          obtain ⟨new1, j1, j2, j3, j4⟩ := ih p2 p1 (new0 ++ (names ++ temps)) hall
            (by rw [w1]; exact hw) g1 g2 hrnd.2 g3 g4 h
          exact ⟨(names ++ temps) ++ new1, by simpa [List.append_assoc] using j1, j2,
            by simpa [List.append_assoc] using j3, j4⟩
      · cases h
    | p4Table t => exact hkeep p1 (by simpa only [GeneralInliner.prepareControlLocals] using h)
    | p4Action a => exact hkeep p1 (by simpa only [GeneralInliner.prepareControlLocals] using h)
    | declarationVariable v =>
      exact hkeep p1 (by simpa only [GeneralInliner.prepareControlLocals] using h)

/-- Over the states of a callee with distinct names, none of them in the map yet,
`ComputeNewStateNames` introduces one name for each state other than `accept`, which
the map holds for the state. -/
theorem ComputeNewStateNames.fold_states_introduced (l : List ParserState) :
    ∀ (c : ComputeNewStateNames), c.refMap.Fresh → (l.map (fun q => q.name)).Nodup →
    (∀ q ∈ l, c.stateRenameMap.lookup q.name = none) →
    ∃ names : List cstring,
      ReferenceMap.Introduced c.refMap (l.foldl ComputeNewStateNames.preorder c).refMap names ∧
      (l.filter (fun q => q.name != ParserState.accept)).map
          (fun q => (l.foldl ComputeNewStateNames.preorder c).stateRenameMap.lookup q.name)
        = names.map some := by
  induction l with
  | nil =>
    intro c _ _ _
    exact ⟨[], ReferenceMap.Introduced.same _ _ rfl rfl, rfl⟩
  | cons q l ih =>
    intro c hf hnd hnone
    rw [List.map_cons, List.nodup_cons] at hnd
    have hnone1 : ∀ q1 ∈ l, (c.preorder q).stateRenameMap.lookup q1.name = none := by
      intro q1 hq1
      rw [ComputeNewStateNames.lookup_preorder, hnone q1 (List.mem_cons_of_mem _ hq1)]
      have hne : q1.name ≠ q.name := by
        intro he
        apply hnd.1
        rw [← he]
        exact List.mem_map.mpr ⟨q1, hq1, rfl⟩
      simp [hne]
    have hq : (c.preorder q).stateRenameMap.lookup q.name
        = some (if q.name = ParserState.accept then c.acceptName
            else (c.refMap.newName (c.pfx ++ "_" ++ q.name)).1) := by
      rw [ComputeNewStateNames.lookup_preorder, hnone q (List.mem_cons_self _ _)]
      simp
    obtain ⟨_, _, k3, _, _, _⟩ := ComputeNewStateNames.fold_lookup l (c.preorder q)
    have hfin := k3 _ _ hq
    by_cases ha : q.name = ParserState.accept
    · have hsame : (c.preorder q).refMap = c.refMap := by
        unfold ComputeNewStateNames.preorder
        simp [ha]
      obtain ⟨names, i1, m1⟩ := ih (c.preorder q) (by rw [hsame]; exact hf) hnd.2 hnone1
      rw [hsame] at i1
      refine ⟨names, i1, ?_⟩
      simp only [List.foldl_cons, List.filter_cons, ha, bne_self_eq_false, Bool.false_eq_true,
        if_false]
      exact m1
    · have hb : (q.name == ParserState.accept) = false := by simpa using ha
      have hstep : ReferenceMap.Introduced c.refMap (c.preorder q).refMap
          [(c.refMap.newName (c.pfx ++ "_" ++ q.name)).1] := by
        have := ReferenceMap.Introduced.newName c.refMap (c.pfx ++ "_" ++ q.name) hf
        unfold ComputeNewStateNames.preorder
        simpa [hb] using this
      obtain ⟨names, i1, m1⟩ := ih (c.preorder q) (hstep.fresh hf) hnd.2 hnone1
      refine ⟨(c.refMap.newName (c.pfx ++ "_" ++ q.name)).1 :: names,
        by simpa using hstep.trans i1, ?_⟩
      simp only [List.foldl_cons, List.filter_cons, bne_iff_ne, ne_eq, ha, not_false_eq_true,
        decide_True, if_true, List.map_cons]
      rw [hfin]
      simp only [ha, if_false, List.cons.injEq, true_and]
      simpa using m1

/-- The names of the states that are spliced in are, in order, among the names that the
map holds for the states other than `accept`. -/
theorem RenameStates.spliced_names_sublist (m : StateRenameMap) (l : List ParserState) :
    List.Sublist
      (((l.map (RenameStates.mk m).preorder_ParserState).filter
        (fun q => notBuiltin q.name)).map (fun q => q.name))
      ((l.filter (fun q => q.name != ParserState.accept)).map (fun q => m.get q.name)) := by
  induction l with
  | nil => exact List.Sublist.slnil
  | cons q l ih =>
    by_cases ha : q.name = ParserState.accept
    · have h1 : (RenameStates.mk m).preorder_ParserState q = q := by
        simp [RenameStates.preorder_ParserState, ha]
      simp only [List.map_cons, List.filter_cons, h1, notBuiltin, ha, beq_self_eq_true,
        Bool.true_or, Bool.not_true, Bool.false_eq_true, if_false, bne_self_eq_false]
      exact ih
    · have hb : (q.name != ParserState.accept) = true := by simpa using ha
      by_cases hr : q.name = ParserState.reject
      · have h1 : (RenameStates.mk m).preorder_ParserState q = q := by
          simp [RenameStates.preorder_ParserState, hr]
        have hnb : notBuiltin ((RenameStates.mk m).preorder_ParserState q).name = false := by
          rw [h1]
          simp [notBuiltin, hr]
        simp only [List.map_cons, List.filter_cons, hnb, hb, if_true, Bool.false_eq_true,
          if_false]
        exact List.Sublist.cons _ ih
      · have h1 : ((RenameStates.mk m).preorder_ParserState q).name = m.get q.name := by
          have hbb : (q.name == ParserState.accept || q.name == ParserState.reject) = false := by
            simp [ha, hr]
          simp [RenameStates.preorder_ParserState, hbb]
        simp only [List.map_cons, List.filter_cons, hb, if_true]
        split
        · simp only [List.map_cons, h1]
          exact List.Sublist.cons₂ _ ih
        · exact List.Sublist.cons _ ih

/-- The splice of one call introduces the name of the continuation and one name for
each state of the callee other than `accept`; the states added after the cut state
carry names among these, in order. -/
theorem GeneralInliner.spliceCall_introduced (self : GeneralInliner) (work : Work)
    (state : ParserState) (call : MethodCallStatement) (decl : Nat)
    (s s1 : GeneralInliner.Splice) (callee : P4Parser)
    (hf : s.refMap.Fresh)
    (hcallee : work.declToCallee.lookup decl = some (IContainer.p4Parser callee))
    (hnd : (callee.states.map (fun q => q.name)).Nodup)
    (h : self.spliceCall work state call decl s = some s1) :
    ∃ (names : List cstring) (cut : ParserState) (spliced : List ParserState),
      ReferenceMap.Introduced s.refMap s1.refMap (s1.name :: names) ∧
      s1.states = s.states ++ cut :: spliced ∧ cut.name = s.name ∧
      List.Sublist (spliced.map (fun q => q.name)) names := by
  unfold GeneralInliner.spliceCall at h
  rw [hcallee] at h
  simp only at h
  split at h
  · cases h
  · split at h
    · cases h
    · split at h
      · cases h
      · rename_i substs _ copyin substs1 _ callee1 refMap1 hren
        obtain ⟨hnames, _, _, hgen, hused⟩ :=
          PerInstanceSubstitutions.rename_P4Parser_spec _ _ _ _ hren
        simp only at hgen hused hnames
        split at h
        · cases h
        · cases h
          have i0 : ReferenceMap.Introduced s.refMap refMap1 [] :=
            ReferenceMap.Introduced.same _ _ hgen hused
          have i1 := ReferenceMap.Introduced.newName refMap1 state.name (i0.fresh hf)
          obtain ⟨names, i2, m2⟩ := ComputeNewStateNames.fold_states_introduced callee1.states
            (ComputeNewStateNames.mk (refMap1.newName state.name).2 callee1.name
              (refMap1.newName state.name).1 [])
            (i1.fresh (i0.fresh hf)) (by rw [hnames]; exact hnd)
            (by intro q _; rfl)
          have i3 : ReferenceMap.Introduced
              ((ComputeNewStateNames.mk (refMap1.newName state.name).2 callee1.name
                (refMap1.newName state.name).1 []).apply callee1).refMap
              ((ComputeNewStateNames.mk (refMap1.newName state.name).2 callee1.name
                (refMap1.newName state.name).1 []).apply
                  callee1).refMap.newNode.2.newNode.2 [] :=
            ReferenceMap.Introduced.same _ _ rfl rfl
          have hall := ((i0.trans i1).trans i2).trans i3
          have hget : (callee1.states.filter (fun q => q.name != ParserState.accept)).map
              (fun q => ((ComputeNewStateNames.mk (refMap1.newName state.name).2 callee1.name
                (refMap1.newName state.name).1 []).apply callee1).stateRenameMap.get q.name)
              = names := by
            have e : ∀ (m : StateRenameMap) (l : List ParserState) (ns : List cstring),
                l.map (fun q => m.lookup q.name) = ns.map some →
                l.map (fun q => m.get q.name) = ns := by
              intro m l
              induction l with
              | nil =>
                intro ns hns
                cases ns with
                | nil => rfl
                | cons n ns => cases hns
              | cons q l ih =>
                intro ns hns
                cases ns with
                | nil => cases hns
                | cons n ns =>
                  simp only [List.map_cons, List.cons.injEq] at hns
                  simp only [List.map_cons, StateRenameMap.get, hns.1, List.cons.injEq,
                    true_and]
                  exact ih ns hns.2
            exact e _ _ _ m2
          refine ⟨names, _, _, by simpa using hall, by simp only [List.append_assoc]; rfl,
            rfl, ?_⟩
          rw [← hget]
          exact RenameStates.spliced_names_sublist _ callee1.states

/-- The preparation of one instance of a parser introduces the internal names of the
declarations of the callee and the names of the temporaries, and adds to the locals the
temporaries and the locals of the clone, whose names are names introduced, no two the
same. -/
theorem GeneralInliner.prepareParserInstance_introduced
    (p p1 : GeneralInliner.Preparation) (inst : Declaration_Instance) (callee : P4Parser)
    (hf : p.refMap.Fresh)
    (hids : ((GeneralInliner.containerDeclarations (IContainer.p4Parser callee)).map
        (fun d => d.decl)).Nodup)
    (h : GeneralInliner.prepareParserInstance p inst callee = some p1) :
    ∃ (names temporaries : List cstring) (added : List Declaration)
      (substs : PerInstanceSubstitutions),
      ReferenceMap.Introduced p.refMap p1.refMap (names ++ temporaries) ∧
      p1.work = { p.work with substitutions := (inst.decl, substs) :: p.work.substitutions } ∧
      (GeneralInliner.containerDeclarations (IContainer.p4Parser callee)).map
          (fun d => substs.renameMap.getName d.decl) = names.map some ∧
      p1.locals = p.locals ++ added ∧
      (added.map (fun d => d.name)).Nodup ∧
      ∀ n ∈ added.map (fun d => d.name), n ∈ names ++ temporaries := by
  unfold GeneralInliner.prepareParserInstance at h
  simp only at h
  split at h
  · cases h
  · rename_i cnn0 hcreate
    have hcnn0 : cnn0.refMap = p.refMap := by
      unfold ComputeNewNames.create at hcreate
      split at hcreate
      · cases hcreate
      · cases hcreate
        rfl
    split at h
    · cases h
    · rename_i b hb
      split at h
      · cases h
      · rename_i clone refMap hren
        cases h
        obtain ⟨names, i1, m1, _⟩ := ComputeNewNames.fold_introduced _ cnn0
          (by rw [hcnn0]; exact hf) hids
        rw [hcnn0] at i1
        obtain ⟨decls, i2, l2, r2⟩ := GeneralInliner.bindParameters_introduced _ _ _ _ _ _
          (i1.fresh hf) hb
        have c1 := PerInstanceSubstitutions.rename_P4Parser_locals _ _ _ _ hren
        obtain ⟨_, _, _, c2, c3⟩ := PerInstanceSubstitutions.rename_P4Parser_spec _ _ _ _ hren
        simp only at i2 l2 r2 c1 c2 c3
        have i3 : ReferenceMap.Introduced b.refMap refMap [] :=
          ReferenceMap.Introduced.same _ _ c2 c3
        have hall := (i1.trans i2).trans i3
        rw [List.append_nil] at hall
        have hsub : List.Sublist (clone.parserLocals.map (fun d => d.name)) names := by
          apply sublist_of_renamed (fun d => b.substs.renameMap.getName d.decl)
            callee.parserLocals _ clone.parserLocals names
            ((GeneralInliner.sublist_localDeclarations callee.parserLocals).trans
              (List.sublist_append_left _ _))
          · rw [r2]
            exact m1
          · exact c1
        refine ⟨names, decls.map (fun d => d.name), decls ++ clone.parserLocals, b.substs,
          hall, rfl, ?_, ?_, ?_, ?_⟩
        · rw [r2]
          exact m1
        · simp only
          rw [l2, List.append_assoc]
        · rw [List.map_append, List.nodup_append]
          refine ⟨i2.2.2.1, hsub.nodup i1.2.2.1, ?_⟩
          intro x hx1 hx2
          have := hall.2.2.1
          rw [List.nodup_append] at this
          exact this.2.2 (hsub.subset hx2) hx1
        · intro n hn
          rw [List.map_append, List.mem_append] at hn
          rcases hn with hn | hn
          · exact List.mem_append_right _ hn
          · exact List.mem_append_left _ (hsub.subset hn)

/-- The loop over the locals of a caller parser keeps the names of the new locals
pairwise distinct: a local is a local of the caller that stays, or has a name that the
loop introduced. -/
theorem GeneralInliner.prepareParserLocals_introduced
    (r0 : ReferenceMap) (declToCallee : List (Nat × IContainer)) (hf : r0.Fresh)
    (locals : List Declaration) :
    ∀ (p p1 : GeneralInliner.Preparation) (new0 : List cstring),
    ReferenceMap.Introduced r0 p.refMap new0 →
    p.work.declToCallee = declToCallee →
    (p.locals.map (fun d => d.name)).Nodup →
    (∀ n ∈ p.locals.map (fun d => d.name), n ∈ r0.usedNames ∨ n ∈ new0) →
    (locals.map (fun d => d.name)).Nodup →
    (∀ n ∈ locals.map (fun d => d.name),
      n ∈ r0.usedNames ∧ n ∉ p.locals.map (fun d => d.name)) →
    GeneralInliner.distinctIdentities declToCallee locals →
    GeneralInliner.prepareParserLocals locals p = some p1 →
    ∃ new1 : List cstring, ReferenceMap.Introduced r0 p1.refMap (new0 ++ new1) ∧
      (p1.locals.map (fun d => d.name)).Nodup ∧
      (∀ n ∈ p1.locals.map (fun d => d.name), n ∈ r0.usedNames ∨ n ∈ new0 ++ new1) ∧
      p1.work.declToCallee = declToCallee := by
  induction locals with
  | nil =>
    intro p p1 new0 hint hw hnd hmem _ _ _ h
    simp only [GeneralInliner.prepareParserLocals, Option.some.injEq] at h
    subst h
    exact ⟨[], by simpa using hint, hnd, by simpa using hmem, hw⟩
  | cons s rest ih =>
    intro p p1 new0 hint hw hnd hmem hrnd hrest hids h
    rw [List.map_cons, List.nodup_cons] at hrnd
    have hs := hrest s.name (by simp)
    have hkeep : ∀ p1, GeneralInliner.prepareParserLocals rest { p with locals := p.locals ++ [s] }
        = some p1 →
        ∃ new1 : List cstring, ReferenceMap.Introduced r0 p1.refMap (new0 ++ new1) ∧
          (p1.locals.map (fun d => d.name)).Nodup ∧
          (∀ n ∈ p1.locals.map (fun d => d.name), n ∈ r0.usedNames ∨ n ∈ new0 ++ new1) ∧
          p1.work.declToCallee = declToCallee := by
      intro p1 h1
      apply ih { p with locals := p.locals ++ [s] } p1 new0 hint hw ?_ ?_ hrnd.2 ?_ ?_ h1
      · simp only [List.map_append, List.map_cons, List.map_nil]
        rw [List.nodup_append]
        refine ⟨hnd, List.nodup_singleton _, ?_⟩
        intro x hx1 hx2
        rw [List.mem_singleton] at hx2
        subst hx2
        exact hs.2 hx1
      · intro n hn
        simp only [List.map_append, List.map_cons, List.map_nil, List.mem_append,
          List.mem_singleton] at hn
        rcases hn with hn | hn
        · exact hmem n hn
        · subst hn
          exact Or.inl hs.1
      · intro n hn
        have := hrest n (by simp [List.mem_map] at hn ⊢; exact Or.inr hn)
        refine ⟨this.1, ?_⟩
        simp only [List.map_append, List.map_cons, List.map_nil, List.mem_append,
          List.mem_singleton, not_or]
        refine ⟨this.2, ?_⟩
        intro he
        subst he
        exact hrnd.1 hn
      · intro inst callee hi hc
        exact hids inst callee (List.mem_cons_of_mem _ hi) hc
    cases s with
    | declarationInstance inst =>
      simp only [GeneralInliner.prepareParserLocals] at h
      split at h
      · exact hkeep p1 h
      · rename_i callee hcallee
        split at h
        · cases h
        · rename_i p2 hp2
          rw [hw] at hcallee
          obtain ⟨names, temps, added, substs, i1, w1, _, l1, n1, m1⟩ :=
            GeneralInliner.prepareParserInstance_introduced p p2 inst callee
              (hint.fresh hf) (hids inst _ (List.mem_cons_self _ _) hcallee) hp2
          have hall := hint.trans i1
          have hfreshNames : ∀ n ∈ added.map (fun d => d.name), n ∉ p.refMap.usedNames :=
            fun n hn => i1.2.2.2 n (m1 n hn)
          have g1 : (p2.locals.map (fun d => d.name)).Nodup := by
            rw [l1, List.map_append, List.nodup_append]
            refine ⟨hnd, n1, ?_⟩
            intro x hx1 hx2
            apply hfreshNames x hx2
            rcases hmem x hx1 with hx | hx
            · exact hint.used x hx
            · exact hint.mem x hx
          have g2 : ∀ n ∈ p2.locals.map (fun d => d.name),
              n ∈ r0.usedNames ∨ n ∈ new0 ++ (names ++ temps) := by
            intro n hn
            rw [l1, List.map_append, List.mem_append] at hn
            rcases hn with hn | hn
            · rcases hmem n hn with hx | hx
              · exact Or.inl hx
              · exact Or.inr (List.mem_append_left _ hx)
            · exact Or.inr (List.mem_append_right _ (m1 n hn))
          have g3 : ∀ n ∈ rest.map (fun d => d.name),
              n ∈ r0.usedNames ∧ n ∉ p2.locals.map (fun d => d.name) := by
            intro n hn
            have := hrest n (by simp [List.mem_map] at hn ⊢; exact Or.inr hn)
            refine ⟨this.1, ?_⟩
            rw [l1, List.map_append, List.mem_append, not_or]
            refine ⟨this.2, ?_⟩
            intro hx
            exact hfreshNames n hx (hint.used n this.1)
          have g4 : GeneralInliner.distinctIdentities declToCallee rest := by
            intro inst2 callee2 hi hc
            exact hids inst2 callee2 (List.mem_cons_of_mem _ hi) hc
          obtain ⟨new1, j1, j2, j3, j4⟩ := ih p2 p1 (new0 ++ (names ++ temps)) hall
            (by rw [w1]; exact hw) g1 g2 hrnd.2 g3 g4 h
          exact ⟨(names ++ temps) ++ new1, by simpa [List.append_assoc] using j1, j2,
            by simpa [List.append_assoc] using j3, j4⟩
      · cases h
    | p4Table t => exact hkeep p1 (by simpa only [GeneralInliner.prepareParserLocals] using h)
    | p4Action a => exact hkeep p1 (by simpa only [GeneralInliner.prepareParserLocals] using h)
    | declarationVariable v =>
      exact hkeep p1 (by simpa only [GeneralInliner.prepareParserLocals] using h)

/-- C12, amended: assume that the name generator always returns a name that is not in
use.  The preparation of an instance, of a control or of a parser, introduces the
internal names that `ComputeNewNames` assigns to the declarations of the callee, which
have identities of their own, and the names of the temporaries: these names are pairwise
distinct and none was in use before; the declarations added to the locals of the caller
carry names among them, no two the same.  So the locals of the rewritten caller, whose
own locals had pairwise distinct names in use, have pairwise distinct names: each is a
name that was in use or a name introduced.  The splice of a call of a parser whose
states have pairwise distinct names introduces the name of the continuation and the new
names of the states, pairwise distinct and none in use before, and the states added
after the cut state carry names among them. -/
theorem GeneralInliner.introduced_names_distinct (g : List cstring → cstring → cstring)
    (hg : ∀ (used : List cstring) (base : cstring), g used base ∉ used) :
    (∀ (self : GeneralInliner) (p p1 : GeneralInliner.Preparation) (inst : Declaration_Instance)
      (callee : P4Control), p.refMap.gen = g →
      ((GeneralInliner.containerDeclarations (IContainer.p4Control callee)).map
        (fun d => d.decl)).Nodup →
      self.prepareControlInstance p inst callee = some p1 →
      ∃ (names temporaries : List cstring) (added : List Declaration)
        (substs : PerInstanceSubstitutions),
        ReferenceMap.Introduced p.refMap p1.refMap (names ++ temporaries) ∧
        p1.work = { p.work with substitutions := (inst.decl, substs) :: p.work.substitutions } ∧
        (GeneralInliner.containerDeclarations (IContainer.p4Control callee)).map
            (fun d => substs.renameMap.getName d.decl) = names.map some ∧
        p1.locals = p.locals ++ added ∧
        (added.map (fun d => d.name)).Nodup ∧
        ∀ n ∈ added.map (fun d => d.name), n ∈ names ++ temporaries) ∧
    (∀ (p p1 : GeneralInliner.Preparation) (inst : Declaration_Instance)
      (callee : P4Parser), p.refMap.gen = g →
      ((GeneralInliner.containerDeclarations (IContainer.p4Parser callee)).map
        (fun d => d.decl)).Nodup →
      GeneralInliner.prepareParserInstance p inst callee = some p1 →
      ∃ (names temporaries : List cstring) (added : List Declaration)
        (substs : PerInstanceSubstitutions),
        ReferenceMap.Introduced p.refMap p1.refMap (names ++ temporaries) ∧
        p1.work = { p.work with substitutions := (inst.decl, substs) :: p.work.substitutions } ∧
        (GeneralInliner.containerDeclarations (IContainer.p4Parser callee)).map
            (fun d => substs.renameMap.getName d.decl) = names.map some ∧
        p1.locals = p.locals ++ added ∧
        (added.map (fun d => d.name)).Nodup ∧
        ∀ n ∈ added.map (fun d => d.name), n ∈ names ++ temporaries) ∧
    (∀ (self : GeneralInliner) (callerToWork : List (Nat × Work)) (refMap : ReferenceMap)
      (caller : P4Control) (work : Work) (r : P4Control × ReferenceMap × Option Work),
      refMap.gen = g → callerToWork.lookup caller.decl = some work →
      (caller.controlLocals.map (fun d => d.name)).Nodup →
      (∀ n ∈ caller.controlLocals.map (fun d => d.name), n ∈ refMap.usedNames) →
      GeneralInliner.distinctIdentities work.declToCallee caller.controlLocals →
      self.preorder_P4Control callerToWork refMap caller = some r →
      ∃ (p : GeneralInliner.Preparation) (new : List cstring),
        self.prepareControlLocals caller.controlLocals
          (GeneralInliner.Preparation.mk work refMap []) = some p ∧
        r.1.controlLocals = p.locals ∧
        ReferenceMap.Introduced refMap p.refMap new ∧
        (r.1.controlLocals.map (fun d => d.name)).Nodup ∧
        ∀ n ∈ r.1.controlLocals.map (fun d => d.name), n ∈ refMap.usedNames ∨ n ∈ new) ∧
    (∀ (self : GeneralInliner) (callerToWork : List (Nat × Work)) (refMap : ReferenceMap)
      (caller : P4Parser) (work : Work) (r : P4Parser × ReferenceMap × Option Work),
      refMap.gen = g → callerToWork.lookup caller.decl = some work →
      (caller.parserLocals.map (fun d => d.name)).Nodup →
      (∀ n ∈ caller.parserLocals.map (fun d => d.name), n ∈ refMap.usedNames) →
      GeneralInliner.distinctIdentities work.declToCallee caller.parserLocals →
      self.preorder_P4Parser callerToWork refMap caller = some r →
      ∃ (p : GeneralInliner.Preparation) (new : List cstring),
        GeneralInliner.prepareParserLocals caller.parserLocals
          (GeneralInliner.Preparation.mk work refMap []) = some p ∧
        r.1.parserLocals = p.locals ∧
        ReferenceMap.Introduced refMap p.refMap new ∧
        (r.1.parserLocals.map (fun d => d.name)).Nodup ∧
        ∀ n ∈ r.1.parserLocals.map (fun d => d.name), n ∈ refMap.usedNames ∨ n ∈ new) ∧
    (∀ (self : GeneralInliner) (work : Work) (state : ParserState) (call : MethodCallStatement)
      (decl : Nat) (s s1 : GeneralInliner.Splice) (callee : P4Parser),
      s.refMap.gen = g →
      work.declToCallee.lookup decl = some (IContainer.p4Parser callee) →
      (callee.states.map (fun q => q.name)).Nodup →
      self.spliceCall work state call decl s = some s1 →
      ∃ (names : List cstring) (cut : ParserState) (spliced : List ParserState),
        ReferenceMap.Introduced s.refMap s1.refMap (s1.name :: names) ∧
        s1.states = s.states ++ cut :: spliced ∧ cut.name = s.name ∧
        List.Sublist (spliced.map (fun q => q.name)) names) := by
  have hfresh : ∀ r : ReferenceMap, r.gen = g → r.Fresh := by
    intro r hr used base
    rw [hr]
    exact hg used base
  refine ⟨?_, ?_, ?_, ?_, ?_⟩
  · intro self p p1 inst callee hgen hids h
    exact GeneralInliner.prepareControlInstance_introduced self p p1 inst callee
      (hfresh _ hgen) hids h
  · intro p p1 inst callee hgen hids h
    exact GeneralInliner.prepareParserInstance_introduced p p1 inst callee
      (hfresh _ hgen) hids h
  · intro self callerToWork refMap caller work r hgen hwork hnd hused hids h
    unfold GeneralInliner.preorder_P4Control at h
    rw [hwork] at h
    simp only at h
    split at h
    · cases h
    · rename_i p hp
      split at h
      · cases h
      · cases h
        obtain ⟨new, j1, j2, j3, _⟩ := GeneralInliner.prepareControlLocals_introduced self
          refMap work.declToCallee (hfresh _ hgen) caller.controlLocals
          (GeneralInliner.Preparation.mk work refMap []) p []
          (ReferenceMap.Introduced.same _ _ rfl rfl) rfl List.nodup_nil
          (fun _ hn => by cases hn) hnd (fun n hn => ⟨hused n hn, fun hx => by cases hx⟩)
          hids hp
        exact ⟨p, new, hp, rfl, by simpa using j1, j2, by simpa using j3⟩
  · intro self callerToWork refMap caller work r hgen hwork hnd hused hids h
    unfold GeneralInliner.preorder_P4Parser at h
    rw [hwork] at h
    simp only at h
    split at h
    · cases h
    · rename_i p hp
      split at h
      · cases h
      · cases h
        obtain ⟨new, j1, j2, j3, _⟩ := GeneralInliner.prepareParserLocals_introduced
          refMap work.declToCallee (hfresh _ hgen) caller.parserLocals
          (GeneralInliner.Preparation.mk work refMap []) p []
          (ReferenceMap.Introduced.same _ _ rfl rfl) rfl List.nodup_nil
          (fun _ hn => by cases hn) hnd (fun n hn => ⟨hused n hn, fun hx => by cases hx⟩)
          hids hp
        exact ⟨p, new, hp, rfl, by simpa using j1, j2, by simpa using j3⟩
  · intro self work state call decl s s1 callee hgen hcallee hnd h
    exact GeneralInliner.spliceCall_introduced self work state call decl s s1 callee
      (hfresh _ hgen) hcallee hnd h

/-- C12, as stated, fails for the caller `F` that calls the instance `y` of `E` at two
call sites, `E` declaring the variable `t` in its body: with a generator that returns
unused names only, the rewritten caller declares `y_t__` twice, once in the block of
each call site. -/
theorem GeneralInliner.body_declaration_at_each_call_site :
    (∀ (used : List cstring) (base : cstring), sampleRefMapF.gen used base ∉ used) ∧
    ∃ r, sampleControlInliner.preorder_P4Control [(96, sampleWorkTwoCalls)] sampleRefMapF
        sampleControlF = some r ∧
      r.1.controlLocals = [] ∧
      r.1.body = [
        Statement.blockStatement [] [Statement.declarationVariable
          (Declaration_Variable.mk 91 "y_t__" [] (Type_.bits 8) none)],
        Statement.blockStatement [] [Statement.declarationVariable
          (Declaration_Variable.mk 91 "y_t__" [] (Type_.bits 8) none)]] ∧
      (GeneralInliner.statementDeclarations.componentsDeclarations r.1.body).map
        (fun d => d.name) = ["y_t__", "y_t__"] :=
  ⟨sampleGen_fresh, _, rfl, rfl, rfl, rfl⟩

/-- C12, amended, at the caller `D` with the call `x.apply(s.next, s.next)`: the locals
of the rewritten caller are `s`, `h1`, `h2` and the two temporaries. -/
theorem GeneralInliner.introduced_names_distinct_witness :
    (∀ (used : List cstring) (base : cstring), sampleGen used base ∉ used) ∧
    ∃ r, sampleControlInliner.preorder_P4Control
        [(80, sampleControlWork (sampleControlC Direction.InOut Direction.InOut)
          sampleStackArguments)]
        sampleControlRefMap (sampleControlD sampleStackArguments) = some r ∧
      r.1.controlLocals.map (fun d => d.name) = ["s", "h1", "h2", "a___", "b_____"] ∧
      ∃ (p : GeneralInliner.Preparation) (new : List cstring),
        sampleControlInliner.prepareControlLocals
          (sampleControlD sampleStackArguments).controlLocals
          (GeneralInliner.Preparation.mk
            (sampleControlWork (sampleControlC Direction.InOut Direction.InOut)
              sampleStackArguments) sampleControlRefMap []) = some p ∧
        r.1.controlLocals = p.locals ∧
        ReferenceMap.Introduced sampleControlRefMap p.refMap new ∧
        (r.1.controlLocals.map (fun d => d.name)).Nodup ∧
        ∀ n ∈ r.1.controlLocals.map (fun d => d.name),
          n ∈ sampleControlRefMap.usedNames ∨ n ∈ new :=
  ⟨sampleGen_fresh, _, rfl, rfl,
    (GeneralInliner.introduced_names_distinct sampleGen sampleGen_fresh).2.2.1
      sampleControlInliner
      [(80, sampleControlWork (sampleControlC Direction.InOut Direction.InOut)
        sampleStackArguments)]
      sampleControlRefMap (sampleControlD sampleStackArguments)
      (sampleControlWork (sampleControlC Direction.InOut Direction.InOut) sampleStackArguments)
      _ rfl rfl (by decide) (by decide)
      (by
        intro inst callee _ hc
        simp only [sampleControlWork, List.lookup] at hc
        split at hc
        · cases hc
          exact List.nodup_nil
        · cases hc)
      rfl⟩

/-! ## The location sets of members, indices and composite expressions -/

/-- The visit of a member access whose type is not a method type. -/
theorem FindLocationSets.visit_member (storageMap : StorageMap) (e : Expression)
    (m : cstring) (t tb : Type_) (S : LocationSet)
    (ht : storageMap.typeMap.exprType (Expression.member e m) = some t)
    (hmethod : t ≠ Type_.method)
    (hbase : storageMap.typeMap.exprType e = some tb)
    (hS : FindLocationSets.visit storageMap e = some (some S)) :
    FindLocationSets.visit storageMap (Expression.member e m)
      = some (some (if FindLocationSets.stackAccess tb m = true then S else S.getField m)) := by
  simp only [FindLocationSets.visit, hS, ht, hbase]
  cases tb <;> simp [FindLocationSets.stackAccess, Type_.isStack]
  split <;> rfl

/-- C27: on a member access `e.m` whose type is not a method type, where the visit of
`e` gives the set `S`: the set of `e.m` is `S` itself when `e` has a header-stack type
and `m` is `next` or `last`, and `S.getField(m)` in every other case; `locations`
returns that set in normal form.  So an access `.next` or `.last` of a stack has the
location set of the stack, and two such accesses of the same stack variable, through
two paths that resolve to the same declaration, have the same location set. -/
theorem FindLocationSets.member_location_set (storageMap : StorageMap) (e : Expression)
    (m : cstring) (t tb : Type_) (S : LocationSet)
    (ht : storageMap.typeMap.exprType (Expression.member e m) = some t)
    (hmethod : t ≠ Type_.method)
    (hbase : storageMap.typeMap.exprType e = some tb)
    (hS : FindLocationSets.visit storageMap e = some (some S)) :
    FindLocationSets.visit storageMap (Expression.member e m)
      = some (some (if FindLocationSets.stackAccess tb m = true then S else S.getField m)) ∧
    FindLocationSets.locations storageMap (Expression.member e m)
      = some (if FindLocationSets.stackAccess tb m = true then S
          else S.getField m).canonicalize ∧
    (FindLocationSets.stackAccess tb m = true →
      FindLocationSets.locations storageMap (Expression.member e m)
        = FindLocationSets.locations storageMap e) ∧
    (∀ (p1 p2 : IR.Path) (m2 : cstring) (t2 tb2 : Type_),
      e = Expression.pathExpression p1 →
      storageMap.refMap.getDeclaration p2 = storageMap.refMap.getDeclaration p1 →
      storageMap.typeMap.exprType (Expression.member (Expression.pathExpression p2) m2)
        = some t2 → t2 ≠ Type_.method →
      storageMap.typeMap.exprType (Expression.pathExpression p2) = some tb2 →
      FindLocationSets.stackAccess tb m = true →
      FindLocationSets.stackAccess tb2 m2 = true →
      FindLocationSets.locations storageMap (Expression.member e m)
        = FindLocationSets.locations storageMap
            (Expression.member (Expression.pathExpression p2) m2)) := by
  have hv := FindLocationSets.visit_member storageMap e m t tb S ht hmethod hbase hS
  refine ⟨hv, ?_, ?_, ?_⟩
  · simp only [FindLocationSets.locations, hv]
  · intro hst
    simp only [FindLocationSets.locations, hv, hS, hst, if_true]
  · intro p1 p2 m2 t2 tb2 he hdecl ht2 hm2 hb2 hst hst2
    have hS2 : FindLocationSets.visit storageMap (Expression.pathExpression p2)
        = some (some S) := by
      rw [he] at hS
      simp only [FindLocationSets.visit] at hS ⊢
      rw [hdecl]
      exact hS
    have hv2 := FindLocationSets.visit_member storageMap (Expression.pathExpression p2) m2
      t2 tb2 S ht2 hm2 hb2 hS2
    simp only [FindLocationSets.locations, hv, hv2, hst, hst2, if_true]

/-- C27 at the two accesses `s.next` of the sample call: both have the location set of
the stack `s`. -/
theorem FindLocationSets.member_location_set_witness :
    FindLocationSets.visit
        (StorageMap.mk sampleControlRefMap sampleControlInliner.typeMap
          sampleControlInliner.hasStorage)
        (Expression.pathExpression (IR.Path.mk 12 "s" false))
      = some (some (LocationSet.ofStorage 82)) ∧
    FindLocationSets.locations
        (StorageMap.mk sampleControlRefMap sampleControlInliner.typeMap
          sampleControlInliner.hasStorage)
        (Expression.member (Expression.pathExpression (IR.Path.mk 12 "s" false)) "next")
      = FindLocationSets.locations
        (StorageMap.mk sampleControlRefMap sampleControlInliner.typeMap
          sampleControlInliner.hasStorage)
        (Expression.pathExpression (IR.Path.mk 12 "s" false)) ∧
    FindLocationSets.locations
        (StorageMap.mk sampleControlRefMap sampleControlInliner.typeMap
          sampleControlInliner.hasStorage)
        (Expression.member (Expression.pathExpression (IR.Path.mk 12 "s" false)) "next")
      = FindLocationSets.locations
        (StorageMap.mk sampleControlRefMap sampleControlInliner.typeMap
          sampleControlInliner.hasStorage)
        (Expression.member (Expression.pathExpression (IR.Path.mk 13 "s" false)) "last") :=
  have h := FindLocationSets.member_location_set
    (StorageMap.mk sampleControlRefMap sampleControlInliner.typeMap
      sampleControlInliner.hasStorage)
    (Expression.pathExpression (IR.Path.mk 12 "s" false)) "next" sampleHeader
    (Type_.stack sampleHeader 4) (LocationSet.ofStorage 82) rfl
    (by unfold sampleHeader; intro h; cases h) rfl rfl
  ⟨rfl, h.2.2.1 rfl,
    h.2.2.2 (IR.Path.mk 12 "s" false) (IR.Path.mk 13 "s" false) "last" sampleHeader
      (Type_.stack sampleHeader 4) rfl rfl rfl (by unfold sampleHeader; intro h; cases h)
      rfl rfl rfl⟩

/-- C28: on an array index `e[k]`, where the visit of `e` gives the set `S` and the
visit of the index raises no bug: the set is `S.getIndex(k)` when the index is the
constant node `k`, and `S.allElements()` for every index that is not a constant node;
`locations` returns that set in normal form. -/
theorem FindLocationSets.array_index_location_set (storageMap : StorageMap)
    (left right : Expression) (S : LocationSet) (r : Option LocationSet)
    (hl : FindLocationSets.visit storageMap left = some (some S))
    (hr : FindLocationSets.visit storageMap right = some r) :
    (∀ k, right = Expression.constant k →
      FindLocationSets.visit storageMap (Expression.arrayIndex left right)
        = some (some (S.getIndex k)) ∧
      FindLocationSets.locations storageMap (Expression.arrayIndex left right)
        = some (S.getIndex k).canonicalize) ∧
    ((∀ k, right ≠ Expression.constant k) →
      FindLocationSets.visit storageMap (Expression.arrayIndex left right)
        = some (some S.allElements) ∧
      FindLocationSets.locations storageMap (Expression.arrayIndex left right)
        = some S.allElements.canonicalize) := by
  constructor
  · intro k hk
    subst hk
    simp [FindLocationSets.locations, FindLocationSets.visit, hl]
  · intro hk
    have hv : FindLocationSets.visit storageMap (Expression.arrayIndex left right)
        = some (some S.allElements) := by
      cases right with
      | constant k => exact absurd rfl (hk k)
      | _ => rw [FindLocationSets.visit, hl, hr]
    exact ⟨hv, by simp only [FindLocationSets.locations, hv]⟩

/-- C28 at `s[2]` and at `s[i + 1]` for the stack `s` of the samples. -/
theorem FindLocationSets.array_index_location_set_witness :
    FindLocationSets.visit
        (StorageMap.mk sampleControlRefMap sampleControlInliner.typeMap
          sampleControlInliner.hasStorage)
        (Expression.arrayIndex (Expression.pathExpression (IR.Path.mk 12 "s" false))
          (Expression.constant 2))
      = some (some ((LocationSet.ofStorage 82).getIndex 2)) ∧
    FindLocationSets.visit
        (StorageMap.mk sampleControlRefMap sampleControlInliner.typeMap
          sampleControlInliner.hasStorage)
        (Expression.arrayIndex (Expression.pathExpression (IR.Path.mk 12 "s" false))
          (Expression.binary "+" (Expression.constant 1) (Expression.constant 1)))
      = some (some (LocationSet.ofStorage 82).allElements) :=
  ⟨((FindLocationSets.array_index_location_set
      (StorageMap.mk sampleControlRefMap sampleControlInliner.typeMap
        sampleControlInliner.hasStorage)
      (Expression.pathExpression (IR.Path.mk 12 "s" false)) (Expression.constant 2)
      (LocationSet.ofStorage 82) (some LocationSet.empty) rfl rfl).1 2 rfl).1,
   ((FindLocationSets.array_index_location_set
      (StorageMap.mk sampleControlRefMap sampleControlInliner.typeMap
        sampleControlInliner.hasStorage)
      (Expression.pathExpression (IR.Path.mk 12 "s" false))
      (Expression.binary "+" (Expression.constant 1) (Expression.constant 1))
      (LocationSet.ofStorage 82) (some (LocationSet.empty.join LocationSet.empty)) rfl rfl).2
        (fun k h => by cases h)).1⟩

/-- The visit of the components of a list expression gives the sets of the components,
in order. -/
theorem FindLocationSets.visitList_sets (storageMap : StorageMap) :
    ∀ (components : List Expression) (sets : List LocationSet),
    List.Forall₂ (fun c s => FindLocationSets.visit storageMap c = some (some s))
      components sets →
    FindLocationSets.visit.visitList storageMap components = some sets := by
  intro components sets h
  induction h with
  | nil => simp only [FindLocationSets.visit.visitList]
  | cons hc _ ih => simp only [FindLocationSets.visit.visitList, hc, ih]

/-- C29: where the visits of the operands give sets, the set of a binary operation is
the join of the sets of its left and right operand, the set of a mux the join of the
sets of its three operands, the set of a list expression the join of the empty set with
the sets of all its components in order, the empty set for the empty list, and the set
of a slice and of a unary operation the set of the operand; `locations` returns the set
in normal form. -/
theorem FindLocationSets.composite_location_sets (storageMap : StorageMap) :
    (∀ (op : cstring) (left right : Expression) (L R : LocationSet),
      FindLocationSets.visit storageMap left = some (some L) →
      FindLocationSets.visit storageMap right = some (some R) →
      FindLocationSets.visit storageMap (Expression.binary op left right)
        = some (some (L.join R)) ∧
      FindLocationSets.locations storageMap (Expression.binary op left right)
        = some (L.join R).canonicalize) ∧
    (∀ (e0 e1 e2 : Expression) (A B C : LocationSet),
      FindLocationSets.visit storageMap e0 = some (some A) →
      FindLocationSets.visit storageMap e1 = some (some B) →
      FindLocationSets.visit storageMap e2 = some (some C) →
      FindLocationSets.visit storageMap (Expression.mux e0 e1 e2)
        = some (some ((A.join B).join C)) ∧
      FindLocationSets.locations storageMap (Expression.mux e0 e1 e2)
        = some ((A.join B).join C).canonicalize) ∧
    (∀ (components : List Expression) (sets : List LocationSet),
      List.Forall₂ (fun c s => FindLocationSets.visit storageMap c = some (some s))
        components sets →
      FindLocationSets.visit storageMap (Expression.listExpression components)
        = some (some (sets.foldl LocationSet.join LocationSet.empty)) ∧
      FindLocationSets.locations storageMap (Expression.listExpression components)
        = some (sets.foldl LocationSet.join LocationSet.empty).canonicalize) ∧
    FindLocationSets.visit storageMap (Expression.listExpression [])
      = some (some LocationSet.empty) ∧
    (∀ (e0 e1 e2 : Expression) (A : LocationSet),
      FindLocationSets.visit storageMap e0 = some (some A) →
      FindLocationSets.visit storageMap (Expression.slice e0 e1 e2) = some (some A) ∧
      FindLocationSets.locations storageMap (Expression.slice e0 e1 e2)
        = FindLocationSets.locations storageMap e0) ∧
    (∀ (op : cstring) (e : Expression) (A : LocationSet),
      FindLocationSets.visit storageMap e = some (some A) →
      FindLocationSets.visit storageMap (Expression.unary op e) = some (some A) ∧
      FindLocationSets.locations storageMap (Expression.unary op e)
        = FindLocationSets.locations storageMap e) := by
  refine ⟨?_, ?_, ?_, ?_, ?_, ?_⟩
  · intro op left right L R hl hr
    simp only [FindLocationSets.locations, FindLocationSets.visit, hl, hr, and_self]
  · intro e0 e1 e2 A B C h0 h1 h2
    simp only [FindLocationSets.locations, FindLocationSets.visit, h0, h1, h2, and_self]
  · intro components sets h
    have := FindLocationSets.visitList_sets storageMap components sets h
    simp only [FindLocationSets.locations, FindLocationSets.visit, this, and_self]
  · simp only [FindLocationSets.visit, FindLocationSets.visit.visitList, List.foldl_nil]
  · intro e0 e1 e2 A h0
    simp only [FindLocationSets.locations, FindLocationSets.visit, h0, and_self]
  · intro op e A h
    simp only [FindLocationSets.locations, FindLocationSets.visit, h, and_self]

/-- C29 at the binary operation `h1 == h2` and at the list of `h1`, `s` and `h2` of the
samples. -/
theorem FindLocationSets.composite_location_sets_witness :
    FindLocationSets.visit
        (StorageMap.mk sampleControlRefMap sampleControlInliner.typeMap
          sampleControlInliner.hasStorage)
        (Expression.binary "==" (Expression.pathExpression (IR.Path.mk 14 "h1" false))
          (Expression.pathExpression (IR.Path.mk 15 "h2" false)))
      = some (some ((LocationSet.ofStorage 83).join (LocationSet.ofStorage 84))) ∧
    FindLocationSets.visit
        (StorageMap.mk sampleControlRefMap sampleControlInliner.typeMap
          sampleControlInliner.hasStorage)
        (Expression.listExpression [Expression.pathExpression (IR.Path.mk 14 "h1" false),
          Expression.pathExpression (IR.Path.mk 12 "s" false),
          Expression.pathExpression (IR.Path.mk 15 "h2" false)])
      = some (some ([LocationSet.ofStorage 83, LocationSet.ofStorage 82,
          LocationSet.ofStorage 84].foldl LocationSet.join LocationSet.empty)) :=
  ⟨((FindLocationSets.composite_location_sets
      (StorageMap.mk sampleControlRefMap sampleControlInliner.typeMap
        sampleControlInliner.hasStorage)).1 "=="
      (Expression.pathExpression (IR.Path.mk 14 "h1" false))
      (Expression.pathExpression (IR.Path.mk 15 "h2" false))
      (LocationSet.ofStorage 83) (LocationSet.ofStorage 84) rfl rfl).1,
   ((FindLocationSets.composite_location_sets
      (StorageMap.mk sampleControlRefMap sampleControlInliner.typeMap
        sampleControlInliner.hasStorage)).2.2.1
      [Expression.pathExpression (IR.Path.mk 14 "h1" false),
        Expression.pathExpression (IR.Path.mk 12 "s" false),
        Expression.pathExpression (IR.Path.mk 15 "h2" false)]
      [LocationSet.ofStorage 83, LocationSet.ofStorage 82, LocationSet.ofStorage 84]
      (List.Forall₂.cons rfl (List.Forall₂.cons rfl (List.Forall₂.cons rfl
        List.Forall₂.nil)))).1⟩

/-! ## The alias guard -/

/-- The map `locationSets` holds for each parameter of the call the location set of its
argument. -/
theorem GeneralInliner.locationSets_mem (storageMap : StorageMap)
    (mcd : MethodCallDescription) :
    ∀ (params : List Parameter) (sets : List (Nat × LocationSet)),
    GeneralInliner.locationSets storageMap mcd params = some sets →
    ∀ p ∈ params, ∃ ls, GeneralInliner.argumentLocations storageMap mcd p = some ls ∧
      sets.lookup p.decl = some ls := by
  intro params
  induction params with
  | nil => intro sets _ p hp; cases hp
  | cons p0 rest ih =>
    intro sets h p hp
    simp only [GeneralInliner.locationSets] at h
    cases ha : mcd.substitution.lookup p0 with
    | none => rw [ha] at h; cases h
    | some a =>
      rw [ha] at h
      simp only at h
      cases hloc : FindLocationSets.locations storageMap a with
      | none => rw [hloc] at h; cases h
      | some l =>
        cases hrest : GeneralInliner.locationSets storageMap mcd rest with
        | none => rw [hloc, hrest] at h; cases h
        | some r =>
          rw [hloc, hrest] at h
          cases h
          by_cases hd : p.decl = p0.decl
          · refine ⟨l, ?_, by simp [List.lookup, hd]⟩
            have : mcd.substitution.lookup p = mcd.substitution.lookup p0 := by
              simp only [ParameterSubstitution.lookup, hd]
            simp only [GeneralInliner.argumentLocations, this, ha, hloc]
          · have hb : (p.decl == p0.decl) = false := by simpa using hd
            have hpr : p ∈ rest := by
              rcases List.mem_cons.mp hp with h0 | h0
              · exact absurd (by rw [h0]) hd
              · exact h0
            obtain ⟨ls, h1, h2⟩ := ih r hrest p hpr
            exact ⟨ls, h1, by simpa [List.lookup, hb] using h2⟩

/-- The steps of the inlining of one instance of a control: the new names, the set
`useTemporary`, the loop over the apply-parameters and the renamed clone. -/
theorem GeneralInliner.prepareControlInstance_steps (self : GeneralInliner)
    (p p1 : GeneralInliner.Preparation) (inst : Declaration_Instance) (callee : P4Control)
    (h : self.prepareControlInstance p inst callee = some p1) :
    ∃ (cnn : ComputeNewNames) (temporaries : List Nat) (substs : PerInstanceSubstitutions)
      (b : GeneralInliner.Binding) (clone : P4Control) (refMap : ReferenceMap),
      GeneralInliner.useTemporarySet
        (StorageMap.mk cnn.refMap self.typeMap self.hasStorage)
        ((p.work.uniqueCaller inst.decl).map
          (MethodCallDescription.create callee.applyParams)) = some temporaries ∧
      GeneralInliner.bindParameters (p.work.uniqueCaller inst.decl)
        ((p.work.uniqueCaller inst.decl).map
          (MethodCallDescription.create callee.applyParams)) temporaries callee.applyParams
        (GeneralInliner.Binding.mk substs cnn.refMap p.locals) = some b ∧
      b.substs.rename_P4Control b.refMap callee = some (clone, refMap) ∧
      p1 = { work := { p.work with
               substitutions := (inst.decl, b.substs) :: p.work.substitutions }
             refMap := refMap
             locals := b.locals ++ clone.controlLocals } := by
  unfold GeneralInliner.prepareControlInstance at h
  simp only at h
  split at h
  · cases h
  · rename_i cnn0 hcreate
    split at h
    · cases h
    · rename_i temps htemps
      split at h
      · cases h
      · rename_i b hb
        split at h
        · cases h
        · rename_i clone refMap hren
          cases h
          exact ⟨_, temps, _, b, clone, refMap, htemps, hb, hren, rfl⟩

/-- C21: for the unique call of an instance, where the location sets of the arguments
are known, a parameter is in the set `useTemporary` exactly when the call has a
different parameter such that the location set of the argument of the one overlaps the
location set of the argument of the other, or the other way round.  So when the set of
the argument of `p` overlaps that of a different parameter `q`, both `p` and `q` are in
the set.  The set is empty when the instance has no unique call, and the loop over the
apply-parameters of an inlined instance runs with this set. -/
theorem GeneralInliner.alias_guard (storageMap : StorageMap) (mcd : MethodCallDescription)
    (temporaries : List Nat)
    (h : GeneralInliner.useTemporarySet storageMap (some mcd) = some temporaries) :
    (∀ d, d ∈ temporaries ↔
      ∃ p ∈ mcd.substitution.getParameters, ∃ q ∈ mcd.substitution.getParameters,
        p.decl = d ∧ q.decl ≠ p.decl ∧
        ∃ lp lq, GeneralInliner.argumentLocations storageMap mcd p = some lp ∧
          GeneralInliner.argumentLocations storageMap mcd q = some lq ∧
          (lp.overlaps lq = true ∨ lq.overlaps lp = true)) ∧
    (∀ p ∈ mcd.substitution.getParameters, ∀ q ∈ mcd.substitution.getParameters,
      q.decl ≠ p.decl →
      ∀ lp lq, GeneralInliner.argumentLocations storageMap mcd p = some lp →
        GeneralInliner.argumentLocations storageMap mcd q = some lq →
        lp.overlaps lq = true → p.decl ∈ temporaries ∧ q.decl ∈ temporaries) ∧
    GeneralInliner.useTemporarySet storageMap none = some [] ∧
    (∀ (self : GeneralInliner) (p p1 : GeneralInliner.Preparation)
      (inst : Declaration_Instance) (callee : P4Control),
      self.prepareControlInstance p inst callee = some p1 →
      ∃ (refMap : ReferenceMap) (set : List Nat) (substs : PerInstanceSubstitutions)
        (b : GeneralInliner.Binding),
        GeneralInliner.useTemporarySet (StorageMap.mk refMap self.typeMap self.hasStorage)
          ((p.work.uniqueCaller inst.decl).map
            (MethodCallDescription.create callee.applyParams)) = some set ∧
        GeneralInliner.bindParameters (p.work.uniqueCaller inst.decl)
          ((p.work.uniqueCaller inst.decl).map
            (MethodCallDescription.create callee.applyParams)) set callee.applyParams
          (GeneralInliner.Binding.mk substs refMap p.locals) = some b ∧
        (p.work.uniqueCaller inst.decl = none → set = [])) := by
  simp only [GeneralInliner.useTemporarySet, GeneralInliner.useTemporary] at h
  cases hs : GeneralInliner.locationSets storageMap mcd mcd.substitution.getParameters with
  | none => rw [hs] at h; cases h
  | some sets =>
    rw [hs] at h
    simp only [Option.some.injEq] at h
    have hmem := GeneralInliner.locationSets_mem storageMap mcd _ sets hs
    have hiff : ∀ d, d ∈ temporaries ↔
        ∃ p ∈ mcd.substitution.getParameters, ∃ q ∈ mcd.substitution.getParameters,
          p.decl = d ∧ q.decl ≠ p.decl ∧
          ∃ lp lq, GeneralInliner.argumentLocations storageMap mcd p = some lp ∧
            GeneralInliner.argumentLocations storageMap mcd q = some lq ∧
            (lp.overlaps lq = true ∨ lq.overlaps lp = true) := by
      intro d
      rw [← h]
      simp only [List.mem_flatMap]
      constructor
      · rintro ⟨p1, hp1, p2, hp2, hd⟩
        by_cases hne : p1.decl = p2.decl
        · simp [hne] at hd
        · have hb : (p1.decl == p2.decl) = false := by simpa using hne
          obtain ⟨l1, a1, s1⟩ := hmem p1 hp1
          obtain ⟨l2, a2, s2⟩ := hmem p2 hp2
          simp only [hb, Bool.false_eq_true, if_false, s1, s2] at hd
          by_cases hov : l1.overlaps l2 = true
          · simp only [hov, if_true, List.mem_cons, List.mem_singleton, List.not_mem_nil,
              or_false] at hd
            rcases hd with hd | hd
            · exact ⟨p1, hp1, p2, hp2, hd.symm, fun e => hne e.symm, l1, l2, a1, a2,
                Or.inl hov⟩
            · exact ⟨p2, hp2, p1, hp1, hd.symm, hne, l2, l1, a2, a1, Or.inr hov⟩
          · simp [hov] at hd
      · rintro ⟨p, hp, q, hq, hd, hne, lp, lq, ap, aq, hov⟩
        obtain ⟨l1, a1, s1⟩ := hmem p hp
        obtain ⟨l2, a2, s2⟩ := hmem q hq
        rw [ap] at a1
        rw [aq] at a2
        cases a1
        cases a2
        rcases hov with hov | hov
        · refine ⟨p, hp, q, hq, ?_⟩
          have hb : (p.decl == q.decl) = false := by simpa using fun e => hne e.symm
          subst hd
          simp [hb, s1, s2, hov]
        · refine ⟨q, hq, p, hp, ?_⟩
          have hb : (q.decl == p.decl) = false := by simpa using hne
          subst hd
          simp [hb, s1, s2, hov]
    refine ⟨hiff, ?_, rfl, ?_⟩
    rotate_left
    · intro self p p1 inst callee hprep
      obtain ⟨cnn, set, substs, b, _, _, h1, h2, _, _⟩ :=
        GeneralInliner.prepareControlInstance_steps self p p1 inst callee hprep
      refine ⟨cnn.refMap, set, substs, b, h1, h2, ?_⟩
      intro hnone
      rw [hnone] at h1
      cases h1
      rfl
    intro p hp q hq hne lp lq ap aq hov
    constructor
    · exact (hiff p.decl).mpr ⟨p, hp, q, hq, rfl, hne, lp, lq, ap, aq, Or.inl hov⟩
    · exact (hiff q.decl).mpr ⟨q, hq, p, hp, rfl, fun e => hne e.symm, lq, lp, aq, ap,
        Or.inr hov⟩

/-- The call `x.apply(s.next, s.next)`: both parameters are in the set. -/
theorem GeneralInliner.alias_guard_witness :
    GeneralInliner.useTemporarySet
      (StorageMap.mk sampleControlRefMap sampleControlInliner.typeMap
        sampleControlInliner.hasStorage)
      (some (MethodCallDescription.create
        (sampleControlC Direction.InOut Direction.InOut).applyParams
        (sampleCallX sampleStackArguments))) = some [71, 72, 72, 71] ∧
    (71 ∈ [71, 72, 72, 71] ↔
      ∃ p ∈ (MethodCallDescription.create
          (sampleControlC Direction.InOut Direction.InOut).applyParams
          (sampleCallX sampleStackArguments)).substitution.getParameters,
        ∃ q ∈ (MethodCallDescription.create
          (sampleControlC Direction.InOut Direction.InOut).applyParams
          (sampleCallX sampleStackArguments)).substitution.getParameters,
        p.decl = 71 ∧ q.decl ≠ p.decl ∧
        ∃ lp lq, GeneralInliner.argumentLocations
            (StorageMap.mk sampleControlRefMap sampleControlInliner.typeMap
              sampleControlInliner.hasStorage)
            (MethodCallDescription.create
              (sampleControlC Direction.InOut Direction.InOut).applyParams
              (sampleCallX sampleStackArguments)) p = some lp ∧
          GeneralInliner.argumentLocations
            (StorageMap.mk sampleControlRefMap sampleControlInliner.typeMap
              sampleControlInliner.hasStorage)
            (MethodCallDescription.create
              (sampleControlC Direction.InOut Direction.InOut).applyParams
              (sampleCallX sampleStackArguments)) q = some lq ∧
          (lp.overlaps lq = true ∨ lq.overlaps lp = true)) :=
  ⟨rfl, (GeneralInliner.alias_guard
    (StorageMap.mk sampleControlRefMap sampleControlInliner.typeMap
      sampleControlInliner.hasStorage)
    (MethodCallDescription.create
      (sampleControlC Direction.InOut Direction.InOut).applyParams
      (sampleCallX sampleStackArguments)) [71, 72, 72, 71] rfl).1 71⟩

/-! ## The binding of the apply-parameters -/

/-- The loop over the apply-parameters appends one binding for each parameter with a
direction, and one variable for each parameter that needs a temporary. -/
theorem GeneralInliner.bindParameters_shape (call : Option MethodCallStatement)
    (mcd : Option MethodCallDescription) (set : List Nat) :
    ∀ (params : List Parameter) (b b1 : GeneralInliner.Binding),
    GeneralInliner.bindParameters call mcd set params b = some b1 →
    ∃ (extra : List (Parameter × Expression)) (added : List Declaration),
      b1.substs.paramSubst.bindings = b.substs.paramSubst.bindings ++ extra ∧
      extra.map Prod.fst = params.filter (fun p => p.direction != Direction.None) ∧
      b1.locals = b.locals ++ added ∧
      List.Forall₂ (fun p d => ∃ (r : ReferenceMap) (node dn : Nat),
          d = Declaration.declarationVariable
            (Declaration_Variable.mk dn (r.newName p.name).1 p.annotations p.type none) ∧
          (p, Expression.pathExpression (IR.Path.mk node (r.newName p.name).1 false)) ∈ extra)
        (params.filter (GeneralInliner.needsTemporary call set)) added ∧
      ∀ p ∈ params, p.direction ≠ Direction.None →
        GeneralInliner.needsTemporary call set p = false →
        ∃ m arg, mcd = some m ∧ m.substitution.lookup p = some arg ∧ (p, arg) ∈ extra := by
  intro params
  induction params with
  | nil =>
    intro b b1 h
    simp only [GeneralInliner.bindParameters, Option.some.injEq] at h
    subst h
    exact ⟨[], [], by simp, rfl, by simp, List.Forall₂.nil, fun p hp => by cases hp⟩
  | cons param rest ih =>
    intro b b1 h
    simp only [GeneralInliner.bindParameters] at h
    cases hstep : GeneralInliner.bindParameter call mcd set b param with
    | none => rw [hstep] at h; cases h
    | some b2 =>
      rw [hstep] at h
      simp only at h
      obtain ⟨extra, added, e1, e2, e3, e4, e5⟩ := ih b2 b1 h
      unfold GeneralInliner.bindParameter at hstep
      by_cases hd : param.direction = Direction.None
      · simp only [hd, beq_self_eq_true, if_true, Option.some.injEq] at hstep
        subst hstep
        have hnt : GeneralInliner.needsTemporary call set param = false := by
          simp [GeneralInliner.needsTemporary, hd]
        refine ⟨extra, added, e1, ?_, e3, ?_, ?_⟩
        · simp [List.filter_cons, hd, e2]
        · simpa [List.filter_cons, hnt] using e4
        · intro p hp hdir hn
          rcases List.mem_cons.mp hp with rfl | hp
          · exact absurd hd hdir
          · exact e5 p hp hdir hn
      · have hb : (param.direction == Direction.None) = false := by simpa using hd
        simp only [hb, Bool.false_eq_true, if_false] at hstep
        by_cases hdirect : (call.isSome && !set.contains param.decl) = true
        · simp only [hdirect, if_true] at hstep
          have hnt : GeneralInliner.needsTemporary call set param = false := by
            simp only [GeneralInliner.needsTemporary, hdirect]
            simp
          cases mcd with
          | none => cases hstep
          | some m =>
            simp only at hstep
            cases ha : m.substitution.lookup param with
            | none => rw [ha] at hstep; cases hstep
            | some a =>
              rw [ha] at hstep
              simp only [Option.some.injEq] at hstep
              subst hstep
              refine ⟨(param, a) :: extra, added, ?_, ?_, e3, ?_, ?_⟩
              · rw [e1]
                simp [ParameterSubstitution.add]
              · simp [List.filter_cons, hd, e2]
              · rw [List.filter_cons, hnt]
                exact e4.imp fun p d ⟨r, node, dn, h1, h2⟩ =>
                  ⟨r, node, dn, h1, List.mem_cons_of_mem _ h2⟩
              · intro p hp hdir hn
                rcases List.mem_cons.mp hp with rfl | hp
                · exact ⟨m, a, rfl, ha, List.mem_cons_self _ _⟩
                · obtain ⟨m1, a1, h1, h2, h3⟩ := e5 p hp hdir hn
                  exact ⟨m1, a1, h1, h2, List.mem_cons_of_mem _ h3⟩
        · have hdf : (call.isSome && !set.contains param.decl) = false := by
            simpa using hdirect
          simp only [hdf, Bool.false_eq_true, if_false, Option.some.injEq] at hstep
          have hnt : GeneralInliner.needsTemporary call set param = true := by
            simp only [GeneralInliner.needsTemporary, hdf]
            simpa using hd
          subst hstep
          refine ⟨(param, Expression.pathExpression
              (IR.Path.mk (b.refMap.newName param.name).2.newNode.1
                (b.refMap.newName param.name).1 false)) :: extra,
            Declaration.declarationVariable
              (Declaration_Variable.mk (b.refMap.newName param.name).2.newNode.2.newNode.1
                (b.refMap.newName param.name).1 param.annotations param.type none) :: added,
            ?_, ?_, ?_, ?_, ?_⟩
          · rw [e1]
            simp [ParameterSubstitution.add]
          · simp [List.filter_cons, hd, e2]
          · rw [e3]
            simp
          · rw [List.filter_cons, hnt]
            simp only [if_true]
            refine List.Forall₂.cons ⟨b.refMap, _, _, rfl, List.mem_cons_self _ _⟩ ?_
            exact e4.imp fun p d ⟨r, node, dn, h1, h2⟩ =>
              ⟨r, node, dn, h1, List.mem_cons_of_mem _ h2⟩
          · intro p hp hdir hn
            rcases List.mem_cons.mp hp with rfl | hp
            · rw [hnt] at hn
              cases hn
            · obtain ⟨m1, a1, h1, h2, h3⟩ := e5 p hp hdir hn
              exact ⟨m1, a1, h1, h2, List.mem_cons_of_mem _ h3⟩

/-- The names of successive calls of `newName` depend on the generator and on the names
in use only. -/
theorem ReferenceMap.newNames_congr (bases : List cstring) :
    ∀ (r1 r2 : ReferenceMap), r1.gen = r2.gen → r1.usedNames = r2.usedNames →
    r1.newNames bases = r2.newNames bases := by
  induction bases with
  | nil => intro _ _ _ _; rfl
  | cons base rest ih =>
    intro r1 r2 hg hu
    simp only [ReferenceMap.newNames, ReferenceMap.newName, hg, hu]
    exact congrArg (List.cons _) (ih _ _ rfl rfl)

/-- The loop over the apply-parameters, in full: the bindings it appends, the variables
it appends, their names, which are those of successive calls of `newName` on the names
of the parameters that need a temporary, the numbers of their nodes, and the reference
map after the loop. -/
theorem GeneralInliner.bindParameters_temporaries (call : Option MethodCallStatement)
    (mcd : Option MethodCallDescription) (set : List Nat) :
    ∀ (params : List Parameter) (b b1 : GeneralInliner.Binding),
    GeneralInliner.bindParameters call mcd set params b = some b1 →
    ∃ (extra : List (Parameter × Expression)) (added : List Declaration),
      b1.substs.paramSubst.bindings = b.substs.paramSubst.bindings ++ extra ∧
      b1.locals = b.locals ++ added ∧
      added.map (fun d => d.name) = b.refMap.newNames
        ((params.filter (GeneralInliner.needsTemporary call set)).map (fun p => p.name)) ∧
      added.map (fun d => d.decl) = List.range' (b.refMap.resolution.nextNode + 1)
        (params.filter (GeneralInliner.needsTemporary call set)).length 2 ∧
      List.Forall₂ (fun p d => ∃ node : Nat,
          d = Declaration.declarationVariable
            (Declaration_Variable.mk (node + 1) d.name p.annotations p.type none) ∧
          (p, Expression.pathExpression (IR.Path.mk node d.name false)) ∈ extra)
        (params.filter (GeneralInliner.needsTemporary call set)) added ∧
      b1.refMap = ReferenceMap.mk b.refMap.gen
        ((added.map (fun d => d.name)).reverse ++ b.refMap.usedNames)
        (Resolution.mk b.refMap.resolution.pathToDeclaration
          (b.refMap.resolution.nextNode + 2 * added.length)) ∧
      b1.substs.tvs = b.substs.tvs ∧ b1.substs.renameMap = b.substs.renameMap := by
  intro params
  induction params with
  | nil =>
    intro b b1 h
    simp only [GeneralInliner.bindParameters, Option.some.injEq] at h
    subst h
    exact ⟨[], [], by simp, by simp, rfl, rfl, List.Forall₂.nil, rfl, rfl, rfl⟩
  | cons param rest ih =>
    intro b b1 h
    simp only [GeneralInliner.bindParameters] at h
    cases hstep : GeneralInliner.bindParameter call mcd set b param with
    | none => rw [hstep] at h; cases h
    | some b2 =>
      rw [hstep] at h
      simp only at h
      obtain ⟨extra, added, e1, e2, e3, e4, e5, e6, e7, e8⟩ := ih b2 b1 h
      unfold GeneralInliner.bindParameter at hstep
      by_cases hd : param.direction = Direction.None
      · simp only [hd, beq_self_eq_true, if_true, Option.some.injEq] at hstep
        subst hstep
        have hnt : GeneralInliner.needsTemporary call set param = false := by
          simp [GeneralInliner.needsTemporary, hd]
        refine ⟨extra, added, e1, e2, ?_, ?_, ?_, e6, e7, e8⟩
        · simpa [List.filter_cons, hnt] using e3
        · simpa [List.filter_cons, hnt] using e4
        · simpa [List.filter_cons, hnt] using e5
      · have hb : (param.direction == Direction.None) = false := by simpa using hd
        simp only [hb, Bool.false_eq_true, if_false] at hstep
        by_cases hdirect : (call.isSome && !set.contains param.decl) = true
        · simp only [hdirect, if_true] at hstep
          have hnt : GeneralInliner.needsTemporary call set param = false := by
            simp only [GeneralInliner.needsTemporary, hdirect]
            simp
          cases mcd with
          | none => cases hstep
          | some m =>
            simp only at hstep
            cases ha : m.substitution.lookup param with
            | none => rw [ha] at hstep; cases hstep
            | some a =>
              rw [ha] at hstep
              simp only [Option.some.injEq] at hstep
              subst hstep
              refine ⟨(param, a) :: extra, added, ?_, e2, ?_, ?_, ?_, e6, e7, e8⟩
              · rw [e1]
                simp [ParameterSubstitution.add]
              · simpa [List.filter_cons, hnt] using e3
              · simpa [List.filter_cons, hnt] using e4
              · rw [List.filter_cons, hnt]
                exact e5.imp fun p d ⟨node, h1, h2⟩ =>
                  ⟨node, h1, List.mem_cons_of_mem _ h2⟩
        · have hdf : (call.isSome && !set.contains param.decl) = false := by
            simpa using hdirect
          simp only [hdf, Bool.false_eq_true, if_false, Option.some.injEq] at hstep
          have hnt : GeneralInliner.needsTemporary call set param = true := by
            simp only [GeneralInliner.needsTemporary, hdf]
            simpa using hd
          subst hstep
          simp only at e1 e2 e3 e4 e6 e7 e8
          refine ⟨(param, Expression.pathExpression
              (IR.Path.mk (b.refMap.newName param.name).2.newNode.1
                (b.refMap.newName param.name).1 false)) :: extra,
            Declaration.declarationVariable
              (Declaration_Variable.mk (b.refMap.newName param.name).2.newNode.2.newNode.1
                (b.refMap.newName param.name).1 param.annotations param.type none) :: added,
            ?_, ?_, ?_, ?_, ?_, ?_, e7, e8⟩
          · rw [e1]
            simp [ParameterSubstitution.add]
          · rw [e2]
            simp
          · rw [List.filter_cons, hnt]
            simp only [if_true, List.map_cons]
            rw [e3, ReferenceMap.newNames]
            exact congrArg (List.cons _) (ReferenceMap.newNames_congr _ _ _ rfl rfl)
          · rw [List.filter_cons, hnt]
            simp only [if_true, List.map_cons, List.length_cons]
            rw [e4, List.range'_succ]
            rfl
          · rw [List.filter_cons, hnt]
            simp only [if_true]
            refine List.Forall₂.cons ⟨_, rfl, List.mem_cons_self _ _⟩ ?_
            exact e5.imp fun p d ⟨node, h1, h2⟩ =>
              ⟨node, h1, List.mem_cons_of_mem _ h2⟩
          · rw [e6]
            simp only [ReferenceMap.newNode, ReferenceMap.newName, List.map_cons,
              List.reverse_cons, List.append_assoc, List.singleton_append, List.length_cons]
            congr 2
            omega

/-- C22: the loop over the apply-parameters of the callee, run on parameters with
distinct identities that are not bound yet.  The variables added to the locals of the
caller are exactly one for each parameter that needs a temporary, in the order of the
parameters.  Their names are the names that `newName` returns on the names of these
parameters, called in this order on the reference map of the loop, and their nodes are
numbered from the next node of that map.  The variable has the type and the annotations
of the parameter and no initializer, and the parameter is bound to a path with the name
of the variable; the names are distinct and were not used before.  A
parameter with a direction that is not in the set, when the instance has a unique call,
needs no temporary and is bound to the argument of the call.  A parameter with a
direction needs a temporary when there is no unique call or when it is in the set.  A
parameter without a direction needs no temporary and is not bound. -/
theorem GeneralInliner.apply_parameter_binding (call : Option MethodCallStatement)
    (mcd : Option MethodCallDescription) (set : List Nat) (params : List Parameter)
    (b b1 : GeneralInliner.Binding) (hf : b.refMap.Fresh)
    (hnodup : (params.map (fun p => p.decl)).Nodup)
    (hnew : ∀ p ∈ params, b.substs.paramSubst.lookup p = none)
    (h : GeneralInliner.bindParameters call mcd set params b = some b1) :
    ∃ added : List Declaration,
      b1.locals = b.locals ++ added ∧
      added.map (fun d => d.name) = b.refMap.newNames
        ((params.filter (GeneralInliner.needsTemporary call set)).map (fun p => p.name)) ∧
      added.map (fun d => d.decl) = List.range' (b.refMap.resolution.nextNode + 1)
        (params.filter (GeneralInliner.needsTemporary call set)).length 2 ∧
      List.Forall₂ (fun p d => ∃ node : Nat,
          d = Declaration.declarationVariable
            (Declaration_Variable.mk (node + 1) d.name p.annotations p.type none) ∧
          b1.substs.paramSubst.lookup p = some
            (Expression.pathExpression (IR.Path.mk node d.name false)))
        (params.filter (GeneralInliner.needsTemporary call set)) added ∧
      (added.map (fun d => d.name)).Nodup ∧
      (∀ d ∈ added, d.name ∉ b.refMap.usedNames) ∧
      (∀ p ∈ params, p.direction ≠ Direction.None → call.isSome = true → p.decl ∉ set →
        GeneralInliner.needsTemporary call set p = false ∧
        ∃ m arg, mcd = some m ∧ m.substitution.lookup p = some arg ∧
          b1.substs.paramSubst.lookup p = some arg) ∧
      (∀ p ∈ params, p.direction ≠ Direction.None → (call = none ∨ p.decl ∈ set) →
        GeneralInliner.needsTemporary call set p = true) ∧
      (∀ p ∈ params, p.direction = Direction.None →
        GeneralInliner.needsTemporary call set p = false ∧
        b1.substs.paramSubst.lookup p = none) := by
  obtain ⟨extra, added, e1, e2, e3, _, e5⟩ :=
    GeneralInliner.bindParameters_shape call mcd set params b b1 h
  obtain ⟨decls, i1, i2, _⟩ :=
    GeneralInliner.bindParameters_introduced call mcd set params b b1 hf h
  have hda : decls = added := by
    rw [e3] at i2
    exact (List.append_cancel_left i2).symm
  subst hda
  obtain ⟨extra1, added1, t1, t2, t3, t4, e4, _⟩ :=
    GeneralInliner.bindParameters_temporaries call mcd set params b b1 h
  have hxa : extra = extra1 := by
    rw [e1] at t1
    exact List.append_cancel_left t1
  subst hxa
  have hta : decls = added1 := by
    rw [e3] at t2
    exact List.append_cancel_left t2
  subst hta
  have hsub : List.Sublist (extra.map Prod.fst) params := by
    rw [e2]
    exact List.filter_sublist _
  have hex : ((extra.map (fun x => x.1.decl))).Nodup := by
    have : extra.map (fun x => x.1.decl) = (extra.map Prod.fst).map (fun p => p.decl) := by
      rw [List.map_map]
      rfl
    rw [this]
    exact (hsub.map _).nodup hnodup
  have hold : ∀ p ∈ params,
      b.substs.paramSubst.bindings.find? (fun x => x.1.decl == p.decl) = none := by
    intro p hp
    have := hnew p hp
    simpa [ParameterSubstitution.lookup, ParameterSubstitution.lookupDecl] using this
  have hlook : ∀ p ∈ params, ∀ a, (p, a) ∈ extra →
      b1.substs.paramSubst.lookup p = some a := by
    intro p hp a ha
    simp only [ParameterSubstitution.lookup, ParameterSubstitution.lookupDecl, e1,
      List.find?_append, hold p hp, Option.none_or]
    rw [find_binding (fun q => q.decl) extra hex p a ha]
    rfl
  have hfilter : ∀ p ∈ params.filter (GeneralInliner.needsTemporary call set), p ∈ params :=
    fun p hp => (List.mem_filter.mp hp).1
  refine ⟨decls, e3, t3, t4, ?_, i1.2.2.1, ?_, ?_, ?_, ?_⟩
  · have hall := List.forall₂_iff_get.mp e4
    apply List.forall₂_iff_get.mpr
    refine ⟨hall.1, ?_⟩
    intro i h1 h2
    obtain ⟨node, g1, g2⟩ := hall.2 i h1 h2
    exact ⟨node, g1, hlook _ (hfilter _ (List.get_mem _ _ _)) _ g2⟩
  · intro d hd
    exact i1.2.2.2 _ (List.mem_map.mpr ⟨d, hd, rfl⟩)
  · intro p hp hdir hcall hset
    have hnt : GeneralInliner.needsTemporary call set p = false := by
      simp [GeneralInliner.needsTemporary, hcall, hset]
    obtain ⟨m, arg, g1, g2, g3⟩ := e5 p hp hdir hnt
    exact ⟨hnt, m, arg, g1, g2, hlook p hp arg g3⟩
  · intro p _ hdir hor
    rcases hor with hcall | hset
    · subst hcall
      simpa [GeneralInliner.needsTemporary] using hdir
    · simp [GeneralInliner.needsTemporary, hdir, hset]
  · intro p hp hdir
    refine ⟨by simp [GeneralInliner.needsTemporary, hdir], ?_⟩
    simp only [ParameterSubstitution.lookup, ParameterSubstitution.lookupDecl, e1,
      List.find?_append, hold p hp, Option.none_or, Option.map_eq_none', List.find?_eq_none]
    intro x hx hxd
    have hx1 : x.1 ∈ params.filter (fun p => p.direction != Direction.None) := by
      rw [← e2]
      exact List.mem_map.mpr ⟨x, hx, rfl⟩
    obtain ⟨hxp, hxdir⟩ := List.mem_filter.mp hx1
    have heq : x.1 = p :=
      List.inj_on_of_nodup_map hnodup hxp hp (by simpa using hxd)
    rw [heq, hdir] at hxdir
    simp at hxdir

/-- The call `x.apply(h1, h2)` of the control `C(in a, out b)` with `b` in the set: one
variable is added, for `b`. -/
theorem GeneralInliner.apply_parameter_binding_witness :
    ∃ b1, GeneralInliner.bindParameters (some (sampleCallX sampleHeaderArguments))
        (some (MethodCallDescription.create
          (sampleControlC Direction.In Direction.Out).applyParams
          (sampleCallX sampleHeaderArguments))) [72]
        (sampleControlC Direction.In Direction.Out).applyParams
        (GeneralInliner.Binding.mk PerInstanceSubstitutions.empty sampleControlRefMap [])
          = some b1 ∧
      ∃ added : List Declaration, b1.locals = [] ++ added ∧
        added.map (fun d => d.name) = sampleControlRefMap.newNames ["b"] ∧
        sampleControlRefMap.newNames ["b"] = ["b___"] ∧
        (added.map (fun d => d.name)).Nodup :=
  ⟨_, rfl, (GeneralInliner.apply_parameter_binding (some (sampleCallX sampleHeaderArguments))
    (some (MethodCallDescription.create
      (sampleControlC Direction.In Direction.Out).applyParams
      (sampleCallX sampleHeaderArguments))) [72]
    (sampleControlC Direction.In Direction.Out).applyParams
    (GeneralInliner.Binding.mk PerInstanceSubstitutions.empty sampleControlRefMap []) _
    sampleGen_fresh (by decide) (fun _ _ => rfl) rfl).imp
      fun _ hw => ⟨hw.1, hw.2.1, by decide, hw.2.2.2.2.1⟩⟩

/-! ## The locals of the caller after the inlining -/

/-- The transform keeps the identity of a local declaration, so whether it is an inlined
instance. -/
theorem Substitutions.visitDeclaration_isInlinedInstance (self : Substitutions)
    (work : Work) (d d1 : Declaration) (res res1 : Resolution)
    (h : self.visitDeclaration d res = some (d1, res1)) :
    GeneralInliner.isInlinedInstance work d1 = GeneralInliner.isInlinedInstance work d := by
  cases d with
  | p4Table t =>
    simp only [Substitutions.visitDeclaration] at h
    split at h
    · cases h
    · simp only [Option.map_eq_some'] at h
      obtain ⟨r, _, hd⟩ := h
      cases hd
      rfl
  | p4Action a =>
    simp only [Substitutions.visitDeclaration] at h
    split at h
    · cases h
    · simp only [Option.map_eq_some'] at h
      obtain ⟨r, _, hd⟩ := h
      cases hd
      rfl
  | declarationInstance i =>
    simp only [Substitutions.visitDeclaration] at h
    split at h
    · cases h
    · simp only [Option.map_eq_some'] at h
      obtain ⟨r, hr, hd⟩ := h
      cases hd
      simp only [Substitutions.postorder_Declaration_Instance, Option.bind_eq_bind,
        Option.pure_def, Option.bind_eq_some] at hr
      obtain ⟨_, _, _, _, hr⟩ := hr
      cases hr
      rfl
  | declarationVariable v =>
    simp only [Substitutions.visitDeclaration, Option.map_eq_some'] at h
    obtain ⟨r, _, hd⟩ := h
    cases hd
    rfl

/-- The transform keeps, on a vector of locals, that none is an inlined instance. -/
theorem Substitutions.visitDeclarations_isInlinedInstance (self : Substitutions)
    (work : Work) :
    ∀ (ds ds1 : List Declaration) (res res1 : Resolution),
    self.visitDeclarations ds res = some (ds1, res1) →
    (∀ d ∈ ds, GeneralInliner.isInlinedInstance work d = false) →
    ∀ d ∈ ds1, GeneralInliner.isInlinedInstance work d = false := by
  intro ds
  induction ds with
  | nil =>
    intro ds1 res res1 h _ d hd
    simp only [Substitutions.visitDeclarations, Option.some.injEq, Prod.mk.injEq] at h
    rw [← h.1] at hd
    cases hd
  | cons a rest ih =>
    intro ds1 res res1 h hall d hd
    simp only [Substitutions.visitDeclarations] at h
    split at h
    · cases h
    · rename_i a1 r1 ha
      split at h
      · cases h
      · rename_i rest1 r2 hrest
        cases h
        rcases List.mem_cons.mp hd with rfl | hd
        · rw [Substitutions.visitDeclaration_isInlinedInstance self work a _ _ _ ha]
          exact hall a (List.mem_cons_self _ _)
        · exact ih _ r1 _ hrest (fun x hx => hall x (List.mem_cons_of_mem _ hx)) d hd

theorem lookup_mem_pair {α β : Type} [BEq α] [LawfulBEq α] :
    ∀ (l : List (α × β)) (k : α) (v : β), l.lookup k = some v → (k, v) ∈ l := by
  intro l
  induction l with
  | nil => intro k v h; cases h
  | cons a l ih =>
    intro k v h
    obtain ⟨a1, a2⟩ := a
    rw [List.lookup_cons] at h
    by_cases hk : (k == a1) = true
    · rw [hk] at h
      simp only [Option.some.injEq] at h
      have := eq_of_beq hk
      subst this
      subst h
      exact List.mem_cons_self _ _
    · have hk1 : (k == a1) = false := by simpa using hk
      rw [hk1] at h
      exact List.mem_cons_of_mem _ (ih k v h)

/-! ## The rewriting of path expressions -/

/-- C24: `Substitutions::postorder(IR::PathExpression*)` on a path that the reference map
resolves to the declaration `d`.  When `d` is a parameter that the parameter
substitution contains, the result is the expression substituted for it and the reference
map is left as it is.  Otherwise the result is a new path expression: its name is the
name that the rename map holds for `d` when `d` is renamed and the name of the original
path when it is not, its absolute flag is that of the original path, and the reference
map afterwards resolves the new path to `d`. -/
theorem Substitutions.path_rewriting (self : Substitutions) (path : IR.Path)
    (res : Resolution) (d : Nat) (hres : res.pathToDeclaration.lookup path.node = some d) :
    (∀ value, self.subst.lookupDecl d = some value →
      self.postorder_PathExpression path res = some (value, res)) ∧
    (self.subst.lookupDecl d = none →
      ∃ (newpath : IR.Path) (res1 : Resolution),
        self.postorder_PathExpression path res
          = some (Expression.pathExpression newpath, res1) ∧
        (self.renameMap.isRenamed d = true →
          self.renameMap.getName d = some newpath.name) ∧
        (self.renameMap.isRenamed d = false → newpath.name = path.name) ∧
        newpath.absolute = path.absolute ∧
        res1.pathToDeclaration.lookup newpath.node = some d ∧
        ∀ refMap : ReferenceMap,
          ({ refMap with resolution := res1 } : ReferenceMap).getDeclaration newpath
            = some d) := by
  constructor
  · intro value hv
    simp only [Substitutions.postorder_PathExpression, hres, hv]
  · intro hn
    have hlook : ∀ (name : cstring),
        ((res.newPath name path.absolute).2.setDeclaration
          (res.newPath name path.absolute).1 d).pathToDeclaration.lookup
            (res.newPath name path.absolute).1.node = some d := by
      intro name
      simp [Resolution.setDeclaration, Resolution.newPath, List.lookup]
    cases hg : self.renameMap.names.lookup d with
    | none =>
      refine ⟨(res.newPath path.name path.absolute).1,
        (res.newPath path.name path.absolute).2.setDeclaration
          (res.newPath path.name path.absolute).1 d, ?_, ?_, ?_, rfl, hlook _,
        fun _ => hlook _⟩
      · simp only [Substitutions.postorder_PathExpression, hres, hn, SymRenameMap.getName,
          hg, Option.map_none']
      · intro h
        simp [SymRenameMap.isRenamed, hg] at h
      · intro _
        rfl
    | some names =>
      refine ⟨(res.newPath names.1 path.absolute).1,
        (res.newPath names.1 path.absolute).2.setDeclaration
          (res.newPath names.1 path.absolute).1 d, ?_, ?_, ?_, rfl, hlook _,
        fun _ => hlook _⟩
      · simp only [Substitutions.postorder_PathExpression, hres, hn, SymRenameMap.getName,
          hg, Option.map_some']
      · intro _
        simp [SymRenameMap.getName, hg, Resolution.newPath]
      · intro h
        simp [SymRenameMap.isRenamed, hg] at h

/-- The path `a` of the control samples, which resolves to the parameter 71, under
substitutions without bindings. -/
theorem Substitutions.path_rewriting_witness :
    sampleControlRefMap.resolution.pathToDeclaration.lookup (IR.Path.mk 10 "a" false).node
      = some 71 ∧
    ∃ (newpath : IR.Path) (res1 : Resolution),
      (Substitutions.mk ParameterSubstitution.empty (TypeVariableSubstitution.mk [])
        SymRenameMap.empty).postorder_PathExpression (IR.Path.mk 10 "a" false)
          sampleControlRefMap.resolution = some (Expression.pathExpression newpath, res1) ∧
      newpath.name = "a" ∧ res1.pathToDeclaration.lookup newpath.node = some 71 :=
  ⟨rfl, ((Substitutions.path_rewriting
    (Substitutions.mk ParameterSubstitution.empty (TypeVariableSubstitution.mk [])
      SymRenameMap.empty) (IR.Path.mk 10 "a" false) sampleControlRefMap.resolution 71
    rfl).2 rfl).imp fun _ hw => hw.imp fun _ hx => ⟨hx.1, hx.2.2.1 rfl, hx.2.2.2.2.1⟩⟩

/-! ## The fragments of a parser state -/

/-- What the splice of a call leaves: the cut state with the copy-in, the states of the
clone, and the name, the annotations and the copy-out for the continuation. -/
theorem GeneralInliner.spliceCall_steps (self : GeneralInliner) (work : Work)
    (state : ParserState) (call : MethodCallStatement) (decl : Nat)
    (s s1 : GeneralInliner.Splice)
    (h : self.spliceCall work state call decl s = some s1) :
    ∃ (callee callee1 : P4Parser) (substs substs1 : PerInstanceSubstitutions)
      (refMap1 : ReferenceMap) (copyin : List Statement) (snode tnode : Nat),
      work.declToCallee.lookup decl = some (IContainer.p4Parser callee) ∧
      work.substitutions.lookup decl = some substs ∧
      self.parserCopyIn callee.applyParams call.arguments substs = some (copyin, substs1) ∧
      substs1.rename_P4Parser s.refMap callee = some (callee1, refMap1) ∧
      GeneralInliner.parserCopyOut substs1 callee1.applyParams call.arguments
        = some s1.current ∧
      s1.states = s.states ++
        (ParserState.mk snode s.name s.annotations (s.current ++ copyin)
          (some (Transition.pathExpression (IR.Path.mk tnode
            ((GeneralInliner.stateNames refMap1 state callee1).get ParserState.start)
            false))) ::
          GeneralInliner.splicedStates refMap1 state callee1) ∧
      s1.annotations = Annotations.empty ∧
      s1.name = (refMap1.newName state.name).1 := by
  unfold GeneralInliner.spliceCall at h
  split at h
  · rename_i callee hcallee
    split at h
    · cases h
    · rename_i substs hsubsts
      split at h
      · cases h
      · rename_i copyin substs1 hin
        split at h
        · cases h
        · rename_i callee1 refMap1 hren
          split at h
          · cases h
          · rename_i copyout hout
            cases h
            refine ⟨callee, callee1, substs, substs1, refMap1, copyin,
              ((ComputeNewStateNames.mk (refMap1.newName state.name).2 callee1.name
                (refMap1.newName state.name).1 []).apply callee1).refMap.newNode.2.newNode.1,
              ((ComputeNewStateNames.mk (refMap1.newName state.name).2 callee1.name
                (refMap1.newName state.name).1 []).apply callee1).refMap.newNode.1,
              hcallee, hsubsts, hin, hren, hout, ?_, rfl, rfl⟩
            simp only [List.append_assoc, List.singleton_append]
            rfl
  · cases h

theorem GeneralInliner.noInlinedCall_cons (work : Work) (e : Statement)
    (segment : List Statement)
    (he : ∀ call, e = Statement.methodCallStatement call → work.findCall call = none)
    (h : GeneralInliner.noInlinedCall work segment) :
    GeneralInliner.noInlinedCall work (e :: segment) := by
  intro call hc
  rcases List.mem_cons.mp hc with hc | hc
  · exact he call hc.symm
  · exact h call hc

/-- A component that is not an inlined invocation joins the first segment. -/
theorem GeneralInliner.fragmented_shift (work : Work) (state : ParserState) (name : cstring)
    (annotations : Annotations) (e : Statement) (components : List Statement)
    (result : List ParserState)
    (he : ∀ call, e = Statement.methodCallStatement call → work.findCall call = none)
    (h : GeneralInliner.Fragmented work state name annotations components result) :
    GeneralInliner.Fragmented work state name annotations (e :: components) result := by
  cases h with
  | last _ _ _ fragment h1 h2 h3 h4 =>
    exact GeneralInliner.Fragmented.last _ _ (e :: _) fragment
      (GeneralInliner.noInlinedCall_cons work e _ he h1) h2 h3 h4
  | cut _ _ segment rest call decl callee callee1 substs1 refMap0 refMap1 fragment node tail
      h1 h2 h3 h4 h5 h6 h7 h8 =>
    exact GeneralInliner.Fragmented.cut _ _ (e :: segment) rest call decl callee callee1
      substs1 refMap0 refMap1 fragment node tail
      (GeneralInliner.noInlinedCall_cons work e segment he h1) h2 h3 h4 h5 h6 h7 h8

/-- A fragmentation is not empty, and it is a single state only when the components hold
no inlined invocation. -/
theorem GeneralInliner.fragmented_single (work : Work) (state : ParserState) (name : cstring)
    (annotations : Annotations) (components : List Statement) (result : List ParserState)
    (h : GeneralInliner.Fragmented work state name annotations components result) :
    result ≠ [] ∧ (∀ f, result = [f] → GeneralInliner.noInlinedCall work components) := by
  induction h with
  | last _ _ _ fragment h1 _ _ _ => exact ⟨by simp, fun _ _ => h1⟩
  | cut _ _ _ _ _ _ _ _ _ _ _ _ _ _ _ _ _ _ _ _ _ _ ih =>
    refine ⟨by simp, ?_⟩
    intro f hf
    simp only [List.cons.injEq, List.append_eq_nil] at hf
    exact absurd hf.2.2 ih.1

/-- The scan of the components of a state, closed by a last fragment, yields the
fragmentation of the components. -/
theorem GeneralInliner.scanComponents_fragmented (self : GeneralInliner) (work : Work)
    (state : ParserState) :
    ∀ (components : List Statement) (s s1 : GeneralInliner.Splice),
    self.scanComponents work state components s = some s1 →
    ∀ fragment : ParserState, fragment.name = s1.name →
      fragment.annotations = s1.annotations →
      fragment.selectExpression = state.selectExpression →
      ∃ tail, s1.states ++ [fragment] = s.states ++ tail ∧
        GeneralInliner.Fragmented work state s.name s.annotations components tail := by
  intro components
  induction components with
  | nil =>
    intro s s1 h fragment f1 f2 f3
    simp only [GeneralInliner.scanComponents, Option.some.injEq] at h
    subst h
    exact ⟨[fragment], rfl, GeneralInliner.Fragmented.last _ _ [] fragment
      (fun _ hc => by cases hc) f1 f2 f3⟩
  | cons e rest ih =>
    intro s s1 h fragment f1 f2 f3
    have hkeep : (∀ call, e = Statement.methodCallStatement call → work.findCall call = none) →
        self.scanComponents work state rest { s with current := s.current ++ [e] } = some s1 →
        ∃ tail, s1.states ++ [fragment] = s.states ++ tail ∧
          GeneralInliner.Fragmented work state s.name s.annotations (e :: rest) tail := by
      intro he hrest
      obtain ⟨tail, t1, t2⟩ := ih _ s1 hrest fragment f1 f2 f3
      exact ⟨tail, t1, GeneralInliner.fragmented_shift work state _ _ e rest tail he t2⟩
    cases e with
    | methodCallStatement call =>
      simp only [GeneralInliner.scanComponents] at h
      cases hf : work.findCall call with
      | none =>
        rw [hf] at h
        exact hkeep (fun c hc => by cases hc; exact hf) h
      | some decl =>
        rw [hf] at h
        simp only at h
        cases hsp : self.spliceCall work state call decl s with
        | none => rw [hsp] at h; cases h
        | some s2 =>
          rw [hsp] at h
          simp only at h
          obtain ⟨callee, callee1, substs, substs1, refMap1, copyin, snode, tnode, g1, _, _,
            g4, _, g6, g7, g8⟩ := GeneralInliner.spliceCall_steps self work state call decl s s2 hsp
          obtain ⟨tail, t1, t2⟩ := ih s2 s1 h fragment f1 f2 f3
          rw [g7, g8] at t2
          refine ⟨_ :: (GeneralInliner.splicedStates refMap1 state callee1 ++ tail), ?_,
            GeneralInliner.Fragmented.cut _ _ [] rest call decl callee callee1 substs1 s.refMap
              refMap1 (ParserState.mk snode s.name s.annotations (s.current ++ copyin)
                (some (Transition.pathExpression (IR.Path.mk tnode
                  ((GeneralInliner.stateNames refMap1 state callee1).get ParserState.start)
                  false)))) tnode tail (fun _ hc => by cases hc) hf g1 g4 rfl rfl rfl t2⟩
          rw [t1, g6]
          simp
    | _ =>
      simp only [GeneralInliner.scanComponents] at h
      exact hkeep (fun c hc => by cases hc) h

/-- When the callee lists a state `accept`, the state rename map sends `accept` to the
name of the continuation. -/
theorem GeneralInliner.stateNames_accept (refMap1 : ReferenceMap) (state : ParserState)
    (callee1 : P4Parser) (h : ∃ q ∈ callee1.states, q.name = ParserState.accept) :
    (GeneralInliner.stateNames refMap1 state callee1).get ParserState.accept
      = (refMap1.newName state.name).1 := by
  obtain ⟨q, hq, hqa⟩ := h
  obtain ⟨_, _, _, _, f5, f6⟩ := ComputeNewStateNames.fold_lookup callee1.states
    (ComputeNewStateNames.mk (refMap1.newName state.name).2 callee1.name
      (refMap1.newName state.name).1 [])
  obtain ⟨v, hv⟩ := f5 q hq
  rw [hqa] at hv
  have hv2 : v = (refMap1.newName state.name).1 :=
    f6 (by intro w hw; simp [List.lookup] at hw) v hv
  subst hv2
  simp only [GeneralInliner.stateNames, ComputeNewStateNames.apply, StateRenameMap.get, hv]

/-- C25: the states that `preorder(IR::ParserState*)` returns for the state `s`.  Without
an inlined invocation among the components the state is returned unchanged.  In any case
the result is the fragmentation of the components: with `k` inlined invocations there
are `k + 1` fragments, after each but the last the states of the renamed clone of the
callee of the invocation (those named `accept` and `reject` left out); the first
fragment has the name and the annotations of `s`; the fragment before the states of a
callee transitions without a condition to the state that the start state of the callee
is renamed to; the fragment after them has empty annotations and the name
`newName(s.name)`, which is the name that `accept` is renamed to when the callee lists a
state `accept`; the last fragment carries the select expression of `s`. -/
theorem GeneralInliner.parser_state_fragmentation (self : GeneralInliner) (work : Work)
    (refMap : ReferenceMap) (state : ParserState) :
    (GeneralInliner.noInlinedCall work state.components →
      self.preorder_ParserState work refMap state = some ([state], refMap)) ∧
    (∀ result refMap1, self.preorder_ParserState work refMap state = some (result, refMap1) →
      GeneralInliner.Fragmented work state state.name state.annotations state.components
        result) ∧
    (∀ (refMap1 : ReferenceMap) (callee1 : P4Parser),
      (∃ q ∈ callee1.states, q.name = ParserState.accept) →
      (GeneralInliner.stateNames refMap1 state callee1).get ParserState.accept
        = (refMap1.newName state.name).1) ∧
    (∀ (refMap1 : ReferenceMap) (callee1 : P4Parser) (q : ParserState),
      q.name = ParserState.start →
      ((RenameStates.mk (GeneralInliner.stateNames refMap1 state
        callee1)).preorder_ParserState q).name
        = (GeneralInliner.stateNames refMap1 state callee1).get ParserState.start) := by
  refine ⟨GeneralInliner.preorder_ParserState_plain self work refMap state, ?_,
    fun refMap1 callee1 h => GeneralInliner.stateNames_accept refMap1 state callee1 h, ?_⟩
  · intro result refMap1 h
    unfold GeneralInliner.preorder_ParserState at h
    cases hscan : self.scanComponents work state state.components
        (GeneralInliner.Splice.mk [] [] state.annotations state.name refMap) with
    | none => rw [hscan] at h; cases h
    | some s =>
      rw [hscan] at h
      simp only at h
      by_cases hempty : s.states.isEmpty = true
      · simp only [hempty, Bool.not_true, Bool.false_eq_true, if_false, Option.some.injEq,
          Prod.mk.injEq] at h
        obtain ⟨tail, t1, t2⟩ := GeneralInliner.scanComponents_fragmented self work state _ _ _
          hscan (ParserState.mk 0 s.name s.annotations [] state.selectExpression) rfl rfl rfl
        have hnil : s.states = [] := List.isEmpty_iff.mp hempty
        rw [hnil] at t1
        simp only [List.nil_append] at t1
        subst t1
        rw [← h.1]
        exact GeneralInliner.Fragmented.last _ _ _ state
          ((GeneralInliner.fragmented_single _ _ _ _ _ _ t2).2 _ rfl) rfl rfl rfl
      · have hne : s.states.isEmpty = false := by simpa using hempty
        simp only [hne, Bool.not_false, if_true, Option.some.injEq, Prod.mk.injEq] at h
        obtain ⟨tail, t1, t2⟩ := GeneralInliner.scanComponents_fragmented self work state _ _ _
          hscan (ParserState.mk s.refMap.newNode.1 s.name s.annotations s.current
            state.selectExpression) rfl rfl rfl
        simp only [List.nil_append] at t1
        rw [← h.1, t1]
        exact t2
  · intro refMap1 callee1 q hq
    have hb : (q.name == ParserState.accept || q.name == ParserState.reject) = false := by
      rw [hq]
      decide
    simp only [RenameStates.preorder_ParserState, hb, Bool.false_eq_true, if_false]
    rw [hq]

/-- The state `h1.f = h2.f; inst.apply(h1, h2); h2.f = h1.f; transition accept` with
the callee `P`: two fragments around the state `start` of `P`. -/
theorem GeneralInliner.parser_state_fragmentation_witness :
    ∃ r, sampleControlInliner.preorder_ParserState sampleWorkP sampleParserRefMap
        sampleStateP = some r ∧
      r.1.map (fun q => q.name) = ["start", "P_start_____________", "start_______"] ∧
      GeneralInliner.Fragmented sampleWorkP sampleStateP sampleStateP.name
        sampleStateP.annotations sampleStateP.components r.1 :=
  ⟨_, rfl, rfl, (GeneralInliner.parser_state_fragmentation sampleControlInliner sampleWorkP
    sampleParserRefMap sampleStateP).2.1 _ _ rfl⟩

/-! ## The copy-in and the copy-out at an inlined parser invocation -/

/-- A binding found by name stays when a binding is added. -/
theorem ParameterSubstitution.lookupByName_add (s : ParameterSubstitution) (param : Parameter)
    (value : Expression) (n : cstring) (v : Expression)
    (h : s.lookupByName n = some v) : (s.add param value).lookupByName n = some v := by
  simp only [ParameterSubstitution.lookupByName, ParameterSubstitution.add,
    Option.map_eq_some'] at h ⊢
  obtain ⟨b, hb, hv⟩ := h
  exact ⟨b, by rw [List.find?_append, hb]; rfl, hv⟩

/-- The first loop over the apply-parameters yields, for each parameter with its
argument in order, its copy-in; the substitutions keep what they held. -/
theorem GeneralInliner.parserCopyIn_spec (self : GeneralInliner) :
    ∀ (params : List Parameter) (args : List Expression)
      (substs substs1 : PerInstanceSubstitutions) (copyin : List Statement),
    self.parserCopyIn params args substs = some (copyin, substs1) →
    (∀ n v, substs.paramSubst.lookupByName n = some v →
      substs1.paramSubst.lookupByName n = some v) ∧
    ∃ pieces : List (List Statement),
      List.Forall₂ (GeneralInliner.copyInOf self substs1) (params.zip args) pieces ∧
      copyin = pieces.flatten := by
  intro params
  induction params with
  | nil =>
    intro args substs substs1 copyin h
    simp only [GeneralInliner.parserCopyIn, Option.some.injEq, Prod.mk.injEq] at h
    obtain ⟨h1, h2⟩ := h
    subst h1
    subst h2
    exact ⟨fun _ _ hv => hv, [], by simp, rfl⟩
  | cons param params ih =>
    intro args substs substs1 copyin h
    cases args with
    | nil => simp [GeneralInliner.parserCopyIn] at h
    | cons initializer args =>
      simp only [GeneralInliner.parserCopyIn] at h
      split at h
      · cases h
      · rename_i stats substs2 hstep
        split at h
        · cases h
        · rename_i rest substs3 hrest
          simp only [Option.some.injEq, Prod.mk.injEq] at h
          obtain ⟨h1, h2⟩ := h
          subst h1
          subst h2
          obtain ⟨k1, pieces, k2, k3⟩ := ih args substs2 substs3 rest hrest
          have hone : (∀ n v, substs.paramSubst.lookupByName n = some v →
              substs2.paramSubst.lookupByName n = some v) ∧
              GeneralInliner.copyInOf self substs3 (param, initializer) stats := by
            by_cases hin : param.direction = Direction.In ∨ param.direction = Direction.InOut
            · have hb : (param.direction == Direction.In ||
                  param.direction == Direction.InOut) = true := by
                simpa using hin
              simp only [hb, if_true] at hstep
              cases hl : substs.paramSubst.lookupByName param.name with
              | none => rw [hl] at hstep; cases hstep
              | some expr =>
                rw [hl] at hstep
                simp only [Option.some.injEq, Prod.mk.injEq] at hstep
                obtain ⟨e1, e2⟩ := hstep
                subst e1
                subst e2
                refine ⟨fun _ _ hv => hv, ?_⟩
                simp only [GeneralInliner.copyInOf, hin, if_true]
                exact ⟨expr, k1 _ _ hl, rfl⟩
            · have hb : (param.direction == Direction.In ||
                  param.direction == Direction.InOut) = false := by
                simpa using hin
              simp only [hb, Bool.false_eq_true, if_false] at hstep
              by_cases hout : param.direction = Direction.Out
              · have hbo : (param.direction == Direction.Out) = true := by simpa using hout
                simp only [hbo, if_true] at hstep
                cases hl : substs.paramSubst.lookupByName param.name with
                | none => rw [hl] at hstep; cases hstep
                | some expr =>
                  cases ht : self.typeMap.declType param.decl with
                  | none => rw [hl, ht] at hstep; cases hstep
                  | some paramType =>
                    rw [hl, ht] at hstep
                    simp only [Option.some.injEq, Prod.mk.injEq] at hstep
                    obtain ⟨e1, e2⟩ := hstep
                    subst e1
                    subst e2
                    refine ⟨fun _ _ hv => hv, ?_⟩
                    simp only [GeneralInliner.copyInOf, hin, if_false, hout, if_true]
                    exact ⟨expr, paramType, k1 _ _ hl, ht, rfl⟩
              · have hbo : (param.direction == Direction.Out) = false := by simpa using hout
                simp only [hbo, Bool.false_eq_true, if_false, Option.some.injEq,
                  Prod.mk.injEq] at hstep
                obtain ⟨e1, e2⟩ := hstep
                subst e1
                subst e2
                refine ⟨fun n v hv => ParameterSubstitution.lookupByName_add _ _ _ n v hv, ?_⟩
                simp only [GeneralInliner.copyInOf, hin, if_false, hout]
          refine ⟨fun n v hv => k1 n v (hone.1 n v hv), stats :: pieces, ?_, ?_⟩
          · rw [List.zip_cons_cons]
            exact List.Forall₂.cons hone.2 k2
          · rw [k3]
            simp

/-- The second loop over the apply-parameters yields, for each parameter with its
argument in order, its copy-out. -/
theorem GeneralInliner.parserCopyOut_spec (substs : PerInstanceSubstitutions) :
    ∀ (params : List Parameter) (args : List Expression) (copyout : List Statement),
    GeneralInliner.parserCopyOut substs params args = some copyout →
    ∃ pieces : List (List Statement),
      List.Forall₂ (GeneralInliner.copyOutOf substs) (params.zip args) pieces ∧
      copyout = pieces.flatten := by
  intro params
  induction params with
  | nil =>
    intro args copyout h
    simp only [GeneralInliner.parserCopyOut, Option.some.injEq] at h
    subst h
    exact ⟨[], by simp, rfl⟩
  | cons param params ih =>
    intro args copyout h
    cases args with
    | nil => simp [GeneralInliner.parserCopyOut] at h
    | cons left args =>
      simp only [GeneralInliner.parserCopyOut] at h
      split at h
      · rename_i stats rest hstep hrest
        simp only [Option.some.injEq] at h
        subst h
        obtain ⟨pieces, k2, k3⟩ := ih args rest hrest
        refine ⟨stats :: pieces, ?_, by rw [k3]; simp⟩
        rw [List.zip_cons_cons]
        refine List.Forall₂.cons ?_ k2
        by_cases hd : param.direction = Direction.InOut ∨ param.direction = Direction.Out
        · have hb : (param.direction == Direction.InOut ||
              param.direction == Direction.Out) = true := by
            simpa using hd
          simp only [hb, if_true] at hstep
          cases hl : substs.paramSubst.lookupByName param.name with
          | none => rw [hl] at hstep; cases hstep
          | some expr =>
            rw [hl] at hstep
            simp only [Option.some.injEq] at hstep
            subst hstep
            simp only [GeneralInliner.copyOutOf, hd, if_true]
            exact ⟨expr, hl, rfl⟩
        · have hb : (param.direction == Direction.InOut ||
              param.direction == Direction.Out) = false := by
            simpa using hd
          simp only [hb, Bool.false_eq_true, if_false, Option.some.injEq] at hstep
          subst hstep
          simp only [GeneralInliner.copyOutOf, hd, if_false]
      · cases h

/-- A component that is not an inlined invocation joins the first segment of the
placement. -/
theorem GeneralInliner.placed_shift (self : GeneralInliner) (work : Work)
    (state : ParserState) (first : List Statement) (e : Statement)
    (components : List Statement) (result : List ParserState)
    (he : ∀ call, e = Statement.methodCallStatement call → work.findCall call = none)
    (h : GeneralInliner.Placed self work state (first ++ [e]) components result) :
    GeneralInliner.Placed self work state first (e :: components) result := by
  cases h with
  | last _ _ fragment h1 h2 =>
    exact GeneralInliner.Placed.last _ (e :: _) fragment
      (GeneralInliner.noInlinedCall_cons work e _ he h1) (by rw [h2]; simp)
  | cut _ segment rest call decl callee callee1 substs substs1 refMap0 refMap1 copyin copyout
      fragment tail h1 h2 h3 h4 h5 h6 h7 h8 h9 h10 =>
    exact GeneralInliner.Placed.cut _ (e :: segment) rest call decl callee callee1 substs
      substs1 refMap0 refMap1 copyin copyout fragment tail
      (GeneralInliner.noInlinedCall_cons work e segment he h1) h2 h3 h4 h5 h6 h7 h8
      (by rw [h9]; simp) h10

/-- A placement is not empty, and it is a single state only when the components hold no
inlined invocation. -/
theorem GeneralInliner.placed_single (self : GeneralInliner) (work : Work)
    (state : ParserState) (first components : List Statement) (result : List ParserState)
    (h : GeneralInliner.Placed self work state first components result) :
    result ≠ [] ∧ (∀ f, result = [f] → GeneralInliner.noInlinedCall work components) := by
  induction h with
  | last _ _ _ h1 _ => exact ⟨by simp, fun _ _ => h1⟩
  | cut _ _ _ _ _ _ _ _ _ _ _ _ _ _ _ _ _ _ _ _ _ _ _ _ _ ih =>
    refine ⟨by simp, ?_⟩
    intro f hf
    simp only [List.cons.injEq, List.append_eq_nil] at hf
    exact absurd hf.2.2 ih.1

/-- The scan of the components of a state, closed by a last fragment, places the
components in the fragments. -/
theorem GeneralInliner.scanComponents_placed (self : GeneralInliner) (work : Work)
    (state : ParserState) :
    ∀ (components : List Statement) (s s1 : GeneralInliner.Splice),
    self.scanComponents work state components s = some s1 →
    ∀ fragment : ParserState, fragment.components = s1.current →
      ∃ tail, s1.states ++ [fragment] = s.states ++ tail ∧
        GeneralInliner.Placed self work state s.current components tail := by
  intro components
  induction components with
  | nil =>
    intro s s1 h fragment f1
    simp only [GeneralInliner.scanComponents, Option.some.injEq] at h
    subst h
    exact ⟨[fragment], rfl, GeneralInliner.Placed.last _ [] fragment
      (fun _ hc => by cases hc) (by rw [f1]; simp)⟩
  | cons e rest ih =>
    intro s s1 h fragment f1
    have hkeep : (∀ call, e = Statement.methodCallStatement call → work.findCall call = none) →
        self.scanComponents work state rest { s with current := s.current ++ [e] } = some s1 →
        ∃ tail, s1.states ++ [fragment] = s.states ++ tail ∧
          GeneralInliner.Placed self work state s.current (e :: rest) tail := by
      intro he hrest
      obtain ⟨tail, t1, t2⟩ := ih _ s1 hrest fragment f1
      exact ⟨tail, t1, GeneralInliner.placed_shift self work state _ e rest tail he t2⟩
    cases e with
    | methodCallStatement call =>
      simp only [GeneralInliner.scanComponents] at h
      cases hf : work.findCall call with
      | none =>
        rw [hf] at h
        exact hkeep (fun c hc => by cases hc; exact hf) h
      | some decl =>
        rw [hf] at h
        simp only at h
        cases hsp : self.spliceCall work state call decl s with
        | none => rw [hsp] at h; cases h
        | some s2 =>
          rw [hsp] at h
          simp only at h
          obtain ⟨callee, callee1, substs, substs1, refMap1, copyin, snode, tnode, g1, g2, g3,
            g4, g5, g6, _, _⟩ := GeneralInliner.spliceCall_steps self work state call decl s s2 hsp
          obtain ⟨tail, t1, t2⟩ := ih s2 s1 h fragment f1
          obtain ⟨k1, inPieces, k2, k3⟩ :=
            GeneralInliner.parserCopyIn_spec self _ _ _ _ _ g3
          have hparams := (PerInstanceSubstitutions.rename_P4Parser_spec _ _ _ _ g4).2.2.1
          simp only at hparams
          rw [hparams] at g5
          obtain ⟨outPieces, o2, o3⟩ := GeneralInliner.parserCopyOut_spec _ _ _ _ g5
          rw [o3] at t2
          refine ⟨_ :: (GeneralInliner.splicedStates refMap1 state callee1 ++ tail), ?_,
            GeneralInliner.Placed.cut _ [] rest call decl callee callee1 substs substs1 s.refMap
              refMap1 inPieces outPieces
              (ParserState.mk snode s.name s.annotations (s.current ++ copyin)
                (some (Transition.pathExpression (IR.Path.mk tnode
                  ((GeneralInliner.stateNames refMap1 state callee1).get ParserState.start)
                  false))))
              tail (fun _ hc => by cases hc) hf g1 g2 k1 g4 k2 o2 (by rw [k3]; simp) t2⟩
          rw [t1, g6]
          simp
    | _ =>
      simp only [GeneralInliner.scanComponents] at h
      exact hkeep (fun c hc => by cases hc) h

/-- C26: the components of the states that `preorder(IR::ParserState*)` returns for a
state.  The components of the state are segments without inlined invocation, separated
by the inlined invocations.  The fragment before the states of a callee holds the
segment before the invocation and ends with the copy-in: for each apply-parameter of the
callee with the argument at its position, in order, `local := arg` for an `in` or
`inout` parameter and the reset statements for an `out` parameter.  The fragment after
the states of the callee begins with the copy-out, `arg := local` for each `out` or
`inout` parameter in order, and goes on with the next segment.  So every component that
is not an inlined invocation stands once, in the original order, in the fragments. -/
theorem GeneralInliner.parser_copy_placement (self : GeneralInliner) (work : Work)
    (refMap refMap1 : ReferenceMap) (state : ParserState) (result : List ParserState)
    (h : self.preorder_ParserState work refMap state = some (result, refMap1)) :
    GeneralInliner.Placed self work state [] state.components result := by
  unfold GeneralInliner.preorder_ParserState at h
  cases hscan : self.scanComponents work state state.components
      (GeneralInliner.Splice.mk [] [] state.annotations state.name refMap) with
  | none => rw [hscan] at h; cases h
  | some s =>
    rw [hscan] at h
    simp only at h
    by_cases hempty : s.states.isEmpty = true
    · simp only [hempty, Bool.not_true, Bool.false_eq_true, if_false, Option.some.injEq,
        Prod.mk.injEq] at h
      obtain ⟨tail, t1, t2⟩ := GeneralInliner.scanComponents_placed self work state _ _ _
        hscan (ParserState.mk 0 s.name s.annotations s.current state.selectExpression) rfl
      have hnil : s.states = [] := List.isEmpty_iff.mp hempty
      rw [hnil] at t1
      simp only [List.nil_append] at t1
      subst t1
      rw [← h.1]
      exact GeneralInliner.Placed.last _ _ state
        ((GeneralInliner.placed_single _ _ _ _ _ _ t2).2 _ rfl) (by simp)
    · have hne : s.states.isEmpty = false := by simpa using hempty
      simp only [hne, Bool.not_false, if_true, Option.some.injEq, Prod.mk.injEq] at h
      obtain ⟨tail, t1, t2⟩ := GeneralInliner.scanComponents_placed self work state _ _ _
        hscan (ParserState.mk s.refMap.newNode.1 s.name s.annotations s.current
          state.selectExpression) rfl
      simp only [List.nil_append] at t1
      rw [← h.1, t1]
      exact t2


/-- The state `h1.f = h2.f; inst.apply(h1, h2); h2.f = h1.f; transition accept` with
the callee `P(in a, out b)`: the first fragment ends with `a_0 = h1` and the reset of
`b_0`, the last fragment begins with `h2 = b_0`. -/
theorem GeneralInliner.parser_copy_placement_witness :
    ∃ r, sampleControlInliner.preorder_ParserState sampleWorkP sampleParserRefMap
        sampleStateP = some r ∧
      GeneralInliner.Placed sampleControlInliner sampleWorkP sampleStateP []
        sampleStateP.components r.1 :=
  ⟨_, rfl, GeneralInliner.parser_copy_placement sampleControlInliner sampleWorkP
    sampleParserRefMap _ sampleStateP _ rfl⟩

/-! ## The names of the references to the locals of a callee -/

theorem Substitutions.rewritesPaths_append (self : Substitutions) :
    ∀ (ps qs : List IR.Path) (res res1 res2 : Resolution) (xs ys : List Expression),
    self.rewritesPaths ps res xs res1 → self.rewritesPaths qs res1 ys res2 →
    self.rewritesPaths (ps ++ qs) res (xs ++ ys) res2 := by
  intro ps
  induction ps with
  | nil =>
    intro qs res res1 res2 xs ys h1 h2
    obtain ⟨hx, hr⟩ := h1
    subst hx
    subst hr
    exact h2
  | cons p ps ih =>
    intro qs res res1 res2 xs ys h1 h2
    obtain ⟨x, rest, r, hx, hp, hrest⟩ := h1
    subst hx
    exact ⟨x, rest ++ ys, r, rfl, hp, ih qs r res1 res2 rest ys hrest h2⟩

theorem Substitutions.tracesPaths_nil (self : Substitutions) (res : Resolution) :
    self.tracesPaths [] res [] res :=
  ⟨[], ⟨rfl, rfl⟩, rfl⟩

theorem Substitutions.tracesPaths_append (self : Substitutions) (ps qs ps1 qs1 : List IR.Path)
    (res res1 res2 : Resolution)
    (h1 : self.tracesPaths ps res ps1 res1) (h2 : self.tracesPaths qs res1 qs1 res2) :
    self.tracesPaths (ps ++ qs) res (ps1 ++ qs1) res2 := by
  obtain ⟨xs, hx, hp⟩ := h1
  obtain ⟨ys, hy, hq⟩ := h2
  exact ⟨xs ++ ys, Substitutions.rewritesPaths_append self ps qs res res1 res2 xs ys hx hy,
    by rw [hp, hq, List.flatMap_append]⟩

mutual
/-- The transform on an expression rewrites its path expressions one after the other. -/
theorem Substitutions.visitExpression_paths (self : Substitutions) :
    ∀ (e e1 : Expression) (res res1 : Resolution),
    self.visitExpression e res = some (e1, res1) →
    self.tracesPaths e.paths res e1.paths res1
  | .pathExpression path, e1, res, res1, h => by
    simp only [Substitutions.visitExpression] at h
    exact ⟨[e1], ⟨e1, [], res1, rfl, h, rfl, rfl⟩, by simp [Expression.paths]⟩
  | .constant v, e1, res, res1, h => by
    simp only [Substitutions.visitExpression, Option.some.injEq, Prod.mk.injEq] at h
    obtain ⟨h1, h2⟩ := h
    subst h1
    subst h2
    exact Substitutions.tracesPaths_nil self res
  | .stringLiteral v, e1, res, res1, h => by
    simp only [Substitutions.visitExpression, Option.some.injEq, Prod.mk.injEq] at h
    obtain ⟨h1, h2⟩ := h
    subst h1
    subst h2
    exact Substitutions.tracesPaths_nil self res
  | .typeNameExpression v, e1, res, res1, h => by
    simp only [Substitutions.visitExpression, Option.some.injEq, Prod.mk.injEq] at h
    obtain ⟨h1, h2⟩ := h
    subst h1
    subst h2
    exact Substitutions.tracesPaths_nil self res
  | .member e m, e1, res, res1, h => by
    simp only [Substitutions.visitExpression] at h
    split at h
    · cases h
    · rename_i a r ha
      cases h
      exact Substitutions.visitExpression_paths self e a res _ ha
  | .arrayIndex l r, e1, res, res1, h => by
    simp only [Substitutions.visitExpression] at h
    split at h
    · cases h
    · rename_i a ra ha
      split at h
      · cases h
      · rename_i b rb hb
        cases h
        exact Substitutions.tracesPaths_append self _ _ _ _ _ _ _
          (Substitutions.visitExpression_paths self l a res ra ha)
          (Substitutions.visitExpression_paths self r b ra _ hb)
  | .slice x y z, e1, res, res1, h => by
    simp only [Substitutions.visitExpression] at h
    split at h
    · cases h
    · rename_i a ra ha
      split at h
      · cases h
      · rename_i b rb hb
        split at h
        · cases h
        · rename_i c rc hc
          cases h
          exact Substitutions.tracesPaths_append self _ _ _ _ _ _ _
            (Substitutions.visitExpression_paths self x a res ra ha)
            (Substitutions.tracesPaths_append self _ _ _ _ _ _ _
              (Substitutions.visitExpression_paths self y b ra rb hb)
              (Substitutions.visitExpression_paths self z c rb _ hc))
  | .binary op l r, e1, res, res1, h => by
    simp only [Substitutions.visitExpression] at h
    split at h
    · cases h
    · rename_i a ra ha
      split at h
      · cases h
      · rename_i b rb hb
        cases h
        exact Substitutions.tracesPaths_append self _ _ _ _ _ _ _
          (Substitutions.visitExpression_paths self l a res ra ha)
          (Substitutions.visitExpression_paths self r b ra _ hb)
  | .unary op e, e1, res, res1, h => by
    simp only [Substitutions.visitExpression] at h
    split at h
    · cases h
    · rename_i a r ha
      cases h
      exact Substitutions.visitExpression_paths self e a res _ ha
  | .mux x y z, e1, res, res1, h => by
    simp only [Substitutions.visitExpression] at h
    split at h
    · cases h
    · rename_i a ra ha
      split at h
      · cases h
      · rename_i b rb hb
        split at h
        · cases h
        · rename_i c rc hc
          cases h
          exact Substitutions.tracesPaths_append self _ _ _ _ _ _ _
            (Substitutions.visitExpression_paths self x a res ra ha)
            (Substitutions.tracesPaths_append self _ _ _ _ _ _ _
              (Substitutions.visitExpression_paths self y b ra rb hb)
              (Substitutions.visitExpression_paths self z c rb _ hc))
  | .listExpression cs, e1, res, res1, h => by
    simp only [Substitutions.visitExpression] at h
    split at h
    · cases h
    · rename_i a r ha
      cases h
      exact Substitutions.visitExpressions_paths self cs a res _ ha
  | .methodCallExpression m as, e1, res, res1, h => by
    simp only [Substitutions.visitExpression] at h
    split at h
    · cases h
    · rename_i a ra ha
      split at h
      · cases h
      · rename_i b rb hb
        cases h
        exact Substitutions.tracesPaths_append self _ _ _ _ _ _ _
          (Substitutions.visitExpression_paths self m a res ra ha)
          (Substitutions.visitExpressions_paths self as b ra _ hb)
/-- The transform on a vector of expressions rewrites its path expressions one after the
other. -/
theorem Substitutions.visitExpressions_paths (self : Substitutions) :
    ∀ (es es1 : List Expression) (res res1 : Resolution),
    Substitutions.visitExpression.visitExpressions self es res = some (es1, res1) →
    self.tracesPaths (Expression.paths.pathsList es) res (Expression.paths.pathsList es1) res1
  | [], es1, res, res1, h => by
    simp only [Substitutions.visitExpression.visitExpressions, Option.some.injEq,
      Prod.mk.injEq] at h
    obtain ⟨h1, h2⟩ := h
    subst h1
    subst h2
    exact Substitutions.tracesPaths_nil self res
  | e :: es, es1, res, res1, h => by
    simp only [Substitutions.visitExpression.visitExpressions] at h
    split at h
    · cases h
    · rename_i a ra ha
      split at h
      · cases h
      · rename_i b rb hb
        cases h
        exact Substitutions.tracesPaths_append self _ _ _ _ _ _ _
          (Substitutions.visitExpression_paths self e a res ra ha)
          (Substitutions.visitExpressions_paths self es b ra _ hb)
end

theorem Substitutions.postorder_Declaration_Variable_initializer (self : Substitutions)
    (v r : Declaration_Variable) (h : self.postorder_Declaration_Variable v = some r) :
    r.initializer = v.initializer ∧ r.decl = v.decl := by
  simp only [Substitutions.postorder_Declaration_Variable, Option.bind_eq_bind,
    Option.pure_def, Option.bind_eq_some] at h
  obtain ⟨_, _, _, _, hr⟩ := h
  cases hr
  exact ⟨rfl, rfl⟩

/-- The transform on a variable declaration rewrites the path expressions of its
initializer. -/
theorem Substitutions.visitDeclaration_Variable_paths (self : Substitutions)
    (d d1 : Declaration_Variable) (res res1 : Resolution)
    (h : self.visitDeclaration_Variable d res = some (d1, res1)) :
    self.tracesPaths (Statement.declarationVariable d).paths res
      (Statement.declarationVariable d1).paths res1 := by
  unfold Substitutions.visitDeclaration_Variable at h
  cases hi : d.initializer with
  | none =>
    rw [hi] at h
    simp only [Option.map_eq_some', Prod.mk.injEq] at h
    obtain ⟨r, hr, h1, h2⟩ := h
    subst h1
    subst h2
    have := (Substitutions.postorder_Declaration_Variable_initializer self _ _ hr).1
    simp only [hi] at this
    simp only [Statement.paths, hi, this]
    exact Substitutions.tracesPaths_nil self res
  | some e =>
    rw [hi] at h
    simp only at h
    split at h
    · cases h
    · rename_i e1 r1 he
      simp only [Option.map_eq_some', Prod.mk.injEq] at h
      obtain ⟨r, hr, h1, h2⟩ := h
      subst h1
      subst h2
      have := (Substitutions.postorder_Declaration_Variable_initializer self _ _ hr).1
      simp only at this
      simp only [Statement.paths, hi, this]
      exact Substitutions.visitExpression_paths self e e1 res _ he

theorem Substitutions.visitStatement_assignment (self : Substitutions) (l r : Expression)
    (res : Resolution) :
    self.visitStatement (.assignmentStatement l r) res =
      match self.visitExpression l res with
      | none => none
      | some (l1, res1) =>
        match self.visitExpression r res1 with
        | none => none
        | some (r1, res2) => some (.assignmentStatement l1 r1, res2) := rfl

theorem Substitutions.visitStatement_methodCall (self : Substitutions)
    (call : MethodCallStatement) (res : Resolution) :
    self.visitStatement (.methodCallStatement call) res =
      match self.visitExpression call.method res with
      | none => none
      | some (m1, res1) =>
        match Substitutions.visitExpression.visitExpressions self call.arguments res1 with
        | none => none
        | some (as1, res2) =>
          some (.methodCallStatement (MethodCallStatement.mk none m1 as1), res2) := rfl

theorem Substitutions.visitStatement_block (self : Substitutions) (annos : Annotations)
    (components : List Statement) (res : Resolution) :
    self.visitStatement (.blockStatement annos components) res =
      match Substitutions.visitStatement.visitStatements self components res with
      | none => none
      | some (cs1, res1) => some (.blockStatement annos cs1, res1) := rfl

theorem Substitutions.visitStatement_if (self : Substitutions) (c : Expression)
    (t : Statement) (f : Option Statement) (res : Resolution) :
    self.visitStatement (.ifStatement c t f) res =
      match self.visitExpression c res with
      | none => none
      | some (c1, res1) =>
        match self.visitStatement t res1 with
        | none => none
        | some (t1, res2) =>
          match f with
          | none => some (.ifStatement c1 t1 none, res2)
          | some s =>
            match self.visitStatement s res2 with
            | none => none
            | some (s1, res3) => some (.ifStatement c1 t1 (some s1), res3) := by
  cases f <;> (delta Substitutions.visitStatement; rfl)

theorem Substitutions.visitStatement_declaration (self : Substitutions)
    (d : Declaration_Variable) (res : Resolution) :
    self.visitStatement (.declarationVariable d) res =
      (self.visitDeclaration_Variable d res).map
        fun r => (Statement.declarationVariable r.1, r.2) := rfl

theorem Substitutions.visitStatement_empty (self : Substitutions) (res : Resolution) :
    self.visitStatement .emptyStatement res = some (.emptyStatement, res) := rfl

theorem Substitutions.visitStatements_nil (self : Substitutions) (res : Resolution) :
    Substitutions.visitStatement.visitStatements self [] res = some ([], res) := rfl

theorem Substitutions.visitStatements_cons (self : Substitutions) (s : Statement)
    (ss : List Statement) (res : Resolution) :
    Substitutions.visitStatement.visitStatements self (s :: ss) res =
      match self.visitStatement s res with
      | none => none
      | some (s1, res1) =>
        match Substitutions.visitStatement.visitStatements self ss res1 with
        | none => none
        | some (ss1, res2) => some (s1 :: ss1, res2) := rfl

mutual
/-- The transform on a statement rewrites its path expressions one after the other. -/
theorem Substitutions.visitStatement_paths (self : Substitutions) :
    ∀ (s s1 : Statement) (res res1 : Resolution),
    self.visitStatement s res = some (s1, res1) →
    self.tracesPaths s.paths res s1.paths res1
  | .assignmentStatement l r, s1, res, res1, h => by
    rw [Substitutions.visitStatement_assignment] at h
    split at h
    · cases h
    · rename_i a ra ha
      split at h
      · cases h
      · rename_i b rb hb
        cases h
        exact Substitutions.tracesPaths_append self _ _ _ _ _ _ _
          (Substitutions.visitExpression_paths self l a res ra ha)
          (Substitutions.visitExpression_paths self r b ra _ hb)
  | .methodCallStatement call, s1, res, res1, h => by
    rw [Substitutions.visitStatement_methodCall] at h
    split at h
    · cases h
    · rename_i a ra ha
      split at h
      · cases h
      · rename_i b rb hb
        cases h
        exact Substitutions.tracesPaths_append self _ _ _ _ _ _ _
          (Substitutions.visitExpression_paths self call.method a res ra ha)
          (Substitutions.visitExpressions_paths self call.arguments b ra _ hb)
  | .blockStatement annos components, s1, res, res1, h => by
    rw [Substitutions.visitStatement_block] at h
    split at h
    · cases h
    · rename_i a ra ha
      cases h
      exact Substitutions.visitStatements_paths self components a res _ ha
  | .ifStatement c t f, s1, res, res1, h => by
    rw [Substitutions.visitStatement_if] at h
    split at h
    · cases h
    · rename_i a ra ha
      split at h
      · cases h
      · rename_i b rb hb
        have hc := Substitutions.visitExpression_paths self c a res ra ha
        have ht := Substitutions.visitStatement_paths self t b ra rb hb
        cases f with
        | none =>
          simp only [Option.some.injEq, Prod.mk.injEq] at h
          obtain ⟨h1, h2⟩ := h
          subst h1
          subst h2
          have := Substitutions.tracesPaths_append self _ _ _ _ _ _ _ hc
            (Substitutions.tracesPaths_append self _ _ _ _ _ _ _ ht
              (Substitutions.tracesPaths_nil self rb))
          exact this
        | some s =>
          simp only at h
          split at h
          · cases h
          · rename_i d rd hd
            cases h
            exact Substitutions.tracesPaths_append self _ _ _ _ _ _ _ hc
              (Substitutions.tracesPaths_append self _ _ _ _ _ _ _ ht
                (Substitutions.visitStatement_paths self s d rb _ hd))
  | .declarationVariable d, s1, res, res1, h => by
    rw [Substitutions.visitStatement_declaration] at h
    simp only [Option.map_eq_some'] at h
    obtain ⟨r, hr, h1⟩ := h
    cases h1
    exact Substitutions.visitDeclaration_Variable_paths self d r.1 res r.2 hr
  | .emptyStatement, s1, res, res1, h => by
    rw [Substitutions.visitStatement_empty] at h
    simp only [Option.some.injEq, Prod.mk.injEq] at h
    obtain ⟨h1, h2⟩ := h
    subst h1
    subst h2
    exact Substitutions.tracesPaths_nil self res
/-- The transform on a vector of statements rewrites its path expressions one after the
other. -/
theorem Substitutions.visitStatements_paths (self : Substitutions) :
    ∀ (ss ss1 : List Statement) (res res1 : Resolution),
    Substitutions.visitStatement.visitStatements self ss res = some (ss1, res1) →
    self.tracesPaths (Statement.paths.pathsList ss) res (Statement.paths.pathsList ss1) res1
  | [], ss1, res, res1, h => by
    rw [Substitutions.visitStatements_nil] at h
    simp only [Option.some.injEq, Prod.mk.injEq] at h
    obtain ⟨h1, h2⟩ := h
    subst h1
    subst h2
    exact Substitutions.tracesPaths_nil self res
  | s :: ss, ss1, res, res1, h => by
    rw [Substitutions.visitStatements_cons] at h
    split at h
    · cases h
    · rename_i a ra ha
      split at h
      · cases h
      · rename_i b rb hb
        cases h
        exact Substitutions.tracesPaths_append self _ _ _ _ _ _ _
          (Substitutions.visitStatement_paths self s a res ra ha)
          (Substitutions.visitStatements_paths self ss b ra _ hb)
end

/-! ## The batches and the schedule of the work list -/

/-- C31: a call of `next` on a non-empty schedule returns a batch, and in every batch
that `next` returns, for two items added at the positions `i < j`, the callee of the
item at `j` is not the caller of the item at `i`: no container that is rewritten as a
caller earlier in the batch is inlined as a callee later in the same batch. -/
theorem InlineWorkList.batch_positions_conflict_free (self : InlineWorkList) :
    (self.toInline ≠ [] → ∃ batch rest, self.next = (some batch, rest)) ∧
    ∀ (batch : InlineSummary) (rest : InlineWorkList), self.next = (some batch, rest) →
      ∀ (i j : Nat) (u v : InlineWorkItem), i < j →
        batch.items[i]? = some u → batch.items[j]? = some v → v.callee ≠ u.caller := by
  constructor
  · intro he
    obtain ⟨b, r, hn, _⟩ := InlineWorkList.next_spec self he
    exact ⟨b, r, hn⟩
  · intro batch rest h i j u v hij hu hv
    by_cases he : self.toInline = []
    · rw [InlineWorkList.next_none self he] at h
      simp at h
    · obtain ⟨b, r, hn, _, _, _, hpw, _⟩ := InlineWorkList.next_spec self he
      rw [hn] at h
      obtain ⟨hb, _⟩ := Prod.mk.inj h
      cases hb
      obtain ⟨hi, hui⟩ := List.getElem?_eq_some.mp hu
      obtain ⟨hj, hvj⟩ := List.getElem?_eq_some.mp hv
      have := List.pairwise_iff_getElem.mp hpw i j hi hj hij
      rw [hui, hvj] at this
      exact this

/-- The work list where the control 1 holds two instances of the control 2: both items
are in the first batch, and the callee 2 of the second is not the caller 1 of the
first. -/
theorem InlineWorkList.batch_positions_conflict_free_witness :
    (sampleTwoInstances.analyze sampleSort true).1.next
      = (some (InlineSummary.mk
          [InlineWorkItem.mk 1 2 10 [100], InlineWorkItem.mk 1 2 11 [101]]),
        InlineWorkList.mk sampleTwoInstances.inlineMap []) ∧
    (InlineWorkItem.mk 1 2 11 [101]).callee ≠ (InlineWorkItem.mk 1 2 10 [100]).caller :=
  ⟨by decide,
    (InlineWorkList.batch_positions_conflict_free
      (sampleTwoInstances.analyze sampleSort true).1).2
      (InlineSummary.mk [InlineWorkItem.mk 1 2 10 [100], InlineWorkItem.mk 1 2 11 [101]])
      (InlineWorkList.mk sampleTwoInstances.inlineMap []) (by decide) 0 1 _ _ (by decide)
      rfl rfl⟩

theorem InlineWorkList.addsEdge_eq (allow : Bool) (inl : InlineWorkItem) :
    InlineWorkList.addsEdge allow inl =
      (decide (inl.invocations.length = 1) ||
        (allow && decide (1 < inl.invocations.length))) := by
  rcases hinv : inl.invocations with _ | ⟨a, _ | ⟨b, t⟩⟩ <;>
    cases allow <;>
    simp [InlineWorkList.addsEdge, InlineWorkList.analyzeEntry, hinv, CallGraph.calls]

/-- C32, as stated, fails: with the caller 1 in the call graph through its instance of 2,
the instance of 3 without invocation and, multiple calls not being allowed, the instance
of 4 with two invocations are scheduled, though no edge was added for them. -/
theorem InlineWorkList.scheduled_without_edge :
    (sampleUncalled.callGraph false).1 = [(1, 2)] ∧
    InlineWorkItem.mk 1 3 11 [] ∈ (sampleUncalled.analyze sampleSort false).1.toInline ∧
    (InlineWorkItem.mk 1 3 11 []).invocations.length = 0 ∧
    InlineWorkList.addsEdge false (InlineWorkItem.mk 1 3 11 []) = false ∧
    InlineWorkItem.mk 1 4 12 [101, 102]
      ∈ (sampleUncalled.analyze sampleSort false).1.toInline ∧
    (InlineWorkItem.mk 1 4 12 [101, 102]).invocations.length = 2 ∧
    InlineWorkList.addsEdge false (InlineWorkItem.mk 1 4 12 [101, 102]) = false := by
  decide

/-- C32, amended: after `analyze` the schedule holds exactly the entries of `inlineMap`
whose caller the sort of the call graph lists.  The first loop adds the edge of an entry
exactly when the entry has at least one invocation, and exactly one when multiple calls
are not allowed, and the edges of the graph are those of such entries.  So an entry for
which an edge was added has these invocations; an entry for which none was added is
scheduled all the same when the sort lists its caller, and when the sort lists only
containers of the graph its caller is then the caller or the callee of an entry for which
an edge was added. -/
theorem InlineWorkList.scheduled_items (sort : CallGraph → List Nat)
    (inlineMap : List InlineWorkItem) (allow : Bool) :
    (∀ item, item ∈ ((InlineWorkList.mk inlineMap []).analyze sort allow).1.toInline ↔
      item ∈ inlineMap ∧
        item.caller ∈ sort ((InlineWorkList.mk inlineMap []).callGraph allow).1) ∧
    (∀ item, InlineWorkList.addsEdge allow item = true ↔
      (1 ≤ item.invocations.length ∧ (allow = false → item.invocations.length = 1))) ∧
    (∀ edge, edge ∈ ((InlineWorkList.mk inlineMap []).callGraph allow).1 ↔
      ∃ item ∈ inlineMap, InlineWorkList.addsEdge allow item = true ∧
        edge = (item.caller, item.callee)) ∧
    ((∀ c ∈ sort ((InlineWorkList.mk inlineMap []).callGraph allow).1,
        ∃ e ∈ ((InlineWorkList.mk inlineMap []).callGraph allow).1, e.1 = c ∨ e.2 = c) →
      ∀ item ∈ ((InlineWorkList.mk inlineMap []).analyze sort allow).1.toInline,
        ∃ other ∈ inlineMap, InlineWorkList.addsEdge allow other = true ∧
          (other.caller = item.caller ∨ other.callee = item.caller)) := by
  have h1 : ∀ item, item ∈ ((InlineWorkList.mk inlineMap []).analyze sort allow).1.toInline ↔
      item ∈ inlineMap ∧
        item.caller ∈ sort ((InlineWorkList.mk inlineMap []).callGraph allow).1 := by
    intro item
    rw [← List.mem_reverse, InlineWorkList.analyze_schedule, List.mem_flatMap]
    constructor
    · rintro ⟨c, hc, hitem⟩
      simp only [List.mem_filter, beq_iff_eq] at hitem
      exact ⟨hitem.1, by rw [hitem.2]; exact hc⟩
    · rintro ⟨hitem, hc⟩
      exact ⟨item.caller, hc, by simp [List.mem_filter, hitem]⟩
  have h3 : ∀ edge, edge ∈ ((InlineWorkList.mk inlineMap []).callGraph allow).1 ↔
      ∃ item ∈ inlineMap, InlineWorkList.addsEdge allow item = true ∧
        edge = (item.caller, item.callee) := by
    intro edge
    simp only [InlineWorkList.callGraph, InlineWorkList.foldl_analyzeEntry, List.nil_append,
      List.mem_map, List.mem_filter, ← InlineWorkList.addsEdge_eq]
    constructor
    · rintro ⟨item, ⟨hitem, hadd⟩, he⟩
      exact ⟨item, hitem, hadd, he.symm⟩
    · rintro ⟨item, hitem, hadd, he⟩
      exact ⟨item, ⟨hitem, hadd⟩, he.symm⟩
  refine ⟨h1, ?_, h3, ?_⟩
  · intro item
    rw [InlineWorkList.addsEdge_eq]
    rcases hinv : item.invocations with _ | ⟨a, _ | ⟨b, t⟩⟩ <;> cases allow <;> simp
  · intro hsort item hitem
    obtain ⟨e, he, hc⟩ := hsort item.caller ((h1 item).mp hitem).2
    obtain ⟨other, hother, hadd, heq⟩ := (h3 e).mp he
    subst heq
    exact ⟨other, hother, hadd, hc⟩

/-- The chain where 1 calls 2 and 2 calls 3: both entries are scheduled, and an edge
was added for each. -/
theorem InlineWorkList.scheduled_items_witness :
    (InlineWorkItem.mk 1 2 10 [100]
      ∈ ((InlineWorkList.mk sampleChain.inlineMap []).analyze sampleSort true).1.toInline ↔
      InlineWorkItem.mk 1 2 10 [100] ∈ sampleChain.inlineMap ∧
        (InlineWorkItem.mk 1 2 10 [100]).caller
          ∈ sampleSort ((InlineWorkList.mk sampleChain.inlineMap []).callGraph true).1) ∧
    InlineWorkList.addsEdge true (InlineWorkItem.mk 1 2 10 [100]) = true :=
  ⟨(InlineWorkList.scheduled_items sampleSort sampleChain.inlineMap true).1 _, by decide⟩

/-- The transform keeps the identity of a local declaration. -/
theorem Substitutions.visitDeclaration_decl (self : Substitutions) (d d1 : Declaration)
    (res res1 : Resolution) (h : self.visitDeclaration d res = some (d1, res1)) :
    d1.decl = d.decl := by
  cases d with
  | p4Table t =>
    simp only [Substitutions.visitDeclaration] at h
    split at h
    · cases h
    · simp only [Option.map_eq_some'] at h
      obtain ⟨r, hr, hd⟩ := h
      cases hd
      simp only [Substitutions.postorder_P4Table, Option.bind_eq_bind, Option.pure_def,
        Option.bind_eq_some] at hr
      obtain ⟨_, _, _, _, hr⟩ := hr
      cases hr
      rfl
  | p4Action a =>
    simp only [Substitutions.visitDeclaration] at h
    split at h
    · cases h
    · simp only [Option.map_eq_some'] at h
      obtain ⟨r, hr, hd⟩ := h
      cases hd
      simp only [Substitutions.postorder_P4Action, Option.bind_eq_bind, Option.pure_def,
        Option.bind_eq_some] at hr
      obtain ⟨_, _, _, _, hr⟩ := hr
      cases hr
      rfl
  | declarationInstance i =>
    simp only [Substitutions.visitDeclaration] at h
    split at h
    · cases h
    · simp only [Option.map_eq_some'] at h
      obtain ⟨r, hr, hd⟩ := h
      cases hd
      simp only [Substitutions.postorder_Declaration_Instance, Option.bind_eq_bind,
        Option.pure_def, Option.bind_eq_some] at hr
      obtain ⟨_, _, _, _, hr⟩ := hr
      cases hr
      rfl
  | declarationVariable v =>
    simp only [Substitutions.visitDeclaration, Option.map_eq_some'] at h
    obtain ⟨r, hr, hd⟩ := h
    cases hd
    unfold Substitutions.visitDeclaration_Variable at hr
    split at hr
    · simp only [Option.map_eq_some'] at hr
      obtain ⟨q, hq, hd⟩ := hr
      rw [← hd]
      exact (Substitutions.postorder_Declaration_Variable_initializer self _ _ hq).2
    · split at hr
      · cases hr
      · simp only [Option.map_eq_some'] at hr
        obtain ⟨q, hq, hd⟩ := hr
        rw [← hd]
        exact (Substitutions.postorder_Declaration_Variable_initializer self _ _ hq).2

/-- The transform gives each local declaration, in order, the name that the rename map
holds for it, and keeps its identity. -/
theorem Substitutions.visitDeclarations_locals (self : Substitutions) :
    ∀ (ds ds1 : List Declaration) (res res1 : Resolution),
    self.visitDeclarations ds res = some (ds1, res1) →
    List.Forall₂ (fun d d1 => d1.decl = d.decl ∧
      self.renameMap.getName d.decl = some d1.name) ds ds1 := by
  intro ds
  induction ds with
  | nil =>
    intro ds1 res res1 h
    simp only [Substitutions.visitDeclarations, Option.some.injEq, Prod.mk.injEq] at h
    rw [← h.1]
    exact List.Forall₂.nil
  | cons d ds ih =>
    intro ds1 res res1 h
    simp only [Substitutions.visitDeclarations] at h
    split at h
    · cases h
    · rename_i d1 res2 hd
      split at h
      · cases h
      · rename_i ds2 res3 hds
        cases h
        exact List.Forall₂.cons
          ⟨Substitutions.visitDeclaration_decl self d d1 res res2 hd,
            Substitutions.visitDeclaration_name self d d1 res res2 hd⟩
          (ih ds2 res2 _ hds)

/-- The clone of a control: its locals and its body are those of the control after the
transform, the locals first. -/
theorem PerInstanceSubstitutions.rename_P4Control_parts (self : PerInstanceSubstitutions)
    (refMap refMap1 : ReferenceMap) (node clone : P4Control)
    (h : self.rename_P4Control refMap node = some (clone, refMap1)) :
    ∃ res1 res2,
      self.substitutions.visitDeclarations node.controlLocals refMap.resolution
        = some (clone.controlLocals, res1) ∧
      Substitutions.visitStatement.visitStatements self.substitutions node.body res1
        = some (clone.body, res2) := by
  unfold PerInstanceSubstitutions.rename_P4Control at h
  simp only [Option.map_eq_some', Prod.mk.injEq] at h
  obtain ⟨v, hv, h1, _⟩ := h
  unfold Substitutions.visitP4Control at hv
  split at hv
  · cases hv
  · rename_i locals res1 hlocals
    split at hv
    · cases hv
    · rename_i body res2 hbody
      cases hv
      subst h1
      exact ⟨res1, res2, hlocals, hbody⟩

/-- A receivable member has a receivable base, a type that is not a method type, and a
base with a type. -/
theorem FindLocationSets.receivable_member (storageMap : StorageMap) (e : Expression)
    (m : cstring) (h : FindLocationSets.receivable storageMap (.member e m) = true) :
    FindLocationSets.receivable storageMap e = true ∧
    ∃ t tb, storageMap.typeMap.exprType (.member e m) = some t ∧ t ≠ Type_.method ∧
      storageMap.typeMap.exprType e = some tb := by
  simp only [FindLocationSets.receivable, Bool.and_eq_true] at h
  obtain ⟨h1, h2⟩ := h
  refine ⟨h1, ?_⟩
  cases ht : storageMap.typeMap.exprType (.member e m) with
  | none => rw [ht] at h2; cases h2
  | some t =>
    rw [ht] at h2
    cases hb : storageMap.typeMap.exprType e with
    | none =>
      rw [hb] at h2
      cases t <;> simp at h2
    | some tb =>
      refine ⟨t, tb, rfl, ?_, rfl⟩
      intro hm
      rw [hm] at h2
      simp at h2

mutual
/-- The visit of a receivable expression leaves a location set for it: `get` does not
fail. -/
theorem FindLocationSets.visit_receivable (storageMap : StorageMap) :
    ∀ (e : Expression), FindLocationSets.receivable storageMap e = true →
    ∃ ls, FindLocationSets.visit storageMap e = some (some ls)
  | .pathExpression path, h => by
    simp only [FindLocationSets.receivable, Option.isSome_iff_exists] at h
    obtain ⟨d, hd⟩ := h
    simp only [FindLocationSets.visit, hd]
    cases storageMap.getStorage d with
    | none => exact ⟨_, rfl⟩
    | some s => exact ⟨_, rfl⟩
  | .constant _, _ => ⟨_, rfl⟩
  | .stringLiteral _, _ => ⟨_, rfl⟩
  | .typeNameExpression _, _ => ⟨_, rfl⟩
  | .methodCallExpression _ _, _ => ⟨_, rfl⟩
  | .member e m, h => by
    obtain ⟨he, t, tb, ht, hm, hb⟩ := FindLocationSets.receivable_member storageMap e m h
    obtain ⟨S, hS⟩ := FindLocationSets.visit_receivable storageMap e he
    exact ⟨_, FindLocationSets.visit_member storageMap e m t tb S ht hm hb hS⟩
  | .arrayIndex l r, h => by
    simp only [FindLocationSets.receivable, Bool.and_eq_true] at h
    obtain ⟨S, hS⟩ := FindLocationSets.visit_receivable storageMap l h.1
    obtain ⟨R, hR⟩ := FindLocationSets.visit_receivable storageMap r h.2
    cases r <;> exact ⟨_, by rw [FindLocationSets.visit, hS, hR]⟩
  | .slice e0 _ _, h => by
    simp only [FindLocationSets.receivable] at h
    obtain ⟨S, hS⟩ := FindLocationSets.visit_receivable storageMap e0 h
    simp only [FindLocationSets.visit, hS]
    exact ⟨_, rfl⟩
  | .binary _ l r, h => by
    simp only [FindLocationSets.receivable, Bool.and_eq_true] at h
    obtain ⟨S, hS⟩ := FindLocationSets.visit_receivable storageMap l h.1
    obtain ⟨R, hR⟩ := FindLocationSets.visit_receivable storageMap r h.2
    simp only [FindLocationSets.visit, hS, hR]
    exact ⟨_, rfl⟩
  | .unary _ e, h => by
    simp only [FindLocationSets.receivable] at h
    obtain ⟨S, hS⟩ := FindLocationSets.visit_receivable storageMap e h
    simp only [FindLocationSets.visit, hS]
    exact ⟨_, rfl⟩
  | .mux a b c, h => by
    simp only [FindLocationSets.receivable, Bool.and_eq_true] at h
    obtain ⟨A, hA⟩ := FindLocationSets.visit_receivable storageMap a h.1
    obtain ⟨B, hB⟩ := FindLocationSets.visit_receivable storageMap b h.2.1
    obtain ⟨C, hC⟩ := FindLocationSets.visit_receivable storageMap c h.2.2
    simp only [FindLocationSets.visit, hA, hB, hC]
    exact ⟨_, rfl⟩
  | .listExpression cs, h => by
    simp only [FindLocationSets.receivable] at h
    obtain ⟨sets, hs⟩ := FindLocationSets.visitList_receivable storageMap cs h
    simp only [FindLocationSets.visit, hs]
    exact ⟨_, rfl⟩
/-- The visit of receivable components leaves a location set for each. -/
theorem FindLocationSets.visitList_receivable (storageMap : StorageMap) :
    ∀ (cs : List Expression),
    FindLocationSets.receivable.receivableList storageMap cs = true →
    ∃ sets, FindLocationSets.visit.visitList storageMap cs = some sets
  | [], _ => ⟨[], rfl⟩
  | c :: cs, h => by
    simp only [FindLocationSets.receivable.receivableList, Bool.and_eq_true] at h
    obtain ⟨S, hS⟩ := FindLocationSets.visit_receivable storageMap c h.1
    obtain ⟨sets, hs⟩ := FindLocationSets.visitList_receivable storageMap cs h.2
    simp only [FindLocationSets.visit.visitList, hS, hs]
    exact ⟨_, rfl⟩
end

/-- Whether a local is an inlined instance depends on the instances of the work only. -/
theorem GeneralInliner.isInlinedInstance_congr (w w1 : Work)
    (h : w1.declToCallee = w.declToCallee) (d : Declaration) :
    GeneralInliner.isInlinedInstance w1 d = GeneralInliner.isInlinedInstance w d := by
  cases d <;> simp only [GeneralInliner.isInlinedInstance, h]

/-- The inlining of one instance of a control puts the temporaries and the locals of the
clone in the place of the instance. -/
theorem GeneralInliner.prepareControlInstance_replacement (self : GeneralInliner)
    (p p1 : GeneralInliner.Preparation) (inst : Declaration_Instance) (callee : P4Control)
    (h : self.prepareControlInstance p inst callee = some p1) :
    ∃ piece : List Declaration,
      GeneralInliner.instanceReplacement self p p1 inst callee piece := by
  unfold GeneralInliner.prepareControlInstance at h
  simp only at h
  split at h
  · cases h
  · rename_i cnn0 hcreate
    split at h
    · cases h
    · rename_i set hset
      split at h
      · cases h
      · rename_i b hb
        split at h
        · cases h
        · rename_i clone refMap1 hren
          cases h
          obtain ⟨extra, added, e1, e2, e3, _, e5⟩ :=
            GeneralInliner.bindParameters_shape _ _ _ _ _ _ hb
          obtain ⟨extra1, added1, t1, t2, t3, t4, t5, t6, t7, t8⟩ :=
            GeneralInliner.bindParameters_temporaries _ _ _ _ _ _ hb
          have hxa : extra = extra1 := by
            rw [e1] at t1
            exact List.append_cancel_left t1
          subst hxa
          have hta : added = added1 := by
            rw [e3] at t2
            exact List.append_cancel_left t2
          subst hta
          obtain ⟨res1, _, hlocals, _⟩ :=
            PerInstanceSubstitutions.rename_P4Control_parts _ _ _ _ _ hren
          have hcorr := Substitutions.visitDeclarations_locals _ _ _ _ _ hlocals
          rw [t6] at hren
          refine ⟨added ++ clone.controlLocals, cnn0, set, b.substs, extra, added, clone,
            hcreate, hset, rfl, t8, t7, e1, e2, ?_, t3, t4, t5, hren, hcorr, rfl, ?_⟩
          · intro q hq hdir hn
            obtain ⟨m, arg, g1, g2, g3⟩ := e5 q hq hdir hn
            cases hc : p.work.uniqueCaller inst.decl with
            | none => rw [hc] at g1; cases g1
            | some call =>
              rw [hc] at g1
              simp only [Option.map_some', Option.some.injEq] at g1
              subst g1
              exact ⟨call, arg, rfl, g2, g3⟩
          · simp only
            rw [e3, List.append_assoc]

/-- The loop over the locals of the caller puts a piece in the place of each local, one
after the other, and appends the pieces to the locals. -/
theorem GeneralInliner.prepareControlLocals_replaces (self : GeneralInliner) :
    ∀ (locals : List Declaration) (p p1 : GeneralInliner.Preparation),
    self.prepareControlLocals locals p = some p1 →
    ∃ pieces : List (List Declaration),
      GeneralInliner.replacesLocals self locals p p1 pieces ∧
      p1.locals = p.locals ++ pieces.flatten := by
  intro locals
  induction locals with
  | nil =>
    intro p p1 h
    simp only [GeneralInliner.prepareControlLocals, Option.some.injEq] at h
    subst h
    exact ⟨[], ⟨rfl, rfl⟩, by simp⟩
  | cons s rest ih =>
    intro p p1 h
    have hkeep :
        GeneralInliner.replacesLocal self p { p with locals := p.locals ++ [s] } s [s] →
        self.prepareControlLocals rest { p with locals := p.locals ++ [s] } = some p1 →
        ∃ pieces : List (List Declaration),
          GeneralInliner.replacesLocals self (s :: rest) p p1 pieces ∧
          p1.locals = p.locals ++ pieces.flatten := by
      intro hs hrest
      obtain ⟨pieces, f1, f2⟩ := ih _ p1 hrest
      refine ⟨[s] :: pieces, ⟨_, [s], pieces, hs, f1, rfl⟩, ?_⟩
      rw [f2]
      simp
    cases s with
    | p4Table t =>
      simp only [GeneralInliner.prepareControlLocals] at h
      exact hkeep ⟨rfl, rfl⟩ h
    | p4Action a =>
      simp only [GeneralInliner.prepareControlLocals] at h
      exact hkeep ⟨rfl, rfl⟩ h
    | declarationVariable v =>
      simp only [GeneralInliner.prepareControlLocals] at h
      exact hkeep ⟨rfl, rfl⟩ h
    | declarationInstance inst =>
      simp only [GeneralInliner.prepareControlLocals] at h
      cases hl : p.work.declToCallee.lookup inst.decl with
      | none =>
        rw [hl] at h
        simp only at h
        apply hkeep _ h
        simp [GeneralInliner.replacesLocal, hl]
      | some container =>
        rw [hl] at h
        cases container with
        | p4Parser _ => cases h
        | p4Control callee =>
          simp only at h
          cases hi : self.prepareControlInstance p inst callee with
          | none => rw [hi] at h; cases h
          | some p2 =>
            rw [hi] at h
            simp only at h
            obtain ⟨piece, hpiece⟩ :=
              GeneralInliner.prepareControlInstance_replacement self p p2 inst callee hi
            obtain ⟨pieces, f1, f2⟩ := ih p2 p1 h
            refine ⟨piece :: pieces, ⟨p2, piece, pieces, ?_, f1, rfl⟩, ?_⟩
            · simp only [GeneralInliner.replacesLocal, hl]
              exact ⟨callee, rfl, hpiece⟩
            · obtain ⟨_, _, _, _, _, _, _, _, _, _, _, _, _, _, _, _, _, _, _, _, hloc⟩ := hpiece
              rw [f2, hloc]
              simp

/-- One step of the loop leaves the instances of the work as they are, and its piece
holds no inlined instance when the locals of the callees are not inlined instances of
the caller. -/
theorem GeneralInliner.replacesLocal_not_inlined (self : GeneralInliner)
    (p p1 : GeneralInliner.Preparation)
    (hcallees : ∀ k callee, (k, IContainer.p4Control callee) ∈ p.work.declToCallee →
      ∀ d ∈ callee.controlLocals, GeneralInliner.isInlinedInstance p.work d = false)
    (s : Declaration) (piece : List Declaration)
    (h : GeneralInliner.replacesLocal self p p1 s piece) :
    p1.work.declToCallee = p.work.declToCallee ∧
    ∀ d ∈ piece, GeneralInliner.isInlinedInstance p.work d = false := by
  have hself : ∀ s : Declaration, GeneralInliner.isInlinedInstance p.work s = false →
      piece = [s] ∧ p1 = { p with locals := p.locals ++ [s] } →
      p1.work.declToCallee = p.work.declToCallee ∧
      ∀ d ∈ piece, GeneralInliner.isInlinedInstance p.work d = false := by
    intro s hs hp
    obtain ⟨h1, h2⟩ := hp
    subst h1
    subst h2
    refine ⟨rfl, ?_⟩
    intro d hd
    rw [List.mem_singleton.mp hd]
    exact hs
  cases s with
  | p4Table t => exact hself (Declaration.p4Table t) rfl h
  | p4Action a => exact hself (Declaration.p4Action a) rfl h
  | declarationVariable v => exact hself (Declaration.declarationVariable v) rfl h
  | declarationInstance inst =>
    simp only [GeneralInliner.replacesLocal] at h
    cases hl : p.work.declToCallee.lookup inst.decl with
    | none =>
      rw [hl] at h
      exact hself _ (by simp [GeneralInliner.isInlinedInstance, hl]) h
    | some container =>
      rw [hl] at h
      simp only at h
      obtain ⟨callee, hc, cnn0, set, substs, extra, temporaries, clone, _, _, hwork, _, _, _,
        _, _, _, _, ht, hr, _, hp, _⟩ := h
      subst hc
      subst hp
      refine ⟨by rw [hwork], ?_⟩
      intro d hd
      rcases List.mem_append.mp hd with hd | hd
      · obtain ⟨i, hi, hget⟩ := List.getElem_of_mem hd
        have hlen := ht.length_eq
        obtain ⟨node, hdecl, _⟩ :=
          (List.forall₂_iff_get.mp ht).2 i (by rw [hlen]; exact hi) hi
        rw [List.get_eq_getElem, hget] at hdecl
        rw [hdecl]
        rfl
      · obtain ⟨res1, _, hlocals, _⟩ :=
          PerInstanceSubstitutions.rename_P4Control_parts _ _ _ _ _ hr
        exact Substitutions.visitDeclarations_isInlinedInstance _ p.work _ _ _ _ hlocals
          (hcallees _ callee (lookup_mem_pair _ _ _ hl)) d hd

/-- The pieces of the loop hold no inlined instance when the locals of the callees are
not inlined instances of the caller. -/
theorem GeneralInliner.replacesLocals_not_inlined (self : GeneralInliner) (work : Work)
    (hcallees : ∀ k callee, (k, IContainer.p4Control callee) ∈ work.declToCallee →
      ∀ d ∈ callee.controlLocals, GeneralInliner.isInlinedInstance work d = false) :
    ∀ (locals : List Declaration) (p p1 : GeneralInliner.Preparation)
      (pieces : List (List Declaration)),
    p.work.declToCallee = work.declToCallee →
    GeneralInliner.replacesLocals self locals p p1 pieces →
    ∀ d ∈ pieces.flatten, GeneralInliner.isInlinedInstance work d = false := by
  intro locals
  induction locals with
  | nil =>
    intro p p1 pieces _ h d hd
    obtain ⟨_, h2⟩ := h
    subst h2
    cases hd
  | cons s rest ih =>
    intro p p1 pieces hw h d hd
    obtain ⟨p2, piece, others, h1, h2, h3⟩ := h
    subst h3
    have hc : ∀ k callee, (k, IContainer.p4Control callee) ∈ p.work.declToCallee →
        ∀ d ∈ callee.controlLocals, GeneralInliner.isInlinedInstance p.work d = false := by
      intro k callee hk d hd
      rw [GeneralInliner.isInlinedInstance_congr work p.work hw]
      exact hcallees k callee (hw ▸ hk) d hd
    obtain ⟨g1, g2⟩ := GeneralInliner.replacesLocal_not_inlined self p p2 hc s piece h1
    rw [List.flatten_cons] at hd
    rcases List.mem_append.mp hd with hd | hd
    · rw [← GeneralInliner.isInlinedInstance_congr work p.work hw]
      exact g2 d hd
    · exact ih p2 p1 others (g1.trans hw) h2 d hd

/-- C23: the locals of a caller control with work after `preorder(IR::P4Control*)`: the
new list is the concatenation of the pieces that the loop over the original list puts,
in order, in the places of the locals, starting from the work of the caller and its
reference map.  A local that is not an inlined instance stands for itself, unchanged.
An inlined instance is replaced by the variables for its apply-parameters that need a
temporary, in the order of the parameters, named by successive calls of `newName`,
followed by the locals of the clone that `rename` with the substitutions stored for the
instance makes of the callee: each has the identity of a local of the callee, in order,
and the name that the rename map of these substitutions holds for it.  The work of the
result holds the substitutions stored in the loop.  When the locals of the callees are
not themselves inlined instances of the caller, no inlined instance is in the new
list. -/
theorem GeneralInliner.caller_locals_after_inlining (self : GeneralInliner)
    (callerToWork : List (Nat × Work)) (refMap : ReferenceMap) (caller : P4Control)
    (workToDo : Work) (result : P4Control × ReferenceMap × Option Work)
    (hwork : callerToWork.lookup caller.decl = some workToDo)
    (h : self.preorder_P4Control callerToWork refMap caller = some result) :
    ∃ (pieces : List (List Declaration)) (p1 : GeneralInliner.Preparation),
      GeneralInliner.replacesLocals self caller.controlLocals
        (GeneralInliner.Preparation.mk workToDo refMap []) p1 pieces ∧
      result.1.controlLocals = pieces.flatten ∧
      result.2.2 = some p1.work ∧
      ((∀ k callee, (k, IContainer.p4Control callee) ∈ workToDo.declToCallee →
          ∀ d ∈ callee.controlLocals,
            GeneralInliner.isInlinedInstance workToDo d = false) →
        ∀ d ∈ result.1.controlLocals,
          GeneralInliner.isInlinedInstance workToDo d = false) := by
  unfold GeneralInliner.preorder_P4Control at h
  rw [hwork] at h
  simp only at h
  split at h
  · cases h
  · rename_i p hp
    split at h
    · cases h
    · cases h
      obtain ⟨pieces, f1, f2⟩ :=
        GeneralInliner.prepareControlLocals_replaces self _ _ _ hp
      simp only [List.nil_append] at f2
      refine ⟨pieces, p, f1, f2, rfl, ?_⟩
      intro hcallees d hd
      simp only at hd
      rw [f2] at hd
      exact GeneralInliner.replacesLocals_not_inlined self workToDo hcallees _ _ _ _ rfl f1
        d hd

/-- The caller `H` with the local `w` and the instance `z` of the control `G`, whose
local `v` is renamed: the new locals are `w` and `z_v__`. -/
theorem GeneralInliner.caller_locals_after_inlining_witness :
    ∃ r, sampleControlInliner.preorder_P4Control [(93, sampleWorkG)] sampleRefMapH
        sampleControlH = some r ∧
      r.1.controlLocals = [
        Declaration.declarationVariable
          (Declaration_Variable.mk 96 "w" [] (Type_.bits 8) none),
        Declaration.declarationVariable
          (Declaration_Variable.mk 97 "z_v__" [] (Type_.bits 8) none)] ∧
      ∃ (pieces : List (List Declaration)) (p1 : GeneralInliner.Preparation),
        GeneralInliner.replacesLocals sampleControlInliner sampleControlH.controlLocals
          (GeneralInliner.Preparation.mk sampleWorkG sampleRefMapH []) p1 pieces ∧
        r.1.controlLocals = pieces.flatten :=
  ⟨_, rfl, rfl, (GeneralInliner.caller_locals_after_inlining sampleControlInliner
    [(93, sampleWorkG)] sampleRefMapH sampleControlH _ _ rfl rfl).imp
      fun _ hp => hp.imp fun _ hw => ⟨hw.1, hw.2.1⟩⟩

end P4
